import Mathlib

/-! Exact-arithmetic engine: `BigInteger` and `Rational`.

A shallow embedding of the two variants of the engine,

* `src/bigint/main.cpp`      (namespace `MainCpp`:  `bool negative_`, binary GCD),
* `src/matrix/biginteger.h`  (namespace `BigintegerH`: `int sign_`, Euclidean GCD),

followed by theorems about them.

Conventions of the embedding.

* `buffer_ : std::vector<int>` is a `List Int`, least-significant limb first.
  Limbs are unbounded `Int`s: on buffers whose limbs lie in `[0, 100)` no
  intermediate value of the code leaves the range of a 32-bit `int`.
* C++ `/` and `%` on `int` truncate toward zero: `Int.tdiv` and `Int.tmod`.
* A loop over ascending indices is a structural recursion over the buffer
  from its head; a loop over descending indices processes the tail of the
  list first.
* A `while` loop without a structural bound takes a fuel argument and returns
  `none` when the fuel runs out; an access `buffer_[i]` with `i` at or past the
  size of the vector (undefined behaviour in C++) also yields `none`.
-/

/-! ## Loops over limb buffers that are textually identical in both variants -/

namespace Limbs

/-- The constant `base_ = 100`. -/
abbrev base_ : Int := 100

/-- The constant `ten_power_ = 2`. -/
abbrev ten_power_ : Nat := 2

/-- The loop of `normalize`:
`while (buffer_.size() > 1 && buffer_.back() == 0) buffer_.pop_back();`.
Every iteration removes a limb, so the call with fuel `xs.length` runs the
loop to its exit. -/
def popLoop : Nat → List Int → List Int
  | 0, xs => xs
  | n + 1, xs =>
    if 1 < xs.length ∧ xs.getLast? = some 0 then popLoop n xs.dropLast else xs

/-- The buffer part of `normalize`. -/
def normalizeBuf (xs : List Int) : List Int := popLoop xs.length xs

/-- The loop `while (carry > 0) { push_back(carry % base_); carry /= base_; }`
(the tail of `multiply_short` and of `operator*=`, and the digit loop of the
constructor from `int`), giving the limbs pushed.  A positive carry strictly
decreases under `/ 100`, so fuel `carry.toNat` is never exhausted. -/
def carryLoop : Nat → Int → List Int
  | 0, _ => []
  | n + 1, carry =>
    if carry > 0 then Int.tmod carry base_ :: carryLoop n (Int.tdiv carry base_) else []

/-- The loop of `add_abs`, from index `i` on: `xs` is `buffer_` from `i`,
`ys` is `number.buffer_` from `i`.
```
for (size_t i = 0; i < number.buffer_.size() || carry > 0; ++i) {
    if (i == buffer_.size()) buffer_.push_back(0);
    int add = i < number.buffer_.size() ? number.buffer_[i] : 0;
    int sum = buffer_[i] + add + carry;
    buffer_[i] = sum % base_;
    carry = sum / base_;
}
```
`addTail` is the part of the loop with `i >= number.buffer_.size()` (there
`add` is `0` and the loop runs while `carry > 0`); past the end of `buffer_`
too its body is `push_back(carry % base_); carry /= base_`, which is
`carryLoop`. -/
def addTail : List Int → Int → List Int
  | [], carry => carryLoop carry.toNat carry
  | x :: xs, carry =>
    if carry > 0 then
      Int.tmod (x + 0 + carry) base_ :: addTail xs (Int.tdiv (x + 0 + carry) base_)
    else x :: xs

/-- The loop of `add_abs` from index `i` on while `i < number.buffer_.size()`
(see `addTail`); `xs.headD 0` is `buffer_[i]` after the conditional
`push_back(0)`. -/
def addLoop : List Int → List Int → Int → List Int
  | xs, [], carry => addTail xs carry
  | xs, y :: ys, carry =>
    Int.tmod (xs.headD 0 + y + carry) base_ ::
      addLoop xs.tail ys (Int.tdiv (xs.headD 0 + y + carry) base_)

/-- The loop of `sub_abs` in `src/matrix/biginteger.h` taken when
`less_abs(number)` holds (`xs` is `buffer_`, `ys` is `number.buffer_`):
```
for (size_t i = 0; i < number.buffer_.size(); ++i) {
    int sub = i < buffer_.size() ? buffer_[i] : 0;
    if (i == buffer_.size()) buffer_.push_back(0);
    buffer_[i] = number.buffer_[i] - sub - carry;
    carry = buffer_[i] < 0 ? 1 : 0;
    if (carry > 0) buffer_[i] += base_;
}
``` -/
def subLoopLess : List Int → List Int → Int → List Int
  | xs, [], _ => xs
  | [], y :: ys, carry =>
    let v := y - 0 - carry
    let c : Int := if v < 0 then 1 else 0
    (if c > 0 then v + base_ else v) :: subLoopLess [] ys c
  | x :: xs, y :: ys, carry =>
    let v := y - x - carry
    let c : Int := if v < 0 then 1 else 0
    (if c > 0 then v + base_ else v) :: subLoopLess xs ys c

/-- The loop of `sub_abs` in `src/matrix/biginteger.h` taken when
`less_abs(number)` fails:
```
for (size_t i = 0; i < number.buffer_.size() || carry > 0; ++i) {
    int sub = i < number.buffer_.size() ? number.buffer_[i] : 0;
    buffer_[i] -= sub + carry;
    carry = buffer_[i] < 0 ? 1 : 0;
    if (carry > 0) buffer_[i] += base_;
}
```
There is no `push_back` here: reaching the end of `buffer_` with the loop
condition still true is an access past the end, reported as `none`. -/
def subLoopGe : List Int → List Int → Int → Option (List Int)
  | [], [], carry => if carry > 0 then none else some []
  | [], _ :: _, _ => none
  | x :: xs, [], carry =>
    if carry > 0 then
      let v := x - (0 + carry)
      let c : Int := if v < 0 then 1 else 0
      (subLoopGe xs [] c).map (fun r => (if c > 0 then v + base_ else v) :: r)
    else some (x :: xs)
  | x :: xs, y :: ys, carry =>
    let v := x - (y + carry)
    let c : Int := if v < 0 then 1 else 0
    (subLoopGe xs ys c).map (fun r => (if c > 0 then v + base_ else v) :: r)

/-- The single loop of `sub_abs` in `src/bigint/main.cpp`:
```
const std::vector<int>& less = less_abs(number) ? buffer_ : number.buffer_;
const std::vector<int>& greater = less_abs(number) ? number.buffer_ : buffer_;
int carry = 0;
for (size_t i = 0; i < number.buffer_.size(); ++i) {
    int sub = i < less.size() ? less[i] : 0;
    if (i == buffer_.size()) buffer_.push_back(0);
    buffer_[i] = greater[i] - sub - carry;
    carry = buffer_[i] < 0 ? 1 : 0;
    if (carry > 0) buffer_[i] += base_;
}
```
`thisIsLess` is the value of `less_abs(number)`: when it holds `less` aliases
`buffer_` and `greater` is `number.buffer_`, otherwise `less` is
`number.buffer_` and `greater` aliases `buffer_` (so `greater[i]` is read after
the `push_back`).  The loop stops at `number.buffer_.size()` in both cases and
leaves the limbs of `buffer_` from there on, and the last carry, untouched. -/
def subLoopAliased (thisIsLess : Bool) : List Int → List Int → Int → List Int
  | xs, [], _ => xs
  | xs, y :: ys, carry =>
    let here : Int := xs.headD 0
    let sub : Int := if thisIsLess then here else y
    let greater : Int := if thisIsLess then y else here
    let v := greater - sub - carry
    let c : Int := if v < 0 then 1 else 0
    (if c > 0 then v + base_ else v) :: subLoopAliased thisIsLess xs.tail ys c

/-- The first loop of `multiply_short(int number)` followed by its carry loop:
```
for (size_t i = 0; i < result.buffer_.size(); ++i) {
    int product = result.buffer_[i] * number + carry;
    result.buffer_[i] = product % base_;
    carry = product / base_;
}
while (carry > 0) { result.buffer_.push_back(carry % base_); carry /= base_; }
``` -/
def mulShortLoop (number : Int) : List Int → Int → List Int
  | [], carry => carryLoop carry.toNat carry
  | x :: xs, carry =>
    Int.tmod (x * number + carry) base_ ::
      mulShortLoop number xs (Int.tdiv (x * number + carry) base_)

/-- The buffer after `shift()`: unchanged when it is the single limb `0`,
otherwise every limb moves up one index and `buffer_[0] = 0`. -/
def shiftBuf (xs : List Int) : List Int :=
  if xs.length = 1 ∧ xs.head? = some 0 then xs else 0 :: xs

/-- The descending comparison loop of `less_abs`, on the two buffers listed
from the most significant limb (both of the same length):
```
for (int i = buffer_.size() - 1; i >= 0; --i)
    if (buffer_[i] != number.buffer_[i]) return buffer_[i] < number.buffer_[i];
return false;
``` -/
def lessFromTop : List Int → List Int → Bool
  | x :: xs, y :: ys => if x ≠ y then decide (x < y) else lessFromTop xs ys
  | _, _ => false

/-- The loop of `operator==` (run when signs and sizes agree):
`for (i ...) if (buffer_[i] != number.buffer_[i]) return false; return true;`. -/
def eqLoop : List Int → List Int → Bool
  | x :: xs, y :: ys => if x ≠ y then false else eqLoop xs ys
  | _, _ => true

/-- The binary search of `operator/=` for one quotient digit; `test middle`
stands for `number.multiply_short(middle).less_abs(current)`.
```
while (left < right) {
    int middle = (left + right) / 2;
    if (test(middle)) left = middle + 1; else right = middle;
}
``` -/
def searchLoop (test : Int → Bool) : Nat → Int → Int → Option Int
  | 0, _, _ => none
  | n + 1, left, right =>
    if left < right then
      let middle := Int.tdiv (left + right) 2
      if test middle then searchLoop test n (middle + 1) right
      else searchLoop test n left middle
    else some left

/-- The computation of the transform size in `operator*=`:
`size = 1; while (size < max_size) size *= 2;` -/
def sizeLoop (max_size : Nat) : Nat → Nat → Option Nat
  | 0, _ => none
  | n + 1, size => if size < max_size then sizeLoop max_size n (size * 2) else some size

/-- The transform size of `operator*=`: the loop above, then `size *= 2`. -/
def transformSize (la lb : Nat) : Option Nat :=
  (sizeLoop (max la lb) (max la lb + 1) 1).map (fun size => size * 2)

/-- Limb-wise sum of two coefficient sequences (the shorter one padded by zeros). -/
def addCoeffs : List Int → List Int → List Int
  | [], ys => ys
  | xs, [] => xs
  | x :: xs, y :: ys => (x + y) :: addCoeffs xs ys

/-- The coefficients of the product of the two polynomials whose coefficients
are the limbs: entry `i` is the sum of `xs[j] * ys[i - j]`. -/
def convolve : List Int → List Int → List Int
  | [], _ => []
  | x :: xs, ys => addCoeffs (ys.map (fun y => x * y)) (0 :: convolve xs ys)

/-- Modelled from the spec: `operator*=` obtains coefficient `i` as
`llround(polynomial1_[i].real() / size)` after two forward transforms, a
pointwise product and an inverse transform in `double` arithmetic.  The
floating-point transform is not embedded; following §4.3 step 6 ("round each
resulting real part to the nearest integer ... recovers the correct
limb-product coefficients") the `size` rounded coefficients are taken to be
the exact product coefficients, zero-padded to the transform size (a cyclic
convolution of length `size`, which for `size ≥ la + lb - 1` has no
wrap-around). -/
def roundedCoeffs (xs ys : List Int) (size : Nat) : List Int :=
  (convolve xs ys ++ List.replicate size 0).take size

/-- The carry loop of `operator*=` followed by its residual-carry loop; `ks`
are the rounded coefficients from index `i` on, `xs` is `buffer_` from `i`.
```
for (size_t i = 0; i < size; ++i) {
    if (i == buffer_.size()) buffer_.push_back(0);
    unsigned long long sum = llround(...) + carry;
    buffer_[i] = sum % base_;
    carry = sum / base_;
}
while (carry > 0) { buffer_.push_back(carry % base_); carry /= base_; }
``` -/
def mulCarryLoop : List Int → List Int → Int → List Int
  | [], xs, carry => xs ++ carryLoop carry.toNat carry
  | k :: ks, xs, carry =>
    Int.tmod (k + carry) base_ :: mulCarryLoop ks xs.tail (Int.tdiv (k + carry) base_)

/-- The function `abs` on a 32-bit `int`, with two's-complement wrap-around:
`abs(INT_MIN)` is `INT_MIN`. -/
def abs32 (number : Int) : Int :=
  if number < 0 then ((-number + 2147483648) % 4294967296) - 2147483648 else number

/-- The integer denoted by a buffer: the sum of `buffer_[i] * 100 ^ i`. -/
def mag : List Int → Int
  | [] => 0
  | x :: xs => x + 100 * mag xs

/-- Every limb lies in `[0, 100)`. -/
def LimbsOk (xs : List Int) : Prop := ∀ x ∈ xs, 0 ≤ x ∧ x < 100

/-- The buffer is not empty and has no most-significant zero limb, unless it
is the single limb `0`. -/
def Canonical (xs : List Int) : Prop :=
  xs ≠ [] ∧ (xs.getLast? = some 0 → xs = [0])

/-- Every entry of a coefficient sequence is non-negative. -/
def AllNonneg (ks : List Int) : Prop := ∀ k ∈ ks, 0 ≤ k

instance (xs : List Int) : Decidable (LimbsOk xs) := by
  unfold LimbsOk; infer_instance

instance (xs : List Int) : Decidable (Canonical xs) := by
  unfold Canonical; infer_instance

end Limbs

/-! ## `src/matrix/biginteger.h` -/

namespace BigintegerH

open Limbs

/-- The class `BigInteger` of `src/matrix/biginteger.h`:
`std::vector<int> buffer_; int sign_;` (the static scratch polynomials are not
part of the value). -/
structure BigInteger where
  buffer_ : List Int
  sign_ : Int
deriving DecidableEq

namespace BigInteger

/-- The default constructor `BigInteger() : buffer_(1, 0), sign_(1)`. -/
def zero : BigInteger := ⟨[0], 1⟩

/-- The method `normalize()`: the pop loop, then
`if (buffer_.size() == 1 && buffer_[0] == 0) sign_ = 1;`. -/
def normalize (a : BigInteger) : BigInteger :=
  let buffer := normalizeBuf a.buffer_
  ⟨buffer, if buffer.length = 1 ∧ buffer.head? = some 0 then 1 else a.sign_⟩

/-- The constructor `BigInteger(int number)`:
`sign_(number >= 0 ? 1 : -1)`, then `number = abs(number)`, the digit loop
`while (number > 0) { push_back(number % base_); number /= base_; }` and
`if (buffer_.empty()) buffer_.push_back(0);`. -/
def ofInt (number : Int) : BigInteger :=
  let digits := carryLoop (abs32 number).toNat (abs32 number)
  ⟨if digits.isEmpty then [0] else digits, if number ≥ 0 then 1 else -1⟩

/-- The comparison `operator==`. -/
def eq (a number : BigInteger) : Bool :=
  if a.sign_ ≠ number.sign_ ∨ a.buffer_.length ≠ number.buffer_.length then false
  else eqLoop a.buffer_ number.buffer_

/-- The comparison `operator!=`: `!operator==(number)`. -/
def ne (a number : BigInteger) : Bool := !eq a number

/-- The method `less_abs`. -/
def less_abs (a number : BigInteger) : Bool :=
  if eq a number then false
  else if a.buffer_.length ≠ number.buffer_.length then
    decide (a.buffer_.length < number.buffer_.length)
  else lessFromTop a.buffer_.reverse number.buffer_.reverse

/-- The method `add_abs`: the loop, then `normalize()`. -/
def add_abs (a number : BigInteger) : BigInteger :=
  normalize ⟨addLoop a.buffer_ number.buffer_ 0, a.sign_⟩

/-- The method `sub_abs`: one of the two loops according to
`less_abs(number)`, then `normalize()`. -/
def sub_abs (a number : BigInteger) : Option BigInteger :=
  if less_abs a number then
    some (normalize ⟨subLoopLess a.buffer_ number.buffer_ 0, a.sign_⟩)
  else
    (subLoopGe a.buffer_ number.buffer_ 0).map (fun buffer => normalize ⟨buffer, a.sign_⟩)

/-- The method `multiply_short(int number)`: works on a copy of `*this`
(sign included) and normalizes it. -/
def multiply_short (a : BigInteger) (number : Int) : BigInteger :=
  normalize ⟨mulShortLoop number a.buffer_ 0, a.sign_⟩

/-- The method `shift()`. -/
def shift (a : BigInteger) : BigInteger := ⟨shiftBuf a.buffer_, a.sign_⟩

/-- Unary `operator-`: `result.sign_ *= -1; result.normalize();`. -/
def neg (a : BigInteger) : BigInteger := normalize ⟨a.buffer_, a.sign_ * -1⟩

/-- One activation of `operator<`; `recur` is the recursive call
`-number < -*this`. -/
def ltBody (recur : BigInteger → BigInteger → Bool) (a number : BigInteger) : Bool :=
  if eq a number then false
  else if a.sign_ = -1 ∧ number.sign_ = -1 then recur (neg number) (neg a)
  else if a.sign_ = -1 then true
  else if number.sign_ = -1 then false
  else less_abs a number

/-- The comparison `operator<`.  Its recursive call is made on `-number` and
`-*this` when both `sign_`s are `-1`; their `sign_`s are then `1`, so that inner
activation makes no further call, and two levels of `ltBody` are the whole
recursion. -/
def lt (a number : BigInteger) : Bool :=
  ltBody (ltBody (fun _ _ => false)) a number

/-- The comparison `operator<=`: `operator<(number) || operator==(number)`. -/
def le (a number : BigInteger) : Bool := lt a number || eq a number

/-- The comparison `operator>=`: `!operator<(number)`. -/
def ge (a number : BigInteger) : Bool := !lt a number

/-- The comparison `operator>`: `!operator<=(number)`. -/
def gt (a number : BigInteger) : Bool := !le a number

/-- The compound assignment `operator+=`. -/
def iadd (a number : BigInteger) : Option BigInteger :=
  if a.sign_ = number.sign_ then some (normalize (add_abs a number))
  else
    (sub_abs (if less_abs a number then ⟨a.buffer_, a.sign_ * -1⟩ else a) number).map normalize

/-- The compound assignment `operator-=`. -/
def isub (a number : BigInteger) : Option BigInteger :=
  if a.sign_ ≠ number.sign_ then some (normalize (add_abs a number))
  else
    (sub_abs (if less_abs a number then ⟨a.buffer_, a.sign_ * -1⟩ else a) number).map normalize

/-- The compound assignment `operator*=`, with the rounded inverse-transform
coefficients given by `roundedCoeffs`: the carry loops write the limbs, then
`sign_ *= number.sign_; normalize();`. -/
def imul (a number : BigInteger) : Option BigInteger :=
  (transformSize a.buffer_.length number.buffer_.length).map (fun size =>
    normalize ⟨mulCarryLoop (roundedCoeffs a.buffer_ number.buffer_ size) a.buffer_ 0,
      a.sign_ * number.sign_⟩)

/-- The assignment `current.buffer_[0] = buffer_[i]` of `operator/=`. -/
def setLimb0 (a : BigInteger) (x : Int) : Option BigInteger :=
  match a.buffer_ with
  | [] => none
  | _ :: rest => some ⟨x :: rest, a.sign_⟩

/-- The choice of one quotient digit in `operator/=`: the binary search over
`left = 0, right = base_ - 1` (at most `base_` iterations, the fuel given),
then `if (current.less_abs(number.multiply_short(left))) --left;`. -/
def quotientDigit (number current : BigInteger) : Option Int :=
  (searchLoop (fun middle => less_abs (multiply_short number middle) current)
      base_.toNat 0 (base_ - 1)).map
    (fun left => if less_abs current (multiply_short number left) then left - 1 else left)

/-- The loop of `operator/=` over `i = buffer_.size() - 1, ..., 0`, on the
limbs from index `i` up: it returns `current` and the quotient limbs written
to `buffer_[i..]`.
```
current.shift();
current.buffer_[0] = buffer_[i];
... (binary search, decrement) ...
buffer_[i] = left;
current.sub_abs(number.multiply_short(left));
``` -/
def divLoop (number : BigInteger) : List Int → Option (BigInteger × List Int)
  | [] => some (zero, [])
  | x :: xs =>
    match divLoop number xs with
    | none => none
    | some (current, quotient) =>
      match setLimb0 (shift current) x with
      | none => none
      | some current1 =>
        match quotientDigit number current1 with
        | none => none
        | some left =>
          match sub_abs current1 (multiply_short number left) with
          | none => none
          | some current2 => some (current2, left :: quotient)

/-- The compound assignment `operator/=`: the loop, then
`sign_ *= number.sign_; normalize();`. -/
def idiv (a number : BigInteger) : Option BigInteger :=
  (divLoop number a.buffer_).map (fun r => normalize ⟨r.2, a.sign_ * number.sign_⟩)

/-- The compound assignment `operator%=`:
`*this -= (BigInteger(*this) /= number) * number; normalize();`. -/
def imod (a number : BigInteger) : Option BigInteger :=
  match idiv a number with
  | none => none
  | some quotient =>
    match imul quotient number with
    | none => none
    | some product => (isub a product).map normalize

/-- The free function `abs`: `number < 0 ? -number : number`. -/
def abs (number : BigInteger) : BigInteger :=
  if lt number (ofInt 0) then neg number else number

/-- The free function `gcd`:
`while (right != 0) { left.swap(right); right %= left; } return left;`. -/
def gcd : Nat → BigInteger → BigInteger → Option BigInteger
  | 0, _, _ => none
  | fuel + 1, left, right =>
    if ne right (ofInt 0) then
      match imod left right with
      | none => none
      | some remainder => gcd fuel right remainder
    else some left

/-- The integer denoted: `sign_` times the magnitude of the buffer. -/
def val (a : BigInteger) : Int := a.sign_ * mag a.buffer_

/-- The representation invariant: `sign_` is `1` or `-1`, every limb lies in
`[0, 100)`, there is no most-significant zero limb unless the buffer is the
single limb `0`, and zero has `sign_ = 1`. -/
def WellFormed (a : BigInteger) : Prop :=
  (a.sign_ = 1 ∨ a.sign_ = -1) ∧ LimbsOk a.buffer_ ∧ Canonical a.buffer_ ∧
    (a.buffer_ = [0] → a.sign_ = 1)

instance (a : BigInteger) : Decidable (WellFormed a) := by
  unfold WellFormed; infer_instance

end BigInteger

/-- The class `Rational` of `src/matrix/biginteger.h`. -/
structure Rational where
  numerator_ : BigInteger
  denominator_ : BigInteger
deriving DecidableEq

namespace Rational

open BigInteger

/-- The method `Rational::normalize`:
```
BigInteger common_divisor = gcd(abs(numerator_), denominator_);
numerator_ /= common_divisor;
denominator_ /= common_divisor;
``` -/
def normalize (fuel : Nat) (r : Rational) : Option Rational :=
  match gcd fuel (abs r.numerator_) r.denominator_ with
  | none => none
  | some common_divisor =>
    match idiv r.numerator_ common_divisor with
    | none => none
    | some numerator =>
      (idiv r.denominator_ common_divisor).map (fun denominator => ⟨numerator, denominator⟩)

/-- The constructor `Rational(int number)`. -/
def ofInt (number : Int) : Rational := ⟨BigInteger.ofInt number, BigInteger.ofInt 1⟩

/-- Unary `operator-`: `result.numerator_ = -result.numerator_`. -/
def neg (r : Rational) : Rational := ⟨BigInteger.neg r.numerator_, r.denominator_⟩

/-- The compound assignment `operator+=`:
```
BigInteger common_divisor = gcd(denominator_, number.denominator_);
BigInteger common_multiple = denominator_ * number.denominator_ / common_divisor;
numerator_ = numerator_ * common_multiple / denominator_ +
             number.numerator_ * common_multiple / number.denominator_;
denominator_ = common_multiple;
normalize();
``` -/
def iadd (fuel : Nat) (r number : Rational) : Option Rational :=
  match gcd fuel r.denominator_ number.denominator_ with
  | none => none
  | some common_divisor =>
    match (imul r.denominator_ number.denominator_).bind (fun p => idiv p common_divisor) with
    | none => none
    | some common_multiple =>
      match (imul r.numerator_ common_multiple).bind (fun p => idiv p r.denominator_),
        (imul number.numerator_ common_multiple).bind (fun p => idiv p number.denominator_) with
      | some left, some right =>
        (BigInteger.iadd left right).bind (fun numerator =>
          normalize fuel ⟨numerator, common_multiple⟩)
      | _, _ => none

/-- The compound assignment `operator-=`: `return *this += -number;`. -/
def isub (fuel : Nat) (r number : Rational) : Option Rational :=
  iadd fuel r (neg number)

/-- The compound assignment `operator*=`. -/
def imul (fuel : Nat) (r number : Rational) : Option Rational :=
  match BigInteger.imul r.numerator_ number.numerator_,
    BigInteger.imul r.denominator_ number.denominator_ with
  | some numerator, some denominator => normalize fuel ⟨numerator, denominator⟩
  | _, _ => none

/-- The compound assignment `operator/=`:
```
numerator_ *= number.denominator_;
denominator_ *= number.numerator_;
if (denominator_ < 0) { denominator_ = -denominator_; numerator_ = -numerator_; }
normalize();
``` -/
def idiv (fuel : Nat) (r number : Rational) : Option Rational :=
  match BigInteger.imul r.numerator_ number.denominator_,
    BigInteger.imul r.denominator_ number.numerator_ with
  | some numerator, some denominator =>
    if lt denominator (BigInteger.ofInt 0) then
      normalize fuel ⟨BigInteger.neg numerator, BigInteger.neg denominator⟩
    else normalize fuel ⟨numerator, denominator⟩
  | _, _ => none

/-- The invariant of `Rational`: both parts are well-formed, the denominator
is strictly positive and `gcd(|numerator|, denominator) = 1`. -/
def Invariant (r : Rational) : Prop :=
  WellFormed r.numerator_ ∧ WellFormed r.denominator_ ∧ 0 < val r.denominator_ ∧
    Int.gcd (val r.numerator_) (val r.denominator_) = 1

instance (r : Rational) : Decidable (Invariant r) := by
  unfold Invariant; infer_instance

end Rational

end BigintegerH

/-! ## `src/bigint/main.cpp` -/

namespace MainCpp

open Limbs

/-- The class `BigInteger` of `src/bigint/main.cpp`:
`std::vector<int> buffer_; bool negative_;`. -/
structure BigInteger where
  buffer_ : List Int
  negative_ : Bool
deriving DecidableEq

namespace BigInteger

/-- The default constructor `BigInteger() : buffer_(1, 0), negative_(false)`. -/
def zero : BigInteger := ⟨[0], false⟩

/-- The method `normalize()`: the pop loop, then
`if (buffer_.size() == 1 && buffer_[0] == 0) negative_ = false;`. -/
def normalize (a : BigInteger) : BigInteger :=
  let buffer := normalizeBuf a.buffer_
  ⟨buffer, if buffer.length = 1 ∧ buffer.head? = some 0 then false else a.negative_⟩

/-- The constructor `BigInteger(int number)`: `negative_(number < 0)`, then
`number = abs(number)`, the digit loop and
`if (buffer_.empty()) buffer_.push_back(0);`. -/
def ofInt (number : Int) : BigInteger :=
  let digits := carryLoop (abs32 number).toNat (abs32 number)
  ⟨if digits.isEmpty then [0] else digits, decide (number < 0)⟩

/-- The comparison `operator==`. -/
def eq (a number : BigInteger) : Bool :=
  if a.negative_ ≠ number.negative_ ∨ a.buffer_.length ≠ number.buffer_.length then false
  else eqLoop a.buffer_ number.buffer_

/-- The comparison `operator!=`: `!operator==(number)`. -/
def ne (a number : BigInteger) : Bool := !eq a number

/-- The method `less_abs`. -/
def less_abs (a number : BigInteger) : Bool :=
  if eq a number then false
  else if a.buffer_.length ≠ number.buffer_.length then
    decide (a.buffer_.length < number.buffer_.length)
  else lessFromTop a.buffer_.reverse number.buffer_.reverse

/-- The method `add_abs`: the loop, then `normalize()`. -/
def add_abs (a number : BigInteger) : BigInteger :=
  normalize ⟨addLoop a.buffer_ number.buffer_ 0, a.negative_⟩

/-- The method `sub_abs`: the single loop with `less` and `greater` chosen by
`less_abs(number)`, then `normalize()`. -/
def sub_abs (a number : BigInteger) : BigInteger :=
  normalize ⟨subLoopAliased (less_abs a number) a.buffer_ number.buffer_ 0, a.negative_⟩

/-- The method `multiply_short(int number)`. -/
def multiply_short (a : BigInteger) (number : Int) : BigInteger :=
  normalize ⟨mulShortLoop number a.buffer_ 0, a.negative_⟩

/-- The method `shift()`. -/
def shift (a : BigInteger) : BigInteger := ⟨shiftBuf a.buffer_, a.negative_⟩

/-- Unary `operator-`: `result.negative_ ^= true; result.normalize();`. -/
def neg (a : BigInteger) : BigInteger := normalize ⟨a.buffer_, !a.negative_⟩

/-- One activation of `operator<`; `recur` is the recursive call
`-number < -*this`. -/
def ltBody (recur : BigInteger → BigInteger → Bool) (a number : BigInteger) : Bool :=
  if eq a number then false
  else if a.negative_ ∧ number.negative_ then recur (neg number) (neg a)
  else if a.negative_ then true
  else if number.negative_ then false
  else less_abs a number

/-- The comparison `operator<`.  The recursive call is made on `-number` and
`-*this` when both are negative; neither of those is negative, so that inner
activation makes no further call. -/
def lt (a number : BigInteger) : Bool :=
  ltBody (ltBody (fun _ _ => false)) a number

/-- The comparison `operator<=`: `!(number < *this)`. -/
def le (a number : BigInteger) : Bool := !lt number a

/-- The comparison `operator>=`: `!operator<(number)`. -/
def ge (a number : BigInteger) : Bool := !lt a number

/-- The comparison `operator>`: `number < *this`. -/
def gt (a number : BigInteger) : Bool := lt number a

/-- The compound assignment `operator+=`. -/
def iadd (a number : BigInteger) : BigInteger :=
  if a.negative_ = number.negative_ then normalize (add_abs a number)
  else
    normalize (sub_abs (if less_abs a number then ⟨a.buffer_, !a.negative_⟩ else a) number)

/-- The compound assignment `operator-=`. -/
def isub (a number : BigInteger) : BigInteger :=
  if a.negative_ ≠ number.negative_ then normalize (add_abs a number)
  else
    normalize (sub_abs (if less_abs a number then ⟨a.buffer_, !a.negative_⟩ else a) number)

/-- The compound assignment `operator*=`, with the rounded inverse-transform
coefficients given by `roundedCoeffs`: the carry loops write the limbs, then
`negative_ ^= number.negative_; normalize();`. -/
def imul (a number : BigInteger) : Option BigInteger :=
  (transformSize a.buffer_.length number.buffer_.length).map (fun size =>
    normalize ⟨mulCarryLoop (roundedCoeffs a.buffer_ number.buffer_ size) a.buffer_ 0,
      xor a.negative_ number.negative_⟩)

/-- The assignment `current.buffer_[0] = buffer_[i]` of `operator/=`. -/
def setLimb0 (a : BigInteger) (x : Int) : Option BigInteger :=
  match a.buffer_ with
  | [] => none
  | _ :: rest => some ⟨x :: rest, a.negative_⟩

/-- The choice of one quotient digit in `operator/=`: the binary search over
`left = 0, right = base_ - 1`, then
`if (current.less_abs(number.multiply_short(left))) --left;`. -/
def quotientDigit (number current : BigInteger) : Option Int :=
  (searchLoop (fun middle => less_abs (multiply_short number middle) current)
      base_.toNat 0 (base_ - 1)).map
    (fun left => if less_abs current (multiply_short number left) then left - 1 else left)

/-- The loop of `operator/=` over `i = buffer_.size() - 1, ..., 0`, on the
limbs from index `i` up: it returns `current` and the quotient limbs written
to `buffer_[i..]`. -/
def divLoop (number : BigInteger) : List Int → Option (BigInteger × List Int)
  | [] => some (zero, [])
  | x :: xs =>
    match divLoop number xs with
    | none => none
    | some (current, quotient) =>
      match setLimb0 (shift current) x with
      | none => none
      | some current1 =>
        match quotientDigit number current1 with
        | none => none
        | some left => some (sub_abs current1 (multiply_short number left), left :: quotient)

/-- The compound assignment `operator/=`: the loop, then
`negative_ ^= number.negative_; normalize();`. -/
def idiv (a number : BigInteger) : Option BigInteger :=
  (divLoop number a.buffer_).map (fun r => normalize ⟨r.2, xor a.negative_ number.negative_⟩)

/-- The compound assignment `operator%=`:
`*this -= (BigInteger(*this) /= number) * number; normalize();`. -/
def imod (a number : BigInteger) : Option BigInteger :=
  match idiv a number with
  | none => none
  | some quotient => (imul quotient number).map (fun product => normalize (isub a product))

/-- The free function `abs`: `number < 0 ? -number : number`. -/
def abs (number : BigInteger) : BigInteger :=
  if lt number (ofInt 0) then neg number else number

/-- The method `even()`: `buffer_[0] % 2 == 0`. -/
def even (a : BigInteger) : Option Bool :=
  a.buffer_.head?.map (fun limb => decide (Int.tmod limb 2 = 0))

/-- The loop of `bisect()`, on the buffer listed from the most significant
limb:
```
for (int i = buffer_.size() - 1; i >= 0; --i) {
    buffer_[i] += carry * base_;
    carry = buffer_[i] % 2;
    buffer_[i] /= 2;
}
``` -/
def bisectFromTop : List Int → Int → List Int
  | [], _ => []
  | x :: xs, carry =>
    Int.tdiv (x + carry * base_) 2 :: bisectFromTop xs (Int.tmod (x + carry * base_) 2)

/-- The method `bisect()`: the loop, then `normalize()`. -/
def bisect (a : BigInteger) : BigInteger :=
  normalize ⟨(bisectFromTop a.buffer_.reverse 0).reverse, a.negative_⟩

/-- The function `std::to_string(int)`: a `-` for a negative value, then the
decimal digits of the magnitude. -/
def to_string (x : Int) : List Char :=
  if x < 0 then '-' :: Nat.toDigits 10 x.natAbs else Nat.toDigits 10 x.toNat

/-- The loop of `toString()` over `i = buffer_.size() - 1, ..., 0`; `xs` are
the limbs from index `i` up, the text of the higher limbs comes first.
```
std::string digit = std::to_string(buffer_[i]);
if (static_cast<int>(digit.size()) < ten_power_ &&
    i < static_cast<int>(buffer_.size()) - 1)
    digit = std::string(ten_power_ - digit.size(), '0') + digit;
result += digit;
``` -/
def toStringLoop (size : Nat) : List Int → Nat → List Char
  | [], _ => []
  | x :: xs, i =>
    toStringLoop size xs (i + 1) ++
      (if (to_string x).length < ten_power_ ∧ (i : Int) < (size : Int) - 1 then
        List.replicate (ten_power_ - (to_string x).length) '0' ++ to_string x
      else to_string x)

/-- The method `toString()`. -/
def toString (a : BigInteger) : List Char :=
  (if a.negative_ then ['-'] else []) ++ toStringLoop a.buffer_.length a.buffer_ 0

/-- The test `isspace` of the C locale. -/
def isspace (c : Char) : Bool :=
  c.toNat = 32 || (9 ≤ c.toNat && c.toNat ≤ 13)

/-- The function `std::stoi(str)` (base 10): leading white space is skipped,
an optional sign is taken, then the longest run of decimal digits is
converted; `none` stands for the exception thrown when there is no digit
(`std::invalid_argument`) or the value does not fit an `int`
(`std::out_of_range`). -/
def stoi (str : List Char) : Option Int :=
  let rest := str.dropWhile isspace
  let negative := rest.head? = some '-'
  let rest := if rest.head? = some '-' ∨ rest.head? = some '+' then rest.drop 1 else rest
  let digits := rest.takeWhile Char.isDigit
  let value : Int := digits.foldl (fun acc c => acc * 10 + ((c.toNat : Int) - 48)) 0
  let result : Int := if negative then -value else value
  if digits.isEmpty ∨ result < -2147483648 ∨ 2147483647 < result then none else some result

/-- The call `str.substr(pos, count)`. -/
def substr (str : List Char) (pos count : Int) : List Char :=
  (str.drop pos.toNat).take count.toNat

/-- The loop of `operator>>`, returning the limbs pushed:
```
for (int i = raw_number.size(); i > 0; i -= BigInteger::ten_power_) {
    int left = std::max(0, i - BigInteger::ten_power_);
    number.buffer_.push_back(std::stoi(raw_number.substr(left, i - left)));
}
```
Each iteration lowers `i` by two, so fuel `raw_number.size()` is enough. -/
def readLoop (raw_number : List Char) : Nat → Int → Option (List Int)
  | 0, i => if i > 0 then none else some []
  | fuel + 1, i =>
    if i > 0 then
      match stoi (substr raw_number (max 0 (i - ten_power_)) (i - max 0 (i - ten_power_))) with
      | none => none
      | some limb => (readLoop raw_number fuel (i - ten_power_)).map (fun rest => limb :: rest)
    else some []

/-- The body of `operator>>(std::istream&, BigInteger&)` after
`input >> raw_number` has read the token `raw_number`: `flush()`, the test
`raw_number[0] == '-'` (on an empty string `raw_number[0]` is the terminating
NUL), `buffer_.clear()` and the loop. -/
def read (raw_number : List Char) : Option BigInteger :=
  let negative : Bool := decide (raw_number.head? = some '-')
  let raw := if negative then raw_number.drop 1 else raw_number
  (readLoop raw raw.length raw.length).map (fun buffer => ⟨buffer, negative⟩)

/-- The extraction `input >> raw_number` of a `std::string` from the text left
in the stream: leading white space is skipped and the characters up to the
next white space are taken (the string stays empty when there are none). -/
def extractToken (input : List Char) : List Char :=
  (input.dropWhile isspace).takeWhile (fun c => !isspace c)

/-- The extraction `operator>>(std::istream&, BigInteger&)` on the text left
in the stream. -/
def readStream (input : List Char) : Option BigInteger := read (extractToken input)

/-- The integer denoted: the magnitude of the buffer, negated when
`negative_`. -/
def val (a : BigInteger) : Int := if a.negative_ then -mag a.buffer_ else mag a.buffer_

/-- The representation invariant: every limb lies in `[0, 100)`, there is no
most-significant zero limb unless the buffer is the single limb `0`, and zero
is not negative. -/
def WellFormed (a : BigInteger) : Prop :=
  LimbsOk a.buffer_ ∧ Canonical a.buffer_ ∧ (a.buffer_ = [0] → a.negative_ = false)

instance (a : BigInteger) : Decidable (WellFormed a) := by
  unfold WellFormed; infer_instance

end BigInteger

/-- The class `Rational` of `src/bigint/main.cpp`. -/
structure Rational where
  numerator_ : BigInteger
  denominator_ : BigInteger
deriving DecidableEq

namespace Rational

open BigInteger

/-- The first loop of `Rational::normalize`:
`while (numerator_.even() && denominator_.even()) { numerator_.bisect(); denominator_.bisect(); }`. -/
def stripCommonTwos : Nat → BigInteger → BigInteger → Option (BigInteger × BigInteger)
  | 0, _, _ => none
  | fuel + 1, numerator, denominator =>
    match even numerator, even denominator with
    | some en, some ed =>
      if en && ed then stripCommonTwos fuel (bisect numerator) (bisect denominator)
      else some (numerator, denominator)
    | _, _ => none

/-- The inner loops `while (x.even()) x.bisect();`. -/
def stripTwos : Nat → BigInteger → Option BigInteger
  | 0, _ => none
  | fuel + 1, x =>
    match even x with
    | none => none
    | some e => if e then stripTwos fuel (bisect x) else some x

/-- The main loop of `Rational::normalize`:
```
while (high_divisor != 0 && low_divisor != 0) {
    while (high_divisor.even()) high_divisor.bisect();
    while (low_divisor.even()) low_divisor.bisect();
    if (low_divisor > high_divisor) { low_divisor -= high_divisor; low_divisor.bisect(); }
    else { high_divisor -= low_divisor; high_divisor.bisect(); }
}
```
The inner loops get the fuel left to the outer one. -/
def gcdLoop : Nat → BigInteger → BigInteger → Option (BigInteger × BigInteger)
  | 0, _, _ => none
  | fuel + 1, high_divisor, low_divisor =>
    if ne high_divisor (BigInteger.ofInt 0) && ne low_divisor (BigInteger.ofInt 0) then
      match stripTwos (fuel + 1) high_divisor, stripTwos (fuel + 1) low_divisor with
      | some high, some low =>
        if gt low high then gcdLoop fuel high (bisect (BigInteger.isub low high))
        else gcdLoop fuel (bisect (BigInteger.isub high low)) low
      | _, _ => none
    else some (high_divisor, low_divisor)

/-- The method `Rational::normalize` (binary GCD):
```
bool positive = numerator_ > 0;
numerator_ = abs(numerator_);
... first loop ...
BigInteger high_divisor = numerator_;
BigInteger low_divisor = denominator_;
... main loop ...
if (high_divisor == 0) high_divisor.swap(low_divisor);
numerator_ /= high_divisor;
denominator_ /= high_divisor;
if (!positive) numerator_ = -numerator_;
``` -/
def normalize (fuel : Nat) (r : Rational) : Option Rational :=
  let positive := gt r.numerator_ (BigInteger.ofInt 0)
  match stripCommonTwos fuel (abs r.numerator_) r.denominator_ with
  | none => none
  | some (numerator, denominator) =>
    match gcdLoop fuel numerator denominator with
    | none => none
    | some (high, low) =>
      let divisor := if eq high (BigInteger.ofInt 0) then low else high
      match idiv numerator divisor, idiv denominator divisor with
      | some n, some d => some ⟨if positive then n else BigInteger.neg n, d⟩
      | _, _ => none

end Rational

end MainCpp

/-! ## Decimal text, and the text functions of `src/matrix/biginteger.h` -/

namespace Decimal

/-- The number written by a string of decimal digits, most significant digit
first. -/
def decimalValue (ds : List Char) : Nat :=
  ds.foldl (fun acc c => acc * 10 + (c.toNat - 48)) 0

/-- Every character is one of `0` ... `9`. -/
def IsDigits (ds : List Char) : Prop := ∀ c ∈ ds, c.isDigit = true

/-- The string `ds` is the canonical decimal representation of `n`: a
non-empty string of decimal digits with no leading zero, unless it is the
string `0`, whose decimal value is `n`. -/
def IsCanonicalDecimal (ds : List Char) (n : Nat) : Prop :=
  ds ≠ [] ∧ IsDigits ds ∧ (ds.head? = some '0' → ds = ['0']) ∧ decimalValue ds = n

/-- The string `s` matches `-?[0-9]+`, with `ds` its digits. -/
def IsLiteral (s ds : List Char) : Prop :=
  ds ≠ [] ∧ IsDigits ds ∧ (s = ds ∨ s = '-' :: ds)

/-- The two decimal digits of a limb value below `100`. -/
def twoDigits (limb : Int) : List Char :=
  [Nat.digitChar (limb.toNat / 10), Nat.digitChar (limb.toNat % 10)]

instance (ds : List Char) : Decidable (IsDigits ds) := by
  unfold IsDigits; infer_instance

instance (ds : List Char) (n : Nat) : Decidable (IsCanonicalDecimal ds n) := by
  unfold IsCanonicalDecimal; infer_instance

instance (s ds : List Char) : Decidable (IsLiteral s ds) := by
  unfold IsLiteral; infer_instance

end Decimal

namespace BigintegerH

namespace BigInteger

open Limbs

/-- The method `toString()` of `src/matrix/biginteger.h`: the sign test is
`sign_ == -1`, the loop is textually the loop of `src/bigint/main.cpp`. -/
def toString (a : BigInteger) : List Char :=
  (if a.sign_ = -1 then ['-'] else []) ++
    MainCpp.BigInteger.toStringLoop a.buffer_.length a.buffer_ 0

end BigInteger

namespace Rational

open Limbs BigInteger

/-- The loop `for (size_t i = 0; i < precision; ++i) number *= 10;` of
`asDecimal`. -/
def scaleLoop : Nat → BigInteger → Option BigInteger
  | 0, number => some number
  | precision + 1, number =>
    (BigInteger.imul number (BigInteger.ofInt 10)).bind (scaleLoop precision)

/-- The method `Rational::toString()`. -/
def toString (r : Rational) : List Char :=
  if BigInteger.eq r.denominator_ (BigInteger.ofInt 1) then BigInteger.toString r.numerator_
  else BigInteger.toString r.numerator_ ++ ['/'] ++ BigInteger.toString r.denominator_

/-- The method `Rational::asDecimal(size_t precision)`:
```
BigInteger number = abs(numerator_);
for (size_t i = 0; i < precision; ++i) number *= 10;
number /= denominator_;
std::string result = number.toString();
result = std::string(std::max(0, static_cast<int>(precision) -
                                 static_cast<int>(result.size())), '0') + result;
if (precision > 0) {
    int position = std::max(0, static_cast<int>(result.size()) -
                               static_cast<int>(precision));
    if (position == 0) result = "0." + result;
    else result = result.substr(0, position) + '.' + result.substr(position);
}
if (numerator_ < 0) return '-' + result;
return result;
```
The casts to `int` are exact: `precision` and the sizes of the strings are
taken to fit an `int`, as the sizes of all containers are in this embedding. -/
def asDecimal (r : Rational) (precision : Nat) : Option (List Char) :=
  match (scaleLoop precision (BigInteger.abs r.numerator_)).bind
      (fun number => BigInteger.idiv number r.denominator_) with
  | none => none
  | some number =>
    let digits := BigInteger.toString number
    let padded :=
      List.replicate (max 0 ((precision : Int) - (digits.length : Int))).toNat '0' ++ digits
    let position : Int := max 0 ((padded.length : Int) - (precision : Int))
    let result :=
      if precision > 0 then
        if position = 0 then ['0', '.'] ++ padded
        else MainCpp.BigInteger.substr padded 0 position ++ ['.'] ++ padded.drop position.toNat
      else padded
    some (if BigInteger.lt r.numerator_ (BigInteger.ofInt 0) then '-' :: result else result)

end Rational

end BigintegerH

/-! ## `Rational::operator/=` of `src/bigint/main.cpp` -/

namespace MainCpp

namespace Rational

open Limbs BigInteger

/-- The compound assignment `operator/=` of `src/bigint/main.cpp`:
```
numerator_ *= number.denominator_;
denominator_ *= number.numerator_;
if (denominator_ < 0) { denominator_ = -denominator_; numerator_ = -numerator_; }
normalize();
``` -/
def idiv (fuel : Nat) (r number : Rational) : Option Rational :=
  match BigInteger.imul r.numerator_ number.denominator_,
    BigInteger.imul r.denominator_ number.numerator_ with
  | some numerator, some denominator =>
    if lt denominator (BigInteger.ofInt 0) then
      normalize fuel ⟨BigInteger.neg numerator, BigInteger.neg denominator⟩
    else normalize fuel ⟨numerator, denominator⟩
  | _, _ => none

end Rational

end MainCpp

/-! ## The transform `fft` of `src/bigint/main.cpp` over exact arithmetic -/

namespace MainCpp

/-- The class `Complex` of `src/bigint/main.cpp` (`double real_, imag_;`),
with a field `K` of exact numbers in place of `double`. -/
structure Complex (K : Type) where
  real_ : K
  imag_ : K

namespace Complex

variable {K : Type} [Field K]

/-- The constructor `Complex(int real) : real_(real), imag_(0)`. -/
def ofInt (real : Int) : Complex K := ⟨(real : K), 0⟩

/-- The operators `+=` and `+`: `real_ += number.real_; imag_ += number.imag_;`. -/
def add (left right : Complex K) : Complex K :=
  ⟨left.real_ + right.real_, left.imag_ + right.imag_⟩

/-- The operators `-=` and `-`: `real_ -= number.real_; imag_ -= number.imag_;`. -/
def sub (left right : Complex K) : Complex K :=
  ⟨left.real_ - right.real_, left.imag_ - right.imag_⟩

/-- The operators `*=` and `*`:
```
double old_real = real_;
real_ = old_real * number.real_ - imag_ * number.imag_;
imag_ = old_real * number.imag_ + imag_ * number.real_;
``` -/
def mul (left right : Complex K) : Complex K :=
  ⟨left.real_ * right.real_ - left.imag_ * right.imag_,
    left.real_ * right.imag_ + left.imag_ * right.real_⟩

end Complex

namespace BigInteger

variable {K : Type} [Field K]

/-- The loop behind `__builtin_ctz`: the number of trailing zero bits. -/
def ctzLoop : Nat → Nat → Nat
  | 0, _ => 0
  | fuel + 1, x => if x % 2 = 1 then 0 else ctzLoop fuel (x / 2) + 1

/-- The builtin `__builtin_ctz(size)` on a non-zero argument. -/
def builtin_ctz (size : Nat) : Nat := ctzLoop size size

/-- The inner loop of the bit reversal in `fft`:
```
int reversed = 0;
for (int j = 0; j < log_n; ++j) {
    reversed |= ((i >> j) & 1) << (log_n - j - 1);
}
``` -/
def reversedLoop (log_n i : Nat) : Nat :=
  (List.range log_n).foldl
    (fun reversed j => reversed ||| (((i >>> j) &&& 1) <<< (log_n - j - 1))) 0

/-- The call `std::swap(source[i], source[reversed])`; `none` when an index is
out of bounds. -/
def swap (source : List (Complex K)) (i reversed : Nat) : Option (List (Complex K)) :=
  match source[i]?, source[reversed]? with
  | some a, some b => some ((source.set i b).set reversed a)
  | _, _ => none

/-- The first loop of `fft`:
```
for (int i = 0; i < size; ++i) {
    ... reversed ...
    if (i < reversed) std::swap(source[i], source[reversed]);
}
``` -/
def permuteLoop (source : List (Complex K)) (size log_n : Nat) : Option (List (Complex K)) :=
  (List.range size).foldlM
    (fun source i =>
      if i < reversedLoop log_n i then swap source i (reversedLoop log_n i) else some source)
    source

/-- The innermost loop of `fft`, on the block starting at `i`; the state is
`source` and `power`:
```
Complex power = 1;
for (int j = 0; j < new_length; ++j) {
    Complex left = source[i + j];
    Complex right = source[i + j + new_length] * power;
    source[i + j] = left + right;
    source[i + j + new_length] = left - right;
    power *= root;
}
``` -/
def butterflyLoop (root : Complex K) (i new_length : Nat) (source : List (Complex K)) :
    Option (List (Complex K) × Complex K) :=
  (List.range new_length).foldlM
    (fun state j =>
      match state.1[i + j]?, state.1[i + j + new_length]? with
      | some left, some upper =>
        some ((state.1.set (i + j) (Complex.add left (Complex.mul upper state.2))).set
            (i + j + new_length) (Complex.sub left (Complex.mul upper state.2)),
          Complex.mul state.2 root)
      | _, _ => none)
    (source, Complex.ofInt 1)

/-- The loop `for (int i = 0; i < size; i += length)` of `fft`, with
`new_length = length / 2`. -/
def blockLoop (root : Complex K) (size length : Nat) :
    Nat → Nat → List (Complex K) → Option (List (Complex K))
  | 0, _, _ => none
  | fuel + 1, i, source =>
    if i < size then
      match butterflyLoop root i (length / 2) source with
      | none => none
      | some state => blockLoop root size length fuel (i + length) state.1
    else some source

/-- The loop `for (int length = 2; length <= size; length *= 2)` of `fft`:
```
double angle = pi_ * 2 / length;
Complex root(cos(angle), inverse * sin(angle));
... the loop over the blocks ...
``` -/
def stageLoop (cos sin : K → K) (pi_ : K) (size : Nat) (inverse : Int) :
    Nat → Nat → List (Complex K) → Option (List (Complex K))
  | 0, _, _ => none
  | fuel + 1, length, source =>
    if length ≤ size then
      match blockLoop ⟨cos (pi_ * 2 / (length : K)), (inverse : K) * sin (pi_ * 2 / (length : K))⟩
          size length size 0 source with
      | none => none
      | some next => stageLoop cos sin pi_ size inverse fuel (length * 2) next
    else some source

/-- The method `fft(source, size, inverse)`, with `pi_ = acos(0) * 2`; the
functions `cos`, `sin` and `acos` of `<cmath>` are parameters.  The `int`
counters are natural numbers here: none exceeds `2 * size`. -/
def fft (cos sin acos : K → K) (source : List (Complex K)) (size : Nat) (inverse : Int) :
    Option (List (Complex K)) :=
  match permuteLoop source size (builtin_ctz size) with
  | none => none
  | some permuted => stageLoop cos sin (acos 0 * 2) size inverse size 2 permuted

/-- The reversal of the lowest `w` bits of `i`. -/
def bitReverse : Nat → Nat → Nat
  | 0, _ => 0
  | w + 1, i => (i % 2) * 2 ^ w + bitReverse w (i / 2)

/-- The contents of position `p` after the stages of lengths `2, ..., 2 ^ t`,
for a transform of size `2 ^ (t + u)` of the sequence `X` with the root `ω`:
the transform of size `2 ^ t` of the subsequence of stride `2 ^ u` whose
offset is the reversal of the block index `p / 2 ^ t`. -/
def dftStage {R : Type} [CommRing R] (ω : R) (X : Nat → R) (t u p : Nat) : R :=
  ∑ j in Finset.range (2 ^ t),
    X (bitReverse u (p / 2 ^ t) + j * 2 ^ u) * ω ^ (2 ^ u * j * (p % 2 ^ t))

end BigInteger

end MainCpp

/-! ## `StackStorage::get_memory` of `src/list/list.cpp` -/

namespace StackStorage

/-- The modulus of `size_t` arithmetic. -/
abbrev sizeMod : Nat := 2 ^ 64

/-- The method `get_memory(size_t count, size_t align)`:
```
position_ = (position_ + align - 1) / align * align + count;
return memory_ + position_ - count;
```
Every operation is taken modulo `2 ^ 64`; the result is the new `position_`
and the offset of the returned pointer from `memory_`.  A division by an
alignment of zero is reported as `none`. -/
def get_memory (position_ count align : Nat) : Option (Nat × Nat) :=
  if align = 0 then none
  else
    let padded := ((position_ + align) % sizeMod + (sizeMod - 1)) % sizeMod
    let position := ((padded / align * align) % sizeMod + count) % sizeMod
    some (position, (position + (sizeMod - count % sizeMod)) % sizeMod)

end StackStorage

/-! ## The class `List` of `src/list/list.h` -/

namespace ListH

/-- A node in the heap: `BaseNode* prev; BaseNode* next;` and, for a `Node`,
its `value` (absent in the fake node). -/
structure BaseNode (T : Type) where
  prev : Nat
  next : Nat
  value : Option T
deriving DecidableEq

/-- The nodes allocated so far; an address is an index. -/
abbrev Heap (T : Type) := List (BaseNode T)

/-- The class `List`: the heap of its nodes, `BaseNode* fake_` and
`size_t size_`. -/
structure List (T : Type) where
  heap : Heap T
  fake_ : Nat
  size_ : Nat
deriving DecidableEq

namespace List

variable {T : Type}

/-- The method `create_fake_node()`, on an object whose `size_` has been
initialised: `fake_ = allocate(1); fake_->prev = fake_->next = fake_;`. -/
def create_fake_node (size_ : Nat) : List T :=
  ⟨[⟨0, 0, none⟩], 0, size_⟩

/-- A write `address->prev = target`. -/
def setPrev (heap : Heap T) (address target : Nat) : Option (Heap T) :=
  heap[address]?.map (fun node => heap.set address ⟨target, node.next, node.value⟩)

/-- A write `address->next = target`. -/
def setNext (heap : Heap T) (address target : Nat) : Option (Heap T) :=
  heap[address]?.map (fun node => heap.set address ⟨node.prev, target, node.value⟩)

/-- The method `emplace(args...)` (no exception is thrown by the constructor of
the value):
```
BaseNode* end = fake_->prev;
end->next = traits_t::allocate(node_allocator_, 1);
traits_t::construct(node_allocator_, static_cast<Node*>(end->next), args...);
end->next->prev = end;
end->next->next = fake_;
fake_->prev = end->next;
```
It does not touch `size_`. -/
def emplace (l : List T) (item : T) : Option (List T) := do
  let fake ← l.heap[l.fake_]?
  let last := fake.prev
  let allocated := l.heap.length
  let heap1 ← setNext (l.heap ++ [⟨allocated, allocated, some item⟩]) last allocated
  let node1 ← heap1[last]?
  let heap2 ← setPrev heap1 node1.next last
  let node2 ← heap2[last]?
  let heap3 ← setNext heap2 node2.next l.fake_
  let node3 ← heap3[last]?
  let heap4 ← setPrev heap3 l.fake_ node3.next
  pure ⟨heap4, l.fake_, l.size_⟩

/-- The loop `for (size_t i = 0; i < count; ++i) emplace(item);` of the
constructors. -/
def emplaceLoop (item : T) : Nat → List T → Option (List T)
  | 0, l => some l
  | count + 1, l => (emplace l item).bind (emplaceLoop item count)

/-- The constructor `List() : size_(0)`. -/
def ctor : List T := create_fake_node 0

/-- The constructor `List(size_t count, const T& item) : size_(count)`. -/
def ctorCountItem (count : Nat) (item : T) : Option (List T) :=
  emplaceLoop item count (create_fake_node count)

/-- The constructor
`List(size_t count, const T& item, Allocator allocator) : size_(0), node_allocator_(allocator)`. -/
def ctorCountItemAllocator (count : Nat) (item : T) : Option (List T) :=
  emplaceLoop item count (create_fake_node 0)

/-- The method `size()`: `return size_;`. -/
def size (l : List T) : Nat := l.size_

/-- The method `push_back`: `emplace(item); ++size_;`. -/
def push_back (l : List T) (item : T) : Option (List T) :=
  (emplace l item).map (fun r => ⟨r.heap, r.fake_, r.size_ + 1⟩)

/-- The traversal `for (it = begin(); it != end(); ++it) ++count;` from the
position `it`, with `end()` at `fake_` and `++it` reading `position_->next`. -/
def countLoop (l : List T) : Nat → Nat → Option Nat
  | 0, _ => none
  | fuel + 1, it =>
    if it = l.fake_ then some 0
    else (l.heap[it]?).bind (fun node => (countLoop l fuel node.next).map (fun c => c + 1))

/-- The number of elements traversed from `begin()` (`fake_->next`) to
`end()`. -/
def traversed (l : List T) : Option Nat :=
  (l.heap[l.fake_]?).bind (fun fake => countLoop l (l.heap.length + 1) fake.next)

end List

end ListH

/-! ## The control block of `src/shared_ptr/smart_pointers.h` -/

namespace SmartPointers

/-- The struct `BaseControlBlock` (`size_t sharedCount, weakCount`) together
with the numbers of calls made so far to its virtual methods `deleteObject()`
and `deallocateBlock()`.  The counters are natural numbers: they count live
pointers, of which there are fewer than `2 ^ 64`. -/
structure BaseControlBlock where
  sharedCount : Nat
  weakCount : Nat
  deleteObjectCalls : Nat
  deallocateBlockCalls : Nat
deriving DecidableEq

/-- One control block and the pointers that hold it: the numbers of live
`SharedPtr` and `WeakPtr` objects whose `data_` is this block. -/
structure State where
  block : BaseControlBlock
  liveShared : Nat
  liveWeak : Nat
deriving DecidableEq

/-- The operations of the pointers on one control block. -/
inductive Operation where
  | copyShared
  | weakFromShared
  | copyWeak
  | lock
  | destroyShared
  | destroyWeak
deriving DecidableEq

/-- The private constructor `SharedPtr(BaseControlBlock* block)` with a
non-null block: `++data_->sharedCount`. -/
def sharedFromBlock (b : BaseControlBlock) : BaseControlBlock :=
  ⟨b.sharedCount + 1, b.weakCount, b.deleteObjectCalls, b.deallocateBlockCalls⟩

/-- The method `increment()` of `WeakPtr` with a non-null `data_`:
`++data_->weakCount`. -/
def increment (b : BaseControlBlock) : BaseControlBlock :=
  ⟨b.sharedCount, b.weakCount + 1, b.deleteObjectCalls, b.deallocateBlockCalls⟩

/-- The destructor `~SharedPtr()` with a non-null `data_`:
```
--data_->sharedCount;
if (data_->sharedCount == 0) {
    data_->deleteObject();
    if (data_->weakCount == 0) data_->deallocateBlock();
}
``` -/
def destroyShared (b : BaseControlBlock) : BaseControlBlock :=
  if b.sharedCount - 1 = 0 then
    if b.weakCount = 0 then
      ⟨b.sharedCount - 1, b.weakCount, b.deleteObjectCalls + 1, b.deallocateBlockCalls + 1⟩
    else ⟨b.sharedCount - 1, b.weakCount, b.deleteObjectCalls + 1, b.deallocateBlockCalls⟩
  else ⟨b.sharedCount - 1, b.weakCount, b.deleteObjectCalls, b.deallocateBlockCalls⟩

/-- The destructor `~WeakPtr()` with a non-null `data_`:
```
--data_->weakCount;
if (data_->sharedCount == 0 && data_->weakCount == 0) data_->deallocateBlock();
``` -/
def destroyWeak (b : BaseControlBlock) : BaseControlBlock :=
  if b.sharedCount = 0 ∧ b.weakCount - 1 = 0 then
    ⟨b.sharedCount, b.weakCount - 1, b.deleteObjectCalls, b.deallocateBlockCalls + 1⟩
  else ⟨b.sharedCount, b.weakCount - 1, b.deleteObjectCalls, b.deallocateBlockCalls⟩

/-- The method `expired()`: `use_count() == 0`, with `use_count()` returning
`data_->sharedCount`. -/
def expired (b : BaseControlBlock) : Bool := decide (b.sharedCount = 0)

/-- The state after `SharedPtr(U* pointer)`: a fresh control block
(`sharedCount = 0`, `weakCount = 0`), then `++data_->sharedCount`, and one
live `SharedPtr`. -/
def initial : State := ⟨⟨1, 0, 0, 0⟩, 1, 0⟩

/-- One operation on the control block.  A copy needs a live pointer of the
copied kind, `lock()` a live `WeakPtr`, a destruction a live pointer of the
destroyed kind; otherwise the operation is not possible (`none`).
`lock()` builds `SharedPtr<T>(expired() ? nullptr : data_)`: on an expired
block the new `SharedPtr` is null and the block is not touched. -/
def step (s : State) : Operation → Option State
  | .copyShared =>
    if 0 < s.liveShared then some ⟨sharedFromBlock s.block, s.liveShared + 1, s.liveWeak⟩
    else none
  | .weakFromShared =>
    if 0 < s.liveShared then some ⟨increment s.block, s.liveShared, s.liveWeak + 1⟩ else none
  | .copyWeak =>
    if 0 < s.liveWeak then some ⟨increment s.block, s.liveShared, s.liveWeak + 1⟩ else none
  | .lock =>
    if 0 < s.liveWeak then
      if expired s.block then some s
      else some ⟨sharedFromBlock s.block, s.liveShared + 1, s.liveWeak⟩
    else none
  | .destroyShared =>
    if 0 < s.liveShared then some ⟨destroyShared s.block, s.liveShared - 1, s.liveWeak⟩
    else none
  | .destroyWeak =>
    if 0 < s.liveWeak then some ⟨destroyWeak s.block, s.liveShared, s.liveWeak - 1⟩ else none

/-- A sequence of operations from a state. -/
def run : State → List Operation → Option State
  | s, [] => some s
  | s, op :: ops => (step s op).bind (fun t => run t ops)

/-- The counters agree with the live pointers, `deleteObject()` has run
exactly when no `SharedPtr` is live (and then once), and `deallocateBlock()`
has run exactly when no pointer at all is live (and then once). -/
def Consistent (s : State) : Prop :=
  s.block.sharedCount = s.liveShared ∧ s.block.weakCount = s.liveWeak ∧
    s.block.deleteObjectCalls = (if s.liveShared = 0 then 1 else 0) ∧
    s.block.deallocateBlockCalls = (if s.liveShared = 0 ∧ s.liveWeak = 0 then 1 else 0)

instance (s : State) : Decidable (Consistent s) := by
  unfold Consistent; infer_instance

end SmartPointers

/-! ## `operator*=` of `src/bigint/main.cpp` with its scratch buffers -/

namespace MainCpp

namespace BigInteger

open Limbs

variable {K : Type} [Field K]

/-- The call `polynomial_.resize(size)` of `std::vector`: the first `size`
entries are kept and value-initialised entries (`Complex()`, that is
`(0, 0)`) are appended up to `size`. -/
def resize (polynomial : List (Complex K)) (size : Nat) : List (Complex K) :=
  polynomial.take size ++ List.replicate (size - polynomial.length) ⟨0, 0⟩

/-- The call `std::fill(polynomial_.begin(), polynomial_.end(), 0)`: every
entry becomes `Complex(0)`. -/
def fill (polynomial : List (Complex K)) : List (Complex K) :=
  polynomial.map (fun _ => Complex.ofInt 0)

/-- The loop `for (size_t i = 0; i < buffer_.size(); ++i) polynomial_[i] = buffer_[i];`;
`none` when the buffer is longer than the polynomial. -/
def loadLimbs : List Int → List (Complex K) → Option (List (Complex K))
  | [], polynomial => some polynomial
  | _ :: _, [] => none
  | limb :: limbs, _ :: polynomial =>
    (loadLimbs limbs polynomial).map (fun rest => Complex.ofInt limb :: rest)

/-- The loop `for (size_t i = 0; i < size; ++i) polynomial1_[i] *= polynomial2_[i];`. -/
def multiplyLoop : Nat → List (Complex K) → List (Complex K) → Option (List (Complex K))
  | 0, polynomial1, _ => some polynomial1
  | size + 1, x :: polynomial1, y :: polynomial2 =>
    (multiplyLoop size polynomial1 polynomial2).map (fun rest => Complex.mul x y :: rest)
  | _ + 1, _, _ => none

/-- The values `llround(polynomial1_[i].real() / static_cast<double>(size))`
read by the carry loop for `i < size`; `llround` is a parameter. -/
def roundedLoop (llround : K → Int) (size : Nat) : Nat → List (Complex K) → Option (List Int)
  | 0, _ => some []
  | count + 1, z :: polynomial =>
    (roundedLoop llround size count polynomial).map
      (fun rest => llround (z.real_ / (size : K)) :: rest)
  | _ + 1, [] => none

/-- The compound assignment `operator*=` with the class-static scratch
buffers `polynomial1_` and `polynomial2_` as part of the state:
```
polynomial1_.resize(size);
polynomial2_.resize(size);
std::fill(polynomial1_.begin(), polynomial1_.end(), 0);
std::fill(polynomial2_.begin(), polynomial2_.end(), 0);
for (size_t i = 0; i < buffer_.size(); ++i) polynomial1_[i] = buffer_[i];
for (size_t i = 0; i < number.buffer_.size(); ++i) polynomial2_[i] = number.buffer_[i];
fft(polynomial1_, size, 1);
fft(polynomial2_, size, 1);
for (size_t i = 0; i < size; ++i) polynomial1_[i] *= polynomial2_[i];
fft(polynomial1_, size, -1);
... the carry loops ...
negative_ ^= number.negative_;
normalize();
```
The result is the new value of `*this` and the two scratch buffers. -/
def imulScratch (cos sin acos : K → K) (llround : K → Int)
    (polynomial1_ polynomial2_ : List (Complex K)) (a number : BigInteger) :
    Option (BigInteger × List (Complex K) × List (Complex K)) := do
  let size ← transformSize a.buffer_.length number.buffer_.length
  let loaded1 ← loadLimbs a.buffer_ (fill (resize polynomial1_ size))
  let loaded2 ← loadLimbs number.buffer_ (fill (resize polynomial2_ size))
  let transformed1 ← fft cos sin acos loaded1 size 1
  let transformed2 ← fft cos sin acos loaded2 size 1
  let product ← multiplyLoop size transformed1 transformed2
  let inverse ← fft cos sin acos product size (-1)
  let coefficients ← roundedLoop llround size size inverse
  pure (normalize ⟨mulCarryLoop coefficients a.buffer_ 0, xor a.negative_ number.negative_⟩,
    inverse, transformed2)

end BigInteger

end MainCpp

/-! ## The class `String` of `src/string/main.cpp`: `find` -/

namespace StringMain

/-- The method `are_equal(i, j, separator)` on the characters `buffer_`:
```
return buffer_[i] == buffer_[j]
       && !(i == separator && j != separator)
       && !(i != separator && j == separator);
```
An index past the end is reported as `none`. -/
def are_equal (buffer_ : List Char) (i j separator : Nat) : Option Bool :=
  match buffer_[i]?, buffer_[j]? with
  | some a, some b =>
    some (a == b && !(i == separator && j != separator) && !(i != separator && j == separator))
  | _, _ => none

/-- The inner loop of `pi_function`:
`while (j > 0 && !are_equal(i, j, separator)) j = pi[j - 1];`. -/
def fallbackLoop (buffer_ : List Char) (separator : Nat) (pi : List Nat) (i : Nat) :
    Nat → Nat → Option Nat
  | 0, _ => none
  | fuel + 1, j =>
    if j > 0 then
      match are_equal buffer_ i j separator with
      | none => none
      | some true => some j
      | some false =>
        match pi[j - 1]? with
        | none => none
        | some next => fallbackLoop buffer_ separator pi i fuel next
    else some j

/-- The outer loop of `pi_function`, from the state `i`, `j`, `pi[0..i)`:
```
for (int i = 1, j = 0; i < size_; ++i) {
    while (j > 0 && !are_equal(i, j, separator)) j = pi[j - 1];
    if (are_equal(i, j, separator)) ++j;
    pi[i] = j;
}
``` -/
def piLoop (buffer_ : List Char) (separator : Nat) : Nat → Nat → Nat → List Nat → Option (List Nat)
  | 0, _, _, pi => some pi
  | steps + 1, i, j, pi =>
    match fallbackLoop buffer_ separator pi i (i + 1) j with
    | none => none
    | some j1 =>
      match are_equal buffer_ i j1 separator with
      | none => none
      | some e =>
        piLoop buffer_ separator steps (i + 1) (if e then j1 + 1 else j1)
          (pi ++ [if e then j1 + 1 else j1])

/-- The method `pi_function(pi, separator)`: `pi[0] = 0;` and the loop over
`i = 1, ..., size_ - 1`. -/
def pi_function (buffer_ : List Char) (separator : Nat) : Option (List Nat) :=
  piLoop buffer_ separator (buffer_.length - 1) 1 0 [0]

/-- The operator `+` on two strings (a copy, then `operator+=`, which copies
the characters of the second string behind those of the first). -/
def plus (string1 string2 : List Char) : List Char := string1 ++ string2

/-- The loop of `knuth_morris_pratt` from index `i`, with `result` so far:
```
for (int i = substring.size_ + 1; i < total_size; ++i) {
    if (pi[i] == substring.size_) {
        if (!reverse) { free(pi); return i - substring.size_ * 2; }
        else result = i - substring.size_ * 2;
    }
}
return result;
``` -/
def kmpLoop (pi : List Nat) (substring_size : Nat) (reverse : Bool) : Nat → Nat → Int → Option Int
  | 0, _, result => some result
  | steps + 1, i, result =>
    match pi[i]? with
    | none => none
    | some value =>
      if value = substring_size then
        if !reverse then some ((i : Int) - (substring_size : Int) * 2)
        else kmpLoop pi substring_size reverse steps (i + 1)
          ((i : Int) - (substring_size : Int) * 2)
      else kmpLoop pi substring_size reverse steps (i + 1) result

/-- The method `knuth_morris_pratt(substring, reverse)` on the string `s`:
the prefix function of `substring + '#' + s` with the separator index
`substring.size_`, then the loop over `i` in
`[substring.size_ + 1, total_size)`.  The `int` values are integers here. -/
def knuth_morris_pratt (s substring : List Char) (reverse : Bool) : Option Int :=
  match pi_function (plus (plus substring ['#']) s) substring.length with
  | none => none
  | some pi => kmpLoop pi substring.length reverse s.length (substring.length + 1) s.length

/-- The method `find(substring)`: `knuth_morris_pratt(substring, false)`,
converted to `unsigned`. -/
def find (s substring : List Char) : Option Nat :=
  (knuth_morris_pratt s substring false).map Int.toNat

/-- The character at index `x` as `are_equal` sees it: the separator index
holds a mark that equals no character. -/
def marked (buffer_ : List Char) (separator : Nat) (x : Nat) : Option Char :=
  if x = separator then none else buffer_[x]?

/-- The prefix of length `i` of the sequence `f` has a border of length
`k < i`: its first `k` entries are its last `k` entries. -/
def IsBorder {β : Type} (f : Nat → β) (i k : Nat) : Prop :=
  k < i ∧ ∀ x, x < k → f x = f (i - k + x)

/-- The value `v` is the length of the longest border of the prefix of length
`i`. -/
def IsLongestBorder {β : Type} (f : Nat → β) (i v : Nat) : Prop :=
  IsBorder f i v ∧ ∀ k, IsBorder f i k → k ≤ v

end StringMain

/-! ## `UnorderedMap` of `src/hashmap/hashmap.h`

The element list `elements_` is a `std::list<ListNode>`: its nodes keep their
addresses while the list changes, and an iterator is the address of a node,
or `none` for `end()`.  The vector `iterators_` holds one such iterator for
every bucket.  `Hash` is a function `hashFn` into the naturals and `Equal` is
the equality of the keys. -/

namespace HashMap

/-- A node of `elements_`: the `ListNode` (the key and value it points to and
the stored `hash`), together with the address of the list node. -/
structure ListNode (Key Value : Type) where
  address : Nat
  key : Key
  value : Value
  hash : Nat

/-- The data members `elements_` and `iterators_` of `UnorderedMap`. -/
structure UnorderedMap (Key Value : Type) where
  elements_ : List (ListNode Key Value)
  iterators_ : List (Option Nat)

variable {Key Value : Type}

/-- The iterator `elements_.begin()`. -/
def list_begin (elements : List (ListNode Key Value)) : Option Nat :=
  elements.head?.map (fun x => x.address)

/-- The nodes visited by `++iter` from the iterator `iter` up to `end()`:
the node it refers to and all nodes behind it. -/
def nodesFrom (elements : List (ListNode Key Value)) : Option Nat → List (ListNode Key Value)
  | none => []
  | some a => elements.dropWhile (fun x => x.address != a)

/-- The call `elements_.splice(pos, elements_, it)` of `std::list`: the node
at `it` is moved in front of the node at `pos` (to the back for `end()`);
nothing happens when `pos` is `it`. -/
def splice (elements : List (ListNode Key Value)) (pos : Option Nat) (it : Nat) :
    List (ListNode Key Value) :=
  if pos = some it then elements
  else
    match elements.find? (fun x => x.address == it) with
    | none => elements
    | some node =>
      (elements.eraseP (fun x => x.address == it)).takeWhile (fun x => some x.address != pos)
        ++ node ::
        (elements.eraseP (fun x => x.address == it)).dropWhile (fun x => some x.address != pos)

/-- The loop of `find` over the nodes from `iter` on:
```
while (iter != elements_.end() && iter->hash % iterators_.size() == index) {
    if (Equal{}(iter->key_value->first, key)) return iter;
    ++iter;
}
return end();
``` -/
def findLoop [DecidableEq Key] (size index : Nat) (key : Key) :
    List (ListNode Key Value) → Option Nat
  | [] => none
  | x :: rest =>
    if x.hash % size = index then
      if x.key = key then some x.address else findLoop size index key rest
    else none

/-- The method `find(key)`; the result is an iterator.  A map without buckets
has no index `Hash{}(key) % iterators_.size()`. -/
def find [DecidableEq Key] (hashFn : Key → Nat) (m : UnorderedMap Key Value) (key : Key) :
    Option (Option Nat) :=
  if m.iterators_.length = 0 then none
  else
    match m.iterators_[hashFn key % m.iterators_.length]? with
    | none => none
    | some iter =>
      some (findLoop m.iterators_.length (hashFn key % m.iterators_.length) key
        (nodesFrom m.elements_ iter))

/-- The method `erase(iter)` for the iterator at the address `position_`:
```
size_t index = iter.position_->hash % iterators_.size();
if (iterators_[index] == iter.position_) {
    iterators_[index] = elements_.erase(iter.position_);
    ListTypeIter next = iterators_[index];
    if (next != elements_.end() && next->hash % iterators_.size() != index)
        iterators_[index] = elements_.end();
    return next;
}
return elements_.erase(iter.position_);
```
The result is the new map and the returned iterator. -/
def erase (m : UnorderedMap Key Value) (position_ : Nat) :
    Option (UnorderedMap Key Value × Option Nat) :=
  if m.iterators_.length = 0 then none
  else
    match nodesFrom m.elements_ (some position_) with
    | [] => none
    | node :: rest =>
      match m.iterators_[node.hash % m.iterators_.length]? with
      | none => none
      | some first =>
        if first = some position_ then
          match rest with
          | [] =>
            some (⟨m.elements_.eraseP (fun x => x.address == position_),
              m.iterators_.set (node.hash % m.iterators_.length) none⟩, none)
          | next :: _ =>
            if next.hash % m.iterators_.length ≠ node.hash % m.iterators_.length then
              some (⟨m.elements_.eraseP (fun x => x.address == position_),
                (m.iterators_.set (node.hash % m.iterators_.length) (some next.address)).set
                  (node.hash % m.iterators_.length) none⟩, some next.address)
            else
              some (⟨m.elements_.eraseP (fun x => x.address == position_),
                m.iterators_.set (node.hash % m.iterators_.length) (some next.address)⟩,
                some next.address)
        else
          some (⟨m.elements_.eraseP (fun x => x.address == position_), m.iterators_⟩,
            list_begin rest)

/-- The loop of `rehash` from the iterator `current`:
```
while (current != elements_.end()) {
    ListTypeIter next = ++current;
    --current;
    size_t index = current->hash % count;
    elements_.splice(iterators_[index] == elements_.end() ?
                     elements_.begin() : iterators_[index], elements_, current);
    iterators_[index] = current;
    current = next;
}
``` -/
def rehashLoop (count : Nat) :
    Nat → List (ListNode Key Value) → List (Option Nat) → Option Nat →
      Option (UnorderedMap Key Value)
  | _, elements, iterators, none => some ⟨elements, iterators⟩
  | 0, _, _, some _ => none
  | fuel + 1, elements, iterators, some current =>
    match nodesFrom elements (some current) with
    | [] => none
    | node :: rest =>
      match iterators[node.hash % count]? with
      | none => none
      | some first =>
        rehashLoop count fuel
          (splice elements (if first = none then list_begin elements else first) current)
          (iterators.set (node.hash % count) (some current))
          (list_begin rest)

/-- The method `rehash(count)`:
`count = std::max(count, iterators_.size()); iterators_.clear();
iterators_.resize(count, elements_.end());` and the loop from
`elements_.begin()`. -/
def rehash (m : UnorderedMap Key Value) (count : Nat) : Option (UnorderedMap Key Value) :=
  rehashLoop (max count m.iterators_.length) m.elements_.length m.elements_
    (List.replicate (max count m.iterators_.length) none) (list_begin m.elements_)

/-- The method `emplace(args...)` for a key and a value; `address` is the
address of the list node that `emplace_front` allocates, which is the address
of no node in the list.  The test `load_factor() > max_load_factor_` with the
maximal load factor `1` compares the two sizes; `iterators_.size() * 2` is a
`size_t`.  The result is the new map, the returned iterator and the flag. -/
def emplace [DecidableEq Key] (hashFn : Key → Nat) (m : UnorderedMap Key Value)
    (address : Nat) (key : Key) (value : Value) :
    Option (UnorderedMap Key Value × Option Nat × Bool) :=
  if address ∈ m.elements_.map (fun x => x.address) then none
  else
    match find hashFn ⟨⟨address, key, value, hashFn key⟩ :: m.elements_, m.iterators_⟩ key with
    | none => none
    | some (some iter) => some (m, some iter, false)
    | some none =>
      match m.iterators_[hashFn key % m.iterators_.length]? with
      | none => none
      | some first =>
        if m.elements_.length + 1 > m.iterators_.length then
          (rehash
            ⟨splice (⟨address, key, value, hashFn key⟩ :: m.elements_)
              (if first = none then some address else first) address,
             m.iterators_.set (hashFn key % m.iterators_.length) (some address)⟩
            (m.iterators_.length * 2 % 2 ^ 64)).map (fun r => (r, some address, true))
        else
          some (⟨splice (⟨address, key, value, hashFn key⟩ :: m.elements_)
              (if first = none then some address else first) address,
             m.iterators_.set (hashFn key % m.iterators_.length) (some address)⟩,
            some address, true)

/-- An operation on the map. -/
inductive Operation (Key Value : Type) where
  | emplace (address : Nat) (key : Key) (value : Value)
  | erase (position_ : Nat)
  | rehash (count : Nat)

/-- One operation on the map; `none` when the operation is not defined. -/
def step [DecidableEq Key] (hashFn : Key → Nat) (m : UnorderedMap Key Value) :
    Operation Key Value → Option (UnorderedMap Key Value)
  | Operation.emplace address key value =>
    (emplace hashFn m address key value).map (fun r => r.1)
  | Operation.erase position_ => (erase m position_).map (fun r => r.1)
  | Operation.rehash count => rehash m count

/-- A sequence of operations. -/
def run [DecidableEq Key] (hashFn : Key → Nat) :
    List (Operation Key Value) → UnorderedMap Key Value → Option (UnorderedMap Key Value)
  | [], m => some m
  | op :: ops, m =>
    match step hashFn m op with
    | none => none
    | some m1 => run hashFn ops m1

/-- The map of the default constructor: `DEFAULT_BUCKET_COUNT = 1` buckets,
all at `elements_.end()`. -/
def empty : UnorderedMap Key Value := ⟨[], [none]⟩

/-- The first node of the bucket `b`, as an iterator. -/
def firstOf (elements : List (ListNode Key Value)) (size b : Nat) : Option Nat :=
  (elements.find? (fun x => x.hash % size == b)).map (fun x => x.address)

/-- Each node is followed by a node of its bucket, unless it is the last node
of its bucket. -/
def Grouped (size : Nat) : List (ListNode Key Value) → Prop
  | [] => True
  | x :: l =>
    (∀ y, y ∈ l → y.hash % size = x.hash % size →
      ∃ z, l.head? = some z ∧ z.hash % size = x.hash % size) ∧ Grouped size l

/-- The nodes of one bucket are contiguous in the element list: a node
between two nodes of one bucket is in that bucket. -/
def Contiguous (m : UnorderedMap Key Value) : Prop :=
  ∀ (i j k : Nat) (x y z : ListNode Key Value), i < j → j < k → m.elements_[i]? = some x → m.elements_[j]? = some y →
    m.elements_[k]? = some z →
    x.hash % m.iterators_.length = z.hash % m.iterators_.length →
    y.hash % m.iterators_.length = x.hash % m.iterators_.length

/-- The invariant of the map: there is a bucket, the addresses of the nodes
are distinct, the stored hash is the hash of the key, the buckets are grouped
and every entry of `iterators_` is the first node of its bucket. -/
def Invariant (hashFn : Key → Nat) (m : UnorderedMap Key Value) : Prop :=
  0 < m.iterators_.length ∧
  (m.elements_.map (fun x => x.address)).Nodup ∧
  (∀ x, x ∈ m.elements_ → x.hash = hashFn x.key) ∧
  Grouped m.iterators_.length m.elements_ ∧
  ∀ b, b < m.iterators_.length →
    m.iterators_[b]? = some (firstOf m.elements_ m.iterators_.length b)

end HashMap

/-! ## Facts about limb buffers -/

namespace Limbs

theorem mag_cons (x : Int) (xs : List Int) : mag (x :: xs) = x + 100 * mag xs := rfl

theorem mag_append (xs ys : List Int) :
    mag (xs ++ ys) = mag xs + 100 ^ xs.length * mag ys := by
  induction xs with
  | nil => simp [mag]
  | cons x xs ih =>
    rw [List.cons_append, mag_cons, mag_cons, ih, List.length_cons, pow_succ]
    ring

theorem limbsOk_nil : LimbsOk [] := by
  intro x hx
  cases hx

theorem limbsOk_cons {x : Int} {xs : List Int} :
    LimbsOk (x :: xs) ↔ (0 ≤ x ∧ x < 100) ∧ LimbsOk xs := by
  unfold LimbsOk
  simp only [List.mem_cons, forall_eq_or_imp]

theorem limbsOk_append {xs ys : List Int} :
    LimbsOk (xs ++ ys) ↔ LimbsOk xs ∧ LimbsOk ys := by
  unfold LimbsOk
  simp only [List.mem_append]
  constructor
  · intro h
    exact ⟨fun x hx => h x (Or.inl hx), fun x hx => h x (Or.inr hx)⟩
  · rintro ⟨h1, h2⟩ x (hx | hx)
    · exact h1 x hx
    · exact h2 x hx

theorem mag_nonneg {xs : List Int} (h : LimbsOk xs) : 0 ≤ mag xs := by
  induction xs with
  | nil => simp [mag]
  | cons x xs ih =>
    rw [limbsOk_cons] at h
    have := ih h.2
    rw [mag_cons]
    omega

theorem mag_lt_pow {xs : List Int} (h : LimbsOk xs) : mag xs < 100 ^ xs.length := by
  induction xs with
  | nil => simp [mag]
  | cons x xs ih =>
    rw [limbsOk_cons] at h
    have := ih h.2
    rw [mag_cons, List.length_cons, pow_succ]
    omega

theorem eq_dropLast_append_zero {xs : List Int} (h : xs.getLast? = some 0) :
    xs = xs.dropLast ++ [0] :=
  (List.dropLast_append_getLast? 0 h).symm

theorem limbsOk_dropLast {xs : List Int} (h : LimbsOk xs) : LimbsOk xs.dropLast :=
  fun x hx => h x (List.dropLast_subset xs hx)

theorem mag_dropLast_of_zero {xs : List Int} (h : xs.getLast? = some 0) :
    mag xs.dropLast = mag xs := by
  conv_rhs => rw [eq_dropLast_append_zero h]
  rw [mag_append]
  simp [mag]

theorem popLoop_mag (n : Nat) (xs : List Int) : mag (popLoop n xs) = mag xs := by
  induction n generalizing xs with
  | zero => rfl
  | succ n ih =>
    unfold popLoop
    split
    · next h => rw [ih, mag_dropLast_of_zero h.2]
    · rfl

theorem popLoop_limbsOk (n : Nat) {xs : List Int} (h : LimbsOk xs) :
    LimbsOk (popLoop n xs) := by
  induction n generalizing xs with
  | zero => exact h
  | succ n ih =>
    unfold popLoop
    split
    · exact ih (limbsOk_dropLast h)
    · exact h

theorem popLoop_length_le (n : Nat) (xs : List Int) :
    (popLoop n xs).length ≤ xs.length := by
  induction n generalizing xs with
  | zero => exact le_refl _
  | succ n ih =>
    unfold popLoop
    split
    · exact le_trans (ih _) (by simp)
    · exact le_refl _

theorem popLoop_exit (n : Nat) (xs : List Int) (hlen : xs.length ≤ n + 1) (hne : xs ≠ []) :
    popLoop n xs ≠ [] ∧
      ¬ (1 < (popLoop n xs).length ∧ (popLoop n xs).getLast? = some 0) := by
  induction n generalizing xs with
  | zero =>
    refine ⟨hne, ?_⟩
    rintro ⟨h1, -⟩
    simp only [popLoop] at h1
    omega
  | succ n ih =>
    unfold popLoop
    split
    · next h =>
      apply ih
      · simp only [List.length_dropLast]
        omega
      · intro h0
        have := congrArg List.length h0
        simp only [List.length_dropLast, List.length_nil] at this
        omega
    · next h => exact ⟨hne, h⟩

theorem canonical_of_exit {xs : List Int} (hne : xs ≠ [])
    (h : ¬ (1 < xs.length ∧ xs.getLast? = some 0)) : Canonical xs := by
  refine ⟨hne, fun hl => ?_⟩
  have hlen : xs.length ≤ 1 := by
    by_contra hc
    exact h ⟨by omega, hl⟩
  match xs, hne, hl, hlen with
  | [x], _, hl, _ =>
    simp only [List.getLast?_singleton, Option.some.injEq] at hl
    rw [hl]
  | _ :: _ :: _, _, _, hlen => simp at hlen

theorem normalizeBuf_mag (xs : List Int) : mag (normalizeBuf xs) = mag xs :=
  popLoop_mag _ _

theorem normalizeBuf_limbsOk {xs : List Int} (h : LimbsOk xs) : LimbsOk (normalizeBuf xs) :=
  popLoop_limbsOk _ h

theorem normalizeBuf_canonical {xs : List Int} (hne : xs ≠ []) :
    Canonical (normalizeBuf xs) := by
  have := popLoop_exit xs.length xs (by omega) hne
  exact canonical_of_exit this.1 this.2

theorem normalizeBuf_length_le (xs : List Int) : (normalizeBuf xs).length ≤ xs.length :=
  popLoop_length_le _ _

theorem popLoop_of_canonical (n : Nat) {xs : List Int} (h : Canonical xs) :
    popLoop n xs = xs := by
  cases n with
  | zero => rfl
  | succ n =>
    unfold popLoop
    rw [if_neg]
    rintro ⟨h1, h2⟩
    have := h.2 h2
    rw [this] at h1
    simp at h1

theorem normalizeBuf_of_canonical {xs : List Int} (h : Canonical xs) :
    normalizeBuf xs = xs :=
  popLoop_of_canonical _ h

/-- A buffer with limbs in range denotes zero only if all its limbs are zero;
a canonical one is then the single limb `0`. -/
theorem eq_zero_of_mag_eq_zero {xs : List Int} (hl : LimbsOk xs) (hc : Canonical xs)
    (h : mag xs = 0) : xs = [0] := by
  have hall : ∀ {ys : List Int}, LimbsOk ys → mag ys = 0 → ∀ y ∈ ys, y = 0 := by
    intro ys
    induction ys with
    | nil => intro _ _ y hy; cases hy
    | cons a ys ih =>
      intro hl h y hy
      rw [limbsOk_cons] at hl
      rw [mag_cons] at h
      have hn := mag_nonneg hl.2
      have ha : a = 0 := by omega
      have hm : mag ys = 0 := by omega
      rcases List.mem_cons.1 hy with rfl | hy
      · exact ha
      · exact ih hl.2 hm y hy
  apply hc.2
  cases hlast : xs.getLast? with
  | none =>
    rw [List.getLast?_eq_none_iff] at hlast
    exact absurd hlast hc.1
  | some l =>
    have hmem : l ∈ xs := List.mem_of_getLast?_eq_some hlast
    rw [hall hl h l hmem]

theorem mag_singleton_zero : mag [0] = 0 := by decide

/-- A canonical buffer with limbs in range, other than `[0]`, denotes a
positive integer at least `100 ^ (length - 1)`. -/
theorem pow_le_mag {xs : List Int} (hl : LimbsOk xs) (hc : Canonical xs)
    (h0 : xs ≠ [0]) : 100 ^ (xs.length - 1) ≤ mag xs := by
  have hlast : ∃ l, xs.getLast? = some l := by
    cases h : xs.getLast? with
    | none =>
      rw [List.getLast?_eq_none_iff] at h
      exact absurd h hc.1
    | some l => exact ⟨l, rfl⟩
  obtain ⟨l, hl1⟩ := hlast
  have hx : xs = xs.dropLast ++ [l] := (List.dropLast_append_getLast? l hl1).symm
  have hl0 : l ≠ 0 := by
    rintro rfl
    exact h0 (hc.2 hl1)
  have hlr : 0 ≤ l ∧ l < 100 := hl l (List.mem_of_getLast?_eq_some hl1)
  have hd := mag_nonneg (limbsOk_dropLast hl)
  rw [hx, mag_append]
  simp only [List.length_append, List.length_singleton, Nat.add_sub_cancel, mag, mul_zero,
    add_zero]
  have hp : (0 : Int) < 100 ^ xs.dropLast.length := by positivity
  have : (100 : Int) ^ xs.dropLast.length * 1 ≤ 100 ^ xs.dropLast.length * l :=
    mul_le_mul_of_nonneg_left (by omega) (le_of_lt hp)
  omega

end Limbs

namespace Limbs

theorem tmod_base {a : Int} (h : 0 ≤ a) : Int.tmod a base_ = a % 100 :=
  Int.tmod_eq_emod h (by decide)

theorem tdiv_base {a : Int} (h : 0 ≤ a) : Int.tdiv a base_ = a / 100 :=
  Int.tdiv_eq_ediv h (by decide)

/-- The carry loop writes the base-100 digits of a non-negative carry, the
last one non-zero. -/
theorem carryLoop_spec (fuel : Nat) (c : Int) (h0 : 0 ≤ c) (hf : c.toNat ≤ fuel) :
    LimbsOk (carryLoop fuel c) ∧ mag (carryLoop fuel c) = c ∧
      (carryLoop fuel c).getLast? ≠ some 0 ∧ (0 < c → carryLoop fuel c ≠ []) := by
  induction fuel generalizing c with
  | zero =>
    have : c = 0 := by omega
    subst this
    simp [carryLoop, limbsOk_nil, mag]
  | succ n ih =>
    unfold carryLoop
    split
    · next hc =>
      rw [tmod_base h0, tdiv_base h0]
      have hq0 : 0 ≤ c / 100 := by omega
      obtain ⟨h1, h2, h3, h4⟩ := ih (c / 100) hq0 (by omega)
      refine ⟨?_, ?_, ?_, fun _ => by simp⟩
      · rw [limbsOk_cons]
        exact ⟨by omega, h1⟩
      · rw [mag_cons, h2]
        omega
      · by_cases hq : 0 < c / 100
        · have hne := h4 hq
          obtain ⟨b, l, hbl⟩ := List.exists_cons_of_ne_nil hne
          rw [hbl] at h3 ⊢
          rw [List.getLast?_cons_cons]
          exact h3
        · have hz : c / 100 = 0 := by omega
          rw [hz]
          have : carryLoop n 0 = [] := by
            cases n <;> simp [carryLoop]
          rw [this]
          simp only [List.getLast?_singleton, ne_eq, Option.some.injEq]
          omega
    · next hc =>
      have : c = 0 := by omega
      subst this
      simp [limbsOk_nil, mag]

theorem addTail_spec (xs : List Int) (c : Int) (hx : LimbsOk xs) (h0 : 0 ≤ c) (h1 : c ≤ 1) :
    LimbsOk (addTail xs c) ∧ mag (addTail xs c) = mag xs + c ∧
      xs.length ≤ (addTail xs c).length := by
  induction xs generalizing c with
  | nil =>
    obtain ⟨a, b, -, -⟩ := carryLoop_spec c.toNat c h0 (le_refl _)
    simp only [addTail, mag, zero_add, List.length_nil, Nat.zero_le, and_true]
    exact ⟨a, b⟩
  | cons x xs ih =>
    rw [limbsOk_cons] at hx
    unfold addTail
    split
    · rw [tmod_base (by omega), tdiv_base (by omega)]
      obtain ⟨a, b, l⟩ := ih ((x + 0 + c) / 100) hx.2 (by omega) (by omega)
      refine ⟨?_, ?_, ?_⟩
      · rw [limbsOk_cons]
        exact ⟨by omega, a⟩
      · rw [mag_cons, mag_cons, b]
        omega
      · simp only [List.length_cons]
        omega
    · refine ⟨limbsOk_cons.2 hx, ?_, le_refl _⟩
      have : c = 0 := by omega
      rw [this, add_zero]

theorem addLoop_spec (xs ys : List Int) (c : Int) (hx : LimbsOk xs) (hy : LimbsOk ys)
    (h0 : 0 ≤ c) (h1 : c ≤ 1) :
    LimbsOk (addLoop xs ys c) ∧ mag (addLoop xs ys c) = mag xs + mag ys + c ∧
      xs.length ≤ (addLoop xs ys c).length := by
  induction ys generalizing xs c with
  | nil =>
    simp only [addLoop, mag, add_zero]
    exact addTail_spec xs c hx h0 h1
  | cons y ys ih =>
    rw [limbsOk_cons] at hy
    cases xs with
    | nil =>
      simp only [addLoop, List.headD_nil, List.tail_nil]
      rw [tmod_base (by omega), tdiv_base (by omega)]
      obtain ⟨a, b, -⟩ := ih [] ((0 + y + c) / 100) limbsOk_nil hy.2 (by omega) (by omega)
      refine ⟨?_, ?_, by simp⟩
      · rw [limbsOk_cons]
        exact ⟨by omega, a⟩
      · rw [mag_cons, mag_cons, b]
        simp only [mag]
        omega
    | cons x xs =>
      rw [limbsOk_cons] at hx
      simp only [addLoop, List.headD_cons, List.tail_cons]
      rw [tmod_base (by omega), tdiv_base (by omega)]
      obtain ⟨a, b, l⟩ := ih xs ((x + y + c) / 100) hx.2 hy.2 (by omega) (by omega)
      refine ⟨?_, ?_, ?_⟩
      · rw [limbsOk_cons]
        exact ⟨by omega, a⟩
      · rw [mag_cons, mag_cons, mag_cons, b]
        omega
      · simp only [List.length_cons]
        omega

theorem subLoopLess_spec (xs ys : List Int) (c : Int) (hx : LimbsOk xs) (hy : LimbsOk ys)
    (h0 : 0 ≤ c) (h1 : c ≤ 1) (hlen : xs.length ≤ ys.length) (hle : mag xs + c ≤ mag ys) :
    LimbsOk (subLoopLess xs ys c) ∧ mag (subLoopLess xs ys c) = mag ys - mag xs - c ∧
      (subLoopLess xs ys c).length = ys.length := by
  induction ys generalizing xs c with
  | nil =>
    have hxs : xs = [] := List.length_eq_zero.1 (by simpa using hlen)
    subst hxs
    simp only [mag, add_zero, zero_add] at hle
    have : c = 0 := by omega
    subst this
    simp [subLoopLess, limbsOk_nil, mag]
  | cons y ys ih =>
    rw [limbsOk_cons] at hy
    cases xs with
    | nil =>
      simp only [mag_cons, mag, zero_add] at hle
      by_cases hv : y - 0 - c < 0
      · obtain ⟨a, b, l⟩ := ih [] 1 limbsOk_nil hy.2 (by omega) (by omega) (by simp)
          (by simp only [mag]; omega)
        simp only [subLoopLess, hv, if_true, base_]
        refine ⟨?_, ?_, by simp [l]⟩
        · rw [limbsOk_cons]
          exact ⟨by omega, a⟩
        · rw [mag_cons, mag_cons, b]
          simp only [mag]
          omega
      · obtain ⟨a, b, l⟩ := ih [] 0 limbsOk_nil hy.2 (by omega) (by omega) (by simp)
          (by simp only [mag]; have := mag_nonneg hy.2; omega)
        simp only [subLoopLess, hv, if_false, base_]
        refine ⟨?_, ?_, by simp [l]⟩
        · rw [limbsOk_cons]
          exact ⟨by omega, a⟩
        · rw [mag_cons, mag_cons, b]
          simp only [mag]
          omega
    | cons x xs =>
      rw [limbsOk_cons] at hx
      simp only [mag_cons] at hle
      simp only [List.length_cons, add_le_add_iff_right] at hlen
      by_cases hv : y - x - c < 0
      · obtain ⟨a, b, l⟩ := ih xs 1 hx.2 hy.2 (by omega) (by omega) hlen (by omega)
        simp only [subLoopLess, hv, if_true, base_]
        refine ⟨?_, ?_, by simp [l]⟩
        · rw [limbsOk_cons]
          exact ⟨by omega, a⟩
        · rw [mag_cons, mag_cons, mag_cons, b]
          omega
      · obtain ⟨a, b, l⟩ := ih xs 0 hx.2 hy.2 (by omega) (by omega) hlen (by omega)
        simp only [subLoopLess, hv, if_false, base_]
        refine ⟨?_, ?_, by simp [l]⟩
        · rw [limbsOk_cons]
          exact ⟨by omega, a⟩
        · rw [mag_cons, mag_cons, mag_cons, b]
          omega

theorem subLoopGe_spec (xs ys : List Int) (c : Int) (hx : LimbsOk xs) (hy : LimbsOk ys)
    (h0 : 0 ≤ c) (h1 : c ≤ 1) (hlen : ys.length ≤ xs.length) (hle : mag ys + c ≤ mag xs) :
    ∃ r, subLoopGe xs ys c = some r ∧ LimbsOk r ∧ mag r = mag xs - mag ys - c ∧
      r.length = xs.length := by
  induction xs generalizing ys c with
  | nil =>
    have hys : ys = [] := List.length_eq_zero.1 (by simpa using hlen)
    subst hys
    simp only [mag, add_zero, zero_add] at hle
    have : c = 0 := by omega
    subst this
    exact ⟨[], by simp [subLoopGe], limbsOk_nil, by simp [mag], rfl⟩
  | cons x xs ih =>
    rw [limbsOk_cons] at hx
    cases ys with
    | nil =>
      simp only [mag_cons, mag, zero_add] at hle
      by_cases hc : c > 0
      · have hc1 : c = 1 := by omega
        subst hc1
        by_cases hv : x < 1
        · obtain ⟨r, hr, a, b, l⟩ := ih [] 1 hx.2 limbsOk_nil (by omega) (by omega) (by simp)
            (by simp only [mag]; omega)
          refine ⟨(x - (0 + 1) + 100) :: r, ?_, ?_, ?_, by simp [l]⟩
          · simp [subLoopGe, hv, hr, base_]
          · rw [limbsOk_cons]
            exact ⟨by omega, a⟩
          · rw [mag_cons, mag_cons, b]
            simp only [mag]
            omega
        · obtain ⟨r, hr, a, b, l⟩ := ih [] 0 hx.2 limbsOk_nil (by omega) (by omega) (by simp)
            (by simp only [mag]; have := mag_nonneg hx.2; omega)
          refine ⟨(x - (0 + 1)) :: r, ?_, ?_, ?_, by simp [l]⟩
          · simp [subLoopGe, hv, hr]
          · rw [limbsOk_cons]
            exact ⟨by omega, a⟩
          · rw [mag_cons, mag_cons, b]
            simp only [mag]
            omega
      · have hc0 : c = 0 := by omega
        subst hc0
        exact ⟨x :: xs, by simp [subLoopGe], limbsOk_cons.2 hx, by simp [mag], rfl⟩
    | cons y ys =>
      rw [limbsOk_cons] at hy
      simp only [mag_cons] at hle
      simp only [List.length_cons, add_le_add_iff_right] at hlen
      by_cases hv : x - (y + c) < 0
      · obtain ⟨r, hr, a, b, l⟩ := ih ys 1 hx.2 hy.2 (by omega) (by omega) hlen (by omega)
        refine ⟨(x - (y + c) + 100) :: r, ?_, ?_, ?_, by simp [l]⟩
        · simp [subLoopGe, hv, hr, base_]
        · rw [limbsOk_cons]
          exact ⟨by omega, a⟩
        · rw [mag_cons, mag_cons, mag_cons, b]
          omega
      · obtain ⟨r, hr, a, b, l⟩ := ih ys 0 hx.2 hy.2 (by omega) (by omega) hlen (by omega)
        refine ⟨(x - (y + c)) :: r, ?_, ?_, ?_, by simp [l]⟩
        · simp [subLoopGe, hv, hr]
        · rw [limbsOk_cons]
          exact ⟨by omega, a⟩
        · rw [mag_cons, mag_cons, mag_cons, b]
          omega

theorem mulShortLoop_spec (k : Int) (hk0 : 0 ≤ k) (hk : k ≤ 99) (xs : List Int) (c : Int)
    (hx : LimbsOk xs) (h0 : 0 ≤ c) (h1 : c ≤ 99) :
    LimbsOk (mulShortLoop k xs c) ∧ mag (mulShortLoop k xs c) = mag xs * k + c ∧
      xs.length ≤ (mulShortLoop k xs c).length := by
  induction xs generalizing c with
  | nil =>
    obtain ⟨a, b, -, -⟩ := carryLoop_spec c.toNat c h0 (le_refl _)
    simp only [mulShortLoop, mag, zero_mul, zero_add, List.length_nil, Nat.zero_le, and_true]
    exact ⟨a, b⟩
  | cons x xs ih =>
    rw [limbsOk_cons] at hx
    have hp0 : 0 ≤ x * k := mul_nonneg hx.1.1 hk0
    have hp1 : x * k ≤ 99 * 99 := mul_le_mul (by omega) hk hk0 (by omega)
    simp only [mulShortLoop]
    rw [tmod_base (by omega), tdiv_base (by omega)]
    obtain ⟨a, b, l⟩ := ih ((x * k + c) / 100) hx.2 (by omega) (by omega)
    refine ⟨?_, ?_, ?_⟩
    · rw [limbsOk_cons]
      exact ⟨by omega, a⟩
    · rw [mag_cons, mag_cons, b]
      have : (x + 100 * mag xs) * k = x * k + 100 * (mag xs * k) := by ring
      rw [this]
      omega
    · simp only [List.length_cons]
      omega

theorem eqLoop_iff (xs ys : List Int) (hlen : xs.length = ys.length) :
    eqLoop xs ys = true ↔ xs = ys := by
  induction xs generalizing ys with
  | nil =>
    cases ys with
    | nil => simp [eqLoop]
    | cons y ys => simp at hlen
  | cons x xs ih =>
    cases ys with
    | nil => simp at hlen
    | cons y ys =>
      simp only [List.length_cons, add_left_inj] at hlen
      by_cases hxy : x = y
      · subst hxy
        simp [eqLoop, ih ys hlen]
      · simp [eqLoop, hxy]

theorem mag_reverse_cons (x : Int) (xs : List Int) :
    mag (x :: xs).reverse = mag xs.reverse + 100 ^ xs.length * x := by
  rw [List.reverse_cons, mag_append, List.length_reverse]
  simp [mag]

theorem limbsOk_reverse {xs : List Int} : LimbsOk xs.reverse ↔ LimbsOk xs := by
  unfold LimbsOk
  simp only [List.mem_reverse]

/-- On two buffers of equal length, listed from the top, the comparison loop
decides the order of the magnitudes. -/
theorem lessFromTop_iff (xs ys : List Int) (hlen : xs.length = ys.length)
    (hx : LimbsOk xs) (hy : LimbsOk ys) :
    lessFromTop xs ys = true ↔ mag xs.reverse < mag ys.reverse := by
  induction xs generalizing ys with
  | nil =>
    cases ys with
    | nil => simp [lessFromTop]
    | cons y ys => simp at hlen
  | cons x xs ih =>
    cases ys with
    | nil => simp at hlen
    | cons y ys =>
      simp only [List.length_cons, add_left_inj] at hlen
      rw [limbsOk_cons] at hx hy
      rw [mag_reverse_cons, mag_reverse_cons, hlen]
      have hxm := mag_lt_pow (limbsOk_reverse.2 hx.2)
      have hym := mag_lt_pow (limbsOk_reverse.2 hy.2)
      have hxn := mag_nonneg (limbsOk_reverse.2 hx.2)
      have hyn := mag_nonneg (limbsOk_reverse.2 hy.2)
      rw [List.length_reverse] at hxm hym
      rw [hlen] at hxm
      have hp : (0 : Int) < 100 ^ ys.length := by positivity
      by_cases hxy : x = y
      · subst hxy
        simp only [lessFromTop, ne_eq, not_true_eq_false, if_false, ih ys hlen hx.2 hy.2]
        omega
      · simp only [lessFromTop, ne_eq, hxy, not_false_eq_true, if_true, decide_eq_true_eq]
        constructor
        · intro hlt
          have : (100 : Int) ^ ys.length * (x + 1) ≤ 100 ^ ys.length * y :=
            mul_le_mul_of_nonneg_left (by omega) (le_of_lt hp)
          rw [mul_add, mul_one] at this
          omega
        · intro hlt
          by_contra hge
          have hyx : y + 1 ≤ x := by omega
          have : (100 : Int) ^ ys.length * (y + 1) ≤ 100 ^ ys.length * x :=
            mul_le_mul_of_nonneg_left hyx (le_of_lt hp)
          rw [mul_add, mul_one] at this
          omega

/-- The binary search, for a test that is downward closed: it returns, with
the fuel given, the least `d` of `[left, right]` at which the test fails, or
`right` when there is none below `right`. -/
theorem searchLoop_spec (test : Int → Bool) (bound : Int)
    (hmono : ∀ m n : Int, 0 ≤ m → m ≤ n → n ≤ bound → test n = true → test m = true)
    (fuel : Nat) (left right : Int) (hl0 : 0 ≤ left) (hlr : left ≤ right)
    (hrb : right ≤ bound) (hf : (right - left).toNat < fuel)
    (hbelow : ∀ m, 0 ≤ m → m < left → test m = true) :
    ∃ d, searchLoop test fuel left right = some d ∧ left ≤ d ∧ d ≤ right ∧
      (∀ m, 0 ≤ m → m < d → test m = true) ∧ (d < right → test d = false) := by
  induction fuel generalizing left right with
  | zero => omega
  | succ n ih =>
    unfold searchLoop
    split
    · next hlt =>
      have hmid : Int.tdiv (left + right) 2 = (left + right) / 2 :=
        Int.tdiv_eq_ediv (by omega) (by decide)
      simp only [hmid]
      split
      · next ht =>
        obtain ⟨d, hd, h1, h2, h3, h4⟩ := ih ((left + right) / 2 + 1) right (by omega)
          (by omega) hrb (by omega) (by
            intro m hm0 hm
            exact hmono m ((left + right) / 2) hm0 (by omega) (by omega) ht)
        exact ⟨d, hd, by omega, h2, h3, h4⟩
      · next ht =>
        obtain ⟨d, hd, h1, h2, h3, h4⟩ := ih left ((left + right) / 2) hl0
          (by omega) (by omega) (by omega) hbelow
        refine ⟨d, hd, h1, by omega, h3, fun _ => ?_⟩
        by_cases hdm : d < (left + right) / 2
        · exact h4 hdm
        · have : d = (left + right) / 2 := by omega
          rw [this]
          simpa using ht
    · next hge =>
      have : left = right := by omega
      subst this
      exact ⟨left, rfl, le_refl _, le_refl _, hbelow, fun h => absurd h (lt_irrefl _)⟩

theorem sizeLoop_spec (max_size fuel size : Nat) (h1 : 1 ≤ size)
    (hf : max_size - size < fuel) :
    ∃ s, sizeLoop max_size fuel size = some s ∧ max_size ≤ s := by
  induction fuel generalizing size with
  | zero => omega
  | succ n ih =>
    unfold sizeLoop
    split
    · exact ih (size * 2) (by omega) (by omega)
    · exact ⟨size, rfl, by omega⟩

theorem transformSize_spec (la lb : Nat) :
    ∃ s, transformSize la lb = some s ∧ 2 * max la lb ≤ s := by
  obtain ⟨s, hs, hle⟩ := sizeLoop_spec (max la lb) (max la lb + 1) 1 (le_refl _) (by omega)
  exact ⟨s * 2, by simp [transformSize, hs], by omega⟩

end Limbs

namespace Limbs

theorem allNonneg_cons {k : Int} {ks : List Int} :
    AllNonneg (k :: ks) ↔ 0 ≤ k ∧ AllNonneg ks := by
  unfold AllNonneg
  simp only [List.mem_cons, forall_eq_or_imp]

theorem allNonneg_of_limbsOk {xs : List Int} (h : LimbsOk xs) : AllNonneg xs :=
  fun x hx => (h x hx).1

theorem mag_addCoeffs (xs ys : List Int) : mag (addCoeffs xs ys) = mag xs + mag ys := by
  induction xs generalizing ys with
  | nil => simp [addCoeffs, mag]
  | cons x xs ih =>
    cases ys with
    | nil => simp [addCoeffs, mag]
    | cons y ys =>
      simp only [addCoeffs, mag_cons, ih]
      ring

theorem allNonneg_addCoeffs {xs ys : List Int} (hx : AllNonneg xs) (hy : AllNonneg ys) :
    AllNonneg (addCoeffs xs ys) := by
  induction xs generalizing ys with
  | nil => simpa [addCoeffs] using hy
  | cons x xs ih =>
    cases ys with
    | nil => simpa [addCoeffs] using hx
    | cons y ys =>
      rw [allNonneg_cons] at hx hy
      simp only [addCoeffs]
      rw [allNonneg_cons]
      exact ⟨by omega, ih hx.2 hy.2⟩

theorem length_addCoeffs (xs ys : List Int) :
    (addCoeffs xs ys).length = max xs.length ys.length := by
  induction xs generalizing ys with
  | nil => simp [addCoeffs]
  | cons x xs ih =>
    cases ys with
    | nil => simp [addCoeffs]
    | cons y ys =>
      simp only [addCoeffs, List.length_cons, ih]
      omega

theorem mag_map_mul (x : Int) (ys : List Int) :
    mag (ys.map (fun y => x * y)) = x * mag ys := by
  induction ys with
  | nil => simp [mag]
  | cons y ys ih =>
    simp only [List.map_cons, mag_cons, ih]
    ring

theorem allNonneg_map_mul {x : Int} {ys : List Int} (hx : 0 ≤ x) (hy : AllNonneg ys) :
    AllNonneg (ys.map (fun y => x * y)) := by
  intro k hk
  rw [List.mem_map] at hk
  obtain ⟨y, hy1, rfl⟩ := hk
  exact mul_nonneg hx (hy y hy1)

/-- The product coefficients evaluate, at the base, to the product of the two
magnitudes. -/
theorem mag_convolve (xs ys : List Int) : mag (convolve xs ys) = mag xs * mag ys := by
  induction xs with
  | nil => simp [convolve, mag]
  | cons x xs ih =>
    simp only [convolve, mag_addCoeffs, mag_map_mul, mag_cons, ih]
    ring

theorem allNonneg_convolve {xs ys : List Int} (hx : AllNonneg xs) (hy : AllNonneg ys) :
    AllNonneg (convolve xs ys) := by
  induction xs with
  | nil =>
    intro k hk
    cases hk
  | cons x xs ih =>
    rw [allNonneg_cons] at hx
    simp only [convolve]
    apply allNonneg_addCoeffs (allNonneg_map_mul hx.1 hy)
    rw [allNonneg_cons]
    exact ⟨le_refl _, ih hx.2⟩

theorem length_convolve_le (xs ys : List Int) :
    (convolve xs ys).length ≤ xs.length + ys.length := by
  induction xs with
  | nil => simp [convolve]
  | cons x xs ih =>
    simp only [convolve, length_addCoeffs, List.length_map, List.length_cons]
    omega

theorem mag_replicate_zero (n : Nat) : mag (List.replicate n 0) = 0 := by
  induction n with
  | zero => rfl
  | succ n ih => simp [List.replicate_succ, mag_cons, ih]

theorem roundedCoeffs_spec (xs ys : List Int) (size : Nat)
    (hx : AllNonneg xs) (hy : AllNonneg ys) (hsize : xs.length + ys.length ≤ size) :
    mag (roundedCoeffs xs ys size) = mag xs * mag ys ∧
      AllNonneg (roundedCoeffs xs ys size) ∧ (roundedCoeffs xs ys size).length = size := by
  have hlen := length_convolve_le xs ys
  have hform : roundedCoeffs xs ys size =
      convolve xs ys ++ List.replicate (size - (convolve xs ys).length) 0 := by
    unfold roundedCoeffs
    rw [List.take_append_eq_append_take, List.take_of_length_le (by omega),
      List.take_replicate]
    congr 2
    omega
  rw [hform]
  refine ⟨?_, ?_, ?_⟩
  · rw [mag_append, mag_replicate_zero, mag_convolve]
    ring
  · intro k hk
    rw [List.mem_append] at hk
    rcases hk with hk | hk
    · exact allNonneg_convolve hx hy k hk
    · rw [List.mem_replicate] at hk
      omega
  · simp only [List.length_append, List.length_replicate]
    omega

theorem mulCarryLoop_spec (ks xs : List Int) (c : Int) (hk : AllNonneg ks) (h0 : 0 ≤ c)
    (hlen : xs.length ≤ ks.length) :
    LimbsOk (mulCarryLoop ks xs c) ∧ mag (mulCarryLoop ks xs c) = mag ks + c ∧
      ks.length ≤ (mulCarryLoop ks xs c).length := by
  induction ks generalizing xs c with
  | nil =>
    have hxs : xs = [] := List.length_eq_zero.1 (by simpa using hlen)
    subst hxs
    obtain ⟨a, b, -, -⟩ := carryLoop_spec c.toNat c h0 (le_refl _)
    simp only [mulCarryLoop, List.nil_append, mag, zero_add, List.length_nil, Nat.zero_le,
      and_true]
    exact ⟨a, b⟩
  | cons k ks ih =>
    rw [allNonneg_cons] at hk
    simp only [mulCarryLoop]
    rw [tmod_base (by omega), tdiv_base (by omega)]
    obtain ⟨a, b, l⟩ := ih xs.tail ((k + c) / 100) hk.2 (by omega) (by
      simp only [List.length_tail]
      simp only [List.length_cons] at hlen
      omega)
    refine ⟨?_, ?_, ?_⟩
    · rw [limbsOk_cons]
      exact ⟨by omega, a⟩
    · rw [mag_cons, mag_cons, b]
      omega
    · simp only [List.length_cons]
      omega

/-- Two canonical buffers with limbs in range that denote the same integer are
equal. -/
theorem eq_of_mag_eq : ∀ {xs ys : List Int}, LimbsOk xs → LimbsOk ys →
    xs.length = ys.length → mag xs = mag ys → xs = ys
  | [], [], _, _, _, _ => rfl
  | [], _ :: _, _, _, h, _ => by simp at h
  | _ :: _, [], _, _, h, _ => by simp at h
  | x :: xs, y :: ys, hx, hy, hlen, h => by
    rw [limbsOk_cons] at hx hy
    simp only [List.length_cons, add_left_inj] at hlen
    simp only [mag_cons] at h
    have hxy : x = y := by omega
    have hm : mag xs = mag ys := by omega
    rw [hxy, eq_of_mag_eq hx.2 hy.2 hlen hm]

/-- For canonical buffers with limbs in range a shorter buffer denotes a
smaller integer. -/
theorem mag_lt_of_length_lt {xs ys : List Int} (hx : LimbsOk xs) (hy : LimbsOk ys)
    (hne : xs ≠ []) (hcy : Canonical ys) (hlen : xs.length < ys.length) :
    mag xs < mag ys := by
  have h1 := mag_lt_pow hx
  have hy0 : ys ≠ [0] := by
    rintro rfl
    simp only [List.length_singleton, Nat.lt_one_iff, List.length_eq_zero] at hlen
    exact hne hlen
  have h2 := pow_le_mag hy hcy hy0
  have h3 : (100 : Int) ^ xs.length ≤ 100 ^ (ys.length - 1) :=
    pow_le_pow_right₀ (by decide) (by omega)
  omega

theorem length_eq_of_mag_eq {xs ys : List Int} (hx : LimbsOk xs) (hy : LimbsOk ys)
    (hcx : Canonical xs) (hcy : Canonical ys) (h : mag xs = mag ys) :
    xs.length = ys.length := by
  rcases Nat.lt_trichotomy xs.length ys.length with hlt | heq | hgt
  · have := mag_lt_of_length_lt hx hy hcx.1 hcy hlt
    omega
  · exact heq
  · have := mag_lt_of_length_lt hy hx hcy.1 hcx hgt
    omega

theorem canonical_eq_of_mag_eq {xs ys : List Int} (hx : LimbsOk xs) (hy : LimbsOk ys)
    (hcx : Canonical xs) (hcy : Canonical ys) (h : mag xs = mag ys) : xs = ys :=
  eq_of_mag_eq hx hy (length_eq_of_mag_eq hx hy hcx hcy h) h

end Limbs

/-! ## The integer operations of `src/matrix/biginteger.h` -/

namespace BigintegerH

namespace BigInteger

open Limbs

theorem single_zero_iff (xs : List Int) :
    (xs.length = 1 ∧ xs.head? = some 0) ↔ xs = [0] := by
  constructor
  · rintro ⟨h1, h2⟩
    match xs, h1, h2 with
    | [x], _, h2 =>
      simp only [List.head?_cons, Option.some.injEq] at h2
      rw [h2]
  · rintro rfl
    exact ⟨rfl, rfl⟩

theorem eq_iff (a b : BigInteger) : eq a b = true ↔ a = b := by
  cases a with
  | mk ba sa =>
    cases b with
    | mk bb sb =>
      unfold eq
      simp only [mk.injEq]
      split
      · next h =>
        simp only [Bool.false_eq_true, false_iff, not_and]
        intro hb hs
        rcases h with h | h
        · exact h hs
        · exact h (by rw [hb])
      · next h =>
        simp only [not_or, not_not] at h
        rw [eqLoop_iff _ _ h.2]
        exact ⟨fun hb => ⟨hb, h.1⟩, fun hb => hb.1⟩

theorem normalize_buffer (a : BigInteger) : (normalize a).buffer_ = normalizeBuf a.buffer_ := rfl

theorem normalize_sign (a : BigInteger) :
    (normalize a).sign_ = if normalizeBuf a.buffer_ = [0] then 1 else a.sign_ := by
  unfold normalize
  simp only [single_zero_iff]

/-- The method `normalize` yields a well-formed value with the integer value
unchanged, from any non-empty buffer with limbs in range. -/
theorem normalize_spec (a : BigInteger) (hs : a.sign_ = 1 ∨ a.sign_ = -1)
    (hl : LimbsOk a.buffer_) (hne : a.buffer_ ≠ []) :
    WellFormed (normalize a) ∧ val (normalize a) = val a ∧
      mag (normalize a).buffer_ = mag a.buffer_ ∧
      ((normalize a).sign_ = a.sign_ ∨ mag a.buffer_ = 0) := by
  have hm := normalizeBuf_mag a.buffer_
  have hc := normalizeBuf_canonical hne
  have hlo := normalizeBuf_limbsOk hl
  by_cases hz : normalizeBuf a.buffer_ = [0]
  · have hm0 : mag a.buffer_ = 0 := by rw [← hm, hz]; rfl
    refine ⟨⟨?_, ?_, ?_, ?_⟩, ?_, hm, Or.inr hm0⟩
    · rw [normalize_sign, if_pos hz]; exact Or.inl rfl
    · exact hlo
    · exact hc
    · intro _; rw [normalize_sign, if_pos hz]
    · unfold val
      rw [normalize_buffer, hm, hm0, mul_zero, mul_zero]
  · refine ⟨⟨?_, ?_, ?_, ?_⟩, ?_, hm, Or.inl ?_⟩
    · rw [normalize_sign, if_neg hz]; exact hs
    · exact hlo
    · exact hc
    · intro h; exact absurd h hz
    · unfold val
      rw [normalize_buffer, normalize_sign, if_neg hz, hm]
    · rw [normalize_sign, if_neg hz]

theorem normalize_of_wf {a : BigInteger} (h : WellFormed a) : normalize a = a := by
  obtain ⟨hs, hl, hc, hz⟩ := h
  cases a with
  | mk b s =>
    simp only at hs hl hc hz
    unfold normalize
    simp only [normalizeBuf_of_canonical hc, single_zero_iff, mk.injEq, true_and]
    split
    · next h0 => exact (hz h0).symm
    · rfl

theorem val_eq_zero_iff {a : BigInteger} (h : WellFormed a) : val a = 0 ↔ a = zero := by
  obtain ⟨hs, hl, hc, hz⟩ := h
  constructor
  · intro hv
    have hm : mag a.buffer_ = 0 := by
      unfold val at hv
      rcases hs with hs | hs <;> rw [hs] at hv <;> omega
    have hb := eq_zero_of_mag_eq_zero hl hc hm
    cases a with
    | mk b s =>
      simp only at hb hz
      subst hb
      simp only [zero, mk.injEq, true_and]
      exact hz rfl
  · rintro rfl
    rfl

/-- Well-formed values are determined by the integer they denote. -/
theorem eq_of_val_eq {a b : BigInteger} (ha : WellFormed a) (hb : WellFormed b)
    (h : val a = val b) : a = b := by
  by_cases h0 : val a = 0
  · rw [(val_eq_zero_iff ha).1 h0, (val_eq_zero_iff hb).1 (h ▸ h0)]
  · obtain ⟨hsa, hla, hca, -⟩ := ha
    obtain ⟨hsb, hlb, hcb, -⟩ := hb
    have hna := mag_nonneg hla
    have hnb := mag_nonneg hlb
    unfold val at h h0
    have hsm : a.sign_ = b.sign_ ∧ mag a.buffer_ = mag b.buffer_ := by
      rcases hsa with hsa | hsa <;> rcases hsb with hsb | hsb <;>
        rw [hsa] at h h0 <;> rw [hsb] at h <;> rw [hsa, hsb] <;>
        constructor <;> omega
    have hbuf := canonical_eq_of_mag_eq hla hlb hca hcb hsm.2
    cases a
    cases b
    simp only at hbuf hsm
    simp only [mk.injEq]
    exact ⟨hbuf, hsm.1⟩

/-- The method `less_abs` compares the magnitudes. -/
theorem less_abs_iff (a b : BigInteger) (hla : LimbsOk a.buffer_) (hca : Canonical a.buffer_)
    (hlb : LimbsOk b.buffer_) (hcb : Canonical b.buffer_) :
    less_abs a b = true ↔ mag a.buffer_ < mag b.buffer_ := by
  unfold less_abs
  split
  · next h =>
    rw [eq_iff] at h
    subst h
    simp
  · split
    · next _ hlen =>
      rw [decide_eq_true_eq]
      constructor
      · intro hlt
        exact mag_lt_of_length_lt hla hlb hca.1 hcb hlt
      · intro hlt
        by_contra hge
        have := mag_lt_of_length_lt hlb hla hcb.1 hca (by omega)
        omega
    · next _ hlen =>
      simp only [ne_eq, not_not] at hlen
      rw [lessFromTop_iff _ _ (by simp [hlen]) (limbsOk_reverse.2 hla) (limbsOk_reverse.2 hlb),
        List.reverse_reverse, List.reverse_reverse]

theorem ne_nil_of_length_le {xs ys : List Int} (h : xs.length ≤ ys.length) (hne : xs ≠ []) :
    ys ≠ [] := by
  rintro rfl
  simp only [List.length_nil, Nat.le_zero_eq, List.length_eq_zero] at h
  exact hne h

theorem add_abs_spec (a b : BigInteger) (hs : a.sign_ = 1 ∨ a.sign_ = -1)
    (hla : LimbsOk a.buffer_) (hna : a.buffer_ ≠ []) (hlb : LimbsOk b.buffer_) :
    WellFormed (add_abs a b) ∧ val (add_abs a b) = a.sign_ * (mag a.buffer_ + mag b.buffer_) := by
  obtain ⟨h1, h2, h3⟩ := addLoop_spec a.buffer_ b.buffer_ 0 hla hlb (le_refl _) (by decide)
  obtain ⟨w, v, -, -⟩ := normalize_spec ⟨addLoop a.buffer_ b.buffer_ 0, a.sign_⟩ hs h1
    (ne_nil_of_length_le h3 hna)
  refine ⟨w, ?_⟩
  unfold add_abs
  rw [v]
  unfold val
  simp only [h2, add_zero]

/-- The method `sub_abs` of `src/matrix/biginteger.h` stays inside the buffer
and leaves the difference of the magnitudes. -/
theorem sub_abs_spec (a b : BigInteger) (hs : a.sign_ = 1 ∨ a.sign_ = -1)
    (hla : LimbsOk a.buffer_) (hca : Canonical a.buffer_)
    (hlb : LimbsOk b.buffer_) (hcb : Canonical b.buffer_) :
    ∃ r, sub_abs a b = some r ∧ WellFormed r ∧
      val r = a.sign_ * |mag a.buffer_ - mag b.buffer_| ∧
      mag r.buffer_ = |mag a.buffer_ - mag b.buffer_| := by
  have hless := less_abs_iff a b hla hca hlb hcb
  unfold sub_abs
  by_cases hlt : less_abs a b = true
  · have hm := hless.1 hlt
    have hlen : a.buffer_.length ≤ b.buffer_.length := by
      by_contra hc
      have := mag_lt_of_length_lt hlb hla hcb.1 hca (by omega)
      omega
    obtain ⟨h1, h2, h3⟩ := subLoopLess_spec a.buffer_ b.buffer_ 0 hla hlb (le_refl _)
      (by decide) hlen (by omega)
    obtain ⟨w, v, m, -⟩ := normalize_spec ⟨subLoopLess a.buffer_ b.buffer_ 0, a.sign_⟩ hs h1
      (by
        intro h0
        simp only at h0
        rw [h0] at h3
        exact hcb.1 (List.length_eq_zero.1 h3.symm))
    rw [if_pos hlt]
    refine ⟨_, rfl, w, ?_, ?_⟩
    · rw [v]
      unfold val
      simp only [h2, sub_zero]
      rw [abs_of_neg (by omega)]
      ring
    · rw [m]
      simp only [h2, sub_zero]
      rw [abs_of_neg (by omega)]
      ring
  · have hm : mag b.buffer_ ≤ mag a.buffer_ := by
      by_contra hc
      exact hlt (hless.2 (by omega))
    have hlen : b.buffer_.length ≤ a.buffer_.length := by
      by_contra hc
      have := mag_lt_of_length_lt hla hlb hca.1 hcb (by omega)
      omega
    obtain ⟨r, hr, h1, h2, h3⟩ := subLoopGe_spec a.buffer_ b.buffer_ 0 hla hlb (le_refl _)
      (by decide) hlen (by omega)
    obtain ⟨w, v, m, -⟩ := normalize_spec ⟨r, a.sign_⟩ hs h1
      (by
        intro h0
        simp only at h0
        rw [h0] at h3
        exact hca.1 (List.length_eq_zero.1 h3.symm))
    rw [if_neg hlt, hr]
    refine ⟨_, rfl, w, ?_, ?_⟩
    · rw [v]
      unfold val
      simp only [h2, sub_zero]
      rw [abs_of_nonneg (by omega)]
    · rw [m]
      simp only [h2, sub_zero]
      rw [abs_of_nonneg (by omega)]

/-- The sum or difference of two signed magnitudes, as `operator+=` and
`operator-=` compute it once the sign `t` of the second operand is fixed. -/
theorem signed_sum_spec (a b : BigInteger) (ha : WellFormed a) (hb : WellFormed b) (t : Int)
    (ht : t = 1 ∨ t = -1) :
    ∃ r, (if a.sign_ = t then some (normalize (add_abs a b))
          else (sub_abs (if less_abs a b then ⟨a.buffer_, a.sign_ * -1⟩ else a) b).map
            normalize) = some r ∧
      WellFormed r ∧ val r = val a + t * mag b.buffer_ := by
  obtain ⟨hsa, hla, hca, -⟩ := ha
  obtain ⟨hsb, hlb, hcb, -⟩ := hb
  by_cases hst : a.sign_ = t
  · obtain ⟨w, v⟩ := add_abs_spec a b hsa hla hca.1 hlb
    rw [if_pos hst, normalize_of_wf w]
    refine ⟨_, rfl, w, ?_⟩
    rw [v, ← hst]
    unfold val
    ring
  · rw [if_neg hst]
    have hless := less_abs_iff a b hla hca hlb hcb
    by_cases hlt : less_abs a b = true
    · have hm := hless.1 hlt
      obtain ⟨r, hr, w, v, -⟩ := sub_abs_spec ⟨a.buffer_, a.sign_ * -1⟩ b
        (by rcases hsa with h | h <;> simp [h]) hla hca hlb hcb
      rw [if_pos hlt, hr]
      refine ⟨r, by simp [normalize_of_wf w], w, ?_⟩
      rw [v]
      simp only
      rw [abs_of_neg (by omega)]
      unfold val
      have : t = -a.sign_ := by
        rcases hsa with h | h <;> rcases ht with h2 | h2 <;> rw [h, h2] at hst ⊢ <;> simp at hst ⊢
      rw [this]
      ring
    · have hm : mag b.buffer_ ≤ mag a.buffer_ := by
        by_contra hc
        exact hlt (hless.2 (by omega))
      obtain ⟨r, hr, w, v, -⟩ := sub_abs_spec a b hsa hla hca hlb hcb
      simp only [hlt, Bool.false_eq_true, if_false, hr]
      refine ⟨r, by simp [normalize_of_wf w], w, ?_⟩
      rw [v, abs_of_nonneg (by omega)]
      unfold val
      have : t = -a.sign_ := by
        rcases hsa with h | h <;> rcases ht with h2 | h2 <;> rw [h, h2] at hst ⊢ <;> simp at hst ⊢
      rw [this]
      ring

/-- The compound assignment `operator+=` returns the well-formed sum. -/
theorem iadd_spec (a b : BigInteger) (ha : WellFormed a) (hb : WellFormed b) :
    ∃ r, iadd a b = some r ∧ WellFormed r ∧ val r = val a + val b := by
  obtain ⟨r, hr, w, v⟩ := signed_sum_spec a b ha hb b.sign_ hb.1
  exact ⟨r, hr, w, v⟩

/-- The compound assignment `operator-=` returns the well-formed difference. -/
theorem isub_spec (a b : BigInteger) (ha : WellFormed a) (hb : WellFormed b) :
    ∃ r, isub a b = some r ∧ WellFormed r ∧ val r = val a - val b := by
  obtain ⟨r, hr, w, v⟩ := signed_sum_spec a b ha hb (-b.sign_)
    (by rcases hb.1 with h | h <;> simp [h])
  refine ⟨r, ?_, w, ?_⟩
  · rw [← hr]
    unfold isub
    have hiff : a.sign_ ≠ b.sign_ ↔ a.sign_ = -b.sign_ := by
      rcases ha.1 with h | h <;> rcases hb.1 with h2 | h2 <;> simp [h, h2]
    by_cases hc : a.sign_ = -b.sign_
    · rw [if_pos hc, if_pos (hiff.2 hc)]
    · rw [if_neg hc, if_neg (fun h => hc (hiff.1 h))]
  · rw [v]
    unfold val
    ring

theorem neg_spec (a : BigInteger) (ha : WellFormed a) :
    WellFormed (neg a) ∧ val (neg a) = - val a := by
  obtain ⟨hsa, hla, hca, -⟩ := ha
  obtain ⟨w, v, -, -⟩ := normalize_spec ⟨a.buffer_, a.sign_ * -1⟩
    (by rcases hsa with h | h <;> simp [h]) hla hca.1
  refine ⟨w, ?_⟩
  unfold neg
  rw [v]
  unfold val
  ring

end BigInteger

end BigintegerH

namespace BigintegerH

namespace BigInteger

open Limbs

theorem multiply_short_spec (b : BigInteger) (hs : b.sign_ = 1 ∨ b.sign_ = -1)
    (hl : LimbsOk b.buffer_) (hne : b.buffer_ ≠ []) (k : Int) (hk0 : 0 ≤ k) (hk : k ≤ 99) :
    WellFormed (multiply_short b k) ∧
      mag (multiply_short b k).buffer_ = mag b.buffer_ * k := by
  obtain ⟨h1, h2, h3⟩ := mulShortLoop_spec k hk0 hk b.buffer_ 0 hl (le_refl _) (by decide)
  obtain ⟨w, -, m, -⟩ := normalize_spec ⟨mulShortLoop k b.buffer_ 0, b.sign_⟩ hs h1
    (ne_nil_of_length_le h3 hne)
  refine ⟨w, ?_⟩
  unfold multiply_short
  rw [m]
  simp only [h2, add_zero]

theorem shift_setLimb0_spec (cur : BigInteger) (hl : LimbsOk cur.buffer_)
    (hc : Canonical cur.buffer_) (x : Int) (hx : 0 ≤ x ∧ x < 100) :
    ∃ c1, setLimb0 (shift cur) x = some c1 ∧ c1.sign_ = cur.sign_ ∧ LimbsOk c1.buffer_ ∧
      Canonical c1.buffer_ ∧ mag c1.buffer_ = x + 100 * mag cur.buffer_ := by
  by_cases h0 : cur.buffer_ = [0]
  · refine ⟨⟨[x], cur.sign_⟩, ?_, rfl, ?_, ?_, ?_⟩
    · simp [setLimb0, shift, shiftBuf, h0]
    · exact limbsOk_cons.2 ⟨hx, limbsOk_nil⟩
    · refine ⟨by simp, fun h => ?_⟩
      simp only [List.getLast?_singleton, Option.some.injEq] at h
      rw [h]
    · simp [h0, mag]
  · refine ⟨⟨x :: cur.buffer_, cur.sign_⟩, ?_, rfl, ?_, ?_, ?_⟩
    · have : ¬ (cur.buffer_.length = 1 ∧ cur.buffer_.head? = some 0) := by
        rw [single_zero_iff]
        exact h0
      simp [setLimb0, shift, shiftBuf, this]
    · exact limbsOk_cons.2 ⟨hx, hl⟩
    · refine ⟨by simp, fun h => ?_⟩
      obtain ⟨y, ys, hy⟩ := List.exists_cons_of_ne_nil hc.1
      simp only [hy, List.getLast?_cons_cons] at h
      rw [← hy] at h
      exact absurd (hc.2 h) h0
    · rfl

/-- The binary search and the decrement step of `operator/=` select the digit
`q` of `[0, 99]` with `|b| * q ≤ |current| < |b| * (q + 1)`. -/
theorem quotientDigit_spec (b cur : BigInteger) (hsb : b.sign_ = 1 ∨ b.sign_ = -1)
    (hlb : LimbsOk b.buffer_) (hcb : Canonical b.buffer_) (hpos : 0 < mag b.buffer_)
    (hlc : LimbsOk cur.buffer_) (hcc : Canonical cur.buffer_)
    (hlt : mag cur.buffer_ < 100 * mag b.buffer_) :
    ∃ q, quotientDigit b cur = some q ∧ 0 ≤ q ∧ q ≤ 99 ∧
      mag b.buffer_ * q ≤ mag cur.buffer_ ∧ mag cur.buffer_ < mag b.buffer_ * (q + 1) := by
  have htest : ∀ m : Int, 0 ≤ m → m ≤ 99 →
      (less_abs (multiply_short b m) cur = true ↔ mag b.buffer_ * m < mag cur.buffer_) := by
    intro m hm0 hm
    obtain ⟨w, hmag⟩ := multiply_short_spec b hsb hlb hcb.1 m hm0 hm
    rw [less_abs_iff _ _ w.2.1 w.2.2.1 hlc hcc, hmag]
  have hrev : ∀ m : Int, 0 ≤ m → m ≤ 99 →
      (less_abs cur (multiply_short b m) = true ↔ mag cur.buffer_ < mag b.buffer_ * m) := by
    intro m hm0 hm
    obtain ⟨w, hmag⟩ := multiply_short_spec b hsb hlb hcb.1 m hm0 hm
    rw [less_abs_iff _ _ hlc hcc w.2.1 w.2.2.1, hmag]
  obtain ⟨d, hd, hd0, hd99, hbelow, habove⟩ :=
    searchLoop_spec (fun middle => less_abs (multiply_short b middle) cur) 99
      (by
        intro m n hm0 hmn hn
        simp only
        rw [htest m hm0 (by omega), htest n (by omega) hn]
        intro h
        have : mag b.buffer_ * m ≤ mag b.buffer_ * n :=
          mul_le_mul_of_nonneg_left hmn (le_of_lt hpos)
        omega)
      base_.toNat 0 (base_ - 1) (le_refl _) (by decide) (by decide) (by decide)
      (by intro m h1 h2; omega)
  simp only [base_] at hd99
  unfold quotientDigit
  rw [hd]
  simp only [Option.map_some']
  by_cases hdec : less_abs cur (multiply_short b d) = true
  · rw [if_pos hdec]
    have h1 := (hrev d hd0 (by omega)).1 hdec
    have hd1 : 1 ≤ d := by
      by_contra hc
      have : d = 0 := by omega
      rw [this, mul_zero] at h1
      have := mag_nonneg hlc
      omega
    have h2 := (htest (d - 1) (by omega) (by omega)).1 (hbelow (d - 1) (by omega) (by omega))
    refine ⟨d - 1, rfl, by omega, by omega, le_of_lt h2, ?_⟩
    rw [sub_add_cancel]
    exact h1
  · rw [if_neg hdec]
    have h1 : mag b.buffer_ * d ≤ mag cur.buffer_ := by
      by_contra hc
      exact hdec ((hrev d hd0 (by omega)).2 (by omega))
    refine ⟨d, rfl, hd0, by omega, h1, ?_⟩
    rw [mul_add, mul_one]
    by_cases h99 : d < 99
    · have hf := habove (by simpa [base_] using h99)
      simp only at hf
      have : ¬ mag b.buffer_ * d < mag cur.buffer_ := by
        intro hc
        rw [(htest d hd0 (by omega)).2 hc] at hf
        exact Bool.noConfusion hf
      omega
    · have : d = 99 := by omega
      rw [this]
      omega

/-- The loop of `operator/=` is schoolbook long division: the quotient limbs
and the final `current` satisfy the division identity with a remainder below
the divisor. -/
theorem divLoop_spec (b : BigInteger) (hsb : b.sign_ = 1 ∨ b.sign_ = -1)
    (hlb : LimbsOk b.buffer_) (hcb : Canonical b.buffer_) (hpos : 0 < mag b.buffer_)
    (xs : List Int) (hx : LimbsOk xs) :
    ∃ cur q, divLoop b xs = some (cur, q) ∧ (cur.sign_ = 1 ∨ cur.sign_ = -1) ∧
      LimbsOk cur.buffer_ ∧ Canonical cur.buffer_ ∧ LimbsOk q ∧ q.length = xs.length ∧
      mag xs = mag q * mag b.buffer_ + mag cur.buffer_ ∧ mag cur.buffer_ < mag b.buffer_ := by
  induction xs with
  | nil =>
    refine ⟨zero, [], rfl, Or.inl rfl, ?_, ?_, limbsOk_nil, rfl, ?_, ?_⟩
    · simp only [zero]; decide
    · simp only [zero]; decide
    · simp [mag, zero]
    · simpa [mag, zero] using hpos
  | cons x xs ih =>
    rw [limbsOk_cons] at hx
    obtain ⟨cur, q, hdiv, hs, hl, hc, hq, hql, hval, hlt⟩ := ih hx.2
    obtain ⟨c1, hc1, hs1, hl1, hcc1, hm1⟩ := shift_setLimb0_spec cur hl hc x hx.1
    have hn := mag_nonneg hl
    obtain ⟨d, hd, hd0, hd99, hlow, hhigh⟩ := quotientDigit_spec b c1 hsb hlb hcb hpos hl1 hcc1
      (by rw [hm1]; omega)
    obtain ⟨wm, hmm⟩ := multiply_short_spec b hsb hlb hcb.1 d hd0 hd99
    obtain ⟨c2, hc2, w2, -, hm2⟩ := sub_abs_spec c1 (multiply_short b d) (hs1 ▸ hs) hl1 hcc1
      wm.2.1 wm.2.2.1
    rw [hmm, abs_of_nonneg (by omega)] at hm2
    refine ⟨c2, d :: q, ?_, w2.1, w2.2.1, w2.2.2.1, limbsOk_cons.2 ⟨⟨hd0, by omega⟩, hq⟩,
      by simp [hql], ?_, ?_⟩
    · simp only [divLoop, hdiv, hc1, hd, hc2]
    · rw [mag_cons, mag_cons, hm2, hm1, hval]
      ring
    · rw [hm2]
      rw [mul_add, mul_one] at hhigh
      omega

theorem tdiv_signed (s t m n : Int) (hs : s = 1 ∨ s = -1) (ht : t = 1 ∨ t = -1)
    (hm : 0 ≤ m) (hn : 0 ≤ n) : Int.tdiv (s * m) (t * n) = s * t * (m / n) := by
  rcases hs with rfl | rfl <;> rcases ht with rfl | rfl <;>
    simp only [one_mul, neg_mul, Int.neg_tdiv, Int.tdiv_neg, Int.tdiv_eq_ediv hm hn, neg_neg,
      mul_one, mul_neg]

/-- The compound assignment `operator/=` returns the well-formed quotient
truncated toward zero. -/
theorem idiv_spec (a b : BigInteger) (ha : WellFormed a) (hb : WellFormed b)
    (hb0 : val b ≠ 0) :
    ∃ r, idiv a b = some r ∧ WellFormed r ∧ val r = Int.tdiv (val a) (val b) ∧
      mag r.buffer_ = mag a.buffer_ / mag b.buffer_ ∧
      (r.sign_ = a.sign_ * b.sign_ ∨ mag r.buffer_ = 0) := by
  obtain ⟨hsa, hla, hca, -⟩ := ha
  obtain ⟨hsb, hlb, hcb, -⟩ := hb
  have hnb := mag_nonneg hlb
  have hna := mag_nonneg hla
  have hpos : 0 < mag b.buffer_ := by
    unfold val at hb0
    rcases hsb with h | h <;> rw [h] at hb0 <;> omega
  obtain ⟨cur, q, hdiv, -, hl, -, hq, hql, hval, hlt⟩ :=
    divLoop_spec b hsb hlb hcb hpos a.buffer_ hla
  have hcn := mag_nonneg hl
  have hquot : mag a.buffer_ / mag b.buffer_ = mag q := by
    have := (Int.ediv_emod_unique (a := mag a.buffer_) (r := mag cur.buffer_) (q := mag q)
      hpos).2 ⟨by rw [hval]; ring, hcn, hlt⟩
    exact this.1
  obtain ⟨w, v, m, sg⟩ := normalize_spec ⟨q, a.sign_ * b.sign_⟩
    (by rcases hsa with h | h <;> rcases hsb with h2 | h2 <;> simp [h, h2]) hq
    (by
      intro h0
      simp only at h0
      rw [h0] at hql
      exact hca.1 (List.length_eq_zero.1 hql.symm))
  refine ⟨_, by simp only [idiv, hdiv, Option.map_some'], w, ?_, ?_, ?_⟩
  · rw [v]
    unfold val
    rw [tdiv_signed _ _ _ _ hsa hsb hna hnb, hquot]
  · rw [m, hquot]
  · rw [m]
    exact sg

/-- The compound assignment `operator*=`, with exact rounded coefficients,
returns the well-formed product. -/
theorem imul_spec (a b : BigInteger) (ha : WellFormed a) (hb : WellFormed b) :
    ∃ r, imul a b = some r ∧ WellFormed r ∧ val r = val a * val b ∧
      mag r.buffer_ = mag a.buffer_ * mag b.buffer_ ∧
      (r.sign_ = a.sign_ * b.sign_ ∨ mag r.buffer_ = 0) := by
  obtain ⟨hsa, hla, hca, -⟩ := ha
  obtain ⟨hsb, hlb, hcb, -⟩ := hb
  obtain ⟨size, hsize, hle⟩ := transformSize_spec a.buffer_.length b.buffer_.length
  obtain ⟨h1, h2, h3⟩ := roundedCoeffs_spec a.buffer_ b.buffer_ size
    (allNonneg_of_limbsOk hla) (allNonneg_of_limbsOk hlb) (by omega)
  obtain ⟨k1, k2, k3⟩ := mulCarryLoop_spec (roundedCoeffs a.buffer_ b.buffer_ size) a.buffer_ 0
    h2 (le_refl _) (by omega)
  have hal : 0 < a.buffer_.length := List.length_pos.2 hca.1
  obtain ⟨w, v, m, sg⟩ := normalize_spec
    ⟨mulCarryLoop (roundedCoeffs a.buffer_ b.buffer_ size) a.buffer_ 0, a.sign_ * b.sign_⟩
    (by rcases hsa with h | h <;> rcases hsb with h2 | h2 <;> simp [h, h2]) k1
    (by
      intro h0
      simp only at h0
      rw [h0] at k3
      simp only [List.length_nil, Nat.le_zero_eq] at k3
      omega)
  simp only [k2, add_zero, h1] at v m sg
  refine ⟨_, by simp only [imul, hsize, Option.map_some'], w, ?_, m, ?_⟩
  · rw [v]
    unfold val
    simp only [k2, h1]
    ring
  · rw [m]
    exact sg

/-- The compound assignment `operator%=` returns the well-formed remainder of
the truncated division. -/
theorem imod_spec (a b : BigInteger) (ha : WellFormed a) (hb : WellFormed b)
    (hb0 : val b ≠ 0) :
    ∃ r, imod a b = some r ∧ WellFormed r ∧ val r = Int.tmod (val a) (val b) := by
  obtain ⟨q, hq, wq, vq, -, -⟩ := idiv_spec a b ha hb hb0
  obtain ⟨p, hp, wp, vp, -, -⟩ := imul_spec q b wq hb
  obtain ⟨r, hr, wr, vr⟩ := isub_spec a p ha wp
  refine ⟨r, ?_, wr, ?_⟩
  · simp only [imod, hq, hp, hr, Option.map_some', normalize_of_wf wr]
  · rw [vr, vp, vq, Int.tmod_def]
    ring

end BigInteger

end BigintegerH

namespace BigintegerH

namespace BigInteger

open Limbs

theorem abs32_of_gt {n : Int} (h : -2147483648 < n) (h2 : n ≤ 2147483647) : abs32 n = |n| := by
  unfold abs32
  split
  · next hn =>
    rw [abs_of_neg hn]
    omega
  · next hn =>
    rw [abs_of_nonneg (by omega)]

/-- The constructor from `int` yields the well-formed value denoting its
argument, for every `int` other than `INT_MIN`. -/
theorem ofInt_spec (n : Int) (h : -2147483648 < n) (h2 : n ≤ 2147483647) :
    WellFormed (ofInt n) ∧ val (ofInt n) = n := by
  have habs := abs32_of_gt h h2
  obtain ⟨c1, c2, c3, c4⟩ := carryLoop_spec (abs32 n).toNat (abs32 n)
    (by rw [habs]; exact abs_nonneg n) (le_refl _)
  unfold ofInt
  simp only
  by_cases hn : n = 0
  · subst hn
    decide
  · have hpos : 0 < abs32 n := by
      rw [habs]
      exact abs_pos.2 hn
    have hne := c4 hpos
    have hemp : (carryLoop (abs32 n).toNat (abs32 n)).isEmpty = false := by
      cases hcl : carryLoop (abs32 n).toNat (abs32 n) with
      | nil => exact absurd hcl hne
      | cons _ _ => rfl
    rw [hemp]
    simp only [Bool.false_eq_true, if_false]
    have hsign : (if n ≥ 0 then (1 : Int) else -1) = 1 ∨ (if n ≥ 0 then (1 : Int) else -1) = -1 := by
      split
      · exact Or.inl rfl
      · exact Or.inr rfl
    refine ⟨⟨hsign, c1, ⟨hne, fun hl => absurd hl c3⟩, ?_⟩, ?_⟩
    · intro hz
      simp only at hz
      rw [hz] at c3
      exact absurd rfl c3
    · unfold val
      simp only [c2]
      rw [habs]
      split
      · next hge => rw [abs_of_nonneg hge, one_mul]
      · next hlt => rw [abs_of_neg (by omega)]; ring

theorem ofInt_zero : ofInt 0 = zero := by decide

theorem mag_pos_of_sign_neg {a : BigInteger} (ha : WellFormed a) (hs : a.sign_ = -1) :
    0 < mag a.buffer_ := by
  obtain ⟨-, hl, hc, hz⟩ := ha
  have hn := mag_nonneg hl
  by_contra hc0
  have h0 : mag a.buffer_ = 0 := by omega
  have := hz (eq_zero_of_mag_eq_zero hl hc h0)
  rw [hs] at this
  exact absurd this (by decide)

theorem neg_sign_of_neg {a : BigInteger} (hs : a.sign_ = -1) : (neg a).sign_ = 1 := by
  unfold neg
  rw [normalize_sign]
  split
  · rfl
  · simp [hs]

/-- The comparison `operator<` decides the order of the integer values. -/
theorem lt_iff (a b : BigInteger) (ha : WellFormed a) (hb : WellFormed b) :
    lt a b = true ↔ val a < val b := by
  have hna := mag_nonneg ha.2.1
  have hnb := mag_nonneg hb.2.1
  unfold lt ltBody
  by_cases heq : eq a b = true
  · rw [if_pos heq]
    rw [eq_iff] at heq
    subst heq
    simp
  · rw [if_neg heq]
    have hne : val a ≠ val b := by
      intro hv
      exact heq ((eq_iff a b).2 (eq_of_val_eq ha hb hv))
    by_cases hboth : a.sign_ = -1 ∧ b.sign_ = -1
    · rw [if_pos hboth]
      obtain ⟨wa, va⟩ := neg_spec a ha
      obtain ⟨wb, vb⟩ := neg_spec b hb
      have sa := neg_sign_of_neg hboth.1
      have sb := neg_sign_of_neg hboth.2
      have heq2 : ¬ eq (neg b) (neg a) = true := by
        rw [eq_iff]
        intro h
        have := congrArg val h
        rw [va, vb] at this
        omega
      rw [if_neg heq2, if_neg (by rw [sb]; simp), if_neg (by rw [sb]; simp),
        if_neg (by rw [sa]; simp),
        less_abs_iff _ _ wb.2.1 wb.2.2.1 wa.2.1 wa.2.2.1]
      have ma : val (neg a) = mag (neg a).buffer_ := by unfold val; rw [sa, one_mul]
      have mb : val (neg b) = mag (neg b).buffer_ := by unfold val; rw [sb, one_mul]
      rw [← ma, ← mb, va, vb]
      omega
    · rw [if_neg hboth]
      by_cases hsa : a.sign_ = -1
      · rw [if_pos hsa]
        have hsb : b.sign_ = 1 := by
          rcases hb.1 with h | h
          · exact h
          · exact absurd ⟨hsa, h⟩ hboth
        have := mag_pos_of_sign_neg ha hsa
        unfold val
        rw [hsa, hsb]
        simp only [true_iff]
        omega
      · rw [if_neg hsa]
        have hsa1 : a.sign_ = 1 := by
          rcases ha.1 with h | h
          · exact h
          · exact absurd h hsa
        by_cases hsb : b.sign_ = -1
        · rw [if_pos hsb]
          have := mag_pos_of_sign_neg hb hsb
          unfold val
          rw [hsa1, hsb]
          simp only [Bool.false_eq_true, false_iff]
          omega
        · rw [if_neg hsb]
          have hsb1 : b.sign_ = 1 := by
            rcases hb.1 with h | h
            · exact h
            · exact absurd h hsb
          rw [less_abs_iff _ _ ha.2.1 ha.2.2.1 hb.2.1 hb.2.2.1]
          unfold val
          rw [hsa1, hsb1, one_mul, one_mul]

theorem abs_spec (a : BigInteger) (ha : WellFormed a) :
    WellFormed (abs a) ∧ val (abs a) = |val a| := by
  unfold abs
  have hz : WellFormed (ofInt 0) ∧ val (ofInt 0) = 0 := by decide
  by_cases hlt : lt a (ofInt 0) = true
  · rw [if_pos hlt]
    rw [lt_iff a _ ha hz.1, hz.2] at hlt
    obtain ⟨w, v⟩ := neg_spec a ha
    exact ⟨w, by rw [v, abs_of_neg hlt]⟩
  · rw [if_neg hlt]
    rw [lt_iff a _ ha hz.1, hz.2] at hlt
    exact ⟨ha, by rw [abs_of_nonneg (by omega)]⟩

theorem gcd_step (x y : Int) (hx : 0 ≤ x) (hy : 0 ≤ y) : Int.gcd x y = Int.gcd y (x % y) := by
  obtain ⟨a, rfl⟩ := Int.eq_ofNat_of_zero_le hx
  obtain ⟨b, rfl⟩ := Int.eq_ofNat_of_zero_le hy
  rw [← Int.natCast_mod, Int.gcd_natCast_natCast, Int.gcd_natCast_natCast, Nat.gcd_comm a b,
    Nat.gcd_rec b a, Nat.gcd_comm]

theorem ne_zero_iff {a : BigInteger} (ha : WellFormed a) :
    ne a (ofInt 0) = true ↔ val a ≠ 0 := by
  unfold ne
  rw [ofInt_zero, Bool.not_eq_true', ← Bool.not_eq_true, eq_iff, ← val_eq_zero_iff ha]

/-- The Euclidean loop `gcd` ends within `val right + 1` iterations and
returns the greatest common divisor of two non-negative values. -/
theorem gcd_spec (fuel : Nat) (left right : BigInteger) (hl : WellFormed left)
    (hr : WellFormed right) (hl0 : 0 ≤ val left) (hr0 : 0 ≤ val right)
    (hf : (val right).toNat < fuel) :
    ∃ g, gcd fuel left right = some g ∧ WellFormed g ∧
      val g = (Int.gcd (val left) (val right) : Int) := by
  induction fuel generalizing left right with
  | zero => omega
  | succ n ih =>
    unfold gcd
    by_cases hz : val right = 0
    · have : ¬ ne right (ofInt 0) = true := by
        rw [ne_zero_iff hr]
        exact fun h => h hz
      rw [if_neg this]
      refine ⟨left, rfl, hl, ?_⟩
      rw [hz, Int.gcd_zero_right, Int.natCast_natAbs, abs_of_nonneg hl0]
    · rw [if_pos ((ne_zero_iff hr).2 hz)]
      obtain ⟨r, hrm, wr, vr⟩ := imod_spec left right hl hr hz
      rw [Int.tmod_eq_emod hl0 hr0] at vr
      have hpos : 0 < val right := by omega
      have h1 : 0 ≤ val left % val right := Int.emod_nonneg _ hz
      have h2 : val left % val right < val right := Int.emod_lt_of_pos _ hpos
      obtain ⟨g, hg, wg, vg⟩ := ih right r hr wr hr0 (by rw [vr]; exact h1) (by rw [vr]; omega)
      refine ⟨g, by simp only [hrm, hg], wg, ?_⟩
      rw [vg, vr, gcd_step _ _ hl0 hr0]

end BigInteger

end BigintegerH

/-! ## `Rational` of `src/matrix/biginteger.h` -/

namespace BigintegerH

namespace Rational

open Limbs BigInteger

/-- The method `Rational::normalize` (Euclidean variant) reduces a fraction
with a positive denominator to lowest terms without changing its value. -/
theorem rational_normalize_spec (fuel : Nat) (r : Rational) (hn : WellFormed r.numerator_)
    (hd : WellFormed r.denominator_) (hpos : 0 < val r.denominator_)
    (hf : (val r.denominator_).toNat < fuel) :
    ∃ t, normalize fuel r = some t ∧ Invariant t ∧
      val t.numerator_ * val r.denominator_ = val r.numerator_ * val t.denominator_ := by
  obtain ⟨wa, va⟩ := abs_spec r.numerator_ hn
  obtain ⟨g, hg, wg, vg⟩ := gcd_spec fuel (abs r.numerator_) r.denominator_ wa hd
    (by rw [va]; exact abs_nonneg _) (le_of_lt hpos) hf
  have hgcd : Int.gcd (val (abs r.numerator_)) (val r.denominator_) =
      Int.gcd (val r.numerator_) (val r.denominator_) := by
    rw [va, Int.gcd_eq_natAbs, Int.gcd_eq_natAbs, Int.natAbs_abs]
  rw [hgcd] at vg
  have hgpos : 0 < Int.gcd (val r.numerator_) (val r.denominator_) :=
    Int.gcd_pos_of_ne_zero_right _ (ne_of_gt hpos)
  have hg0 : val g ≠ 0 := by rw [vg]; exact_mod_cast (ne_of_gt hgpos)
  have hdvn : val g ∣ val r.numerator_ := by rw [vg]; exact Int.gcd_dvd_left
  have hdvd : val g ∣ val r.denominator_ := by rw [vg]; exact Int.gcd_dvd_right
  obtain ⟨n1, hn1, wn1, vn1, -, -⟩ := BigInteger.idiv_spec r.numerator_ g hn wg hg0
  obtain ⟨d1, hd1, wd1, vd1, -, -⟩ := BigInteger.idiv_spec r.denominator_ g hd wg hg0
  rw [Int.tdiv_eq_ediv_of_dvd hdvn] at vn1
  rw [Int.tdiv_eq_ediv_of_dvd hdvd] at vd1
  refine ⟨⟨n1, d1⟩, by simp only [normalize, hg, hn1, hd1, Option.map_some'],
    ⟨wn1, wd1, ?_, ?_⟩, ?_⟩
  · simp only [vd1]
    exact Int.ediv_pos_of_pos_of_dvd hpos (by rw [vg]; exact Int.natCast_nonneg _) hdvd
  · simp only [vn1, vd1, vg]
    exact Int.gcd_div_gcd_div_gcd hgpos
  · simp only [vn1, vd1]
    obtain ⟨k, hk⟩ := hdvn
    obtain ⟨l, hl⟩ := hdvd
    rw [hk, hl, Int.mul_ediv_cancel_left _ hg0, Int.mul_ediv_cancel_left _ hg0]
    ring

theorem neg_invariant (s : Rational) (hs : Invariant s) : Invariant (neg s) := by
  obtain ⟨wn, wd, hpos, hg⟩ := hs
  obtain ⟨w, v⟩ := neg_spec s.numerator_ wn
  refine ⟨w, wd, hpos, ?_⟩
  simp only [neg, v, Int.neg_gcd]
  exact hg

theorem rational_imul_spec (fuel : Nat) (r s : Rational) (hr : Invariant r) (hs : Invariant s)
    (hf : (val r.denominator_ * val s.denominator_).toNat < fuel) :
    ∃ t, imul fuel r s = some t ∧ Invariant t := by
  obtain ⟨n, hn, wn, -, -, -⟩ := BigInteger.imul_spec r.numerator_ s.numerator_ hr.1 hs.1
  obtain ⟨d, hd, wd, vd, -, -⟩ := BigInteger.imul_spec r.denominator_ s.denominator_ hr.2.1 hs.2.1
  obtain ⟨t, ht, inv, -⟩ := rational_normalize_spec fuel ⟨n, d⟩ wn wd
    (by simp only [vd]; exact mul_pos hr.2.2.1 hs.2.2.1) (by simp only [vd]; exact hf)
  exact ⟨t, by simp only [imul, hn, hd, ht], inv⟩

theorem rational_idiv_spec (fuel : Nat) (r s : Rational) (hr : Invariant r) (hs : Invariant s)
    (hs0 : val s.numerator_ ≠ 0)
    (hf : (|val r.denominator_ * val s.numerator_|).toNat < fuel) :
    ∃ t, idiv fuel r s = some t ∧ Invariant t := by
  obtain ⟨n, hn, wn, -, -, -⟩ := BigInteger.imul_spec r.numerator_ s.denominator_ hr.1 hs.2.1
  obtain ⟨d, hd, wd, vd, -, -⟩ := BigInteger.imul_spec r.denominator_ s.numerator_ hr.2.1 hs.1
  have hz : WellFormed (BigInteger.ofInt 0) ∧ val (BigInteger.ofInt 0) = 0 := by decide
  have hd0 : val d ≠ 0 := by
    rw [vd]
    exact mul_ne_zero (ne_of_gt hr.2.2.1) hs0
  simp only [idiv, hn, hd]
  by_cases hlt : lt d (BigInteger.ofInt 0) = true
  · rw [if_pos hlt]
    rw [lt_iff d _ wd hz.1, hz.2] at hlt
    obtain ⟨wn2, -⟩ := neg_spec n wn
    obtain ⟨wd2, vd2⟩ := neg_spec d wd
    obtain ⟨t, ht, inv, -⟩ :=
      rational_normalize_spec fuel ⟨BigInteger.neg n, BigInteger.neg d⟩ wn2 wd2
      (by simp only [vd2]; omega)
      (by
        simp only [vd2]
        rw [← vd, abs_of_neg hlt] at hf
        exact hf)
    exact ⟨t, ht, inv⟩
  · rw [if_neg hlt]
    rw [lt_iff d _ wd hz.1, hz.2] at hlt
    obtain ⟨t, ht, inv, -⟩ := rational_normalize_spec fuel ⟨n, d⟩ wn wd
      (by simp only; omega)
      (by
        simp only
        rw [← vd, abs_of_nonneg (by omega)] at hf
        exact hf)
    exact ⟨t, ht, inv⟩

theorem rational_iadd_spec (fuel : Nat) (r s : Rational) (hr : Invariant r) (hs : Invariant s)
    (hf1 : (val s.denominator_).toNat < fuel)
    (hf2 : (val r.denominator_ * val s.denominator_).toNat < fuel) :
    ∃ t, iadd fuel r s = some t ∧ Invariant t := by
  obtain ⟨wn1, wd1, hp1, -⟩ := hr
  obtain ⟨wn2, wd2, hp2, -⟩ := hs
  obtain ⟨g, hg, wg, vg⟩ := gcd_spec fuel r.denominator_ s.denominator_ wd1 wd2
    (le_of_lt hp1) (le_of_lt hp2) hf1
  have hgpos : 0 < Int.gcd (val r.denominator_) (val s.denominator_) :=
    Int.gcd_pos_of_ne_zero_right _ (ne_of_gt hp2)
  have hg0 : val g ≠ 0 := by rw [vg]; exact_mod_cast (ne_of_gt hgpos)
  have hgp : 0 < val g := by rw [vg]; exact_mod_cast hgpos
  obtain ⟨p, hp, wp, vp, -, -⟩ := BigInteger.imul_spec r.denominator_ s.denominator_ wd1 wd2
  obtain ⟨cm, hcm, wcm, vcm, -, -⟩ := BigInteger.idiv_spec p g wp wg hg0
  have hdvd : val g ∣ val p := by
    rw [vp, vg]
    exact Dvd.dvd.mul_right Int.gcd_dvd_left _
  have hpp : 0 < val p := by rw [vp]; exact mul_pos hp1 hp2
  rw [Int.tdiv_eq_ediv_of_dvd hdvd] at vcm
  have hcmpos : 0 < val cm := by
    rw [vcm]
    exact Int.ediv_pos_of_pos_of_dvd hpp (le_of_lt hgp) hdvd
  have hcmle : val cm ≤ val p := by
    rw [vcm]
    exact Int.ediv_le_self _ (le_of_lt hpp)
  obtain ⟨a1, ha1, wa1, -, -, -⟩ := BigInteger.imul_spec r.numerator_ cm wn1 wcm
  obtain ⟨l, hl, wl, -, -, -⟩ := BigInteger.idiv_spec a1 r.denominator_ wa1 wd1 (ne_of_gt hp1)
  obtain ⟨a2, ha2, wa2, -, -, -⟩ := BigInteger.imul_spec s.numerator_ cm wn2 wcm
  obtain ⟨m, hm, wm, -, -, -⟩ := BigInteger.idiv_spec a2 s.denominator_ wa2 wd2 (ne_of_gt hp2)
  obtain ⟨n, hn, wn, -⟩ := BigInteger.iadd_spec l m wl wm
  obtain ⟨t, ht, inv, -⟩ := rational_normalize_spec fuel ⟨n, cm⟩ wn wcm hcmpos
    (by
      simp only
      rw [vp] at hcmle
      omega)
  refine ⟨t, ?_, inv⟩
  simp only [iadd, hg, hp, hcm, ha1, hl, ha2, hm, hn, ht, Option.bind_some, Option.some_bind]

theorem rational_isub_spec (fuel : Nat) (r s : Rational) (hr : Invariant r) (hs : Invariant s)
    (hf1 : (val s.denominator_).toNat < fuel)
    (hf2 : (val r.denominator_ * val s.denominator_).toNat < fuel) :
    ∃ t, isub fuel r s = some t ∧ Invariant t :=
  rational_iadd_spec fuel r (neg s) hr (neg_invariant s hs) hf1 hf2

end Rational

end BigintegerH

/-! ## Statements about `src/matrix/biginteger.h` -/

namespace BigintegerH

namespace BigInteger

open Limbs

theorem abs_val {a : BigInteger} (ha : WellFormed a) : |val a| = mag a.buffer_ := by
  have hn := mag_nonneg ha.2.1
  unfold val
  rcases ha.1 with h | h <;> rw [h]
  · rw [one_mul, abs_of_nonneg hn]
  · rw [neg_one_mul, abs_neg, abs_of_nonneg hn]

theorem neg_tmod_eq (a b : Int) : Int.tmod (-a) b = -Int.tmod a b := by
  rw [Int.tmod_def, Int.tmod_def, Int.neg_tdiv]
  ring

theorem abs_tmod_lt (a b : Int) (hb : b ≠ 0) : |Int.tmod a b| < |b| := by
  have key : ∀ x y : Int, 0 ≤ x → 0 < y → |Int.tmod x y| < y := by
    intro x y hx hy
    rw [abs_of_nonneg (Int.tmod_nonneg _ hx)]
    exact Int.tmod_lt_of_pos _ hy
  rcases le_or_lt 0 a with ha | ha <;> rcases lt_or_gt_of_ne hb with hb1 | hb1
  · have := key a (-b) ha (by omega)
    rw [Int.tmod_neg] at this
    rw [abs_of_neg hb1]
    exact this
  · rw [abs_of_pos hb1]
    exact key a b ha hb1
  · have := key (-a) (-b) (by omega) (by omega)
    rw [Int.tmod_neg, neg_tmod_eq, abs_neg] at this
    rw [abs_of_neg hb1]
    exact this
  · have := key (-a) b (by omega) hb1
    rw [neg_tmod_eq, abs_neg] at this
    rw [abs_of_pos hb1]
    exact this

/-- C2 fails at `x = INT_MIN`, `y = 0`: `abs(INT_MIN)` wraps to `INT_MIN`, the
digit loop of the constructor does not run, and `BigInteger(INT_MIN)` is the
limb `0` with `sign_ = -1`, which is not well-formed; the sum
`BigInteger(INT_MIN) + BigInteger(0)` is the limb `0` with `sign_ = 1`, which
`operator==` tells apart from `BigInteger(INT_MIN + 0)`. -/
theorem iadd_ofInt_min_wrong :
    ofInt (-2147483648) = ⟨[0], -1⟩ ∧ ¬ WellFormed (ofInt (-2147483648)) ∧
      iadd (ofInt (-2147483648)) (ofInt 0) = some ⟨[0], 1⟩ ∧
      (iadd (ofInt (-2147483648)) (ofInt 0)).map
        (fun sum => eq sum (ofInt (-2147483648 + 0))) = some false := by
  decide

/-- The sum `a + b` (`operator+=`) of `src/matrix/biginteger.h`: for all
well-formed `a` and `b` it returns a well-formed value with
`val (a + b) = val a + val b`; and for all native ints `x`, `y` such that `x`,
`y` and `x + y` are representable and none of them is `INT_MIN`,
`BigInteger(x) + BigInteger(y) == BigInteger(x + y)`. -/
theorem iadd_value (a b : BigInteger) (x y : Int) (ha : WellFormed a) (hb : WellFormed b)
    (hx : -2147483648 < x ∧ x ≤ 2147483647) (hy : -2147483648 < y ∧ y ≤ 2147483647)
    (hxy : -2147483648 < x + y ∧ x + y ≤ 2147483647) :
    (∃ sum, iadd a b = some sum ∧ WellFormed sum ∧ val sum = val a + val b) ∧
      (∃ sum, iadd (ofInt x) (ofInt y) = some sum ∧ eq sum (ofInt (x + y)) = true) := by
  refine ⟨iadd_spec a b ha hb, ?_⟩
  obtain ⟨wx, vx⟩ := ofInt_spec x hx.1 hx.2
  obtain ⟨wy, vy⟩ := ofInt_spec y hy.1 hy.2
  obtain ⟨ws, vs⟩ := ofInt_spec (x + y) hxy.1 hxy.2
  obtain ⟨sum, hsum, w, v⟩ := iadd_spec (ofInt x) (ofInt y) wx wy
  refine ⟨sum, hsum, ?_⟩
  rw [eq_iff]
  apply eq_of_val_eq w ws
  rw [v, vx, vy, vs]

/-- The sum at `a = 100`, `b = -1`, `x = 100`, `y = -1`. -/
theorem iadd_value_witness :
    WellFormed ⟨[0, 1], 1⟩ ∧ WellFormed ⟨[1], -1⟩ ∧
      ((-2147483648 : Int) < 100 ∧ (100 : Int) ≤ 2147483647) ∧
      ((-2147483648 : Int) < -1 ∧ (-1 : Int) ≤ 2147483647) ∧
      ((-2147483648 : Int) < 100 + -1 ∧ (100 : Int) + -1 ≤ 2147483647) ∧
      ((∃ sum, iadd ⟨[0, 1], 1⟩ ⟨[1], -1⟩ = some sum ∧ WellFormed sum ∧
          val sum = val ⟨[0, 1], 1⟩ + val ⟨[1], -1⟩) ∧
        (∃ sum, iadd (ofInt 100) (ofInt (-1)) = some sum ∧
          eq sum (ofInt (100 + -1)) = true)) :=
  ⟨by decide, by decide, by decide, by decide, by decide,
    iadd_value ⟨[0, 1], 1⟩ ⟨[1], -1⟩ 100 (-1) (by decide) (by decide) (by decide) (by decide)
      (by decide)⟩

/-- C3: in `src/matrix/biginteger.h`, for all well-formed `a` and `b` with
`val b ≠ 0`, `a / b` (`operator/=`) returns a well-formed value of magnitude
`floor(|val a| / |val b|)` that is negative exactly when the signs of `a` and
`b` differ and that magnitude is non-zero; its value is the quotient truncated
toward zero. -/
theorem idiv_truncates (a b : BigInteger) (ha : WellFormed a) (hb : WellFormed b)
    (hb0 : val b ≠ 0) :
    ∃ q, idiv a b = some q ∧ WellFormed q ∧ |val q| = |val a| / |val b| ∧
      (val q < 0 ↔ a.sign_ ≠ b.sign_ ∧ |val a| / |val b| ≠ 0) ∧
      (q.sign_ = -1 ↔ a.sign_ ≠ b.sign_ ∧ |val a| / |val b| ≠ 0) ∧
      val q = Int.tdiv (val a) (val b) := by
  obtain ⟨q, hq, w, v, m, sg⟩ := idiv_spec a b ha hb hb0
  have hsign : q.sign_ = -1 ↔ a.sign_ ≠ b.sign_ ∧ |val a| / |val b| ≠ 0 := by
    rw [abs_val ha, abs_val hb, ← m]
    constructor
    · intro hs
      have hpos := mag_pos_of_sign_neg w hs
      rcases sg with sg | sg
      · refine ⟨?_, by omega⟩
        rw [hs] at sg
        intro heq
        rw [heq] at sg
        rcases hb.1 with h | h <;> rw [h] at sg <;> omega
      · omega
    · rintro ⟨hne, hm⟩
      rcases sg with sg | sg
      · rw [sg]
        rcases ha.1 with h | h <;> rcases hb.1 with h2 | h2 <;> rw [h, h2] at hne ⊢ <;>
          simp at hne ⊢
      · exact absurd sg hm
  refine ⟨q, hq, w, ?_, ?_, hsign, v⟩
  · rw [abs_val w, abs_val ha, abs_val hb, m]
  · rw [← hsign]
    have hn := mag_nonneg w.2.1
    constructor
    · intro hlt
      unfold val at hlt
      rcases w.1 with h | h
      · rw [h] at hlt
        omega
      · exact h
    · intro hs
      have hpos := mag_pos_of_sign_neg w hs
      unfold val
      rw [hs]
      omega

/-- Witness for C3 at `a = -10000`, `b = 3`. -/
theorem idiv_truncates_witness :
    WellFormed ⟨[0, 0, 1], -1⟩ ∧ WellFormed ⟨[3], 1⟩ ∧ val ⟨[3], 1⟩ ≠ 0 ∧
    ∃ q, idiv ⟨[0, 0, 1], -1⟩ ⟨[3], 1⟩ = some q ∧ WellFormed q ∧
      |val q| = |val ⟨[0, 0, 1], -1⟩| / |val ⟨[3], 1⟩| ∧
      (val q < 0 ↔ (-1 : Int) ≠ 1 ∧ |val ⟨[0, 0, 1], -1⟩| / |val ⟨[3], 1⟩| ≠ 0) ∧
      (q.sign_ = -1 ↔ (-1 : Int) ≠ 1 ∧ |val ⟨[0, 0, 1], -1⟩| / |val ⟨[3], 1⟩| ≠ 0) ∧
      val q = Int.tdiv (val ⟨[0, 0, 1], -1⟩) (val ⟨[3], 1⟩) :=
  ⟨by decide, by decide, by decide,
    idiv_truncates ⟨[0, 0, 1], -1⟩ ⟨[3], 1⟩ (by decide) (by decide) (by decide)⟩

/-- C6: in `src/matrix/biginteger.h`, for all well-formed `a` and `b` with
`val b ≠ 0`, the operations `a / b`, `a % b`, `(a / b) * b` and
`(a / b) * b + (a % b)` all return, and the last result compares equal to `a`
under `operator==` (with `operator*=` returning the exact product). -/
theorem div_mod_identity (a b : BigInteger) (ha : WellFormed a) (hb : WellFormed b)
    (hb0 : val b ≠ 0) :
    ∃ q m p s, idiv a b = some q ∧ imod a b = some m ∧ imul q b = some p ∧
      iadd p m = some s ∧ eq s a = true := by
  obtain ⟨q, hq, wq, vq, -, -⟩ := idiv_spec a b ha hb hb0
  obtain ⟨m, hm, wm, vm⟩ := imod_spec a b ha hb hb0
  obtain ⟨p, hp, wp, vp, -, -⟩ := imul_spec q b wq hb
  obtain ⟨s, hs, ws, vs⟩ := iadd_spec p m wp wm
  refine ⟨q, m, p, s, hq, hm, hp, hs, ?_⟩
  rw [eq_iff]
  apply eq_of_val_eq ws ha
  rw [vs, vp, vq, vm, Int.tmod_def]
  ring

/-- Witness for C6 at `a = -10000`, `b = 3`. -/
theorem div_mod_identity_witness :
    WellFormed ⟨[0, 0, 1], -1⟩ ∧ WellFormed ⟨[3], 1⟩ ∧ val ⟨[3], 1⟩ ≠ 0 ∧
    ∃ q m p s, idiv ⟨[0, 0, 1], -1⟩ ⟨[3], 1⟩ = some q ∧ imod ⟨[0, 0, 1], -1⟩ ⟨[3], 1⟩ = some m ∧
      imul q ⟨[3], 1⟩ = some p ∧ iadd p m = some s ∧ eq s ⟨[0, 0, 1], -1⟩ = true :=
  ⟨by decide, by decide, by decide,
    div_mod_identity ⟨[0, 0, 1], -1⟩ ⟨[3], 1⟩ (by decide) (by decide) (by decide)⟩

/-- C7: in `src/matrix/biginteger.h`, for all well-formed `a` and `b` with
`val b ≠ 0`, `a % b` returns a well-formed remainder with
`|val (a % b)| < |val b|` (with `operator*=` returning the exact product). -/
theorem imod_bound (a b : BigInteger) (ha : WellFormed a) (hb : WellFormed b)
    (hb0 : val b ≠ 0) :
    ∃ m, imod a b = some m ∧ WellFormed m ∧ |val m| < |val b| := by
  obtain ⟨m, hm, wm, vm⟩ := imod_spec a b ha hb hb0
  exact ⟨m, hm, wm, by rw [vm]; exact abs_tmod_lt _ _ hb0⟩

/-- Witness for C7 at `a = -10000`, `b = 3`. -/
theorem imod_bound_witness :
    WellFormed ⟨[0, 0, 1], -1⟩ ∧ WellFormed ⟨[3], 1⟩ ∧ val ⟨[3], 1⟩ ≠ 0 ∧
    ∃ m, imod ⟨[0, 0, 1], -1⟩ ⟨[3], 1⟩ = some m ∧ WellFormed m ∧ |val m| < |val ⟨[3], 1⟩| :=
  ⟨by decide, by decide, by decide,
    imod_bound ⟨[0, 0, 1], -1⟩ ⟨[3], 1⟩ (by decide) (by decide) (by decide)⟩

end BigInteger

namespace Rational

open Limbs BigInteger

/-- C8: in `src/matrix/biginteger.h`, for all Rationals `r` and `s` satisfying
the invariant (well-formed parts, denominator `> 0`,
`gcd(|numerator|, denominator) = 1`), each of `r + s`, `r - s`, `r * s`, and
`r / s` when `s ≠ 0`, returns (the loops of `gcd` end: any fuel from a bound on
is enough) a Rational that satisfies the invariant again (with `operator*=`
returning the exact product). -/
theorem operations_keep_invariant (r s : Rational) (hr : Invariant r) (hs : Invariant s) :
    ∃ bound, ∀ fuel, bound ≤ fuel →
      (∃ t, iadd fuel r s = some t ∧ Invariant t) ∧
      (∃ t, isub fuel r s = some t ∧ Invariant t) ∧
      (∃ t, imul fuel r s = some t ∧ Invariant t) ∧
      (val s.numerator_ ≠ 0 → ∃ t, idiv fuel r s = some t ∧ Invariant t) := by
  refine ⟨(val s.denominator_).toNat + (val r.denominator_ * val s.denominator_).toNat +
    (|val r.denominator_ * val s.numerator_|).toNat + 1, fun fuel hf => ⟨?_, ?_, ?_, ?_⟩⟩
  · exact rational_iadd_spec fuel r s hr hs (by omega) (by omega)
  · exact rational_isub_spec fuel r s hr hs (by omega) (by omega)
  · exact rational_imul_spec fuel r s hr hs (by omega)
  · intro hs0
    exact rational_idiv_spec fuel r s hr hs hs0 (by omega)

/-- Witness for C8 at `r = 1/6`, `s = -1/3`. -/
theorem operations_keep_invariant_witness :
    Invariant ⟨⟨[1], 1⟩, ⟨[6], 1⟩⟩ ∧ Invariant ⟨⟨[1], -1⟩, ⟨[3], 1⟩⟩ ∧
    ∃ bound, ∀ fuel, bound ≤ fuel →
      (∃ t, iadd fuel ⟨⟨[1], 1⟩, ⟨[6], 1⟩⟩ ⟨⟨[1], -1⟩, ⟨[3], 1⟩⟩ = some t ∧ Invariant t) ∧
      (∃ t, isub fuel ⟨⟨[1], 1⟩, ⟨[6], 1⟩⟩ ⟨⟨[1], -1⟩, ⟨[3], 1⟩⟩ = some t ∧ Invariant t) ∧
      (∃ t, imul fuel ⟨⟨[1], 1⟩, ⟨[6], 1⟩⟩ ⟨⟨[1], -1⟩, ⟨[3], 1⟩⟩ = some t ∧ Invariant t) ∧
      (val (⟨[1], -1⟩ : BigInteger) ≠ 0 →
        ∃ t, idiv fuel ⟨⟨[1], 1⟩, ⟨[6], 1⟩⟩ ⟨⟨[1], -1⟩, ⟨[3], 1⟩⟩ = some t ∧ Invariant t) :=
  ⟨by decide, by decide,
    operations_keep_invariant ⟨⟨[1], 1⟩, ⟨[6], 1⟩⟩ ⟨⟨[1], -1⟩, ⟨[3], 1⟩⟩ (by decide)
      (by decide)⟩

end Rational

end BigintegerH

/-! ## Statements about `src/bigint/main.cpp` -/

namespace MainCpp

namespace BigInteger

open Limbs

set_option maxRecDepth 100000 in
/-- The text of every limb value, padded or not, is read back by `stoi`. -/
theorem limb_text_facts : ∀ k : Nat, k < 100 →
    stoi (to_string k) = some (k : Int) ∧
    stoi (List.replicate (ten_power_ - (to_string k).length) '0' ++ to_string k)
      = some (k : Int) ∧
    (to_string k).head? ≠ some '-' ∧
    (List.replicate (ten_power_ - (to_string k).length) '0' ++ to_string k).head? ≠ some '-' ∧
    1 ≤ (to_string k).length ∧ (to_string k).length ≤ 2 ∧
    (∀ ch ∈ to_string k, isspace ch = false) ∧
    (∀ ch ∈ List.replicate (ten_power_ - (to_string k).length) '0' ++ to_string k,
      isspace ch = false) := by
  decide

theorem chunk_facts (x : Int) (hx : 0 ≤ x ∧ x < 100) (p : Prop) [Decidable p]
    (c : List Char)
    (hc : c = if (to_string x).length < ten_power_ ∧ p then
        List.replicate (ten_power_ - (to_string x).length) '0' ++ to_string x
      else to_string x) :
    stoi c = some x ∧ 1 ≤ c.length ∧ c.length ≤ 2 ∧ c.head? ≠ some '-' ∧
      (p → c.length = 2) ∧ (∀ ch ∈ c, isspace ch = false) := by
  obtain ⟨k, rfl⟩ := Int.eq_ofNat_of_zero_le hx.1
  obtain ⟨f1, f2, f3, f4, f5, f6, f7, f8⟩ := limb_text_facts k (by omega)
  by_cases hcond : (to_string (k : Int)).length < ten_power_ ∧ p
  · rw [if_pos hcond] at hc
    have hlen : c.length = 2 := by
      rw [hc, List.length_append, List.length_replicate]
      have := hcond.1
      simp only [ten_power_] at this ⊢
      omega
    refine ⟨by rw [hc]; exact f2, by omega, by omega, by rw [hc]; exact f4, fun _ => hlen,
      by rw [hc]; exact f8⟩
  · rw [if_neg hcond] at hc
    refine ⟨by rw [hc]; exact f1, by rw [hc]; exact f5, by rw [hc]; exact f6,
      by rw [hc]; exact f3, fun hp => ?_, by rw [hc]; exact f7⟩
    rw [hc]
    have : ¬ (to_string (k : Int)).length < ten_power_ := fun h => hcond ⟨h, hp⟩
    simp only [ten_power_] at this
    omega

theorem readLoop_nonpos (raw : List Char) (fuel : Nat) (i : Int) (hi : i ≤ 0) :
    readLoop raw fuel i = some [] := by
  cases fuel with
  | zero => simp only [readLoop]; rw [if_neg (by omega)]
  | succ n => simp only [readLoop]; rw [if_neg (by omega)]

theorem substr_append_left (t u : List Char) (pos count : Int) (hp : 0 ≤ pos) (hc : 0 ≤ count)
    (h : pos + count ≤ t.length) : substr (t ++ u) pos count = substr t pos count := by
  unfold substr
  rw [List.drop_append_of_le_length (by omega), List.take_append_of_le_length]
  rw [List.length_drop]
  omega

theorem substr_append_right (t c : List Char) :
    substr (t ++ c) (t.length : Int) (c.length : Int) = c := by
  unfold substr
  simp only [Int.toNat_ofNat, List.drop_left, List.take_length]

/-- The loop of `operator>>` at index `i` reads only the first `i` characters. -/
theorem readLoop_append (t u : List Char) (fuel : Nat) (i : Int) (hi : i ≤ t.length) :
    readLoop (t ++ u) fuel i = readLoop t fuel i := by
  induction fuel generalizing i with
  | zero => rfl
  | succ n ih =>
    simp only [readLoop]
    by_cases hpos : i > 0
    · rw [if_pos hpos, if_pos hpos,
        substr_append_left t u _ _ (by omega) (by simp only [ten_power_]; omega)
          (by simp only [ten_power_]; omega),
        ih (i - ten_power_) (by simp only [ten_power_]; omega)]
    · rw [if_neg hpos, if_neg hpos]

theorem readLoop_step (t c : List Char) (x : Int) (fuel : Nat) (hstoi : stoi c = some x)
    (h1 : 1 ≤ c.length) (h2 : c.length ≤ 2) (hfull : c.length = 2 ∨ t = []) :
    readLoop (t ++ c) (fuel + 1) ((t ++ c).length : Int) =
      (readLoop t fuel (t.length : Int)).map (fun rest => x :: rest) := by
  simp only [readLoop]
  have hi : ((t ++ c).length : Int) > 0 := by
    rw [List.length_append]
    omega
  rw [if_pos hi]
  have hsub : substr (t ++ c) (max 0 (((t ++ c).length : Int) - ten_power_))
      (((t ++ c).length : Int) - max 0 (((t ++ c).length : Int) - ten_power_)) = c := by
    have e1 : max 0 (((t ++ c).length : Int) - ten_power_) = (t.length : Int) := by
      rw [List.length_append]
      simp only [ten_power_]
      rcases hfull with h | h
      · omega
      · subst h
        simp only [List.length_nil]
        omega
    rw [e1]
    have e2 : ((t ++ c).length : Int) - (t.length : Int) = (c.length : Int) := by
      rw [List.length_append]
      omega
    rw [e2]
    exact substr_append_right t c
  rw [hsub, hstoi]
  simp only
  congr 1
  rcases hfull with h | h
  · have : ((t ++ c).length : Int) - ten_power_ = (t.length : Int) := by
      rw [List.length_append]
      simp only [ten_power_]
      omega
    rw [this]
    exact readLoop_append t c fuel _ (le_refl _)
  · subst h
    rw [readLoop_nonpos _ _ _ (by
      simp only [List.nil_append, ten_power_]
      omega)]
    rw [readLoop_nonpos _ _ _ (by simp)]

/-- Reading the text written by the loop of `toString` gives the limbs back. -/
theorem readLoop_toStringLoop (size : Nat) (xs : List Int) (i : Nat) (hx : LimbsOk xs)
    (hsize : i + xs.length = size) (fuel : Nat) (hf : xs.length ≤ fuel) :
    readLoop (toStringLoop size xs i) fuel ((toStringLoop size xs i).length : Int) = some xs := by
  induction xs generalizing i fuel with
  | nil =>
    simp only [toStringLoop, List.length_nil]
    exact readLoop_nonpos _ _ _ (by simp)
  | cons x xs ih =>
    rw [limbsOk_cons] at hx
    simp only [List.length_cons] at hsize hf
    obtain ⟨n, rfl⟩ : ∃ n, fuel = n + 1 := ⟨fuel - 1, by omega⟩
    obtain ⟨c1, c2, c3, -, c5, -⟩ := chunk_facts x hx.1 ((i : Int) < (size : Int) - 1) _ rfl
    simp only [toStringLoop]
    rw [readLoop_step _ _ x n c1 c2 c3 (by
        cases xs with
        | nil => exact Or.inr rfl
        | cons y ys =>
          refine Or.inl (c5 ?_)
          simp only [List.length_cons] at hsize
          omega),
      ih (i + 1) hx.2 (by omega) n (by omega)]
    rfl

theorem toStringLoop_length (size : Nat) (xs : List Int) (i : Nat) (hx : LimbsOk xs) :
    xs.length ≤ (toStringLoop size xs i).length := by
  induction xs generalizing i with
  | nil => simp [toStringLoop]
  | cons x xs ih =>
    rw [limbsOk_cons] at hx
    obtain ⟨-, c2, -, -, -, -⟩ := chunk_facts x hx.1 ((i : Int) < (size : Int) - 1) _ rfl
    have := ih (i + 1) hx.2
    simp only [toStringLoop, List.length_append, List.length_cons]
    omega

theorem toStringLoop_head (size : Nat) (xs : List Int) (i : Nat) (hx : LimbsOk xs) :
    (toStringLoop size xs i).head? ≠ some '-' := by
  induction xs generalizing i with
  | nil => simp [toStringLoop]
  | cons x xs ih =>
    rw [limbsOk_cons] at hx
    obtain ⟨-, -, -, c4, -, -⟩ := chunk_facts x hx.1 ((i : Int) < (size : Int) - 1) _ rfl
    have h := ih (i + 1) hx.2
    simp only [toStringLoop]
    cases hs : toStringLoop size xs (i + 1) with
    | nil => simpa using c4
    | cons a as =>
      rw [hs] at h
      simpa using h

theorem toStringLoop_no_space (size : Nat) (xs : List Int) (i : Nat) (hx : LimbsOk xs) :
    ∀ ch ∈ toStringLoop size xs i, isspace ch = false := by
  induction xs generalizing i with
  | nil =>
    intro ch hch
    cases hch
  | cons x xs ih =>
    rw [limbsOk_cons] at hx
    obtain ⟨-, -, -, -, -, c6⟩ := chunk_facts x hx.1 ((i : Int) < (size : Int) - 1) _ rfl
    intro ch hch
    simp only [toStringLoop, List.mem_append] at hch
    rcases hch with h | h
    · exact ih (i + 1) hx.2 ch h
    · exact c6 ch h

theorem extractToken_of_no_space (text : List Char) (h : ∀ ch ∈ text, isspace ch = false) :
    extractToken text = text := by
  unfold extractToken
  have h1 : text.dropWhile isspace = text := by
    cases text with
    | nil => rfl
    | cons a as =>
      rw [List.dropWhile_cons_of_neg]
      rw [h a (List.mem_cons_self _ _)]
      exact Bool.false_ne_true
  rw [h1, List.takeWhile_eq_self_iff]
  intro ch hch
  rw [h ch hch]
  rfl

theorem toString_no_space (x : BigInteger) (hl : LimbsOk x.buffer_) :
    ∀ ch ∈ toString x, isspace ch = false := by
  intro ch hch
  simp only [toString, List.mem_append] at hch
  rcases hch with h | h
  · split at h
    · simp only [List.mem_singleton] at h
      rw [h]
      decide
    · cases h
  · exact toStringLoop_no_space _ _ _ hl ch h

theorem read_toString_aux (x : BigInteger) (hl : LimbsOk x.buffer_) :
    read (toString x) = some x := by
  cases x with
  | mk buffer negative =>
    simp only at hl
    have hlen := toStringLoop_length buffer.length buffer 0 hl
    have hread := readLoop_toStringLoop buffer.length buffer 0 hl (by omega)
      (toStringLoop buffer.length buffer 0).length hlen
    cases negative with
    | true =>
      simp only [read, toString, if_true, List.singleton_append, List.head?_cons,
        decide_True, List.drop_succ_cons, List.drop_zero, hread, Option.map_some']
    | false =>
      have hhead := toStringLoop_head buffer.length buffer 0 hl
      simp only [read, toString, Bool.false_eq_true, if_false, List.nil_append, hhead,
        decide_False, hread, Option.map_some']

/-- C10: for every well-formed `x`, the text `toString(x)` is one token (not
empty, no white space), and `operator>>` applied to it returns a `BigInteger`
with the same `negative_` flag and the same limb sequence as `x`, which
compares equal to `x` under `operator==`. -/
theorem read_toString (x : BigInteger) (hx : WellFormed x) :
    extractToken (toString x) = toString x ∧ toString x ≠ [] ∧
      readStream (toString x) = some x ∧
      ∃ y, readStream (toString x) = some y ∧ y.negative_ = x.negative_ ∧
        y.buffer_ = x.buffer_ ∧ eq y x = true := by
  have hl : LimbsOk x.buffer_ := hx.1
  have htok := extractToken_of_no_space _ (toString_no_space x hl)
  have main : readStream (toString x) = some x := by
    unfold readStream
    rw [htok]
    exact read_toString_aux x hl
  have hne : toString x ≠ [] := by
    intro h0
    have h1 := toStringLoop_length x.buffer_.length x.buffer_ 0 hl
    have h2 : (toString x).length = 0 := by rw [h0]; rfl
    simp only [toString, List.length_append] at h2
    have h3 : 0 < x.buffer_.length := List.length_pos.2 hx.2.1.1
    omega
  refine ⟨htok, hne, main, x, main, rfl, rfl, ?_⟩
  unfold eq
  have hloop : ∀ xs : List Int, eqLoop xs xs = true := by
    intro xs
    induction xs with
    | nil => rfl
    | cons a as ih => simp [eqLoop, ih]
  simp [hloop]

/-- Witness for C10 at `x = -1020304`. -/
theorem read_toString_witness :
    WellFormed ⟨[4, 3, 2, 1], true⟩ ∧
      (extractToken (toString ⟨[4, 3, 2, 1], true⟩) = toString ⟨[4, 3, 2, 1], true⟩ ∧
        toString ⟨[4, 3, 2, 1], true⟩ ≠ [] ∧
        readStream (toString ⟨[4, 3, 2, 1], true⟩) = some ⟨[4, 3, 2, 1], true⟩ ∧
        ∃ y, readStream (toString ⟨[4, 3, 2, 1], true⟩) = some y ∧ y.negative_ = true ∧
          y.buffer_ = [4, 3, 2, 1] ∧ eq y ⟨[4, 3, 2, 1], true⟩ = true) :=
  ⟨by decide, read_toString ⟨[4, 3, 2, 1], true⟩ (by decide)⟩

/-- C1 fails on the code of `src/bigint/main.cpp`: for `a = 100` and `b = -1`
(both well-formed, both results of the constructor from `int`) `operator+=`
leaves the limbs `[99, 1]`, that is `199`, instead of `99`: the loop of
`sub_abs` stops at `number.buffer_.size()` and drops the borrow out of limb
`0`. -/
theorem iadd_drops_borrow :
    WellFormed ⟨[0, 1], false⟩ ∧ WellFormed ⟨[1], true⟩ ∧
      ofInt 100 = ⟨[0, 1], false⟩ ∧ ofInt (-1) = ⟨[1], true⟩ ∧
      iadd ⟨[0, 1], false⟩ ⟨[1], true⟩ = ⟨[99, 1], false⟩ ∧
      val (iadd ⟨[0, 1], false⟩ ⟨[1], true⟩) = 199 ∧
      val ⟨[0, 1], false⟩ + val ⟨[1], true⟩ = 99 ∧
      eq (iadd (ofInt 100) (ofInt (-1))) (ofInt (100 + -1)) = false := by
  decide

/-- C4 fails on the code of `src/bigint/main.cpp`: for `a = 10000` and
`b = 3` `operator/=` returns the limbs `[99, 33]`, that is `3399`, instead of
`3333`: after the second quotient digit `current.sub_abs(...)` computes
`100 - 99` as `101` (the borrow is dropped), and the last digit becomes `99`. -/
theorem idiv_wrong_quotient :
    WellFormed ⟨[0, 0, 1], false⟩ ∧ WellFormed ⟨[3], false⟩ ∧
      val ⟨[0, 0, 1], false⟩ = 10000 ∧ val ⟨[3], false⟩ = 3 ∧
      idiv ⟨[0, 0, 1], false⟩ ⟨[3], false⟩ = some ⟨[99, 33], false⟩ ∧
      val ⟨[99, 33], false⟩ = 3399 ∧ (10000 : Int) / 3 = 3333 ∧
      sub_abs ⟨[0, 1], false⟩ ⟨[99], false⟩ = ⟨[1, 1], false⟩ := by
  decide

end BigInteger

namespace Rational

open Limbs BigInteger

/-- C9 fails on the code of `src/bigint/main.cpp`: for the numerator `3` and
the denominator `101` `Rational::normalize` returns `1/33`, whose value is not
`3/101`: `low_divisor -= high_divisor` computes `101 - 3` as `198` (the borrow
dropped by `sub_abs`), the loop ends with the divisor `3`, and `101 / 3` is
`33`. -/
theorem normalize_wrong_fraction :
    WellFormed ⟨[3], false⟩ ∧ WellFormed ⟨[1, 1], false⟩ ∧
      val ⟨[3], false⟩ = 3 ∧ val ⟨[1, 1], false⟩ = 101 ∧
      isub ⟨[1, 1], false⟩ ⟨[3], false⟩ = ⟨[98, 1], false⟩ ∧
      normalize 100 ⟨⟨[3], false⟩, ⟨[1, 1], false⟩⟩ = some ⟨⟨[1], false⟩, ⟨[33], false⟩⟩ ∧
      val ⟨[1], false⟩ * 101 ≠ 3 * val ⟨[33], false⟩ := by
  decide

end Rational

end MainCpp

/-! ## Decimal strings -/

namespace Decimal

open Limbs MainCpp.BigInteger

theorem foldl_digits (ds : List Char) (acc : Nat) :
    ds.foldl (fun acc c => acc * 10 + (c.toNat - 48)) acc =
      acc * 10 ^ ds.length + decimalValue ds := by
  induction ds generalizing acc with
  | nil => simp [decimalValue]
  | cons c cs ih =>
    unfold decimalValue
    simp only [List.foldl_cons, List.length_cons, zero_mul, zero_add]
    rw [ih (acc * 10 + (c.toNat - 48)), ih (c.toNat - 48)]
    simp only [decimalValue]
    ring

theorem decimalValue_append (a b : List Char) :
    decimalValue (a ++ b) = decimalValue a * 10 ^ b.length + decimalValue b := by
  unfold decimalValue
  rw [List.foldl_append, foldl_digits]
  rfl

theorem isDigits_append {a b : List Char} : IsDigits (a ++ b) ↔ IsDigits a ∧ IsDigits b := by
  unfold IsDigits
  simp only [List.mem_append]
  constructor
  · intro h
    exact ⟨fun c hc => h c (Or.inl hc), fun c hc => h c (Or.inr hc)⟩
  · rintro ⟨h1, h2⟩ c (hc | hc)
    · exact h1 c hc
    · exact h2 c hc

theorem isDigit_range {c : Char} (h : c.isDigit = true) : 48 ≤ c.toNat ∧ c.toNat ≤ 57 := by
  simp only [Char.isDigit, Bool.and_eq_true, decide_eq_true_eq] at h
  exact ⟨h.1, h.2⟩

theorem isDigit_eq_digitChar {c : Char} (h : c.isDigit = true) :
    ∃ d, d < 10 ∧ c = Nat.digitChar d := by
  obtain ⟨h1, h2⟩ := isDigit_range h
  refine ⟨c.toNat - 48, by omega, ?_⟩
  rw [← Char.ofNat_toNat c]
  generalize c.toNat = n at h1 h2
  interval_cases n <;> rfl

theorem decimalValue_lt {ds : List Char} (h : IsDigits ds) :
    decimalValue ds < 10 ^ ds.length := by
  induction ds using List.reverseRecOn with
  | nil => simp [decimalValue]
  | append_singleton cs c ih =>
    rw [isDigits_append] at h
    have hc := isDigit_range (h.2 c (List.mem_singleton_self c))
    have hv : decimalValue [c] = c.toNat - 48 := by simp [decimalValue]
    rw [decimalValue_append, hv, List.length_append, List.length_singleton, pow_succ]
    have := ih h.1
    omega

set_option maxRecDepth 100000 in
/-- The text of a limb value: `std::to_string` gives its canonical decimal
representation, and the zero-padded form is its two decimal digits. -/
theorem limb_decimal_facts : ∀ k : Nat, k < 100 →
    IsCanonicalDecimal (to_string (k : Int)) k ∧
    (if (to_string (k : Int)).length < ten_power_ then
        List.replicate (ten_power_ - (to_string (k : Int)).length) '0' ++ to_string (k : Int)
      else to_string (k : Int)) = twoDigits k ∧
    IsDigits (twoDigits k) ∧ decimalValue (twoDigits k) = k := by
  decide

set_option maxRecDepth 100000 in
/-- The function `stoi` on one or two decimal digits. -/
theorem stoi_digit_facts : ∀ d1 : Nat, d1 < 10 → ∀ d0 : Nat, d0 < 10 →
    stoi [Nat.digitChar d1, Nat.digitChar d0] = some ((10 * d1 + d0 : Nat) : Int) ∧
    stoi [Nat.digitChar d0] = some ((d0 : Nat) : Int) ∧
    decimalValue [Nat.digitChar d1, Nat.digitChar d0] = 10 * d1 + d0 ∧
    decimalValue [Nat.digitChar d0] = d0 ∧ isspace (Nat.digitChar d0) = false ∧
    Nat.digitChar d0 ≠ '-' := by
  decide

theorem limb_facts (x : Int) (hx : 0 ≤ x ∧ x < 100) :
    IsCanonicalDecimal (to_string x) x.toNat ∧
    (if (to_string x).length < ten_power_ then
        List.replicate (ten_power_ - (to_string x).length) '0' ++ to_string x
      else to_string x) = twoDigits x ∧
    IsDigits (twoDigits x) ∧ (decimalValue (twoDigits x) : Int) = x ∧
    (twoDigits x).length = 2 := by
  obtain ⟨k, rfl⟩ := Int.eq_ofNat_of_zero_le hx.1
  obtain ⟨f1, f2, f3, f4⟩ := limb_decimal_facts k (by omega)
  refine ⟨by simpa using f1, f2, f3, by rw [f4], rfl⟩

end Decimal

/-! ## The text written by `toString` -/

namespace MainCpp

namespace BigInteger

open Limbs Decimal

/-- The loop of `toString` writes the top limb as `std::to_string` gives it and
every lower limb, in descending order, as two digits. -/
theorem toStringLoop_structure (size : Nat) (lower : List Int) (top : Int) (i : Nat)
    (hl : LimbsOk lower) (hsize : i + lower.length + 1 = size) :
    toStringLoop size (lower ++ [top]) i = to_string top ++ lower.reverse.flatMap twoDigits := by
  induction lower generalizing i with
  | nil =>
    simp only [List.nil_append, toStringLoop, List.reverse_nil, List.flatMap_nil,
      List.append_nil]
    rw [if_neg]
    rintro ⟨-, h⟩
    simp only [List.length_nil, add_zero] at hsize
    omega
  | cons l ls ih =>
    rw [limbsOk_cons] at hl
    simp only [List.length_cons] at hsize
    obtain ⟨-, f2, -, -, -⟩ := limb_facts l hl.1
    rw [List.cons_append, toStringLoop]
    simp only [List.reverse_cons, List.flatMap_append, List.flatMap_cons, List.flatMap_nil,
      List.append_nil]
    rw [ih (i + 1) hl.2 (by omega), List.append_assoc]
    congr 1
    congr 1
    have hi : (i : Int) < (size : Int) - 1 := by omega
    by_cases hlen : (to_string l).length < ten_power_
    · rw [if_pos ⟨hlen, hi⟩]
      rw [if_pos hlen] at f2
      exact f2
    · rw [if_neg (fun h => hlen h.1)]
      rw [if_neg hlen] at f2
      exact f2

theorem decimalValue_lower (front : List Char) (lower : List Int) (hl : LimbsOk lower) :
    (decimalValue (front ++ lower.reverse.flatMap twoDigits) : Int) =
      mag (lower ++ [(decimalValue front : Int)]) := by
  induction lower with
  | nil => simp [mag]
  | cons l ls ih =>
    rw [limbsOk_cons] at hl
    obtain ⟨-, -, -, f4, f5⟩ := limb_facts l hl.1
    simp only [List.reverse_cons, List.flatMap_append, List.flatMap_cons, List.flatMap_nil,
      List.append_nil, List.cons_append, mag_cons]
    rw [← List.append_assoc, decimalValue_append, f5]
    push_cast
    rw [ih hl.2, f4]
    ring

theorem isDigits_lower (lower : List Int) (hl : LimbsOk lower) :
    IsDigits (lower.reverse.flatMap twoDigits) := by
  intro c hc
  rw [List.mem_flatMap] at hc
  obtain ⟨l, hl1, hl2⟩ := hc
  rw [List.mem_reverse] at hl1
  obtain ⟨-, -, f3, -, -⟩ := limb_facts l (hl l hl1)
  exact f3 c hl2

theorem split_last {xs : List Int} (hne : xs ≠ []) :
    ∃ lower top, xs = lower ++ [top] ∧ xs.getLast? = some top := by
  cases h : xs.getLast? with
  | none =>
    rw [List.getLast?_eq_none_iff] at h
    exact absurd h hne
  | some top => exact ⟨xs.dropLast, top, (List.dropLast_append_getLast? top h).symm, rfl⟩

/-- On a canonical buffer with limbs in range the loop of `toString` writes
the canonical decimal representation of the magnitude. -/
theorem toStringLoop_decimal (xs : List Int) (hl : LimbsOk xs) (hc : Canonical xs) :
    IsCanonicalDecimal (toStringLoop xs.length xs 0) (mag xs).toNat ∧
      ∃ lower top, xs = lower ++ [top] ∧
        toStringLoop xs.length xs 0 = to_string top ++ lower.reverse.flatMap twoDigits := by
  obtain ⟨lower, top, hx, hlast⟩ := split_last hc.1
  have hlo : LimbsOk lower ∧ LimbsOk [top] := by
    rw [hx] at hl
    exact limbsOk_append.1 hl
  have htop : 0 ≤ top ∧ top < 100 := hlo.2 top (List.mem_singleton_self top)
  obtain ⟨⟨t1, t2, t3, t4⟩, -, -, -, -⟩ := limb_facts top htop
  have hs : toStringLoop xs.length xs 0 = to_string top ++ lower.reverse.flatMap twoDigits := by
    conv_lhs => rw [hx]
    exact toStringLoop_structure _ lower top 0 hlo.1 (by simp)
  refine ⟨⟨?_, ?_, ?_, ?_⟩, lower, top, hx, hs⟩
  · rw [hs]
    intro h0
    exact t1 (List.append_eq_nil.1 h0).1
  · rw [hs, isDigits_append]
    exact ⟨t2, isDigits_lower lower hlo.1⟩
  · rw [hs]
    intro hh
    have hh2 : (to_string top).head? = some '0' := by
      cases hts : to_string top with
      | nil => exact absurd hts t1
      | cons a as =>
        rw [hts] at hh
        simpa using hh
    have h0 := t3 hh2
    have htop0 : top = 0 := by
      have : decimalValue ['0'] = top.toNat := by rw [← h0]; exact t4
      have h00 : decimalValue ['0'] = 0 := by decide
      omega
    rw [htop0] at hlast
    have hxs := hc.2 hlast
    have hlow : lower = [] := by
      rw [hx] at hxs
      have := congrArg List.length hxs
      simp only [List.length_append, List.length_singleton] at this
      exact List.length_eq_zero.1 (by omega)
    rw [hlow, h0]
    rfl
  · have hv := decimalValue_lower (to_string top) lower hlo.1
    rw [t4, Int.toNat_of_nonneg htop.1, ← hx] at hv
    rw [hs]
    omega

theorem val_neg_iff {x : BigInteger} (hx : WellFormed x) : val x < 0 ↔ x.negative_ = true := by
  obtain ⟨hl, hc, hz⟩ := hx
  have hn := mag_nonneg hl
  unfold val
  cases hneg : x.negative_ with
  | false => simp only [Bool.false_eq_true, if_false, iff_false]; omega
  | true =>
    simp only [if_true, iff_true]
    have : mag x.buffer_ ≠ 0 := by
      intro h0
      have := hz (eq_zero_of_mag_eq_zero hl hc h0)
      rw [hneg] at this
      exact Bool.noConfusion this
    omega

/-- C15: for every well-formed `x`, `toString(x)` is a `-` exactly when
`val x < 0`, followed by the canonical decimal representation of `|val x|`
(non-empty, decimal digits only, no leading zero unless it is `0`, of decimal
value `|val x|`); these digits are the most-significant limb as
`std::to_string` writes it (unpadded), followed by every lower limb, in
descending order, as exactly two digits. -/
theorem toString_canonical (x : BigInteger) (hx : WellFormed x) :
    ∃ ds lower top,
      toString x = (if val x < 0 then ['-'] else []) ++ ds ∧
      IsCanonicalDecimal ds (val x).natAbs ∧
      x.buffer_ = lower ++ [top] ∧
      ds = to_string top ++ lower.reverse.flatMap twoDigits ∧
      IsCanonicalDecimal (to_string top) top.toNat ∧
      (∀ l ∈ lower, (twoDigits l).length = 2 ∧ IsDigits (twoDigits l) ∧
        (decimalValue (twoDigits l) : Int) = l) := by
  obtain ⟨hdec, lower, top, hb, hs⟩ := toStringLoop_decimal x.buffer_ hx.1 hx.2.1
  have hn := mag_nonneg hx.1
  have hlo : LimbsOk lower ∧ LimbsOk [top] := by
    have := hx.1
    rw [hb] at this
    exact limbsOk_append.1 this
  refine ⟨toStringLoop x.buffer_.length x.buffer_ 0, lower, top, ?_, ?_, hb, hs, ?_, ?_⟩
  · unfold toString
    congr 1
    by_cases hneg : x.negative_ = true
    · rw [if_pos hneg, if_pos ((val_neg_iff hx).2 hneg)]
    · rw [if_neg hneg, if_neg (fun h => hneg ((val_neg_iff hx).1 h))]
  · have : (val x).natAbs = (mag x.buffer_).toNat := by
      unfold val
      split <;> omega
    rw [this]
    exact hdec
  · exact (limb_facts top (hlo.2 top (List.mem_singleton_self top))).1
  · intro l hl
    obtain ⟨-, -, f3, f4, f5⟩ := limb_facts l (hlo.1 l hl)
    exact ⟨f5, f3, f4⟩

/-- Witness for C15 at `x = -1020304`. -/
theorem toString_canonical_witness :
    WellFormed ⟨[4, 3, 2, 1], true⟩ ∧
    ∃ ds lower top,
      toString ⟨[4, 3, 2, 1], true⟩ = (if val ⟨[4, 3, 2, 1], true⟩ < 0 then ['-'] else []) ++ ds ∧
      IsCanonicalDecimal ds (val ⟨[4, 3, 2, 1], true⟩).natAbs ∧
      [4, 3, 2, 1] = lower ++ [top] ∧
      ds = to_string top ++ lower.reverse.flatMap twoDigits ∧
      IsCanonicalDecimal (to_string top) top.toNat ∧
      (∀ l ∈ lower, (twoDigits l).length = 2 ∧ IsDigits (twoDigits l) ∧
        (decimalValue (twoDigits l) : Int) = l) :=
  ⟨by decide, toString_canonical ⟨[4, 3, 2, 1], true⟩ (by decide)⟩

end BigInteger

end MainCpp

/-! ## The limbs read by `operator>>` -/

namespace MainCpp

namespace BigInteger

open Limbs Decimal

theorem split_two {raw : List Char} (h : 2 ≤ raw.length) :
    ∃ t c1 c0, raw = t ++ [c1, c0] := by
  have hd : (raw.drop (raw.length - 2)).length = 2 := by
    rw [List.length_drop]
    omega
  match hdrop : raw.drop (raw.length - 2), hd with
  | [c1, c0], _ =>
    refine ⟨raw.take (raw.length - 2), c1, c0, ?_⟩
    rw [← hdrop, List.take_append_drop]

/-- On a string of decimal digits the loop of `operator>>` returns one limb
for every two digits, counted from the right, and the limbs denote the
decimal value of the string. -/
theorem readLoop_digits (n : Nat) : ∀ raw : List Char, raw.length = n → IsDigits raw →
    ∀ fuel, n ≤ fuel →
      ∃ limbs, readLoop raw fuel (raw.length : Int) = some limbs ∧
        limbs.length = (n + 1) / 2 ∧ LimbsOk limbs ∧ mag limbs = (decimalValue raw : Int) := by
  induction n using Nat.strong_induction_on with
  | _ n ih =>
    intro raw hlen hdig fuel hf
    rcases Nat.lt_or_ge n 2 with hn | hn
    · rcases Nat.eq_zero_or_pos n with h0 | h1
      · subst h0
        have hraw : raw = [] := List.length_eq_zero.1 hlen
        subst hraw
        refine ⟨[], readLoop_nonpos _ _ _ (by simp), rfl, limbsOk_nil, by simp [mag, decimalValue]⟩
      · have hn1 : n = 1 := by omega
        subst hn1
        obtain ⟨c, rfl⟩ := List.length_eq_one.1 hlen
        obtain ⟨d, hd, rfl⟩ := isDigit_eq_digitChar (hdig c (List.mem_singleton_self c))
        obtain ⟨-, s1, -, v1, -, -⟩ := stoi_digit_facts 0 (by decide) d hd
        obtain ⟨f, rfl⟩ : ∃ f, fuel = f + 1 := ⟨fuel - 1, by omega⟩
        have hstep := readLoop_step [] [Nat.digitChar d] (d : Int) f s1 (by simp) (by simp)
          (Or.inr rfl)
        rw [List.nil_append] at hstep
        rw [hstep, readLoop_nonpos _ _ _ (by simp)]
        refine ⟨[(d : Int)], rfl, rfl, limbsOk_cons.2 ⟨⟨by omega, by omega⟩, limbsOk_nil⟩, ?_⟩
        rw [v1]
        simp [mag]
    · obtain ⟨t, c1, c0, rfl⟩ := split_two (by omega : 2 ≤ raw.length)
      rw [isDigits_append] at hdig
      obtain ⟨d1, hd1, rfl⟩ := isDigit_eq_digitChar (hdig.2 c1 (by simp))
      obtain ⟨d0, hd0, rfl⟩ := isDigit_eq_digitChar (hdig.2 c0 (by simp))
      obtain ⟨s2, -, v2, -, -, -⟩ := stoi_digit_facts d1 hd1 d0 hd0
      obtain ⟨f, rfl⟩ : ∃ f, fuel = f + 1 := ⟨fuel - 1, by omega⟩
      simp only [List.length_append, List.length_cons, List.length_nil] at hlen
      obtain ⟨limbs, hr, hl1, hl2, hl3⟩ := ih (n - 2) (by omega) t (by omega) hdig.1 f (by omega)
      rw [readLoop_step t _ _ f s2 (by simp) (by simp) (Or.inl rfl), hr]
      refine ⟨((10 * d1 + d0 : Nat) : Int) :: limbs, rfl, ?_, ?_, ?_⟩
      · simp only [List.length_cons, hl1]
        omega
      · exact limbsOk_cons.2 ⟨⟨by omega, by omega⟩, hl2⟩
      · rw [mag_cons, hl3, decimalValue_append, v2]
        simp only [List.length_cons, List.length_nil]
        push_cast
        ring

theorem digit_not_space {c : Char} (h : c.isDigit = true) : isspace c = false := by
  obtain ⟨d, hd, rfl⟩ := isDigit_eq_digitChar h
  exact (stoi_digit_facts 0 (by decide) d hd).2.2.2.2.1

theorem digit_ne_minus {c : Char} (h : c.isDigit = true) : c ≠ '-' := by
  obtain ⟨d, hd, rfl⟩ := isDigit_eq_digitChar h
  exact (stoi_digit_facts 0 (by decide) d hd).2.2.2.2.2

/-- C16: for every string `s` matching `-?[0-9]+`, with digits `ds`,
`operator>>` reads `s` as one token and produces exactly `ceil(|ds| / 2)`
limbs, each in `[0, 100)`, least-significant first, whose base-100 value is
the decimal value of `ds`; `negative_` is set exactly when `s` starts with
`-`. -/
theorem read_literal (s ds : List Char) (h : IsLiteral s ds) :
    ∃ y, readStream s = some y ∧ read s = some y ∧
      y.buffer_.length = (ds.length + 1) / 2 ∧ LimbsOk y.buffer_ ∧
      mag y.buffer_ = (decimalValue ds : Int) ∧
      (y.negative_ = true ↔ s.head? = some '-') := by
  obtain ⟨hne, hdig, hs⟩ := h
  obtain ⟨limbs, hr, h1, h2, h3⟩ := readLoop_digits ds.length ds rfl hdig ds.length (le_refl _)
  obtain ⟨c, cs, hcs⟩ := List.exists_cons_of_ne_nil hne
  have hc : c ≠ '-' := digit_ne_minus (hdig c (by rw [hcs]; exact List.mem_cons_self _ _))
  have hread : ∃ y, read s = some y ∧ y.buffer_ = limbs ∧
      (y.negative_ = true ↔ s.head? = some '-') := by
    rcases hs with hs | hs
    · have hh : ¬ s.head? = some '-' := by
        rw [hs, hcs]
        simpa using hc
      refine ⟨⟨limbs, false⟩, ?_, rfl, by simpa using hh⟩
      simp only [read, hh, decide_False, Bool.false_eq_true, if_false]
      rw [hs, hr]
      rfl
    · refine ⟨⟨limbs, true⟩, ?_, rfl, by rw [hs]; simp⟩
      rw [hs]
      simp only [read, List.head?_cons, decide_True, if_true, List.drop_succ_cons,
        List.drop_zero, hr, Option.map_some']
  obtain ⟨y, hy, hb, hsg⟩ := hread
  have htok : extractToken s = s := by
    apply extractToken_of_no_space
    intro ch hch
    rcases hs with hs | hs
    · rw [hs] at hch
      exact digit_not_space (hdig ch hch)
    · rw [hs] at hch
      rcases List.mem_cons.1 hch with rfl | hch
      · decide
      · exact digit_not_space (hdig ch hch)
  refine ⟨y, by unfold readStream; rw [htok]; exact hy, hy, by rw [hb]; exact h1,
    by rw [hb]; exact h2, by rw [hb]; exact h3, hsg⟩

/-- Witness for C16 at `s = "-12345"`. -/
theorem read_literal_witness :
    IsLiteral ['-', '1', '2', '3', '4', '5'] ['1', '2', '3', '4', '5'] ∧
    ∃ y, readStream ['-', '1', '2', '3', '4', '5'] = some y ∧
      read ['-', '1', '2', '3', '4', '5'] = some y ∧
      y.buffer_.length = (['1', '2', '3', '4', '5'].length + 1) / 2 ∧ LimbsOk y.buffer_ ∧
      mag y.buffer_ = (decimalValue ['1', '2', '3', '4', '5'] : Int) ∧
      (y.negative_ = true ↔ ['-', '1', '2', '3', '4', '5'].head? = some '-') :=
  ⟨by decide, read_literal _ _ (by decide)⟩

/-- C11 fails on the code: `operator>>` never calls `normalize()`, so the
redundant top limb of `"007"` and the sign of `"-0"` are kept, and `toString`
writes `"007"` and `"-0"` back instead of the canonical `"7"` and `"0"`. -/
theorem read_keeps_leading_zeros :
    IsLiteral ['0', '0', '7'] ['0', '0', '7'] ∧
      read ['0', '0', '7'] = some ⟨[7, 0], false⟩ ∧
      (readStream ['0', '0', '7']).map toString = some ['0', '0', '7'] ∧
      IsCanonicalDecimal ['7'] (decimalValue ['0', '0', '7']) ∧
      IsLiteral ['-', '0'] ['0'] ∧
      read ['-', '0'] = some ⟨[0], true⟩ ∧
      (readStream ['-', '0']).map toString = some ['-', '0'] ∧
      ¬ WellFormed ⟨[7, 0], false⟩ ∧ ¬ WellFormed ⟨[0], true⟩ := by
  decide

theorem readLoop_none_iff (raw : List Char) (fuel : Nat) (i : Int) (hf : i ≤ fuel) :
    readLoop raw fuel i = none ↔
      ∃ j : Int, 0 < j ∧ j ≤ i ∧ (i - j) % 2 = 0 ∧
        stoi (substr raw (max 0 (j - 2)) (j - max 0 (j - 2))) = none := by
  induction fuel generalizing i with
  | zero =>
    have hi0 : i ≤ 0 := by omega
    simp only [readLoop]
    rw [if_neg (by omega)]
    constructor
    · intro h
      exact Option.noConfusion h
    · rintro ⟨j, h1, h2, -⟩
      omega
  | succ n ih =>
    simp only [readLoop, ten_power_, Nat.cast_ofNat]
    by_cases hi : i > 0
    · rw [if_pos hi]
      cases hst : stoi (substr raw (max 0 (i - 2)) (i - max 0 (i - 2))) with
      | none =>
        simp only [true_iff]
        exact ⟨i, hi, le_refl _, by omega, hst⟩
      | some limb =>
        simp only [Option.map_eq_none']
        rw [ih (i - 2) (by push_cast at hf; omega)]
        constructor
        · rintro ⟨j, h1, h2, h3, h4⟩
          exact ⟨j, h1, by omega, by omega, h4⟩
        · rintro ⟨j, h1, h2, h3, h4⟩
          have hne : j ≠ i := by
            rintro rfl
            rw [hst] at h4
            exact Option.noConfusion h4
          exact ⟨j, h1, by omega, by omega, h4⟩
    · rw [if_neg hi]
      constructor
      · intro h
        exact Option.noConfusion h
      · rintro ⟨j, h1, h2, -⟩
        omega

theorem takeWhile_eq_nil_iff_head (p : Char → Bool) (l : List Char) :
    l.takeWhile p = [] ↔ ∀ c, l.head? = some c → p c = false := by
  cases l with
  | nil => simp
  | cons a as =>
    by_cases ha : p a = true
    · simp [List.takeWhile_cons, ha]
    · simp [List.takeWhile_cons, ha]

theorem digits_value_le (ds : List Char) (h : IsDigits ds) (acc : Int) (h0 : 0 ≤ acc) :
    0 ≤ ds.foldl (fun acc c => acc * 10 + ((c.toNat : Int) - 48)) acc ∧
      ds.foldl (fun acc c => acc * 10 + ((c.toNat : Int) - 48)) acc <
        (acc + 1) * 10 ^ ds.length := by
  induction ds generalizing acc with
  | nil => simp only [List.foldl_nil, List.length_nil, pow_zero, mul_one]; omega
  | cons c cs ih =>
    have hc := isDigit_range (h c (List.mem_cons_self _ _))
    have hcs : IsDigits cs := fun x hx => h x (List.mem_cons_of_mem _ hx)
    obtain ⟨i1, i2⟩ := ih hcs (acc * 10 + ((c.toNat : Int) - 48)) (by omega)
    simp only [List.foldl_cons, List.length_cons]
    refine ⟨i1, lt_of_lt_of_le i2 ?_⟩
    rw [pow_succ]
    have hp : (0 : Int) < 10 ^ cs.length := by positivity
    have : (acc * 10 + ((c.toNat : Int) - 48) + 1) * 10 ^ cs.length ≤
        ((acc + 1) * 10) * 10 ^ cs.length :=
      mul_le_mul_of_nonneg_right (by omega) (le_of_lt hp)
    calc (acc * 10 + ((c.toNat : Int) - 48) + 1) * 10 ^ cs.length
        ≤ ((acc + 1) * 10) * 10 ^ cs.length := this
      _ = (acc + 1) * (10 ^ cs.length * 10) := by ring

/-- On a group of at most two characters `std::stoi` throws exactly when the
group, after leading white space and one optional sign, does not start with a
decimal digit. -/
theorem stoi_none_iff (g : List Char) (hg : g.length ≤ 2) :
    stoi g = none ↔
      ∀ c, (if (g.dropWhile isspace).head? = some '-' ∨ (g.dropWhile isspace).head? = some '+'
          then (g.dropWhile isspace).drop 1 else g.dropWhile isspace).head? = some c →
        c.isDigit = false := by
  rw [← takeWhile_eq_nil_iff_head]
  generalize hrest : (if (g.dropWhile isspace).head? = some '-' ∨
      (g.dropWhile isspace).head? = some '+' then (g.dropWhile isspace).drop 1
      else g.dropWhile isspace) = rest
  have hrl : rest.length ≤ 2 := by
    have h1 : (g.dropWhile isspace).length ≤ g.length :=
      (List.dropWhile_sublist _).length_le
    rw [← hrest]
    split
    · rw [List.length_drop]
      omega
    · omega
  have hdl : (rest.takeWhile Char.isDigit).length ≤ 2 :=
    le_trans (List.takeWhile_sublist _).length_le hrl
  have hdig : IsDigits (rest.takeWhile Char.isDigit) := by
    intro c hc
    exact List.mem_takeWhile_imp hc
  obtain ⟨v0, v1⟩ := digits_value_le _ hdig 0 (le_refl _)
  have hp : (10 : Int) ^ (rest.takeWhile Char.isDigit).length ≤ 10 ^ 2 :=
    pow_le_pow_right₀ (by decide) hdl
  rw [zero_add, one_mul] at v1
  have hstoi : stoi g =
      if (rest.takeWhile Char.isDigit).isEmpty ∨
          (if (g.dropWhile isspace).head? = some '-' then
              -(rest.takeWhile Char.isDigit).foldl
                (fun acc c => acc * 10 + ((c.toNat : Int) - 48)) 0
            else (rest.takeWhile Char.isDigit).foldl
                (fun acc c => acc * 10 + ((c.toNat : Int) - 48)) 0) < -2147483648 ∨
          2147483647 <
            (if (g.dropWhile isspace).head? = some '-' then
              -(rest.takeWhile Char.isDigit).foldl
                (fun acc c => acc * 10 + ((c.toNat : Int) - 48)) 0
            else (rest.takeWhile Char.isDigit).foldl
                (fun acc c => acc * 10 + ((c.toNat : Int) - 48)) 0)
      then none
      else some (if (g.dropWhile isspace).head? = some '-' then
              -(rest.takeWhile Char.isDigit).foldl
                (fun acc c => acc * 10 + ((c.toNat : Int) - 48)) 0
            else (rest.takeWhile Char.isDigit).foldl
                (fun acc c => acc * 10 + ((c.toNat : Int) - 48)) 0) := by
    rw [← hrest]
    rfl
  rw [hstoi]
  constructor
  · intro h
    by_contra hne
    rw [if_neg] at h
    · exact Option.noConfusion h
    · rintro (hc | hc | hc)
      · rw [List.isEmpty_iff] at hc
        exact hne hc
      · split at hc <;> omega
      · split at hc <;> omega
  · intro h
    rw [if_pos (Or.inl (by rw [h]; rfl))]

/-- C13, as stated, fails: the empty token and the lone `-` are read without
any error into a `BigInteger` with no limbs, `"1a"` is read as the limb `1`
and `"1-2"` as the limbs `[-2, 1]`. -/
theorem read_accepts_malformed :
    read [] = some ⟨[], false⟩ ∧ readStream [] = some ⟨[], false⟩ ∧
      read ['-'] = some ⟨[], true⟩ ∧ readStream ['-'] = some ⟨[], true⟩ ∧
      read ['1', 'a'] = some ⟨[1], false⟩ ∧ readStream ['1', 'a'] = some ⟨[1], false⟩ ∧
      read ['1', '-', '2'] = some ⟨[-2, 1], false⟩ ∧
      readStream ['1', '-', '2'] = some ⟨[-2, 1], false⟩ := by
  decide

/-- C13 (amended): `operator>>` has no validation of its own; it fails, and
produces no `BigInteger`, exactly when `std::stoi` throws on one of the groups
of two characters taken from the right end of the token after one optional
leading `-` (the leftmost group has one character when the length is odd), and
`std::stoi` throws on such a group exactly when the group, after leading white
space and one optional sign, does not start with a decimal digit; so `"a1"`
and `"1a2"` fail. -/
theorem read_fails_iff (token raw : List Char)
    (hraw : raw = if token.head? = some '-' then token.drop 1 else token) :
    (read token = none ↔
      ∃ j : Int, 0 < j ∧ j ≤ raw.length ∧ ((raw.length : Int) - j) % 2 = 0 ∧
        stoi (substr raw (max 0 (j - 2)) (j - max 0 (j - 2))) = none) ∧
    (∀ g : List Char, g.length ≤ 2 →
      (stoi g = none ↔
        ∀ c, (if (g.dropWhile isspace).head? = some '-' ∨
              (g.dropWhile isspace).head? = some '+'
            then (g.dropWhile isspace).drop 1 else g.dropWhile isspace).head? = some c →
          c.isDigit = false)) ∧
    read ['a', '1'] = none ∧ read ['1', 'a', '2'] = none := by
  refine ⟨?_, stoi_none_iff, by decide, by decide⟩
  have hread : read token = (readLoop raw raw.length raw.length).map
      (fun buffer => ⟨buffer, decide (token.head? = some '-')⟩) := by
    rw [hraw]
    unfold read
    simp only [decide_eq_true_eq]
  rw [hread, Option.map_eq_none', readLoop_none_iff raw raw.length raw.length (le_refl _)]

/-- Witness for C13 at the token `"-a1"`. -/
theorem read_fails_iff_witness :
    (['a', '1'] = if ['-', 'a', '1'].head? = some '-' then ['-', 'a', '1'].drop 1
      else ['-', 'a', '1']) ∧
    ((read ['-', 'a', '1'] = none ↔
      ∃ j : Int, 0 < j ∧ j ≤ (['a', '1'].length : Int) ∧
        ((['a', '1'].length : Int) - j) % 2 = 0 ∧
        stoi (substr ['a', '1'] (max 0 (j - 2)) (j - max 0 (j - 2))) = none) ∧
    (∀ g : List Char, g.length ≤ 2 →
      (stoi g = none ↔
        ∀ c, (if (g.dropWhile isspace).head? = some '-' ∨
              (g.dropWhile isspace).head? = some '+'
            then (g.dropWhile isspace).drop 1 else g.dropWhile isspace).head? = some c →
          c.isDigit = false)) ∧
    read ['a', '1'] = none ∧ read ['1', 'a', '2'] = none) :=
  ⟨by decide, read_fails_iff ['-', 'a', '1'] ['a', '1'] (by decide)⟩

end BigInteger

end MainCpp

/-! ## Well-formedness in `src/bigint/main.cpp` -/

namespace Limbs

/-- The binary search ends, for any test, within `right - left + 1`
iterations, with a result between its bounds. -/
theorem searchLoop_total (test : Int → Bool) (fuel : Nat) (left right : Int)
    (hl0 : 0 ≤ left) (hlr : left ≤ right) (hf : (right - left).toNat < fuel) :
    ∃ d, searchLoop test fuel left right = some d ∧ left ≤ d ∧ d ≤ right := by
  induction fuel generalizing left right with
  | zero => omega
  | succ n ih =>
    unfold searchLoop
    split
    · next hlt =>
      have hmid : Int.tdiv (left + right) 2 = (left + right) / 2 :=
        Int.tdiv_eq_ediv (by omega) (by decide)
      simp only [hmid]
      split
      · obtain ⟨d, hd, h1, h2⟩ := ih ((left + right) / 2 + 1) right (by omega) (by omega)
          (by omega)
        exact ⟨d, hd, by omega, h2⟩
      · obtain ⟨d, hd, h1, h2⟩ := ih left ((left + right) / 2) hl0 (by omega) (by omega)
        exact ⟨d, hd, h1, by omega⟩
    · exact ⟨left, rfl, le_refl _, by omega⟩

theorem subLoopAliased_spec (flag : Bool) (xs ys : List Int) (c : Int) (hx : LimbsOk xs)
    (hy : LimbsOk ys) (h0 : 0 ≤ c) (h1 : c ≤ 1) :
    LimbsOk (subLoopAliased flag xs ys c) ∧ xs.length ≤ (subLoopAliased flag xs ys c).length ∧
      ys.length ≤ (subLoopAliased flag xs ys c).length := by
  induction ys generalizing xs c with
  | nil => exact ⟨hx, le_refl _, Nat.zero_le _⟩
  | cons y ys ih =>
    rw [limbsOk_cons] at hy
    have hhere : 0 ≤ xs.headD 0 ∧ xs.headD 0 < 100 := by
      cases xs with
      | nil => simp
      | cons x xs => exact (limbsOk_cons.1 hx).1
    have htail : LimbsOk xs.tail := by
      cases xs with
      | nil => exact limbsOk_nil
      | cons x xs => exact (limbsOk_cons.1 hx).2
    simp only [subLoopAliased]
    cases flag with
    | true =>
      simp only [if_true]
      by_cases hv : y - xs.headD 0 - c < 0
      · obtain ⟨a, l1, l2⟩ := ih xs.tail 1 htail hy.2 (by omega) (by omega)
        simp only [hv, if_true, base_]
        refine ⟨limbsOk_cons.2 ⟨by omega, a⟩, ?_, ?_⟩
        · simp only [List.length_cons, List.length_tail] at l1 ⊢
          omega
        · simp only [List.length_cons]
          omega
      · obtain ⟨a, l1, l2⟩ := ih xs.tail 0 htail hy.2 (by omega) (by omega)
        simp only [hv, if_false, base_]
        refine ⟨limbsOk_cons.2 ⟨by omega, a⟩, ?_, ?_⟩
        · simp only [List.length_cons, List.length_tail] at l1 ⊢
          omega
        · simp only [List.length_cons]
          omega
    | false =>
      simp only [Bool.false_eq_true, if_false]
      by_cases hv : xs.headD 0 - y - c < 0
      · obtain ⟨a, l1, l2⟩ := ih xs.tail 1 htail hy.2 (by omega) (by omega)
        simp only [hv, if_true, base_]
        refine ⟨limbsOk_cons.2 ⟨by omega, a⟩, ?_, ?_⟩
        · simp only [List.length_cons, List.length_tail] at l1 ⊢
          omega
        · simp only [List.length_cons]
          omega
      · obtain ⟨a, l1, l2⟩ := ih xs.tail 0 htail hy.2 (by omega) (by omega)
        simp only [hv, if_false, base_]
        refine ⟨limbsOk_cons.2 ⟨by omega, a⟩, ?_, ?_⟩
        · simp only [List.length_cons, List.length_tail] at l1 ⊢
          omega
        · simp only [List.length_cons]
          omega

end Limbs

namespace MainCpp

namespace BigInteger

open Limbs

theorem main_normalize_buffer (a : BigInteger) :
    (normalize a).buffer_ = normalizeBuf a.buffer_ := rfl

theorem normalize_negative (a : BigInteger) :
    (normalize a).negative_ = if normalizeBuf a.buffer_ = [0] then false else a.negative_ := by
  unfold normalize
  simp only [BigintegerH.BigInteger.single_zero_iff]

/-- The method `normalize` yields a well-formed value from any non-empty
buffer with limbs in range. -/
theorem normalize_wf (a : BigInteger) (hl : LimbsOk a.buffer_) (hne : a.buffer_ ≠ []) :
    WellFormed (normalize a) := by
  refine ⟨normalizeBuf_limbsOk hl, normalizeBuf_canonical hne, fun h0 => ?_⟩
  rw [normalize_negative]
  rw [main_normalize_buffer] at h0
  rw [if_pos h0]

theorem main_normalize_of_wf {a : BigInteger} (h : WellFormed a) : normalize a = a := by
  obtain ⟨hl, hc, hz⟩ := h
  cases a with
  | mk b s =>
    simp only at hl hc hz
    unfold normalize
    simp only [normalizeBuf_of_canonical hc, BigintegerH.BigInteger.single_zero_iff, mk.injEq,
      true_and]
    split
    · next h0 => exact (hz h0).symm
    · rfl

theorem add_abs_wf (a b : BigInteger) (hla : LimbsOk a.buffer_) (hna : a.buffer_ ≠ [])
    (hlb : LimbsOk b.buffer_) : WellFormed (add_abs a b) := by
  obtain ⟨h1, -, h3⟩ := addLoop_spec a.buffer_ b.buffer_ 0 hla hlb (le_refl _) (by decide)
  exact normalize_wf _ h1 (BigintegerH.BigInteger.ne_nil_of_length_le h3 hna)

theorem sub_abs_wf (a b : BigInteger) (hla : LimbsOk a.buffer_) (hna : a.buffer_ ≠ [])
    (hlb : LimbsOk b.buffer_) : WellFormed (sub_abs a b) := by
  obtain ⟨h1, h2, -⟩ := subLoopAliased_spec (less_abs a b) a.buffer_ b.buffer_ 0 hla hlb
    (le_refl _) (by decide)
  exact normalize_wf _ h1 (BigintegerH.BigInteger.ne_nil_of_length_le h2 hna)

theorem neg_wf (a : BigInteger) (ha : WellFormed a) : WellFormed (neg a) :=
  normalize_wf _ ha.1 ha.2.1.1

theorem iadd_wf (a b : BigInteger) (ha : WellFormed a) (hb : WellFormed b) :
    WellFormed (iadd a b) := by
  unfold iadd
  split
  · rw [main_normalize_of_wf (add_abs_wf a b ha.1 ha.2.1.1 hb.1)]
    exact add_abs_wf a b ha.1 ha.2.1.1 hb.1
  · have hw : WellFormed
        (sub_abs (if less_abs a b = true then ⟨a.buffer_, !a.negative_⟩ else a) b) := by
      split
      · exact sub_abs_wf _ b ha.1 ha.2.1.1 hb.1
      · exact sub_abs_wf a b ha.1 ha.2.1.1 hb.1
    rw [main_normalize_of_wf hw]
    exact hw

theorem isub_wf (a b : BigInteger) (ha : WellFormed a) (hb : WellFormed b) :
    WellFormed (isub a b) := by
  unfold isub
  split
  · rw [main_normalize_of_wf (add_abs_wf a b ha.1 ha.2.1.1 hb.1)]
    exact add_abs_wf a b ha.1 ha.2.1.1 hb.1
  · have hw : WellFormed
        (sub_abs (if less_abs a b = true then ⟨a.buffer_, !a.negative_⟩ else a) b) := by
      split
      · exact sub_abs_wf _ b ha.1 ha.2.1.1 hb.1
      · exact sub_abs_wf a b ha.1 ha.2.1.1 hb.1
    rw [main_normalize_of_wf hw]
    exact hw

theorem multiply_short_wf (b : BigInteger) (hl : LimbsOk b.buffer_) (hne : b.buffer_ ≠ [])
    (k : Int) (hk0 : 0 ≤ k) (hk : k ≤ 99) :
    WellFormed (multiply_short b k) ∧ mag (multiply_short b k).buffer_ = mag b.buffer_ * k := by
  obtain ⟨h1, h2, h3⟩ := mulShortLoop_spec k hk0 hk b.buffer_ 0 hl (le_refl _) (by decide)
  refine ⟨normalize_wf _ h1 (BigintegerH.BigInteger.ne_nil_of_length_le h3 hne), ?_⟩
  unfold multiply_short
  rw [main_normalize_buffer, normalizeBuf_mag]
  simp only [h2, add_zero]

/-- No buffer with limbs in range is below the buffer `[0]`. -/
theorem less_abs_zero_buffer (cur z : BigInteger) (hl : LimbsOk cur.buffer_)
    (hne : cur.buffer_ ≠ []) (hz : z.buffer_ = [0]) : less_abs cur z = false := by
  unfold less_abs
  split
  · rfl
  · rw [hz]
    split
    · next hlen =>
      simp only [List.length_singleton, decide_eq_false_iff_not, not_lt]
      exact List.length_pos.2 hne
    · next hlen =>
      simp only [List.length_singleton, ne_eq, not_not] at hlen
      obtain ⟨c, hc⟩ := List.length_eq_one.1 hlen
      rw [hc]
      have hc0 : 0 ≤ c := (hl c (by rw [hc]; exact List.mem_singleton_self c)).1
      simp only [List.reverse_singleton, lessFromTop]
      split
      · simp only [decide_eq_false_iff_not, not_lt]
        exact hc0
      · rfl

theorem quotientDigit_range (b cur : BigInteger) (hlb : LimbsOk b.buffer_)
    (hnb : b.buffer_ ≠ []) (hlc : LimbsOk cur.buffer_) (hnc : cur.buffer_ ≠ []) :
    ∃ q, quotientDigit b cur = some q ∧ 0 ≤ q ∧ q ≤ 99 := by
  obtain ⟨d, hd, hd0, hd99⟩ := searchLoop_total
    (fun middle => less_abs (multiply_short b middle) cur) base_.toNat 0 (base_ - 1)
    (le_refl _) (by decide) (by decide)
  simp only [base_] at hd99
  unfold quotientDigit
  rw [hd]
  simp only [Option.map_some']
  by_cases hdec : less_abs cur (multiply_short b d) = true
  · rw [if_pos hdec]
    refine ⟨d - 1, rfl, ?_, by omega⟩
    by_contra hneg
    have hd00 : d = 0 := by omega
    obtain ⟨w, hm⟩ := multiply_short_wf b hlb hnb 0 (le_refl _) (by decide)
    have hz : (multiply_short b 0).buffer_ = [0] :=
      eq_zero_of_mag_eq_zero w.1 w.2.1 (by rw [hm, mul_zero])
    rw [hd00, less_abs_zero_buffer cur _ hlc hnc hz] at hdec
    exact Bool.noConfusion hdec
  · rw [if_neg hdec]
    exact ⟨d, rfl, hd0, by omega⟩

theorem setLimb0_shift (cur : BigInteger) (x : Int) :
    ∃ rest, setLimb0 (shift cur) x = some ⟨x :: rest, cur.negative_⟩ ∧
      (∀ y ∈ rest, y ∈ cur.buffer_) := by
  unfold shift shiftBuf setLimb0
  by_cases h : cur.buffer_.length = 1 ∧ cur.buffer_.head? = some 0
  · rw [BigintegerH.BigInteger.single_zero_iff] at h
    simp only [h]
    exact ⟨[], by simp, by simp⟩
  · simp only [h, if_false]
    exact ⟨cur.buffer_, rfl, fun y hy => hy⟩

/-- The loop of `operator/=` of `src/bigint/main.cpp` returns, for any divisor
with limbs in range, quotient limbs in range, one for each limb of the
dividend. -/
theorem divLoop_limbs (b : BigInteger) (hlb : LimbsOk b.buffer_) (hnb : b.buffer_ ≠ [])
    (xs : List Int) (hx : LimbsOk xs) :
    ∃ cur q, divLoop b xs = some (cur, q) ∧ LimbsOk cur.buffer_ ∧ cur.buffer_ ≠ [] ∧
      LimbsOk q ∧ q.length = xs.length := by
  induction xs with
  | nil => exact ⟨zero, [], rfl, by simp only [zero]; decide, by simp [zero], limbsOk_nil, rfl⟩
  | cons x xs ih =>
    rw [limbsOk_cons] at hx
    obtain ⟨cur, q, hdiv, hl, hne, hq, hql⟩ := ih hx.2
    obtain ⟨rest, hset, hrest⟩ := setLimb0_shift cur x
    have hl1 : LimbsOk (x :: rest) :=
      limbsOk_cons.2 ⟨hx.1, fun y hy => hl y (hrest y hy)⟩
    obtain ⟨d, hd, hd0, hd99⟩ := quotientDigit_range b ⟨x :: rest, cur.negative_⟩ hlb hnb hl1
      (by simp)
    obtain ⟨wm, -⟩ := multiply_short_wf b hlb hnb d hd0 hd99
    have w2 := sub_abs_wf ⟨x :: rest, cur.negative_⟩ (multiply_short b d) hl1 (by simp) wm.1
    refine ⟨_, d :: q, by simp only [divLoop, hdiv, hset, hd], w2.1, w2.2.1.1,
      limbsOk_cons.2 ⟨⟨hd0, by omega⟩, hq⟩, by simp [hql]⟩

theorem idiv_wf (a b : BigInteger) (ha : WellFormed a) (hb : WellFormed b) :
    ∃ q, idiv a b = some q ∧ WellFormed q := by
  obtain ⟨cur, q, hdiv, -, -, hq, hql⟩ := divLoop_limbs b hb.1 hb.2.1.1 a.buffer_ ha.1
  refine ⟨normalize ⟨q, xor a.negative_ b.negative_⟩,
    by simp only [idiv, hdiv, Option.map_some'], normalize_wf ⟨q, _⟩ hq ?_⟩
  intro h0
  simp only at h0
  rw [h0] at hql
  exact ha.2.1.1 (List.length_eq_zero.1 hql.symm)

/-- C14: in both variants well-formedness (non-empty limb list, limbs in
`[0, 100)`, no most-significant zero limb unless the value is the single limb
`0`, non-negative sign for zero) is preserved by unary minus, `operator+=`,
`operator-=` and, for a non-zero divisor, `operator/=`: on well-formed
operands each of them returns a well-formed result. -/
theorem wellFormed_preserved (a b : BigintegerH.BigInteger) (c d : BigInteger)
    (ha : BigintegerH.BigInteger.WellFormed a) (hb : BigintegerH.BigInteger.WellFormed b)
    (hc : WellFormed c) (hd : WellFormed d) :
    (BigintegerH.BigInteger.WellFormed (BigintegerH.BigInteger.neg a) ∧
      (∃ r, BigintegerH.BigInteger.iadd a b = some r ∧ BigintegerH.BigInteger.WellFormed r) ∧
      (∃ r, BigintegerH.BigInteger.isub a b = some r ∧ BigintegerH.BigInteger.WellFormed r) ∧
      (BigintegerH.BigInteger.val b ≠ 0 →
        ∃ r, BigintegerH.BigInteger.idiv a b = some r ∧ BigintegerH.BigInteger.WellFormed r)) ∧
    (WellFormed (neg c) ∧ WellFormed (iadd c d) ∧ WellFormed (isub c d) ∧
      (val d ≠ 0 → ∃ r, idiv c d = some r ∧ WellFormed r)) := by
  refine ⟨⟨(BigintegerH.BigInteger.neg_spec a ha).1, ?_, ?_, ?_⟩,
    neg_wf c hc, iadd_wf c d hc hd, isub_wf c d hc hd, fun _ => idiv_wf c d hc hd⟩
  · obtain ⟨r, hr, w, -⟩ := BigintegerH.BigInteger.iadd_spec a b ha hb
    exact ⟨r, hr, w⟩
  · obtain ⟨r, hr, w, -⟩ := BigintegerH.BigInteger.isub_spec a b ha hb
    exact ⟨r, hr, w⟩
  · intro hb0
    obtain ⟨r, hr, w, -⟩ := BigintegerH.BigInteger.idiv_spec a b ha hb hb0
    exact ⟨r, hr, w⟩

/-- Witness for C14 at `100` and `-3` in both variants. -/
theorem wellFormed_preserved_witness :
    BigintegerH.BigInteger.WellFormed ⟨[0, 1], 1⟩ ∧ BigintegerH.BigInteger.WellFormed ⟨[3], -1⟩ ∧
    WellFormed ⟨[0, 1], false⟩ ∧ WellFormed ⟨[3], true⟩ ∧
    ((BigintegerH.BigInteger.WellFormed (BigintegerH.BigInteger.neg ⟨[0, 1], 1⟩) ∧
      (∃ r, BigintegerH.BigInteger.iadd ⟨[0, 1], 1⟩ ⟨[3], -1⟩ = some r ∧
        BigintegerH.BigInteger.WellFormed r) ∧
      (∃ r, BigintegerH.BigInteger.isub ⟨[0, 1], 1⟩ ⟨[3], -1⟩ = some r ∧
        BigintegerH.BigInteger.WellFormed r) ∧
      (BigintegerH.BigInteger.val ⟨[3], -1⟩ ≠ 0 →
        ∃ r, BigintegerH.BigInteger.idiv ⟨[0, 1], 1⟩ ⟨[3], -1⟩ = some r ∧
          BigintegerH.BigInteger.WellFormed r)) ∧
    (WellFormed (neg ⟨[0, 1], false⟩) ∧ WellFormed (iadd ⟨[0, 1], false⟩ ⟨[3], true⟩) ∧
      WellFormed (isub ⟨[0, 1], false⟩ ⟨[3], true⟩) ∧
      (val ⟨[3], true⟩ ≠ 0 → ∃ r, idiv ⟨[0, 1], false⟩ ⟨[3], true⟩ = some r ∧ WellFormed r))) :=
  ⟨by decide, by decide, by decide, by decide,
    wellFormed_preserved ⟨[0, 1], 1⟩ ⟨[3], -1⟩ ⟨[0, 1], false⟩ ⟨[3], true⟩ (by decide) (by decide)
      (by decide) (by decide)⟩

end BigInteger

end MainCpp

/-! ## Division by zero in `src/bigint/main.cpp` -/

namespace Limbs

theorem searchLoop_const (test : Int → Bool) (t : Bool) (ht : ∀ m, test m = t) (fuel : Nat)
    (left right : Int) (hl0 : 0 ≤ left) (hlr : left ≤ right)
    (hf : (right - left).toNat < fuel) :
    searchLoop test fuel left right = some (if t = true then right else left) := by
  induction fuel generalizing left right with
  | zero => omega
  | succ n ih =>
    unfold searchLoop
    split
    · next hlt =>
      have hmid : Int.tdiv (left + right) 2 = (left + right) / 2 :=
        Int.tdiv_eq_ediv (by omega) (by decide)
      simp only [hmid, ht]
      cases t with
      | true =>
        simp only [if_true]
        rw [ih ((left + right) / 2 + 1) right (by omega) (by omega) (by omega)]
        simp
      | false =>
        simp only [Bool.false_eq_true, if_false]
        rw [ih left ((left + right) / 2) hl0 (by omega) (by omega)]
        simp
    · next hge =>
      have : left = right := by omega
      subst this
      simp

end Limbs

namespace MainCpp

namespace BigInteger

open Limbs

theorem main_eq_iff (a b : BigInteger) : eq a b = true ↔ a = b := by
  cases a with
  | mk ba sa =>
    cases b with
    | mk bb sb =>
      unfold eq
      simp only [mk.injEq]
      split
      · next h =>
        simp only [Bool.false_eq_true, false_iff, not_and]
        intro hb hs
        rcases h with h | h
        · exact h hs
        · exact h (by rw [hb])
      · next h =>
        simp only [not_or, not_not] at h
        rw [eqLoop_iff _ _ h.2]
        exact ⟨fun hb => ⟨hb, h.1⟩, fun hb => hb.1⟩

theorem main_val_eq_zero_iff {a : BigInteger} (h : WellFormed a) : val a = 0 ↔ a = zero := by
  obtain ⟨hl, hc, hz⟩ := h
  constructor
  · intro hv
    have hm : mag a.buffer_ = 0 := by
      unfold val at hv
      split at hv <;> omega
    have hb := eq_zero_of_mag_eq_zero hl hc hm
    cases a with
    | mk b s =>
      simp only at hb hz
      subst hb
      simp only [zero, mk.injEq, true_and]
      exact hz rfl
  · rintro rfl
    rfl

theorem multiply_short_zero (m : Int) : multiply_short zero m = zero := by
  have h : mulShortLoop m [0] 0 = [0] := by
    simp [mulShortLoop, carryLoop]
  unfold multiply_short
  simp only [zero, h]
  decide

theorem less_abs_zero_left (cur : BigInteger) (hl : LimbsOk cur.buffer_)
    (hne : cur.buffer_ ≠ []) : less_abs zero cur = decide (cur.buffer_ ≠ [0]) := by
  unfold less_abs
  by_cases h0 : cur.buffer_ = [0]
  · simp only [h0, ne_eq, not_true_eq_false, decide_False]
    split
    · rfl
    · simp [zero, lessFromTop]
  · have hneq : ¬ eq zero cur = true := by
      rw [main_eq_iff]
      intro h
      rw [← h] at h0
      exact h0 rfl
    simp only [hneq, Bool.false_eq_true, if_false, ne_eq, h0, not_false_eq_true, decide_True]
    split
    · next hlen =>
      simp only [zero, List.length_singleton, decide_eq_true_eq] at hlen ⊢
      have := List.length_pos.2 hne
      omega
    · next hlen =>
      simp only [zero, List.length_singleton, ne_eq, not_not] at hlen
      obtain ⟨c, hc⟩ := List.length_eq_one.1 hlen.symm
      have hc0 : 0 ≤ c := (hl c (by rw [hc]; exact List.mem_singleton_self c)).1
      have hcne : c ≠ 0 := by
        rintro rfl
        exact h0 hc
      simp only [zero, hc, List.reverse_singleton, lessFromTop]
      rw [if_pos (fun h => hcne h.symm)]
      simp only [decide_eq_true_eq]
      omega

theorem quotientDigit_zero (cur : BigInteger) (hl : LimbsOk cur.buffer_)
    (hne : cur.buffer_ ≠ []) :
    quotientDigit zero cur = some (if cur.buffer_ = [0] then 0 else 99) := by
  unfold quotientDigit
  have htest : ∀ m : Int, less_abs (multiply_short zero m) cur = decide (cur.buffer_ ≠ [0]) := by
    intro m
    rw [multiply_short_zero, less_abs_zero_left cur hl hne]
  rw [searchLoop_const _ _ htest base_.toNat 0 (base_ - 1) (le_refl _) (by decide) (by decide)]
  simp only [Option.map_some', multiply_short_zero]
  rw [less_abs_zero_buffer cur zero hl hne rfl]
  by_cases h0 : cur.buffer_ = [0]
  · simp [h0]
  · simp [h0, base_]

theorem sub_abs_zero (cur : BigInteger) (hw : WellFormed cur) : sub_abs cur zero = cur := by
  obtain ⟨x, xs, hx⟩ := List.exists_cons_of_ne_nil hw.2.1.1
  have hx0 : 0 ≤ x := (hw.1 x (by rw [hx]; exact List.mem_cons_self _ _)).1
  have hloop : subLoopAliased (less_abs cur zero) cur.buffer_ zero.buffer_ 0 = cur.buffer_ := by
    rw [less_abs_zero_buffer cur zero hw.1 hw.2.1.1 rfl, hx]
    simp only [zero, subLoopAliased, List.headD_cons, Bool.false_eq_true, if_false,
      List.tail_cons, sub_zero]
    rw [if_neg (by omega)]
  unfold sub_abs
  rw [hloop]
  exact main_normalize_of_wf hw

/-- With the zero divisor every quotient digit found while `current` is not
zero is `99`, and `current` is never reduced. -/
theorem divLoop_zero (xs : List Int) (hx : LimbsOk xs) (l : Int)
    (hlast : xs.getLast? = some l) (hl0 : l ≠ 0) :
    ∃ cur, divLoop zero xs = some (cur, List.replicate xs.length 99) ∧ WellFormed cur ∧
      cur.negative_ = false ∧ cur.buffer_ ≠ [0] := by
  induction xs with
  | nil => simp at hlast
  | cons x xs ih =>
    rw [limbsOk_cons] at hx
    have hstep : ∀ (cur : BigInteger) (q : List Int), divLoop zero xs = some (cur, q) →
        cur.negative_ = false → ∀ rest, setLimb0 (shift cur) x = some ⟨x :: rest, false⟩ →
        WellFormed ⟨x :: rest, false⟩ → x :: rest ≠ [0] →
        divLoop zero (x :: xs) = some (⟨x :: rest, false⟩, 99 :: q) := by
      intro cur q hdiv hneg rest hset hw hne0
      have hq := quotientDigit_zero ⟨x :: rest, false⟩ hw.1 (by simp)
      simp only [hne0, if_false] at hq
      simp only [divLoop, hdiv, hset, hq, multiply_short_zero, sub_abs_zero _ hw]
    cases xs with
    | nil =>
      simp only [List.getLast?_singleton, Option.some.injEq] at hlast
      subst hlast
      have hw : WellFormed ⟨[x], false⟩ :=
        ⟨limbsOk_cons.2 ⟨hx.1, limbsOk_nil⟩, ⟨by simp, fun h => by simpa using h⟩, fun _ => rfl⟩
      have hne0 : [x] ≠ [0] := by simpa using hl0
      refine ⟨⟨[x], false⟩, ?_, hw, rfl, hne0⟩
      exact hstep zero [] rfl rfl [] (by simp [setLimb0, shift, shiftBuf, zero]) hw hne0
    | cons y ys =>
      rw [List.getLast?_cons_cons] at hlast
      obtain ⟨cur, hdiv, hw, hneg, hne0⟩ := ih hx.2 hlast
      have hshift : setLimb0 (shift cur) x = some ⟨x :: cur.buffer_, false⟩ := by
        have : ¬ (cur.buffer_.length = 1 ∧ cur.buffer_.head? = some 0) := by
          rw [BigintegerH.BigInteger.single_zero_iff]
          exact hne0
        simp [setLimb0, shift, shiftBuf, this, hneg]
      have hw1 : WellFormed ⟨x :: cur.buffer_, false⟩ := by
        refine ⟨limbsOk_cons.2 ⟨hx.1, hw.1⟩, ⟨by simp, fun h => ?_⟩, fun _ => rfl⟩
        obtain ⟨z, zs, hz⟩ := List.exists_cons_of_ne_nil hw.2.1.1
        simp only [hz, List.getLast?_cons_cons] at h
        rw [← hz] at h
        exact absurd (hw.2.1.2 h) hne0
      have hne1 : x :: cur.buffer_ ≠ [0] := by
        intro h
        have := congrArg List.length h
        simp only [List.length_cons, List.length_nil] at this
        have := List.length_pos.2 hw.2.1.1
        omega
      refine ⟨⟨x :: cur.buffer_, false⟩, ?_, hw1, rfl, hne1⟩
      have := hstep cur _ hdiv hneg cur.buffer_ hshift hw1 hne1
      rw [this]
      simp [List.replicate_succ]

theorem idiv_zero (a : BigInteger) (ha : WellFormed a) :
    idiv a zero = some (if a.buffer_ = [0] then zero
      else ⟨List.replicate a.buffer_.length 99, a.negative_⟩) := by
  by_cases h0 : a.buffer_ = [0]
  · have : a = zero := by
      cases a with
      | mk b s =>
        simp only at h0
        subst h0
        simp only [zero, mk.injEq, true_and]
        exact ha.2.2 rfl
    subst this
    decide
  · rw [if_neg h0]
    obtain ⟨lower, top, hb, hlast⟩ := split_last ha.2.1.1
    have htop : top ≠ 0 := by
      rintro rfl
      exact h0 (ha.2.1.2 hlast)
    obtain ⟨cur, hdiv, -, -, -⟩ := divLoop_zero a.buffer_ ha.1 top hlast htop
    have hxor : xor a.negative_ zero.negative_ = a.negative_ := by simp [zero]
    simp only [idiv, hdiv, Option.map_some', hxor]
    have hpos := List.length_pos.2 ha.2.1.1
    have hw : WellFormed ⟨List.replicate a.buffer_.length 99, a.negative_⟩ := by
      refine ⟨?_, ⟨?_, ?_⟩, ?_⟩
      · intro x hx
        rw [List.mem_replicate] at hx
        omega
      · intro h
        have := congrArg List.length h
        simp only [List.length_replicate, List.length_nil] at this
        omega
      · intro h
        exfalso
        have hm := List.mem_of_getLast?_eq_some h
        rw [List.mem_replicate] at hm
        omega
      · intro h
        exfalso
        have hm : (99 : Int) ∈ List.replicate a.buffer_.length 99 :=
          List.mem_replicate.2 ⟨by omega, rfl⟩
        simp only at h
        rw [h] at hm
        simp at hm
    rw [main_normalize_of_wf hw]

theorem imul_zero (q : BigInteger) (hl : LimbsOk q.buffer_) (hne : q.buffer_ ≠ []) :
    imul q zero = some zero := by
  obtain ⟨size, hsize, hle⟩ := transformSize_spec q.buffer_.length zero.buffer_.length
  have hz : LimbsOk zero.buffer_ := by simp only [zero]; decide
  have hlen1 : zero.buffer_.length = 1 := rfl
  obtain ⟨h1, h2, h3⟩ := roundedCoeffs_spec q.buffer_ zero.buffer_ size
    (allNonneg_of_limbsOk hl) (allNonneg_of_limbsOk hz) (by
      have := List.length_pos.2 hne
      omega)
  obtain ⟨k1, k2, k3⟩ := mulCarryLoop_spec (roundedCoeffs q.buffer_ zero.buffer_ size) q.buffer_
    0 h2 (le_refl _) (by omega)
  have hpos := List.length_pos.2 hne
  have hw := normalize_wf
    ⟨mulCarryLoop (roundedCoeffs q.buffer_ zero.buffer_ size) q.buffer_ 0,
      xor q.negative_ zero.negative_⟩ k1
    (by
      intro h0
      simp only at h0
      rw [h0] at k3
      simp only [List.length_nil, Nat.le_zero_eq] at k3
      omega)
  have hm : mag (normalize
      ⟨mulCarryLoop (roundedCoeffs q.buffer_ zero.buffer_ size) q.buffer_ 0,
        xor q.negative_ zero.negative_⟩).buffer_ = 0 := by
    rw [main_normalize_buffer, normalizeBuf_mag, k2, h1]
    simp [zero, mag]
  have hv : val (normalize
      ⟨mulCarryLoop (roundedCoeffs q.buffer_ zero.buffer_ size) q.buffer_ 0,
        xor q.negative_ zero.negative_⟩) = 0 := by
    unfold val
    rw [hm]
    simp
  simp only [imul, hsize, Option.map_some']
  rw [(main_val_eq_zero_iff hw).1 hv]

theorem isub_zero (a : BigInteger) (ha : WellFormed a) : isub a zero = a := by
  obtain ⟨x, xs, hx⟩ := List.exists_cons_of_ne_nil ha.2.1.1
  have hx0 : 0 ≤ x ∧ x < 100 := ha.1 x (by rw [hx]; exact List.mem_cons_self _ _)
  unfold isub
  split
  · have hadd : add_abs a zero = a := by
      unfold add_abs
      have hloop : addLoop a.buffer_ zero.buffer_ 0 = a.buffer_ := by
        rw [hx]
        simp only [zero, addLoop, List.headD_cons, List.tail_cons, add_zero]
        rw [tmod_base hx0.1, tdiv_base hx0.1]
        have h1 : x % 100 = x := by omega
        have h2 : x / 100 = 0 := by omega
        rw [h1, h2]
        cases xs <;> simp [addTail, carryLoop]
      rw [hloop]
      exact main_normalize_of_wf ha
    rw [hadd, main_normalize_of_wf ha]
  · have hless := less_abs_zero_buffer a zero ha.1 ha.2.1.1 rfl
    simp only [hless, Bool.false_eq_true, if_false]
    rw [sub_abs_zero a ha, main_normalize_of_wf ha]

/-- C12, as stated, fails: `5 / 0` returns the limb `99` and `5 % 0` returns
`5`; no error is raised. -/
theorem division_by_zero_counterexample :
    WellFormed (ofInt 5) ∧ WellFormed (ofInt 0) ∧ val (ofInt 0) = 0 ∧
      idiv (ofInt 5) (ofInt 0) = some ⟨[99], false⟩ ∧
      imod (ofInt 5) (ofInt 0) = some (ofInt 5) := by
  decide

/-- C12 (amended): in `src/bigint/main.cpp`, `operator/=` and `operator%=` with
a well-formed divisor whose value is zero raise no error: for every
well-formed dividend `a` they terminate and return a value, the quotient being
`0` when `val a = 0` and otherwise as many limbs `99` as `a` has, with the
sign of `a`, and the remainder being `a`. -/
theorem division_by_zero_returns (a b : BigInteger) (ha : WellFormed a) (hb : WellFormed b)
    (hb0 : val b = 0) :
    (∃ q, idiv a b = some q ∧ (val a = 0 → q = zero) ∧
      (val a ≠ 0 → q = ⟨List.replicate a.buffer_.length 99, a.negative_⟩)) ∧
    imod a b = some a := by
  have hbz := (main_val_eq_zero_iff hb).1 hb0
  subst hbz
  have hq := idiv_zero a ha
  have hiff : a.buffer_ = [0] ↔ val a = 0 := by
    rw [main_val_eq_zero_iff ha]
    constructor
    · intro h0
      cases a with
      | mk b s =>
        simp only at h0
        subst h0
        simp only [zero, mk.injEq, true_and]
        exact ha.2.2 rfl
    · rintro rfl
      rfl
  refine ⟨⟨_, hq, ?_, ?_⟩, ?_⟩
  · intro h0
    rw [if_pos (hiff.2 h0)]
  · intro h0
    rw [if_neg (fun h => h0 (hiff.1 h))]
  · obtain ⟨q, hq2, wq⟩ := idiv_wf a zero ha (by decide)
    simp only [imod, hq2, imul_zero q wq.1 wq.2.1.1, Option.map_some', isub_zero a ha,
      main_normalize_of_wf ha]

/-- Witness for C12 at the dividend `-12345`. -/
theorem division_by_zero_returns_witness :
    WellFormed ⟨[45, 23, 1], true⟩ ∧ WellFormed ⟨[0], false⟩ ∧ val ⟨[0], false⟩ = 0 ∧
    ((∃ q, idiv ⟨[45, 23, 1], true⟩ ⟨[0], false⟩ = some q ∧
        (val ⟨[45, 23, 1], true⟩ = 0 → q = zero) ∧
        (val ⟨[45, 23, 1], true⟩ ≠ 0 →
          q = ⟨List.replicate [45, 23, 1].length 99, true⟩)) ∧
      imod ⟨[45, 23, 1], true⟩ ⟨[0], false⟩ = some ⟨[45, 23, 1], true⟩) :=
  ⟨by decide, by decide, by decide,
    division_by_zero_returns ⟨[45, 23, 1], true⟩ ⟨[0], false⟩ (by decide) (by decide)
      (by decide)⟩

end BigInteger

end MainCpp

/-! ## `gcd`, `Rational::operator+=` and `asDecimal` of `src/matrix/biginteger.h` -/

namespace BigintegerH

namespace BigInteger

open Limbs

/-- C19: in `src/matrix/biginteger.h`, for all well-formed non-negative `a`
and `b`, `gcd(a, b)` terminates (any fuel above `val b` is enough) and returns
a well-formed value denoting the greatest common divisor of `val a` and
`val b`: it divides both, and every common divisor divides it; `gcd(a, 0)` is
`a`, and `gcd(48, 18)` is `6` (with `operator*=` returning the exact
product). -/
theorem gcd_correct (a b : BigInteger) (ha : WellFormed a) (hb : WellFormed b)
    (ha0 : 0 ≤ val a) (hb0 : 0 ≤ val b) :
    (∃ bound, ∀ fuel, bound ≤ fuel →
      ∃ g, gcd fuel a b = some g ∧ WellFormed g ∧ val g = (Int.gcd (val a) (val b) : Int) ∧
        0 ≤ val g ∧ val g ∣ val a ∧ val g ∣ val b ∧
        (∀ c : Int, c ∣ val a → c ∣ val b → c ∣ val g) ∧ (val b = 0 → g = a)) ∧
    gcd 19 (ofInt 48) (ofInt 18) = some (ofInt 6) := by
  refine ⟨⟨(val b).toNat + 1, fun fuel hf => ?_⟩, by decide⟩
  obtain ⟨g, hg, wg, vg⟩ := gcd_spec fuel a b ha hb ha0 hb0 (by omega)
  refine ⟨g, hg, wg, vg, ?_, ?_, ?_, ?_, ?_⟩
  · rw [vg]
    exact Int.natCast_nonneg _
  · rw [vg]
    exact Int.gcd_dvd_left
  · rw [vg]
    exact Int.gcd_dvd_right
  · intro c h1 h2
    rw [vg]
    exact Int.dvd_gcd h1 h2
  · intro hz
    apply eq_of_val_eq wg ha
    rw [vg, hz, Int.gcd_zero_right, Int.natCast_natAbs, abs_of_nonneg ha0]

/-- Witness for C19 at `a = 48`, `b = 18`. -/
theorem gcd_correct_witness :
    WellFormed ⟨[48], 1⟩ ∧ WellFormed ⟨[18], 1⟩ ∧ 0 ≤ val ⟨[48], 1⟩ ∧ 0 ≤ val ⟨[18], 1⟩ ∧
    ((∃ bound, ∀ fuel, bound ≤ fuel →
      ∃ g, gcd fuel ⟨[48], 1⟩ ⟨[18], 1⟩ = some g ∧ WellFormed g ∧
        val g = (Int.gcd (val ⟨[48], 1⟩) (val ⟨[18], 1⟩) : Int) ∧
        0 ≤ val g ∧ val g ∣ val ⟨[48], 1⟩ ∧ val g ∣ val ⟨[18], 1⟩ ∧
        (∀ c : Int, c ∣ val ⟨[48], 1⟩ → c ∣ val ⟨[18], 1⟩ → c ∣ val g) ∧
        (val ⟨[18], 1⟩ = 0 → g = ⟨[48], 1⟩)) ∧
    gcd 19 (ofInt 48) (ofInt 18) = some (ofInt 6)) :=
  ⟨by decide, by decide, by decide, by decide,
    gcd_correct ⟨[48], 1⟩ ⟨[18], 1⟩ (by decide) (by decide) (by decide) (by decide)⟩

end BigInteger

namespace Rational

open Limbs BigInteger

/-- The compound assignment `operator+=` of `Rational` returns the reduced
fraction whose value is the sum of the two values. -/
theorem rational_iadd_value (fuel : Nat) (r s : Rational) (hr : Invariant r)
    (hs : Invariant s) (hf1 : (val s.denominator_).toNat < fuel)
    (hf2 : (val r.denominator_ * val s.denominator_).toNat < fuel) :
    ∃ t, iadd fuel r s = some t ∧ Invariant t ∧
      val t.numerator_ * (val r.denominator_ * val s.denominator_) =
        (val r.numerator_ * val s.denominator_ + val s.numerator_ * val r.denominator_) *
          val t.denominator_ := by
  obtain ⟨wn1, wd1, hp1, -⟩ := hr
  obtain ⟨wn2, wd2, hp2, -⟩ := hs
  obtain ⟨g, hg, wg, vg⟩ := gcd_spec fuel r.denominator_ s.denominator_ wd1 wd2
    (le_of_lt hp1) (le_of_lt hp2) hf1
  have hgpos : 0 < Int.gcd (val r.denominator_) (val s.denominator_) :=
    Int.gcd_pos_of_ne_zero_right _ (ne_of_gt hp2)
  have hg0 : val g ≠ 0 := by rw [vg]; exact_mod_cast (ne_of_gt hgpos)
  have hgp : 0 < val g := by rw [vg]; exact_mod_cast hgpos
  obtain ⟨k1, hk1⟩ : val g ∣ val r.denominator_ := by rw [vg]; exact Int.gcd_dvd_left
  obtain ⟨k2, hk2⟩ : val g ∣ val s.denominator_ := by rw [vg]; exact Int.gcd_dvd_right
  obtain ⟨p, hp, wp, vp, -, -⟩ := BigInteger.imul_spec r.denominator_ s.denominator_ wd1 wd2
  obtain ⟨cm, hcm, wcm, vcm, -, -⟩ := BigInteger.idiv_spec p g wp wg hg0
  have hpk : val p = val g * (val g * k1 * k2) := by rw [vp, hk1, hk2]; ring
  have hcmv : val cm = val g * k1 * k2 := by
    rw [vcm, Int.tdiv_eq_ediv_of_dvd ⟨_, hpk⟩, hpk, Int.mul_ediv_cancel_left _ hg0]
  have hk1pos : 0 < k1 := by
    rw [hk1] at hp1
    exact pos_of_mul_pos_left (by rwa [mul_comm] at hp1) (le_of_lt hgp)
  have hk2pos : 0 < k2 := by
    rw [hk2] at hp2
    exact pos_of_mul_pos_left (by rwa [mul_comm] at hp2) (le_of_lt hgp)
  have hcmpos : 0 < val cm := by
    rw [hcmv]
    exact mul_pos (mul_pos hgp hk1pos) hk2pos
  have hcmle : val cm ≤ val r.denominator_ * val s.denominator_ := by
    rw [hcmv, hk1, hk2]
    have : 0 ≤ (val g - 1) * (val g * k1 * k2) :=
      mul_nonneg (by omega) (le_of_lt (mul_pos (mul_pos hgp hk1pos) hk2pos))
    nlinarith
  obtain ⟨a1, ha1, wa1, va1, -, -⟩ := BigInteger.imul_spec r.numerator_ cm wn1 wcm
  obtain ⟨l, hl, wl, vl, -, -⟩ := BigInteger.idiv_spec a1 r.denominator_ wa1 wd1 (ne_of_gt hp1)
  obtain ⟨a2, ha2, wa2, va2, -, -⟩ := BigInteger.imul_spec s.numerator_ cm wn2 wcm
  obtain ⟨m, hm, wm, vm, -, -⟩ := BigInteger.idiv_spec a2 s.denominator_ wa2 wd2 (ne_of_gt hp2)
  have hlv : val l = val r.numerator_ * k2 := by
    have h1 : val a1 = val r.denominator_ * (val r.numerator_ * k2) := by
      rw [va1, hcmv, hk1]; ring
    rw [vl, Int.tdiv_eq_ediv_of_dvd ⟨_, h1⟩, h1, Int.mul_ediv_cancel_left _ (ne_of_gt hp1)]
  have hmv : val m = val s.numerator_ * k1 := by
    have h1 : val a2 = val s.denominator_ * (val s.numerator_ * k1) := by
      rw [va2, hcmv, hk2]; ring
    rw [vm, Int.tdiv_eq_ediv_of_dvd ⟨_, h1⟩, h1, Int.mul_ediv_cancel_left _ (ne_of_gt hp2)]
  obtain ⟨n, hn, wn, vn⟩ := BigInteger.iadd_spec l m wl wm
  obtain ⟨t, ht, inv, hval⟩ := rational_normalize_spec fuel ⟨n, cm⟩ wn wcm hcmpos
    (by
      simp only
      omega)
  refine ⟨t, ?_, inv, ?_⟩
  · simp only [iadd, hg, hp, hcm, ha1, hl, ha2, hm, hn, ht, Option.bind_some, Option.some_bind]
  · simp only [vn, hlv, hmv, hcmv] at hval
    rw [hk1, hk2]
    linear_combination (val g) * hval

/-- C18: in `src/matrix/biginteger.h`, for all Rationals `r = n1/d1` and
`s = n2/d2` satisfying the invariant, `r + s` (`operator+=`) returns (for any
fuel from a bound on) a Rational satisfying the invariant that denotes exactly
the rational number `n1/d1 + n2/d2` (with `operator*=` returning the exact
product). -/
theorem iadd_denotes_sum (r s : Rational) (hr : Invariant r) (hs : Invariant s) :
    ∃ bound, ∀ fuel, bound ≤ fuel →
      ∃ t, iadd fuel r s = some t ∧ Invariant t ∧
        ((val t.numerator_ : ℚ) / (val t.denominator_ : ℚ) =
          (val r.numerator_ : ℚ) / (val r.denominator_ : ℚ) +
            (val s.numerator_ : ℚ) / (val s.denominator_ : ℚ)) := by
  refine ⟨(val s.denominator_).toNat + (val r.denominator_ * val s.denominator_).toNat + 1,
    fun fuel hf => ?_⟩
  obtain ⟨t, ht, inv, hv⟩ := rational_iadd_value fuel r s hr hs (by omega) (by omega)
  refine ⟨t, ht, inv, ?_⟩
  have h1 : (val r.denominator_ : ℚ) ≠ 0 := by exact_mod_cast ne_of_gt hr.2.2.1
  have h2 : (val s.denominator_ : ℚ) ≠ 0 := by exact_mod_cast ne_of_gt hs.2.2.1
  have h3 : (val t.denominator_ : ℚ) ≠ 0 := by exact_mod_cast ne_of_gt inv.2.2.1
  have hq : (val t.numerator_ : ℚ) * ((val r.denominator_ : ℚ) * (val s.denominator_ : ℚ)) =
      ((val r.numerator_ : ℚ) * (val s.denominator_ : ℚ) +
        (val s.numerator_ : ℚ) * (val r.denominator_ : ℚ)) * (val t.denominator_ : ℚ) := by
    exact_mod_cast hv
  field_simp
  linear_combination hq

/-- Witness for C18 at `r = 1/6`, `s = -1/3`. -/
theorem iadd_denotes_sum_witness :
    Invariant ⟨⟨[1], 1⟩, ⟨[6], 1⟩⟩ ∧ Invariant ⟨⟨[1], -1⟩, ⟨[3], 1⟩⟩ ∧
    ∃ bound, ∀ fuel, bound ≤ fuel →
      ∃ t, iadd fuel ⟨⟨[1], 1⟩, ⟨[6], 1⟩⟩ ⟨⟨[1], -1⟩, ⟨[3], 1⟩⟩ = some t ∧ Invariant t ∧
        ((val t.numerator_ : ℚ) / (val t.denominator_ : ℚ) =
          (val (⟨[1], 1⟩ : BigInteger) : ℚ) / (val (⟨[6], 1⟩ : BigInteger) : ℚ) +
            (val (⟨[1], -1⟩ : BigInteger) : ℚ) / (val (⟨[3], 1⟩ : BigInteger) : ℚ)) :=
  ⟨by decide, by decide,
    iadd_denotes_sum ⟨⟨[1], 1⟩, ⟨[6], 1⟩⟩ ⟨⟨[1], -1⟩, ⟨[3], 1⟩⟩ (by decide) (by decide)⟩

end Rational

end BigintegerH

namespace MainCpp

namespace Rational

open Limbs

/-- C20 fails on the code: for the numerator `3` and the denominator `101`
the binary-GCD `Rational::normalize` of `src/bigint/main.cpp` leaves `1/33`
(its `low_divisor -= high_divisor` computes `101 - 3` as `198`, the borrow
being dropped by `sub_abs`), the Euclidean one of `src/matrix/biginteger.h`
leaves `3/101`. -/
theorem normalize_variants_differ :
    BigInteger.WellFormed ⟨[3], false⟩ ∧ BigInteger.WellFormed ⟨[1, 1], false⟩ ∧
      BigintegerH.BigInteger.WellFormed ⟨[3], 1⟩ ∧
      BigintegerH.BigInteger.WellFormed ⟨[1, 1], 1⟩ ∧
      normalize 100 ⟨⟨[3], false⟩, ⟨[1, 1], false⟩⟩ = some ⟨⟨[1], false⟩, ⟨[33], false⟩⟩ ∧
      BigintegerH.Rational.normalize 100 ⟨⟨[3], 1⟩, ⟨[1, 1], 1⟩⟩ =
        some ⟨⟨[3], 1⟩, ⟨[1, 1], 1⟩⟩ := by
  decide

end Rational

end MainCpp

namespace Decimal

theorem decimalValue_replicate_zero (k : Nat) (ds : List Char) :
    decimalValue (List.replicate k '0' ++ ds) = decimalValue ds := by
  have hz : ∀ k, decimalValue (List.replicate k '0') = 0 := by
    intro k
    induction k with
    | zero => rfl
    | succ k ih =>
      rw [List.replicate_succ', decimalValue_append, ih]
      decide
  rw [decimalValue_append, hz]
  simp

theorem isDigits_replicate_zero (k : Nat) : IsDigits (List.replicate k '0') := by
  intro c hc
  rw [List.mem_replicate] at hc
  rw [hc.2]
  decide

/-- The layout step of `asDecimal`: from the canonical digits of `q`, pad to
at least `p` digits and put the point `p` digits from the right. -/
theorem layout_spec (ds : List Char) (q p : Nat) (h : IsCanonicalDecimal ds q) :
    ∃ ip fp,
      (if p > 0 then
          if max 0 (((List.replicate (max 0 ((p : Int) - (ds.length : Int))).toNat '0' ++
              ds).length : Int) - (p : Int)) = 0 then
            ['0', '.'] ++
              (List.replicate (max 0 ((p : Int) - (ds.length : Int))).toNat '0' ++ ds)
          else
            MainCpp.BigInteger.substr
                (List.replicate (max 0 ((p : Int) - (ds.length : Int))).toNat '0' ++ ds) 0
                (max 0 (((List.replicate (max 0 ((p : Int) - (ds.length : Int))).toNat '0' ++
                  ds).length : Int) - (p : Int))) ++ ['.'] ++
              (List.replicate (max 0 ((p : Int) - (ds.length : Int))).toNat '0' ++ ds).drop
                (max 0 (((List.replicate (max 0 ((p : Int) - (ds.length : Int))).toNat '0' ++
                  ds).length : Int) - (p : Int))).toNat
        else List.replicate (max 0 ((p : Int) - (ds.length : Int))).toNat '0' ++ ds) =
        ip ++ (if p > 0 then '.' :: fp else []) ∧
      IsCanonicalDecimal ip (q / 10 ^ p) ∧ fp.length = p ∧ IsDigits fp ∧
      decimalValue fp = q % 10 ^ p := by
  obtain ⟨hne, hdig, hhead, hval⟩ := h
  have hL : 0 < ds.length := List.length_pos.2 hne
  have hlt := decimalValue_lt hdig
  rw [hval] at hlt
  rcases Nat.eq_zero_or_pos p with hp0 | hp
  · subst hp0
    have hk : (max 0 (((0 : Nat) : Int) - (ds.length : Int))).toNat = 0 := by omega
    have hnil : IsDigits [] := by
      intro c hc
      simp at hc
    refine ⟨ds, [], ?_, ?_, rfl, hnil, ?_⟩
    · rw [if_neg (by omega), if_neg (by omega), hk]
      simp
    · simpa using ⟨hne, hdig, hhead, hval⟩
    · simp [decimalValue, Nat.mod_one]
  · simp only [if_pos hp]
    rcases Nat.lt_or_ge p ds.length with hlong | hshort
    · have hk : (max 0 ((p : Int) - (ds.length : Int))).toNat = 0 := by omega
      rw [hk]
      simp only [List.replicate_zero, List.nil_append]
      have hpos : max 0 ((ds.length : Int) - (p : Int)) = ((ds.length - p : Nat) : Int) := by
        omega
      rw [hpos, if_neg (by omega)]
      have hsub : MainCpp.BigInteger.substr ds 0 ((ds.length - p : Nat) : Int) =
          ds.take (ds.length - p) := by
        simp [MainCpp.BigInteger.substr]
      rw [hsub, Int.toNat_ofNat]
      have hsplit : ds = ds.take (ds.length - p) ++ ds.drop (ds.length - p) :=
        (List.take_append_drop _ _).symm
      have hfl : (ds.drop (ds.length - p)).length = p := by
        rw [List.length_drop]
        omega
      have hdd : IsDigits (ds.take (ds.length - p)) ∧ IsDigits (ds.drop (ds.length - p)) := by
        rw [← isDigits_append, ← hsplit]
        exact hdig
      have hv : q = decimalValue (ds.take (ds.length - p)) * 10 ^ p +
          decimalValue (ds.drop (ds.length - p)) := by
        rw [← hval]
        conv_lhs => rw [hsplit]
        rw [decimalValue_append, hfl]
      have hfv := decimalValue_lt hdd.2
      rw [hfl] at hfv
      have hpp : 0 < 10 ^ p := by positivity
      refine ⟨ds.take (ds.length - p), ds.drop (ds.length - p), by simp, ⟨?_, hdd.1, ?_, ?_⟩,
        hfl, hdd.2, ?_⟩
      · intro h0
        have := congrArg List.length h0
        simp only [List.length_take, List.length_nil] at this
        omega
      · intro hh
        have hh2 : ds.head? = some '0' := by
          cases hds : ds with
          | nil => exact absurd hds hne
          | cons a as =>
            have hposk : 0 < ds.length - p := by omega
            obtain ⟨k, hk2⟩ : ∃ k, ds.length - p = k + 1 := ⟨ds.length - p - 1, by omega⟩
            rw [hk2, hds] at hh
            simpa using hh
        have := hhead hh2
        rw [this] at hlong
        simp only [List.length_singleton] at hlong
        omega
      · rw [hv, Nat.add_div hpp, Nat.mul_div_cancel _ hpp, Nat.div_eq_of_lt hfv]
        have : ¬ (10 ^ p ≤ decimalValue (List.take (ds.length - p) ds) * 10 ^ p % 10 ^ p +
            decimalValue (List.drop (ds.length - p) ds) % 10 ^ p) := by
          rw [Nat.mul_mod_left, Nat.mod_eq_of_lt hfv]
          omega
        rw [if_neg this]
        omega
      · rw [hv, Nat.add_mod, Nat.mul_mod_left, zero_add, Nat.mod_mod, Nat.mod_eq_of_lt hfv]
    · have hk : (max 0 ((p : Int) - (ds.length : Int))).toNat = p - ds.length := by omega
      rw [hk]
      have hplen : (List.replicate (p - ds.length) '0' ++ ds).length = p := by
        rw [List.length_append, List.length_replicate]
        omega
      rw [hplen, if_pos (by omega)]
      have hqlt : q < 10 ^ p :=
        lt_of_lt_of_le hlt (Nat.pow_le_pow_right (by decide) hshort)
      refine ⟨['0'], List.replicate (p - ds.length) '0' ++ ds, by simp, ?_, hplen, ?_, ?_⟩
      · rw [Nat.div_eq_of_lt hqlt]
        decide
      · rw [isDigits_append]
        exact ⟨isDigits_replicate_zero _, hdig⟩
      · rw [decimalValue_replicate_zero, hval, Nat.mod_eq_of_lt hqlt]

end Decimal

namespace BigintegerH

namespace Rational

open Limbs BigInteger Decimal

theorem scaleLoop_spec (p : Nat) (number : BigInteger) (hw : WellFormed number) :
    ∃ m, scaleLoop p number = some m ∧ WellFormed m ∧ val m = val number * 10 ^ p := by
  induction p generalizing number with
  | zero => exact ⟨number, rfl, hw, by simp⟩
  | succ p ih =>
    have h10 : WellFormed (BigInteger.ofInt 10) ∧ val (BigInteger.ofInt 10) = 10 := by decide
    obtain ⟨x, hx, wx, vx, -, -⟩ := BigInteger.imul_spec number (BigInteger.ofInt 10) hw h10.1
    obtain ⟨m, hm, wm, vm⟩ := ih x wx
    refine ⟨m, by simp only [scaleLoop, hx, Option.some_bind, hm], wm, ?_⟩
    rw [vm, vx, h10.2, pow_succ]
    ring

/-- On a well-formed non-negative value `toString` of
`src/matrix/biginteger.h` writes the canonical decimal representation. -/
theorem toString_nonneg (number : BigInteger) (hw : WellFormed number) (h0 : 0 ≤ val number) :
    IsCanonicalDecimal (BigInteger.toString number) (val number).toNat := by
  have hs : number.sign_ = 1 := by
    rcases hw.1 with h | h
    · exact h
    · have := mag_pos_of_sign_neg hw h
      unfold val at h0
      rw [h] at h0
      omega
  have hv : val number = mag number.buffer_ := by
    unfold val
    rw [hs, one_mul]
  unfold BigInteger.toString
  rw [hs, if_neg (by decide), List.nil_append, hv]
  exact (MainCpp.BigInteger.toStringLoop_decimal number.buffer_ hw.2.1 hw.2.2.1).1

/-- C17: in `src/matrix/biginteger.h`, for every Rational `n/d` satisfying the
invariant and every precision `p`, with `q = floor(|n| * 10^p / d)`,
`asDecimal(p)` returns: a `-` exactly when `n < 0`, then the canonical decimal
digits of `q div 10^p` (`0` when that is zero), then, only when `p > 0`, a
`.` followed by exactly `p` decimal digits whose value is `q mod 10^p`; `1/3`
with `p = 5` gives `0.33333` and `-7/2` with `p = 2` gives `-3.50` (with
`operator*=` returning the exact product). -/
theorem asDecimal_spec (r : Rational) (hr : Invariant r) (p : Nat) :
    (∃ ip fp,
      asDecimal r p = some ((if val r.numerator_ < 0 then ['-'] else []) ++ ip ++
        (if p > 0 then '.' :: fp else [])) ∧
      IsCanonicalDecimal ip
        (((|val r.numerator_| * 10 ^ p) / val r.denominator_).toNat / 10 ^ p) ∧
      fp.length = p ∧ IsDigits fp ∧
      decimalValue fp = ((|val r.numerator_| * 10 ^ p) / val r.denominator_).toNat % 10 ^ p) ∧
    asDecimal ⟨BigInteger.ofInt 1, BigInteger.ofInt 3⟩ 5 =
      some ['0', '.', '3', '3', '3', '3', '3'] ∧
    asDecimal ⟨BigInteger.ofInt (-7), BigInteger.ofInt 2⟩ 2 = some ['-', '3', '.', '5', '0'] := by
  refine ⟨?_, by decide, by decide⟩
  obtain ⟨wn, wd, hpos, -⟩ := hr
  obtain ⟨wa, va⟩ := abs_spec r.numerator_ wn
  obtain ⟨m, hm, wm, vm⟩ := scaleLoop_spec p (BigInteger.abs r.numerator_) wa
  obtain ⟨q, hq, wq, vq, -, -⟩ := BigInteger.idiv_spec m r.denominator_ wm wd (ne_of_gt hpos)
  have hm0 : 0 ≤ val m := by
    rw [vm, va]
    exact mul_nonneg (abs_nonneg _) (by positivity)
  rw [Int.tdiv_eq_ediv hm0 (le_of_lt hpos), vm, va] at vq
  have hq0 : 0 ≤ val q := by
    rw [vq]
    exact Int.ediv_nonneg (mul_nonneg (abs_nonneg _) (by positivity)) (le_of_lt hpos)
  have hds := toString_nonneg q wq hq0
  rw [vq] at hds
  obtain ⟨ip, fp, hlay, h1, h2, h3, h4⟩ := layout_spec (BigInteger.toString q) _ p hds
  have hz : WellFormed (BigInteger.ofInt 0) ∧ val (BigInteger.ofInt 0) = 0 := by decide
  refine ⟨ip, fp, ?_, h1, h2, h3, h4⟩
  simp only [asDecimal, hm, hq, Option.some_bind]
  rw [hlay]
  by_cases hneg : val r.numerator_ < 0
  · have hlt : lt r.numerator_ (BigInteger.ofInt 0) = true := by
      rw [lt_iff _ _ wn hz.1, hz.2]
      exact hneg
    rw [if_pos hlt, if_pos hneg]
    simp
  · have hlt : ¬ lt r.numerator_ (BigInteger.ofInt 0) = true := by
      rw [lt_iff _ _ wn hz.1, hz.2]
      exact hneg
    rw [if_neg hlt, if_neg hneg]
    simp

/-- Witness for C17 at `-7/2` with `p = 2`. -/
theorem asDecimal_spec_witness :
    Invariant ⟨⟨[7], -1⟩, ⟨[2], 1⟩⟩ ∧
    ((∃ ip fp,
      asDecimal ⟨⟨[7], -1⟩, ⟨[2], 1⟩⟩ 2 =
        some ((if val (⟨[7], -1⟩ : BigInteger) < 0 then ['-'] else []) ++ ip ++
          (if 2 > 0 then '.' :: fp else [])) ∧
      IsCanonicalDecimal ip
        (((|val (⟨[7], -1⟩ : BigInteger)| * 10 ^ 2) / val (⟨[2], 1⟩ : BigInteger)).toNat /
          10 ^ 2) ∧
      fp.length = 2 ∧ IsDigits fp ∧
      decimalValue fp =
        ((|val (⟨[7], -1⟩ : BigInteger)| * 10 ^ 2) / val (⟨[2], 1⟩ : BigInteger)).toNat %
          10 ^ 2) ∧
    asDecimal ⟨BigInteger.ofInt 1, BigInteger.ofInt 3⟩ 5 =
      some ['0', '.', '3', '3', '3', '3', '3'] ∧
    asDecimal ⟨BigInteger.ofInt (-7), BigInteger.ofInt 2⟩ 2 =
      some ['-', '3', '.', '5', '0']) :=
  ⟨by decide, asDecimal_spec ⟨⟨[7], -1⟩, ⟨[2], 1⟩⟩ (by decide) 2⟩

end Rational

end BigintegerH

/-! ## Order, negation and the constructor in `src/bigint/main.cpp` -/

namespace MainCpp

namespace BigInteger

open Limbs

theorem main_val_mag {a : BigInteger} (ha : WellFormed a) :
    (a.negative_ = true → 0 < mag a.buffer_) ∧ 0 ≤ mag a.buffer_ := by
  obtain ⟨hl, hc, hz⟩ := ha
  have hn := mag_nonneg hl
  refine ⟨fun hs => ?_, hn⟩
  by_contra hc0
  have h0 : mag a.buffer_ = 0 := by omega
  have := hz (eq_zero_of_mag_eq_zero hl hc h0)
  rw [hs] at this
  exact Bool.noConfusion this

/-- Well-formed values are determined by the integer they denote. -/
theorem main_eq_of_val_eq {a b : BigInteger} (ha : WellFormed a) (hb : WellFormed b)
    (h : val a = val b) : a = b := by
  by_cases h0 : val a = 0
  · rw [(main_val_eq_zero_iff ha).1 h0, (main_val_eq_zero_iff hb).1 (h ▸ h0)]
  · obtain ⟨hpa, hna⟩ := main_val_mag ha
    obtain ⟨hpb, hnb⟩ := main_val_mag hb
    obtain ⟨hla, hca, -⟩ := ha
    obtain ⟨hlb, hcb, -⟩ := hb
    unfold val at h h0
    have hsm : a.negative_ = b.negative_ ∧ mag a.buffer_ = mag b.buffer_ := by
      cases hsa : a.negative_ <;> cases hsb : b.negative_ <;>
        simp only [hsa, hsb, if_true, if_false, Bool.false_eq_true, true_and] at h h0 hpa hpb ⊢ <;>
        omega
    have hbuf := canonical_eq_of_mag_eq hla hlb hca hcb hsm.2
    cases a
    cases b
    simp only at hbuf hsm
    simp only [mk.injEq]
    exact ⟨hbuf, hsm.1⟩

/-- The method `less_abs` compares the magnitudes. -/
theorem main_less_abs_iff (a b : BigInteger) (hla : LimbsOk a.buffer_)
    (hca : Canonical a.buffer_) (hlb : LimbsOk b.buffer_) (hcb : Canonical b.buffer_) :
    less_abs a b = true ↔ mag a.buffer_ < mag b.buffer_ := by
  unfold less_abs
  split
  · next h =>
    rw [main_eq_iff] at h
    subst h
    simp
  · split
    · next _ hlen =>
      rw [decide_eq_true_eq]
      constructor
      · intro hlt
        exact mag_lt_of_length_lt hla hlb hca.1 hcb hlt
      · intro hlt
        by_contra hge
        have := mag_lt_of_length_lt hlb hla hcb.1 hca (by omega)
        omega
    · next _ hlen =>
      simp only [ne_eq, not_not] at hlen
      rw [lessFromTop_iff _ _ (by simp [hlen]) (limbsOk_reverse.2 hla) (limbsOk_reverse.2 hlb),
        List.reverse_reverse, List.reverse_reverse]

/-- The method `normalize` keeps the value of a buffer of limbs. -/
theorem main_normalize_val (a : BigInteger) : val (normalize a) = val a := by
  unfold val
  rw [main_normalize_buffer, normalize_negative, normalizeBuf_mag]
  by_cases hz : normalizeBuf a.buffer_ = [0]
  · have hm : mag a.buffer_ = 0 := by rw [← normalizeBuf_mag a.buffer_, hz]; rfl
    rw [if_pos hz, hm]
    simp
  · rw [if_neg hz]

/-- Unary minus yields the well-formed value denoting the opposite. -/
theorem main_neg_spec (a : BigInteger) (ha : WellFormed a) :
    WellFormed (neg a) ∧ val (neg a) = - val a := by
  refine ⟨neg_wf a ha, ?_⟩
  unfold neg
  rw [main_normalize_val ⟨a.buffer_, !a.negative_⟩]
  unfold val
  cases a.negative_ <;> simp

theorem main_neg_negative {a : BigInteger} (hs : a.negative_ = true) :
    (neg a).negative_ = false := by
  unfold neg
  rw [normalize_negative]
  split
  · rfl
  · simp [hs]

/-- The comparison `operator<` decides the order of the integer values. -/
theorem main_lt_iff (a b : BigInteger) (ha : WellFormed a) (hb : WellFormed b) :
    lt a b = true ↔ val a < val b := by
  obtain ⟨hpa, hna⟩ := main_val_mag ha
  obtain ⟨hpb, hnb⟩ := main_val_mag hb
  unfold lt ltBody
  by_cases heq : eq a b = true
  · rw [if_pos heq]
    rw [main_eq_iff] at heq
    subst heq
    simp
  · rw [if_neg heq]
    have hne : val a ≠ val b := by
      intro hv
      exact heq ((main_eq_iff a b).2 (main_eq_of_val_eq ha hb hv))
    by_cases hboth : a.negative_ = true ∧ b.negative_ = true
    · rw [if_pos hboth]
      obtain ⟨wa, va⟩ := main_neg_spec a ha
      obtain ⟨wb, vb⟩ := main_neg_spec b hb
      have sa := main_neg_negative hboth.1
      have sb := main_neg_negative hboth.2
      have heq2 : ¬ eq (neg b) (neg a) = true := by
        rw [main_eq_iff]
        intro h
        have := congrArg val h
        rw [va, vb] at this
        omega
      rw [if_neg heq2, if_neg (by rw [sb]; simp), if_neg (by rw [sb]; simp),
        if_neg (by rw [sa]; simp),
        main_less_abs_iff _ _ wb.1 wb.2.1 wa.1 wa.2.1]
      have ma : val (neg a) = mag (neg a).buffer_ := by unfold val; rw [sa]; simp
      have mb : val (neg b) = mag (neg b).buffer_ := by unfold val; rw [sb]; simp
      rw [← ma, ← mb, va, vb]
      omega
    · rw [if_neg hboth]
      by_cases hsa : a.negative_ = true
      · rw [if_pos hsa]
        have hsb : b.negative_ = false := by
          cases h : b.negative_
          · rfl
          · exact absurd ⟨hsa, h⟩ hboth
        have := hpa hsa
        unfold val
        rw [hsa, hsb]
        simp only [true_iff, if_true, Bool.false_eq_true, if_false]
        omega
      · rw [if_neg hsa]
        have hsa1 : a.negative_ = false := by
          cases h : a.negative_
          · rfl
          · exact absurd h hsa
        by_cases hsb : b.negative_ = true
        · rw [if_pos hsb]
          have := hpb hsb
          unfold val
          rw [hsa1, hsb]
          simp only [Bool.false_eq_true, false_iff, if_true, if_false]
          omega
        · rw [if_neg hsb]
          have hsb1 : b.negative_ = false := by
            cases h : b.negative_
            · rfl
            · exact absurd h hsb
          rw [main_less_abs_iff _ _ ha.1 ha.2.1 hb.1 hb.2.1]
          unfold val
          rw [hsa1, hsb1]
          simp

end BigInteger

end MainCpp

/-! ## Claims on order, negation, the constructor and the digit search -/

namespace MainCpp

namespace BigInteger

open Limbs

theorem main_abs_val {a : BigInteger} (ha : WellFormed a) : |val a| = mag a.buffer_ := by
  have hn := mag_nonneg ha.1
  unfold val
  split
  · rw [abs_neg, abs_of_nonneg hn]
  · rw [abs_of_nonneg hn]

/-- The constructor from `int` yields the well-formed value denoting its
argument, for every `int` other than `INT_MIN`. -/
theorem main_ofInt_spec (n : Int) (h : -2147483648 < n) (h2 : n ≤ 2147483647) :
    WellFormed (ofInt n) ∧ val (ofInt n) = n := by
  have habs := BigintegerH.BigInteger.abs32_of_gt h h2
  obtain ⟨c1, c2, c3, c4⟩ := carryLoop_spec (abs32 n).toNat (abs32 n)
    (by rw [habs]; exact abs_nonneg n) (le_refl _)
  unfold ofInt
  simp only
  by_cases hn : n = 0
  · subst hn
    decide
  · have hpos : 0 < abs32 n := by
      rw [habs]
      exact abs_pos.2 hn
    have hne := c4 hpos
    have hemp : (carryLoop (abs32 n).toNat (abs32 n)).isEmpty = false := by
      cases hcl : carryLoop (abs32 n).toNat (abs32 n) with
      | nil => exact absurd hcl hne
      | cons _ _ => rfl
    rw [hemp]
    simp only [Bool.false_eq_true, if_false]
    refine ⟨⟨c1, ⟨hne, fun hl => absurd hl c3⟩, ?_⟩, ?_⟩
    · intro hz
      simp only at hz
      rw [hz] at c3
      exact absurd rfl c3
    · unfold val
      simp only [c2, decide_eq_true_eq]
      rw [habs]
      split
      · next hlt => rw [abs_of_neg hlt]; ring
      · next hge => rw [abs_of_nonneg (by omega)]

/-- The binary search and the decrement step of `operator/=` select the digit
`q` of `[0, 99]` with `|b| * q ≤ |current| < |b| * (q + 1)`. -/
theorem main_quotientDigit_spec (b cur : BigInteger)
    (hlb : LimbsOk b.buffer_) (hcb : Canonical b.buffer_) (hpos : 0 < mag b.buffer_)
    (hlc : LimbsOk cur.buffer_) (hcc : Canonical cur.buffer_) :
    ∃ q, quotientDigit b cur = some q ∧ 0 ≤ q ∧ q ≤ 99 ∧
      mag b.buffer_ * q ≤ mag cur.buffer_ ∧
      (mag cur.buffer_ < 100 * mag b.buffer_ → mag cur.buffer_ < mag b.buffer_ * (q + 1)) := by
  have htest : ∀ m : Int, 0 ≤ m → m ≤ 99 →
      (less_abs (multiply_short b m) cur = true ↔ mag b.buffer_ * m < mag cur.buffer_) := by
    intro m hm0 hm
    obtain ⟨w, hmag⟩ := multiply_short_wf b hlb hcb.1 m hm0 hm
    rw [main_less_abs_iff _ _ w.1 w.2.1 hlc hcc, hmag]
  have hrev : ∀ m : Int, 0 ≤ m → m ≤ 99 →
      (less_abs cur (multiply_short b m) = true ↔ mag cur.buffer_ < mag b.buffer_ * m) := by
    intro m hm0 hm
    obtain ⟨w, hmag⟩ := multiply_short_wf b hlb hcb.1 m hm0 hm
    rw [main_less_abs_iff _ _ hlc hcc w.1 w.2.1, hmag]
  obtain ⟨d, hd, hd0, hd99, hbelow, habove⟩ :=
    searchLoop_spec (fun middle => less_abs (multiply_short b middle) cur) 99
      (by
        intro m n hm0 hmn hn
        simp only
        rw [htest m hm0 (by omega), htest n (by omega) hn]
        intro h
        have : mag b.buffer_ * m ≤ mag b.buffer_ * n :=
          mul_le_mul_of_nonneg_left hmn (le_of_lt hpos)
        omega)
      base_.toNat 0 (base_ - 1) (le_refl _) (by decide) (by decide) (by decide)
      (by intro m h1 h2; omega)
  simp only [base_] at hd99
  unfold quotientDigit
  rw [hd]
  simp only [Option.map_some']
  by_cases hdec : less_abs cur (multiply_short b d) = true
  · rw [if_pos hdec]
    have h1 := (hrev d hd0 (by omega)).1 hdec
    have hd1 : 1 ≤ d := by
      by_contra hc
      have : d = 0 := by omega
      rw [this, mul_zero] at h1
      have := mag_nonneg hlc
      omega
    have h2 := (htest (d - 1) (by omega) (by omega)).1 (hbelow (d - 1) (by omega) (by omega))
    refine ⟨d - 1, rfl, by omega, by omega, le_of_lt h2, fun _ => ?_⟩
    rw [sub_add_cancel]
    exact h1
  · rw [if_neg hdec]
    have h1 : mag b.buffer_ * d ≤ mag cur.buffer_ := by
      by_contra hc
      exact hdec ((hrev d hd0 (by omega)).2 (by omega))
    refine ⟨d, rfl, hd0, by omega, h1, fun hlt => ?_⟩
    rw [mul_add, mul_one]
    by_cases h99 : d < 99
    · have hf := habove (by simpa [base_] using h99)
      simp only at hf
      have : ¬ mag b.buffer_ * d < mag cur.buffer_ := by
        intro hc
        rw [(htest d hd0 (by omega)).2 hc] at hf
        exact Bool.noConfusion hf
      omega
    · have : d = 99 := by omega
      rw [this]
      omega

/-- C23: for well-formed `a` and `b` of `src/bigint/main.cpp`, `a < b`
(`operator<`) holds iff `val a < val b`, `a == b` holds iff the values are
equal, and exactly one of `a < b`, `a == b`, `b < a` holds. -/
theorem lt_decides_order (a b : BigInteger) (ha : WellFormed a) (hb : WellFormed b) :
    (lt a b = true ↔ val a < val b) ∧ (eq a b = true ↔ val a = val b) ∧
      ((lt a b = true ∧ eq a b = false ∧ lt b a = false) ∨
        (lt a b = false ∧ eq a b = true ∧ lt b a = false) ∨
        (lt a b = false ∧ eq a b = false ∧ lt b a = true)) := by
  have h1 := main_lt_iff a b ha hb
  have h2 := main_lt_iff b a hb ha
  have h3 : eq a b = true ↔ val a = val b := by
    rw [main_eq_iff]
    exact ⟨fun h => by rw [h], main_eq_of_val_eq ha hb⟩
  refine ⟨h1, h3, ?_⟩
  rcases lt_trichotomy (val a) (val b) with h | h | h
  · refine Or.inl ⟨h1.2 h, ?_, ?_⟩
    · rw [← Bool.not_eq_true, h3]; omega
    · rw [← Bool.not_eq_true, h2]; omega
  · refine Or.inr (Or.inl ⟨?_, h3.2 h, ?_⟩)
    · rw [← Bool.not_eq_true, h1]; omega
    · rw [← Bool.not_eq_true, h2]; omega
  · refine Or.inr (Or.inr ⟨?_, ?_, h2.2 h⟩)
    · rw [← Bool.not_eq_true, h1]; omega
    · rw [← Bool.not_eq_true, h3]; omega

/-- Witness for C23 at `a = -3` and `b = 100`. -/
theorem lt_decides_order_witness :
    WellFormed ⟨[3], true⟩ ∧ WellFormed ⟨[0, 1], false⟩ ∧
    ((lt ⟨[3], true⟩ ⟨[0, 1], false⟩ = true ↔ val ⟨[3], true⟩ < val ⟨[0, 1], false⟩) ∧
      (eq ⟨[3], true⟩ ⟨[0, 1], false⟩ = true ↔ val ⟨[3], true⟩ = val ⟨[0, 1], false⟩) ∧
      ((lt ⟨[3], true⟩ ⟨[0, 1], false⟩ = true ∧ eq ⟨[3], true⟩ ⟨[0, 1], false⟩ = false ∧
          lt ⟨[0, 1], false⟩ ⟨[3], true⟩ = false) ∨
        (lt ⟨[3], true⟩ ⟨[0, 1], false⟩ = false ∧ eq ⟨[3], true⟩ ⟨[0, 1], false⟩ = true ∧
          lt ⟨[0, 1], false⟩ ⟨[3], true⟩ = false) ∨
        (lt ⟨[3], true⟩ ⟨[0, 1], false⟩ = false ∧ eq ⟨[3], true⟩ ⟨[0, 1], false⟩ = false ∧
          lt ⟨[0, 1], false⟩ ⟨[3], true⟩ = true))) :=
  ⟨by decide, by decide, lt_decides_order ⟨[3], true⟩ ⟨[0, 1], false⟩ (by decide) (by decide)⟩

/-- C24: for every well-formed `a` of `src/bigint/main.cpp`, unary minus
returns a well-formed value with `val (-a) = -val a`; negating zero yields the
non-negative zero, and `-(-a) == a`. -/
theorem neg_correct (a : BigInteger) (ha : WellFormed a) :
    WellFormed (neg a) ∧ val (neg a) = - val a ∧
      (val a = 0 → neg a = ⟨[0], false⟩) ∧ eq (neg (neg a)) a = true := by
  obtain ⟨w, v⟩ := main_neg_spec a ha
  obtain ⟨w2, v2⟩ := main_neg_spec (neg a) w
  refine ⟨w, v, ?_, ?_⟩
  · intro h0
    exact (main_val_eq_zero_iff w).1 (by rw [v, h0]; rfl)
  · rw [main_eq_iff]
    exact main_eq_of_val_eq w2 ha (by rw [v2, v, neg_neg])

/-- Witness for C24 at `a = 12345`. -/
theorem neg_correct_witness :
    WellFormed ⟨[45, 23, 1], false⟩ ∧
    (WellFormed (neg ⟨[45, 23, 1], false⟩) ∧
      val (neg ⟨[45, 23, 1], false⟩) = - val ⟨[45, 23, 1], false⟩ ∧
      (val ⟨[45, 23, 1], false⟩ = 0 → neg ⟨[45, 23, 1], false⟩ = ⟨[0], false⟩) ∧
      eq (neg (neg ⟨[45, 23, 1], false⟩)) ⟨[45, 23, 1], false⟩ = true) :=
  ⟨by decide, neg_correct ⟨[45, 23, 1], false⟩ (by decide)⟩

/-- C25 fails on the code at `INT_MIN`: with `abs` evaluated in 32-bit
wrap-around `abs(-2147483648)` is `-2147483648`, the digit loop
`while (number > 0)` is not entered, and the constructor leaves the single
limb `0` with `negative_ = true`: not well-formed, and of value `0`. -/
theorem ofInt_int_min :
    abs32 (-2147483648) = -2147483648 ∧
      ofInt (-2147483648) = ⟨[0], true⟩ ∧
      ¬ WellFormed (ofInt (-2147483648)) ∧
      val (ofInt (-2147483648)) = 0 ∧
      val (ofInt (-2147483647)) = -2147483647 := by
  decide

/-- C26 fails on the code: `operator>>` never calls `normalize()`, so the
literal `"000"` leaves the limbs `[0, 0]`, with a most-significant zero limb,
and the literal `"-0"` leaves the zero with `negative_ = true`. -/
theorem read_breaks_invariant :
    Decimal.IsLiteral ['0', '0', '0'] ['0', '0', '0'] ∧
      readStream ['0', '0', '0'] = some ⟨[0, 0], false⟩ ∧
      ¬ Canonical [0, 0] ∧ ¬ WellFormed ⟨[0, 0], false⟩ ∧
      Decimal.IsLiteral ['-', '0'] ['0'] ∧
      readStream ['-', '0'] = some ⟨[0], true⟩ ∧
      val ⟨[0], true⟩ = 0 ∧ ¬ WellFormed ⟨[0], true⟩ := by
  decide

/-- C27 fails on the code: for `a = 100` and `b = 1` the loop of `sub_abs`
runs over `i < number.buffer_.size() = 1` only, writes `0 - 1 + 100 = 99` to
limb `0` and never takes the borrow out of limb `1`: the limbs `[99, 1]`
(`199`) are left instead of `[99]`. -/
theorem sub_abs_drops_borrow :
    WellFormed ⟨[0, 1], false⟩ ∧ WellFormed ⟨[1], false⟩ ∧
      sub_abs ⟨[0, 1], false⟩ ⟨[1], false⟩ = ⟨[99, 1], false⟩ ∧
      mag (sub_abs ⟨[0, 1], false⟩ ⟨[1], false⟩).buffer_ = 199 ∧
      |(|val ⟨[0, 1], false⟩| - |val ⟨[1], false⟩|)| = 99 ∧
      BigintegerH.BigInteger.sub_abs ⟨[0, 1], 1⟩ ⟨[1], 1⟩ = some ⟨[99], 1⟩ := by
  decide

/-- C28: in `operator/=` of `src/bigint/main.cpp`, for every well-formed
divisor `b` with `val b ≠ 0` and every well-formed `current` with
`|current| < 100 * |b|`, the binary search over `[0, 99]` followed by the
decrement step returns a digit `d` of `[0, 99]` with
`|b| * d ≤ |current| < |b| * (d + 1)`, and `d` is the only such digit. -/
theorem quotientDigit_selects (b current : BigInteger) (hb : WellFormed b) (hb0 : val b ≠ 0)
    (hc : WellFormed current) (hlt : |val current| < 100 * |val b|) :
    ∃ d, quotientDigit b current = some d ∧ 0 ≤ d ∧ d ≤ 99 ∧
      |val b| * d ≤ |val current| ∧ |val current| < |val b| * (d + 1) ∧
      ∀ d2 : Int, 0 ≤ d2 → d2 ≤ 99 → |val b| * d2 ≤ |val current| →
        |val current| < |val b| * (d2 + 1) → d2 = d := by
  have hpos : 0 < |val b| := abs_pos.2 hb0
  rw [main_abs_val hb] at hlt hpos ⊢
  rw [main_abs_val hc] at hlt ⊢
  obtain ⟨q, hq, hq0, hq99, hle, hup⟩ :=
    main_quotientDigit_spec b current hb.1 hb.2.1 hpos hc.1 hc.2.1
  have hup2 := hup hlt
  refine ⟨q, hq, hq0, hq99, hle, hup2, ?_⟩
  intro d2 _ _ h1 h2
  have ha : d2 < q + 1 := lt_of_mul_lt_mul_left (lt_of_le_of_lt h1 hup2) (le_of_lt hpos)
  have hb2 : q < d2 + 1 := lt_of_mul_lt_mul_left (lt_of_le_of_lt hle h2) (le_of_lt hpos)
  omega

/-- Witness for C28 at the divisor `-7` and `current = 345`. -/
theorem quotientDigit_selects_witness :
    WellFormed ⟨[7], true⟩ ∧ val ⟨[7], true⟩ ≠ 0 ∧ WellFormed ⟨[45, 3], false⟩ ∧
    |val ⟨[45, 3], false⟩| < 100 * |val ⟨[7], true⟩| ∧
    (∃ d, quotientDigit ⟨[7], true⟩ ⟨[45, 3], false⟩ = some d ∧ 0 ≤ d ∧ d ≤ 99 ∧
      |val ⟨[7], true⟩| * d ≤ |val ⟨[45, 3], false⟩| ∧
      |val ⟨[45, 3], false⟩| < |val ⟨[7], true⟩| * (d + 1) ∧
      ∀ d2 : Int, 0 ≤ d2 → d2 ≤ 99 → |val ⟨[7], true⟩| * d2 ≤ |val ⟨[45, 3], false⟩| →
        |val ⟨[45, 3], false⟩| < |val ⟨[7], true⟩| * (d2 + 1) → d2 = d) :=
  ⟨by decide, by decide, by decide, by decide,
    quotientDigit_selects ⟨[7], true⟩ ⟨[45, 3], false⟩ (by decide) (by decide) (by decide)
      (by decide)⟩

end BigInteger

end MainCpp

/-! ## Division of `Rational` values, also by zero -/

namespace BigintegerH

namespace Rational

open Limbs BigInteger

/-- Division of a `Rational` by a non-zero one ends in lowest terms and
denotes the quotient. -/
theorem rational_idiv_value (fuel : Nat) (r s : Rational) (hnr : WellFormed r.numerator_)
    (hdr : WellFormed r.denominator_) (hns : WellFormed s.numerator_)
    (hds : WellFormed s.denominator_) (hr0 : val r.denominator_ ≠ 0)
    (hs0 : val s.numerator_ ≠ 0)
    (hf : (|val r.denominator_ * val s.numerator_|).toNat < fuel) :
    ∃ t, idiv fuel r s = some t ∧ Invariant t ∧
      val t.numerator_ * (val r.denominator_ * val s.numerator_) =
        (val r.numerator_ * val s.denominator_) * val t.denominator_ := by
  obtain ⟨n, hn, wn, vn, -, -⟩ := BigInteger.imul_spec r.numerator_ s.denominator_ hnr hds
  obtain ⟨d, hd, wd, vd, -, -⟩ := BigInteger.imul_spec r.denominator_ s.numerator_ hdr hns
  have hz : WellFormed (BigInteger.ofInt 0) ∧ val (BigInteger.ofInt 0) = 0 := by decide
  have hd0 : val d ≠ 0 := by
    rw [vd]
    exact mul_ne_zero hr0 hs0
  simp only [idiv, hn, hd]
  by_cases hlt : lt d (BigInteger.ofInt 0) = true
  · rw [if_pos hlt]
    rw [lt_iff d _ wd hz.1, hz.2] at hlt
    obtain ⟨wn2, vn2⟩ := neg_spec n wn
    obtain ⟨wd2, vd2⟩ := neg_spec d wd
    obtain ⟨t, ht, inv, hv⟩ :=
      rational_normalize_spec fuel ⟨BigInteger.neg n, BigInteger.neg d⟩ wn2 wd2
      (by simp only [vd2]; omega)
      (by
        simp only [vd2]
        rw [← vd, abs_of_neg hlt] at hf
        exact hf)
    refine ⟨t, ht, inv, ?_⟩
    simp only [vn2, vd2] at hv
    rw [← vd, ← vn]
    linarith
  · rw [if_neg hlt]
    rw [lt_iff d _ wd hz.1, hz.2] at hlt
    obtain ⟨t, ht, inv, hv⟩ := rational_normalize_spec fuel ⟨n, d⟩ wn wd
      (by simp only; omega)
      (by
        simp only
        rw [← vd, abs_of_nonneg (by omega)] at hf
        exact hf)
    refine ⟨t, ht, inv, ?_⟩
    simp only at hv
    rw [← vd, ← vn]
    exact hv

/-- A `Rational` of value zero that satisfies the invariant is `0/1`. -/
theorem rational_zero_of_invariant (s : Rational) (hs : Invariant s)
    (hs0 : val s.numerator_ = 0) : s = ⟨zero, BigInteger.ofInt 1⟩ := by
  obtain ⟨wn, wd, hpos, hg⟩ := hs
  have h1 : val s.denominator_ = 1 := by
    rw [hs0, Int.gcd_zero_left] at hg
    omega
  have hn := (val_eq_zero_iff wn).1 hs0
  have hd : s.denominator_ = BigInteger.ofInt 1 :=
    eq_of_val_eq wd (by decide) (by rw [h1]; decide)
  cases s
  simp only at hn hd
  rw [hn, hd]

/-- Division by the `Rational` zero: no test is made, the denominator becomes
`denominator_ * 0`, `gcd(|n|, 0)` is `|n|`, and the result has denominator
zero. -/
theorem rational_idiv_zero (fuel : Nat) (r : Rational) (hr : Invariant r) (hf : 1 ≤ fuel) :
    ∃ t, idiv fuel r ⟨zero, BigInteger.ofInt 1⟩ = some t ∧ val t.denominator_ = 0 := by
  obtain ⟨wn, wd, -, -⟩ := hr
  have w1 : WellFormed (BigInteger.ofInt 1) ∧ val (BigInteger.ofInt 1) = 1 := by decide
  have w0 : WellFormed zero ∧ val zero = 0 := by decide
  obtain ⟨n, hn, wn1, vn, -, -⟩ := BigInteger.imul_spec r.numerator_ (BigInteger.ofInt 1) wn w1.1
  obtain ⟨d, hd, wd1, vd, -, -⟩ := BigInteger.imul_spec r.denominator_ zero wd w0.1
  have hnn : n = r.numerator_ := eq_of_val_eq wn1 wn (by rw [vn, w1.2, mul_one])
  have hdd : d = zero := (val_eq_zero_iff wd1).1 (by rw [vd, w0.2, mul_zero])
  rw [hnn] at hn
  rw [hdd] at hd
  obtain ⟨fuel1, rfl⟩ : ∃ k, fuel = k + 1 := ⟨fuel - 1, by omega⟩
  have hlt : lt zero (BigInteger.ofInt 0) = false := by decide
  have hne : ne zero (BigInteger.ofInt 0) = false := by decide
  have hg : BigInteger.gcd (fuel1 + 1) (abs r.numerator_) zero = some (abs r.numerator_) := by
    rw [BigInteger.gcd, hne]
    rfl
  simp only [idiv, hn, hd, hlt, Bool.false_eq_true, if_false, Rational.normalize, hg]
  by_cases h0 : val r.numerator_ = 0
  · have hz := (val_eq_zero_iff wn).1 h0
    rw [hz]
    exact ⟨⟨zero, zero⟩, by decide, by decide⟩
  · obtain ⟨wa, va⟩ := abs_spec r.numerator_ wn
    have ha0 : val (abs r.numerator_) ≠ 0 := by
      rw [va]
      exact abs_ne_zero.2 h0
    obtain ⟨q1, hq1, -, -, -, -⟩ := BigInteger.idiv_spec r.numerator_ (abs r.numerator_) wn wa ha0
    obtain ⟨q2, hq2, -, vq2, -, -⟩ := BigInteger.idiv_spec zero (abs r.numerator_) w0.1 wa ha0
    refine ⟨⟨q1, q2⟩, by simp only [hq1, hq2, Option.map_some'], ?_⟩
    simp only [vq2, w0.2, Int.zero_tdiv]

end Rational

end BigintegerH

namespace MainCpp

namespace Rational

open Limbs BigInteger

/-- The first loop of `Rational::normalize` of `src/bigint/main.cpp` never
ends on `0/0`: zero is even and `bisect()` leaves zero. -/
theorem stripCommonTwos_zero (fuel : Nat) : stripCommonTwos fuel zero zero = none := by
  induction fuel with
  | zero => rfl
  | succ n ih =>
    have he : even zero = some true := by decide
    have hb : bisect zero = zero := by decide
    simp only [stripCommonTwos, he, hb, Bool.and_self, if_true, ih]

theorem main_idiv_zero_zero (fuel : Nat) :
    idiv fuel ⟨zero, BigInteger.ofInt 1⟩ ⟨zero, BigInteger.ofInt 1⟩ = none := by
  have h1 : BigInteger.imul zero (BigInteger.ofInt 1) = some zero := by decide
  have h2 : BigInteger.imul (BigInteger.ofInt 1) zero = some zero := by decide
  have h3 : lt zero (BigInteger.ofInt 0) = false := by decide
  have h4 : abs zero = zero := by decide
  simp only [idiv, h1, h2, h3, Bool.false_eq_true, if_false, Rational.normalize, h4,
    stripCommonTwos_zero]

end Rational

end MainCpp

namespace BigintegerH

namespace Rational

open Limbs BigInteger

/-- Counterexample to C21: dividing `1/2` by the `Rational` zero `0/1` returns
`1/0` in `src/matrix/biginteger.h` and in `src/bigint/main.cpp`: a denominator
of value zero is produced. -/
theorem idiv_by_zero_denominator :
    Invariant ⟨⟨[1], 1⟩, ⟨[2], 1⟩⟩ ∧ Invariant ⟨⟨[0], 1⟩, ⟨[1], 1⟩⟩ ∧
      idiv 10 ⟨⟨[1], 1⟩, ⟨[2], 1⟩⟩ ⟨⟨[0], 1⟩, ⟨[1], 1⟩⟩ = some ⟨⟨[1], 1⟩, ⟨[0], 1⟩⟩ ∧
      val (⟨[0], 1⟩ : BigInteger) = 0 ∧
      MainCpp.Rational.idiv 10 ⟨⟨[1], false⟩, ⟨[2], false⟩⟩ ⟨⟨[0], false⟩, ⟨[1], false⟩⟩ =
        some ⟨⟨[1], false⟩, ⟨[0], false⟩⟩ ∧
      MainCpp.BigInteger.val ⟨[0], false⟩ = 0 := by
  decide

end Rational

end BigintegerH

/-! ## Text of a quotient of two native integers -/

namespace BigintegerH

namespace Rational

open Limbs BigInteger Decimal

/-- On a well-formed value `toString` of `src/matrix/biginteger.h` writes a
`-` exactly for a negative value, then the canonical decimal representation
of the magnitude. -/
theorem toString_signed (number : BigInteger) (hw : WellFormed number) :
    ∃ ds, BigInteger.toString number = (if val number < 0 then ['-'] else []) ++ ds ∧
      IsCanonicalDecimal ds (val number).natAbs := by
  have hn := mag_nonneg hw.2.1
  have hdec := (MainCpp.BigInteger.toStringLoop_decimal number.buffer_ hw.2.1 hw.2.2.1).1
  refine ⟨MainCpp.BigInteger.toStringLoop number.buffer_.length number.buffer_ 0, ?_, ?_⟩
  · unfold BigInteger.toString
    congr 1
    rcases hw.1 with hs | hs
    · have hv : ¬ val number < 0 := by
        unfold val
        rw [hs, one_mul]
        omega
      rw [if_neg hv, hs, if_neg (by decide)]
    · have hv : val number < 0 := by
        have := mag_pos_of_sign_neg hw hs
        unfold val
        rw [hs]
        omega
      rw [if_pos hv, hs, if_pos rfl]
  · have hv : (val number).natAbs = (mag number.buffer_).toNat := by
      unfold val
      rcases hw.1 with hs | hs <;> rw [hs] <;> omega
    rw [hv]
    exact hdec

/-- A fraction in lowest terms with a positive denominator has denominator
`1` exactly when it denotes an integer. -/
theorem lowest_terms_den_one (n d a b : Int) (hd : 0 < d) (hg : Int.gcd n d = 1) (hb : b ≠ 0)
    (hv : n * b = a * d) : (d = 1 ↔ b ∣ a) ∧ (b ∣ a → n = a / b) := by
  have h1 : b ∣ a → d = 1 := by
    rintro ⟨k, rfl⟩
    have hn : n = k * d := by
      have : b * n = b * (k * d) := by linarith
      exact mul_left_cancel₀ hb this
    have hdvd : d ∣ (Int.gcd n d : Int) := Int.dvd_gcd ⟨k, by rw [hn]; ring⟩ (dvd_refl d)
    rw [hg] at hdvd
    exact Int.eq_one_of_dvd_one (le_of_lt hd) hdvd
  refine ⟨⟨fun h => ?_, h1⟩, fun h => ?_⟩
  · rw [h, mul_one] at hv
    exact ⟨n, by rw [← hv]; ring⟩
  · have hd1 := h1 h
    rw [hd1, mul_one] at hv
    exact (Int.ediv_eq_of_eq_mul_left hb hv.symm).symm

/-- C22: in `src/matrix/biginteger.h`, for all native ints `a` and `b` other
than `INT_MIN` with `b ≠ 0`, `Rational(a) / Rational(b)` terminates with the
fraction `n/d` in lowest terms, `d > 0`, of value `a/b`, and `toString()`
writes: when `b` divides `a`, the canonical decimal text of the integer
`a / b` alone (a `-` exactly when it is negative), with no `/`; otherwise the
text of `n`, a `/`, and the text of `d`.  `4` and `2` give `"2"`.
Multiplication of `BigInteger` values is taken as exact. -/
theorem toString_of_quotient (a b : Int) (ha : -2147483648 < a ∧ a ≤ 2147483647)
    (hb : -2147483648 < b ∧ b ≤ 2147483647) (hb0 : b ≠ 0) :
    (∃ bound, ∀ fuel, bound ≤ fuel →
      ∃ t, idiv fuel (Rational.ofInt a) (Rational.ofInt b) = some t ∧ Invariant t ∧
        val t.numerator_ * b = a * val t.denominator_ ∧
        (b ∣ a → val t.numerator_ = a / b ∧ val t.denominator_ = 1 ∧
          ∃ ds, toString t = (if a / b < 0 then ['-'] else []) ++ ds ∧
            IsCanonicalDecimal ds (a / b).natAbs) ∧
        (¬ b ∣ a → ∃ dn dd,
          toString t = (if val t.numerator_ < 0 then ['-'] else []) ++ dn ++ ['/'] ++ dd ∧
            IsCanonicalDecimal dn (val t.numerator_).natAbs ∧
            IsCanonicalDecimal dd (val t.denominator_).natAbs)) ∧
    (idiv 10 (Rational.ofInt 4) (Rational.ofInt 2)).map toString = some ['2'] ∧
    (idiv 10 (Rational.ofInt 6) (Rational.ofInt (-4))).map toString = some ['-', '3', '/', '2'] := by
  refine ⟨⟨(|b|).toNat + 1, fun fuel hf => ?_⟩, by decide, by decide⟩
  obtain ⟨wa, va⟩ := ofInt_spec a ha.1 ha.2
  obtain ⟨wb, vb⟩ := ofInt_spec b hb.1 hb.2
  have w1 : WellFormed (BigInteger.ofInt 1) ∧ val (BigInteger.ofInt 1) = 1 := by decide
  obtain ⟨t, ht, inv, hv⟩ := rational_idiv_value fuel (Rational.ofInt a) (Rational.ofInt b)
    wa w1.1 wb w1.1 (by simp only [Rational.ofInt, w1.2]; decide)
    (by simp only [Rational.ofInt, vb]; exact hb0)
    (by simp only [Rational.ofInt, w1.2, vb, one_mul]; omega)
  simp only [Rational.ofInt, w1.2, va, vb, one_mul, mul_one] at hv
  obtain ⟨h1, h2⟩ := lowest_terms_den_one _ _ a b inv.2.2.1 inv.2.2.2 hb0 hv
  have heq : BigInteger.eq t.denominator_ (BigInteger.ofInt 1) = true ↔
      val t.denominator_ = 1 := by
    rw [eq_iff]
    constructor
    · intro h
      rw [h, w1.2]
    · intro h
      exact eq_of_val_eq inv.2.1 w1.1 (by rw [h, w1.2])
  obtain ⟨dn, hdn, cn⟩ := toString_signed t.numerator_ inv.1
  obtain ⟨dd, hdd, cd⟩ := toString_signed t.denominator_ inv.2.1
  refine ⟨t, ht, inv, hv, fun hdvd => ?_, fun hndvd => ?_⟩
  · have hd1 := h1.2 hdvd
    have hn1 := h2 hdvd
    refine ⟨hn1, hd1, dn, ?_, ?_⟩
    · unfold toString
      rw [if_pos (heq.2 hd1), hdn, hn1]
    · rw [← hn1]
      exact cn
  · have hd1 : ¬ val t.denominator_ = 1 := fun h => hndvd (h1.1 h)
    have hdd2 : BigInteger.toString t.denominator_ = dd := by
      rw [hdd, if_neg (not_lt.2 (le_of_lt inv.2.2.1)), List.nil_append]
    refine ⟨dn, dd, ?_, cn, cd⟩
    unfold toString
    rw [if_neg (fun h => hd1 (heq.1 h)), hdn, hdd2]

/-- Witness for C22 at `a = -84` and `b = 36`. -/
theorem toString_of_quotient_witness :
    ((-2147483648 : Int) < -84 ∧ (-84 : Int) ≤ 2147483647) ∧
    ((-2147483648 : Int) < 36 ∧ (36 : Int) ≤ 2147483647) ∧ (36 : Int) ≠ 0 ∧
    ((∃ bound, ∀ fuel, bound ≤ fuel →
      ∃ t, idiv fuel (Rational.ofInt (-84)) (Rational.ofInt 36) = some t ∧ Invariant t ∧
        val t.numerator_ * 36 = -84 * val t.denominator_ ∧
        ((36 : Int) ∣ -84 → val t.numerator_ = -84 / 36 ∧ val t.denominator_ = 1 ∧
          ∃ ds, toString t = (if (-84 : Int) / 36 < 0 then ['-'] else []) ++ ds ∧
            IsCanonicalDecimal ds ((-84 : Int) / 36).natAbs) ∧
        (¬ (36 : Int) ∣ -84 → ∃ dn dd,
          toString t = (if val t.numerator_ < 0 then ['-'] else []) ++ dn ++ ['/'] ++ dd ∧
            IsCanonicalDecimal dn (val t.numerator_).natAbs ∧
            IsCanonicalDecimal dd (val t.denominator_).natAbs)) ∧
    (idiv 10 (Rational.ofInt 4) (Rational.ofInt 2)).map toString = some ['2'] ∧
    (idiv 10 (Rational.ofInt 6) (Rational.ofInt (-4))).map toString =
      some ['-', '3', '/', '2']) :=
  ⟨by decide, by decide, by decide, toString_of_quotient (-84) 36 (by decide) (by decide) (by decide)⟩

end Rational

end BigintegerH

/-! ## The carry loops of `operator*=` -/

namespace MainCpp

namespace BigInteger

open Limbs

/-- The value of a buffer is the sum of `buffer_[i] * 100 ^ i`. -/
theorem mag_eq_sum (ks : List Int) :
    mag ks = ∑ i in Finset.range ks.length, ks.getD i 0 * 100 ^ i := by
  induction ks with
  | nil => simp [mag]
  | cons k ks ih =>
    rw [mag, List.length_cons, Finset.sum_range_succ', ih, Finset.mul_sum]
    simp only [List.getD_cons_succ, List.getD_cons_zero, pow_zero, mul_one, pow_succ]
    rw [add_comm]
    congr 1
    apply Finset.sum_congr rfl
    intro i _
    ring

/-- C30: in `operator*=`, for every sequence `c_0 .. c_(m-1)` of non-negative
integer rounded coefficients, where `m` is at least the receiver's limb
count, the carry loop together with the residual-carry loop leaves limbs all
in `[0, 100)` whose base-100 value equals the sum of `c_i * 100 ^ i`. -/
theorem carry_loops_value (coefficients buffer : List Int) (hc : AllNonneg coefficients)
    (hm : buffer.length ≤ coefficients.length) :
    LimbsOk (mulCarryLoop coefficients buffer 0) ∧
      (∑ i in Finset.range (mulCarryLoop coefficients buffer 0).length,
        (mulCarryLoop coefficients buffer 0).getD i 0 * 100 ^ i) =
        ∑ i in Finset.range coefficients.length, coefficients.getD i 0 * 100 ^ i ∧
      mag (mulCarryLoop coefficients buffer 0) = mag coefficients := by
  obtain ⟨h1, h2, -⟩ := mulCarryLoop_spec coefficients buffer 0 hc (le_refl _) hm
  rw [add_zero] at h2
  refine ⟨h1, ?_, h2⟩
  rw [← mag_eq_sum, ← mag_eq_sum, h2]

/-- Witness for C30 at the coefficients `[250, 0, 12345, 7]` and a receiver
of two limbs. -/
theorem carry_loops_value_witness :
    AllNonneg [250, 0, 12345, 7] ∧ [1, 2].length ≤ [250, 0, 12345, 7].length ∧
    (LimbsOk (mulCarryLoop [250, 0, 12345, 7] [1, 2] 0) ∧
      (∑ i in Finset.range (mulCarryLoop [250, 0, 12345, 7] [1, 2] 0).length,
        (mulCarryLoop [250, 0, 12345, 7] [1, 2] 0).getD i 0 * 100 ^ i) =
        ∑ i in Finset.range [250, 0, 12345, 7].length, [250, 0, 12345, 7].getD i 0 * 100 ^ i ∧
      mag (mulCarryLoop [250, 0, 12345, 7] [1, 2] 0) = mag [250, 0, 12345, 7]) :=
  ⟨by unfold AllNonneg; decide, by decide,
    carry_loops_value [250, 0, 12345, 7] [1, 2] (by unfold AllNonneg; decide) (by decide)⟩

end BigInteger

end MainCpp

/-! ## The bit reversal of `fft` -/

namespace MainCpp

namespace BigInteger

theorem bitReverse_lt (w i : Nat) : bitReverse w i < 2 ^ w := by
  induction w generalizing i with
  | zero => simp [bitReverse]
  | succ w ih =>
    have h1 := ih (i / 2)
    have h2 : i % 2 < 2 := Nat.mod_lt _ (by decide)
    have h3 : i % 2 * 2 ^ w ≤ 1 * 2 ^ w := Nat.mul_le_mul_right _ (by omega)
    rw [bitReverse, pow_succ]
    omega

theorem bitReverse_add_mul (w b c : Nat) (hb : b < 2 ^ w) (hc : c < 2) :
    bitReverse (w + 1) (b + c * 2 ^ w) = 2 * bitReverse w b + c := by
  induction w generalizing b with
  | zero =>
    have hb0 : b = 0 := by simpa using hb
    subst hb0
    simp only [bitReverse, pow_zero, mul_one, zero_add, mul_zero, add_zero]
    omega
  | succ w ih =>
    have he : c * 2 ^ (w + 1) = 2 * (c * 2 ^ w) := by rw [pow_succ]; ring
    have h1 : (b + c * 2 ^ (w + 1)) % 2 = b % 2 := by
      rw [he]
      omega
    have h2 : (b + c * 2 ^ (w + 1)) / 2 = b / 2 + c * 2 ^ w := by
      rw [he]
      omega
    have h3 : b / 2 < 2 ^ w := by
      rw [pow_succ] at hb
      omega
    rw [bitReverse, h1, h2, ih (b / 2) h3]
    conv_rhs => rw [bitReverse]
    ring

/-- The reversal of `w` bits is an involution on `[0, 2 ^ w)`. -/
theorem bitReverse_involutive (w i : Nat) (hi : i < 2 ^ w) :
    bitReverse w (bitReverse w i) = i := by
  induction w generalizing i with
  | zero =>
    have : i = 0 := by simpa using hi
    subst this
    rfl
  | succ w ih =>
    have h3 : i / 2 < 2 ^ w := by
      rw [pow_succ] at hi
      omega
    have h4 : i % 2 < 2 := Nat.mod_lt _ (by decide)
    have h5 : bitReverse (w + 1) i = bitReverse w (i / 2) + i % 2 * 2 ^ w := by
      rw [bitReverse, add_comm]
    rw [h5, bitReverse_add_mul w _ _ (bitReverse_lt w _) h4, ih _ h3]
    omega

theorem foldl_lor (g : Nat → Nat) (l : List Nat) (s : Nat) :
    l.foldl (fun r j => r ||| g j) s = s ||| l.foldl (fun r j => r ||| g j) 0 := by
  induction l generalizing s with
  | nil => simp
  | cons a l ih =>
    rw [List.foldl_cons, List.foldl_cons, ih, ih (0 ||| g a), Nat.zero_or, Nat.or_assoc]

/-- The inner loop of `fft` computes the reversal of the lowest `log_n` bits. -/
theorem reversedLoop_eq (log_n i : Nat) : reversedLoop log_n i = bitReverse log_n i := by
  induction log_n generalizing i with
  | zero => rfl
  | succ w ih =>
    have hstep : ∀ (r j : Nat),
        (r ||| (((i >>> (j + 1)) &&& 1) <<< (w + 1 - (j + 1) - 1))) =
          (r ||| ((((i / 2) >>> j) &&& 1) <<< (w - j - 1))) := by
      intro r j
      rw [Nat.shiftRight_succ_inside]
      have : w + 1 - (j + 1) - 1 = w - j - 1 := by omega
      rw [this]
    unfold reversedLoop
    rw [List.range_succ_eq_map, List.foldl_cons, List.foldl_map]
    simp only [Nat.succ_eq_add_one, hstep]
    rw [foldl_lor]
    have h0 : (0 ||| (((i >>> 0) &&& 1) <<< (w + 1 - 0 - 1))) = 2 ^ w * (i % 2) := by
      simp only [Nat.zero_or, Nat.shiftRight_zero, Nat.and_one_is_mod, Nat.shiftLeft_eq]
      have : w + 1 - 0 - 1 = w := by omega
      rw [this, Nat.mul_comm]
    have hih := ih (i / 2)
    unfold reversedLoop at hih
    rw [h0, hih, ← Nat.mul_add_lt_is_or (bitReverse_lt w (i / 2)), bitReverse, Nat.mul_comm]

theorem ctzLoop_pow (n fuel : Nat) (hf : n < fuel) : ctzLoop fuel (2 ^ n) = n := by
  induction n generalizing fuel with
  | zero =>
    obtain ⟨f, rfl⟩ : ∃ f, fuel = f + 1 := ⟨fuel - 1, by omega⟩
    simp [ctzLoop]
  | succ n ih =>
    obtain ⟨f, rfl⟩ : ∃ f, fuel = f + 1 := ⟨fuel - 1, by omega⟩
    have h1 : 2 ^ (n + 1) % 2 = 0 := by rw [pow_succ]; omega
    have h2 : 2 ^ (n + 1) / 2 = 2 ^ n := by rw [pow_succ]; omega
    rw [ctzLoop, h1, h2, if_neg (by decide), ih f (by omega)]

/-- On a power of two `__builtin_ctz` returns the exponent. -/
theorem builtin_ctz_pow (n : Nat) : builtin_ctz (2 ^ n) = n :=
  ctzLoop_pow n _ (Nat.lt_two_pow n)

end BigInteger

end MainCpp

/-! ## The butterfly identities of the stages of `fft` -/

namespace MainCpp

namespace BigInteger

theorem div_mod_block (q r d : Nat) (hr : r < d) : (q * d + r) / d = q ∧ (q * d + r) % d = r := by
  have hd : 0 < d := by omega
  constructor
  · rw [Nat.add_comm, Nat.add_mul_div_right _ _ hd, Nat.div_eq_of_lt hr, Nat.zero_add]
  · rw [Nat.add_comm, Nat.add_mul_mod_self_right, Nat.mod_eq_of_lt hr]

theorem sum_range_two_mul {R : Type} [CommRing R] (f : Nat → R) (n : Nat) :
    ∑ i in Finset.range (2 * n), f i =
      ∑ i in Finset.range n, f (2 * i) + ∑ i in Finset.range n, f (2 * i + 1) := by
  induction n with
  | zero => simp
  | succ n ih =>
    have h : 2 * (n + 1) = 2 * n + 1 + 1 := by ring
    rw [h, Finset.sum_range_succ, Finset.sum_range_succ, ih, Finset.sum_range_succ,
      Finset.sum_range_succ]
    ring

theorem dftStage_zero {R : Type} [CommRing R] (ω : R) (X : Nat → R) (u p : Nat) :
    dftStage ω X 0 u p = X (bitReverse u p) := by
  simp [dftStage]

theorem dftStage_final {R : Type} [CommRing R] (ω : R) (X : Nat → R) (t p : Nat)
    (hp : p < 2 ^ t) :
    dftStage ω X t 0 p = ∑ j in Finset.range (2 ^ t), X j * ω ^ (j * p) := by
  simp [dftStage, bitReverse, Nat.mod_eq_of_lt hp]

theorem bitReverse_even (u b : Nat) : bitReverse (u + 1) (2 * b) = bitReverse u b := by
  have h1 : 2 * b % 2 = 0 := by omega
  have h2 : 2 * b / 2 = b := by omega
  rw [bitReverse, h1, h2]
  simp

theorem bitReverse_odd (u b : Nat) :
    bitReverse (u + 1) (2 * b + 1) = bitReverse u b + 2 ^ u := by
  have h1 : (2 * b + 1) % 2 = 1 := by omega
  have h2 : (2 * b + 1) / 2 = b := by omega
  rw [bitReverse, h1, h2]
  ring

/-- The lower output of a butterfly: the transform of size `2 ^ (t + 1)` at
position `k` of block `b` is `E + ω ^ (2 ^ u * k) * O`. -/
theorem dftStage_lower {R : Type} [CommRing R] (ω : R) (X : Nat → R) (t u b k : Nat)
    (hk : k < 2 ^ t) :
    dftStage ω X (t + 1) u (b * 2 ^ (t + 1) + k) =
      dftStage ω X t (u + 1) (b * 2 ^ (t + 1) + k) +
        dftStage ω X t (u + 1) (b * 2 ^ (t + 1) + k + 2 ^ t) * ω ^ (2 ^ u * k) := by
  have hk2 : k < 2 ^ (t + 1) := by rw [pow_succ]; omega
  have e0 : b * 2 ^ (t + 1) + k = (2 * b) * 2 ^ t + k := by rw [pow_succ]; ring
  have e1 : b * 2 ^ (t + 1) + k + 2 ^ t = (2 * b + 1) * 2 ^ t + k := by rw [pow_succ]; ring
  obtain ⟨d0, m0⟩ := div_mod_block (2 * b) k (2 ^ t) hk
  obtain ⟨d1, m1⟩ := div_mod_block (2 * b + 1) k (2 ^ t) hk
  obtain ⟨d2, m2⟩ := div_mod_block b k (2 ^ (t + 1)) hk2
  unfold dftStage
  rw [d2, m2, e1, d1, m1, e0, d0, m0, bitReverse_even, bitReverse_odd]
  have hL : 2 ^ (t + 1) = 2 * 2 ^ t := by rw [pow_succ]; ring
  rw [hL, sum_range_two_mul, Finset.sum_mul]
  congr 1
  · apply Finset.sum_congr rfl
    intro j _
    have a1 : bitReverse u b + 2 * j * 2 ^ u = bitReverse u b + j * 2 ^ (u + 1) := by
      rw [pow_succ]; ring
    have a2 : 2 ^ u * (2 * j) * k = 2 ^ (u + 1) * j * k := by rw [pow_succ]; ring
    rw [a1, a2]
  · apply Finset.sum_congr rfl
    intro j _
    have a1 : bitReverse u b + (2 * j + 1) * 2 ^ u = bitReverse u b + 2 ^ u + j * 2 ^ (u + 1) := by
      rw [pow_succ]; ring
    have a2 : 2 ^ u * (2 * j + 1) * k = 2 ^ (u + 1) * j * k + 2 ^ u * k := by
      rw [pow_succ]; ring
    rw [a1, a2, pow_add]
    ring

/-- The upper output of a butterfly: `E - ω ^ (2 ^ u * k) * O`, as
`ω ^ (2 ^ (t + u)) = -1`. -/
theorem dftStage_upper {R : Type} [CommRing R] (ω : R) (X : Nat → R) (t u b k : Nat)
    (hk : k < 2 ^ t) (hω : ω ^ (2 ^ (t + u)) = -1) :
    dftStage ω X (t + 1) u (b * 2 ^ (t + 1) + k + 2 ^ t) =
      dftStage ω X t (u + 1) (b * 2 ^ (t + 1) + k) -
        dftStage ω X t (u + 1) (b * 2 ^ (t + 1) + k + 2 ^ t) * ω ^ (2 ^ u * k) := by
  have hk2 : k + 2 ^ t < 2 ^ (t + 1) := by rw [pow_succ]; omega
  have e0 : b * 2 ^ (t + 1) + k = (2 * b) * 2 ^ t + k := by rw [pow_succ]; ring
  have e1 : b * 2 ^ (t + 1) + k + 2 ^ t = (2 * b + 1) * 2 ^ t + k := by rw [pow_succ]; ring
  have e2 : b * 2 ^ (t + 1) + k + 2 ^ t = b * 2 ^ (t + 1) + (k + 2 ^ t) := by ring
  obtain ⟨d0, m0⟩ := div_mod_block (2 * b) k (2 ^ t) hk
  obtain ⟨d1, m1⟩ := div_mod_block (2 * b + 1) k (2 ^ t) hk
  obtain ⟨d2, m2⟩ := div_mod_block b (k + 2 ^ t) (2 ^ (t + 1)) hk2
  unfold dftStage
  conv_lhs => rw [e2, d2, m2]
  rw [e1, d1, m1, e0, d0, m0, bitReverse_even, bitReverse_odd]
  have hL : 2 ^ (t + 1) = 2 * 2 ^ t := by rw [pow_succ]; ring
  rw [hL, sum_range_two_mul, Finset.sum_mul, sub_eq_add_neg, ← Finset.sum_neg_distrib]
  congr 1
  · apply Finset.sum_congr rfl
    intro j _
    have a1 : bitReverse u b + 2 * j * 2 ^ u = bitReverse u b + j * 2 ^ (u + 1) := by
      rw [pow_succ]; ring
    have a2 : 2 ^ u * (2 * j) * (k + 2 ^ t) = 2 ^ (u + 1) * j * k + 2 ^ (t + u) * (2 * j) := by
      rw [pow_succ, pow_add]; ring
    have hp : ω ^ (2 ^ (u + 1) * j * k + 2 ^ (t + u) * (2 * j)) = ω ^ (2 ^ (u + 1) * j * k) := by
      rw [pow_add, pow_mul ω (2 ^ (t + u)) (2 * j), hω, (even_two_mul j).neg_one_pow, mul_one]
    rw [a1, a2, hp]
  · apply Finset.sum_congr rfl
    intro j _
    have a1 : bitReverse u b + (2 * j + 1) * 2 ^ u = bitReverse u b + 2 ^ u + j * 2 ^ (u + 1) := by
      rw [pow_succ]; ring
    have a2 : 2 ^ u * (2 * j + 1) * (k + 2 ^ t) =
        2 ^ (u + 1) * j * k + 2 ^ u * k + 2 ^ (t + u) * (2 * j + 1) := by
      rw [pow_succ, pow_add]; ring
    have hp : ω ^ (2 ^ (u + 1) * j * k + 2 ^ u * k + 2 ^ (t + u) * (2 * j + 1)) =
        -(ω ^ (2 ^ (u + 1) * j * k) * ω ^ (2 ^ u * k)) := by
      rw [pow_add, pow_add, pow_mul ω (2 ^ (t + u)) (2 * j + 1), hω,
        (odd_two_mul_add_one j).neg_one_pow]
      ring
    rw [a1, a2, hp]
    ring

end BigInteger

end MainCpp

/-! ## The permutation loop of `fft` -/

namespace MainCpp

namespace BigInteger

theorem foldlM_range_succ {β : Type} (f : β → Nat → Option β) (b : β) (i : Nat) :
    (List.range (i + 1)).foldlM f b = ((List.range i).foldlM f b).bind (fun s => f s i) := by
  rw [List.range_succ, List.foldlM_append]
  cases (List.range i).foldlM f b <;> simp

theorem getD_set_eq {α : Type} (l : List α) (i : Nat) (a d : α) (q : Nat) (hi : i < l.length) :
    (l.set i a).getD q d = if q = i then a else l.getD q d := by
  simp only [List.getD_eq_getElem?_getD, List.getElem?_set]
  by_cases h : i = q
  · subst h
    simp [hi]
  · rw [if_neg h, if_neg (fun h2 => h h2.symm)]

theorem getElem?_eq_getD {α : Type} (l : List α) (i : Nat) (d : α) (hi : i < l.length) :
    l[i]? = some (l.getD i d) := by
  simp [List.getD_eq_getElem?_getD, List.getElem?_eq_getElem hi]

variable {K : Type}

/-- The call `std::swap` with both indices in bounds exchanges the two
entries. -/
theorem swap_spec (a : List (Complex K)) (i r : Nat) (d : Complex K) (hi : i < a.length)
    (hr : r < a.length) :
    ∃ out, swap a i r = some out ∧ out.length = a.length ∧
      ∀ k, out.getD k d =
        if k = r then a.getD i d else if k = i then a.getD r d else a.getD k d := by
  refine ⟨(a.set i (a.getD r d)).set r (a.getD i d), ?_, by simp, fun k => ?_⟩
  · unfold swap
    rw [getElem?_eq_getD a i d hi, getElem?_eq_getD a r d hr]
  · rw [getD_set_eq _ _ _ _ _ (by simpa using hr), getD_set_eq _ _ _ _ _ hi]

/-- The first loop of `fft` moves the entry at the bit-reversed index to each
position. -/
theorem permuteLoop_spec (n : Nat) (x : List (Complex K)) (d : Complex K)
    (hx : x.length = 2 ^ n) :
    ∃ out, permuteLoop x (2 ^ n) n = some out ∧ out.length = 2 ^ n ∧
      ∀ k, k < 2 ^ n → out.getD k d = x.getD (bitReverse n k) d := by
  have hinv : ∀ i, i ≤ 2 ^ n →
      ∃ a, (List.range i).foldlM
          (fun source i =>
            if i < reversedLoop n i then swap source i (reversedLoop n i) else some source) x =
            some a ∧ a.length = 2 ^ n ∧
        ∀ k, k < 2 ^ n → a.getD k d =
          if k < i ∨ bitReverse n k < i then x.getD (bitReverse n k) d else x.getD k d := by
    intro i
    induction i with
    | zero =>
      intro _
      exact ⟨x, rfl, hx, fun k _ => by simp⟩
    | succ i ih =>
      intro hi
      obtain ⟨a, ha, hlen, hval⟩ := ih (by omega)
      rw [foldlM_range_succ, ha, Option.some_bind, reversedLoop_eq]
      have hr := bitReverse_lt n i
      have hri := bitReverse_involutive n i (by omega)
      by_cases hlt : i < bitReverse n i
      · rw [if_pos hlt]
        obtain ⟨out, hout, holen, hoval⟩ := swap_spec a i (bitReverse n i) d (by omega) (by omega)
        refine ⟨out, hout, by omega, fun k hk => ?_⟩
        have hrk := bitReverse_involutive n k hk
        rw [hoval k]
        by_cases hkr : k = bitReverse n i
        · rw [if_pos hkr, hval i (by omega), if_neg (by omega), hkr, hri, if_pos (by omega)]
        · rw [if_neg hkr]
          by_cases hki : k = i
          · rw [if_pos hki, hval _ hr, hri, if_neg (by omega), hki, if_pos (by omega)]
          · rw [if_neg hki, hval k hk]
            have hne : bitReverse n k ≠ i := by
              intro h
              rw [h] at hrk
              exact hkr hrk.symm
            by_cases hc : k < i ∨ bitReverse n k < i
            · rw [if_pos hc, if_pos (by omega)]
            · rw [if_neg hc, if_neg (by omega)]
      · rw [if_neg hlt]
        refine ⟨a, rfl, hlen, fun k hk => ?_⟩
        have hrk := bitReverse_involutive n k hk
        rw [hval k hk]
        by_cases hki : k = i
        · subst hki
          by_cases hc : k < k ∨ bitReverse n k < k
          · rw [if_pos hc, if_pos (by omega)]
          · rw [if_neg hc, if_pos (by omega)]
            have : bitReverse n k = k := by omega
            rw [this]
        · by_cases hc : k < i ∨ bitReverse n k < i
          · rw [if_pos hc, if_pos (by omega)]
          · have hne : bitReverse n k ≠ i := by
              intro h
              rw [h] at hrk
              omega
            rw [if_neg hc, if_neg (by omega)]
  obtain ⟨a, ha, hlen, hval⟩ := hinv (2 ^ n) (le_refl _)
  refine ⟨a, ha, hlen, fun k hk => ?_⟩
  rw [hval k hk, if_pos (Or.inl hk)]

end BigInteger

end MainCpp

/-! ## The butterfly loops of `fft` -/

namespace MainCpp

namespace BigInteger

/-- The innermost loop of `fft` on the block at `i`: position `i + k` receives
`source[i + k] + source[i + k + L] * root ^ k`, position `i + k + L` receives
`source[i + k] - source[i + k + L] * root ^ k`, and nothing else changes. -/
theorem butterflyLoop_spec {K R : Type} [Field K] [CommRing R] (φ : Complex K → R)
    (hadd : ∀ a b, φ (Complex.add a b) = φ a + φ b)
    (hsub : ∀ a b, φ (Complex.sub a b) = φ a - φ b)
    (hmul : ∀ a b, φ (Complex.mul a b) = φ a * φ b)
    (hone : φ (Complex.ofInt 1) = 1)
    (root : Complex K) (i L : Nat) (src : List (Complex K)) (d : Complex K)
    (hL : i + 2 * L ≤ src.length) :
    ∃ out power, butterflyLoop root i L src = some (out, power) ∧ out.length = src.length ∧
      ∀ q,
        (i ≤ q ∧ q < i + L →
          φ (out.getD q d) = φ (src.getD q d) + φ (src.getD (q + L) d) * φ root ^ (q - i)) ∧
        (i + L ≤ q ∧ q < i + 2 * L →
          φ (out.getD q d) =
            φ (src.getD (q - L) d) - φ (src.getD q d) * φ root ^ (q - L - i)) ∧
        (q < i ∨ i + 2 * L ≤ q → out.getD q d = src.getD q d) := by
  have hinv : ∀ j, j ≤ L →
      ∃ out power, (List.range j).foldlM
          (fun (state : List (Complex K) × Complex K) j =>
            match state.1[i + j]?, state.1[i + j + L]? with
            | some left, some upper =>
              some ((state.1.set (i + j) (Complex.add left (Complex.mul upper state.2))).set
                  (i + j + L) (Complex.sub left (Complex.mul upper state.2)),
                Complex.mul state.2 root)
            | _, _ => none)
          (src, Complex.ofInt 1) = some (out, power) ∧
        out.length = src.length ∧ φ power = φ root ^ j ∧
        ∀ q,
          (i ≤ q ∧ q < i + j →
            φ (out.getD q d) = φ (src.getD q d) + φ (src.getD (q + L) d) * φ root ^ (q - i)) ∧
          (i + L ≤ q ∧ q < i + L + j →
            φ (out.getD q d) =
              φ (src.getD (q - L) d) - φ (src.getD q d) * φ root ^ (q - L - i)) ∧
          (¬ (i ≤ q ∧ q < i + j) ∧ ¬ (i + L ≤ q ∧ q < i + L + j) →
            out.getD q d = src.getD q d) := by
    intro j
    induction j with
    | zero =>
      intro _
      refine ⟨src, Complex.ofInt 1, rfl, rfl, by rw [hone, pow_zero], fun q => ⟨?_, ?_, ?_⟩⟩
      · intro h; omega
      · intro h; omega
      · intro _; rfl
    | succ j ih =>
      intro hj
      obtain ⟨a, power, ha, hlen, hpow, hval⟩ := ih (by omega)
      have h1 : a.getD (i + j) d = src.getD (i + j) d :=
        (hval (i + j)).2.2 ⟨by omega, by omega⟩
      have h2 : a.getD (i + j + L) d = src.getD (i + j + L) d :=
        (hval (i + j + L)).2.2 ⟨by omega, by omega⟩
      rw [foldlM_range_succ, ha, Option.some_bind]
      simp only
      rw [getElem?_eq_getD a (i + j) d (by omega), getElem?_eq_getD a (i + j + L) d (by omega)]
      refine ⟨_, _, rfl, by simp [hlen], by rw [hmul, hpow, pow_succ], fun q => ?_⟩
      rw [getD_set_eq _ _ _ _ _ (by simp; omega), getD_set_eq _ _ _ _ _ (by omega)]
      obtain ⟨v1, v2, v3⟩ := hval q
      refine ⟨fun hq => ?_, fun hq => ?_, fun hq => ?_⟩
      · rw [if_neg (by omega)]
        by_cases hqj : q = i + j
        · rw [if_pos hqj, hadd, hmul, h1, h2, hpow, hqj]
          have : i + j - i = j := by omega
          rw [this]
        · rw [if_neg hqj]
          exact v1 ⟨hq.1, by omega⟩
      · by_cases hqj : q = i + j + L
        · rw [if_pos hqj, hsub, hmul, h1, h2, hpow, hqj]
          have e1 : i + j + L - L = i + j := by omega
          have e2 : i + j - i = j := by omega
          rw [e1, e2]
        · rw [if_neg hqj, if_neg (by omega)]
          exact v2 ⟨hq.1, by omega⟩
      · rw [if_neg (by omega), if_neg (by omega)]
        exact v3 ⟨by omega, by omega⟩
  obtain ⟨out, power, ho, hlen, -, hval⟩ := hinv L (le_refl _)
  refine ⟨out, power, ho, hlen, fun q => ?_⟩
  obtain ⟨v1, v2, v3⟩ := hval q
  refine ⟨v1, fun hq => v2 ⟨hq.1, by omega⟩, fun hq => v3 ⟨by omega, by omega⟩⟩

/-- The loop over the blocks turns the contents after the stages of lengths up
to `2 ^ t` into the contents after the stage of length `2 ^ (t + 1)`. -/
theorem blockLoop_spec {K R : Type} [Field K] [CommRing R] (φ : Complex K → R)
    (hadd : ∀ a b, φ (Complex.add a b) = φ a + φ b)
    (hsub : ∀ a b, φ (Complex.sub a b) = φ a - φ b)
    (hmul : ∀ a b, φ (Complex.mul a b) = φ a * φ b)
    (hone : φ (Complex.ofInt 1) = 1)
    (ω : R) (X : Nat → R) (t u : Nat) (hω : ω ^ (2 ^ (t + u)) = -1)
    (root : Complex K) (hroot : φ root = ω ^ (2 ^ u)) (d : Complex K)
    (remaining : Nat) (b fuel : Nat) (hb : b + remaining = 2 ^ u) (hf : remaining < fuel)
    (src : List (Complex K)) (hlen : src.length = 2 ^ (t + 1 + u))
    (hsrc : ∀ q, q < 2 ^ (t + 1 + u) →
      φ (src.getD q d) =
        if q < b * 2 ^ (t + 1) then dftStage ω X (t + 1) u q else dftStage ω X t (u + 1) q) :
    ∃ out, blockLoop root (2 ^ (t + 1 + u)) (2 ^ (t + 1)) fuel (b * 2 ^ (t + 1)) src = some out ∧
      out.length = 2 ^ (t + 1 + u) ∧
      ∀ q, q < 2 ^ (t + 1 + u) → φ (out.getD q d) = dftStage ω X (t + 1) u q := by
  have hsize : 2 ^ (t + 1 + u) = 2 ^ u * 2 ^ (t + 1) := by rw [pow_add]; ring
  have hhalf : 2 ^ (t + 1) / 2 = 2 ^ t := by rw [pow_succ]; omega
  have hdouble : 2 ^ (t + 1) = 2 * 2 ^ t := by rw [pow_succ]; ring
  induction remaining generalizing b fuel src with
  | zero =>
    obtain ⟨f, rfl⟩ : ∃ f, fuel = f + 1 := ⟨fuel - 1, by omega⟩
    have hbu : b = 2 ^ u := by omega
    rw [blockLoop, if_neg (by rw [hbu, hsize]; omega)]
    refine ⟨src, rfl, hlen, fun q hq => ?_⟩
    rw [hsrc q hq, if_pos (by rw [hbu, ← hsize]; exact hq)]
  | succ rem ih =>
    obtain ⟨f, rfl⟩ : ∃ f, fuel = f + 1 := ⟨fuel - 1, by omega⟩
    have hblt : b + 1 ≤ 2 ^ u := by omega
    have hend : (b + 1) * 2 ^ (t + 1) ≤ 2 ^ (t + 1 + u) := by
      rw [hsize]
      exact Nat.mul_le_mul_right _ hblt
    have hnext : (b + 1) * 2 ^ (t + 1) = b * 2 ^ (t + 1) + 2 ^ (t + 1) := by ring
    have hpos : 0 < 2 ^ t := Nat.two_pow_pos t
    rw [blockLoop, if_pos (by omega), hhalf]
    obtain ⟨mid, power, hmid, hmlen, hmval⟩ :=
      butterflyLoop_spec φ hadd hsub hmul hone root (b * 2 ^ (t + 1)) (2 ^ t) src d (by omega)
    rw [hmid]
    simp only
    rw [← hnext]
    apply ih (b + 1) f (by omega) (by omega) mid (by omega)
    intro q hq
    obtain ⟨v1, v2, v3⟩ := hmval q
    by_cases hq1 : q < b * 2 ^ (t + 1)
    · rw [v3 (Or.inl hq1), hsrc q hq, if_pos hq1, if_pos (by omega)]
    · by_cases hq2 : q < (b + 1) * 2 ^ (t + 1)
      · rw [if_pos hq2]
        by_cases hq3 : q < b * 2 ^ (t + 1) + 2 ^ t
        · have hk : q - b * 2 ^ (t + 1) < 2 ^ t := by omega
          have hqe : q = b * 2 ^ (t + 1) + (q - b * 2 ^ (t + 1)) := by omega
          rw [v1 ⟨by omega, hq3⟩, hsrc q hq, if_neg hq1, hsrc (q + 2 ^ t) (by omega),
            if_neg (by omega), hroot, ← pow_mul]
          have hl := dftStage_lower ω X t u b (q - b * 2 ^ (t + 1)) hk
          rw [← hqe] at hl
          rw [hl]
        · have hk : q - 2 ^ t - b * 2 ^ (t + 1) < 2 ^ t := by omega
          have hqe : q = b * 2 ^ (t + 1) + (q - 2 ^ t - b * 2 ^ (t + 1)) + 2 ^ t := by omega
          have hqe2 : q - 2 ^ t = b * 2 ^ (t + 1) + (q - 2 ^ t - b * 2 ^ (t + 1)) := by omega
          rw [v2 ⟨by omega, by omega⟩, hsrc q hq, if_neg hq1, hsrc (q - 2 ^ t) (by omega),
            if_neg (by omega), hroot, ← pow_mul]
          have hl := dftStage_upper ω X t u b (q - 2 ^ t - b * 2 ^ (t + 1)) hk hω
          rw [← hqe, ← hqe2] at hl
          rw [hl]
      · rw [v3 (Or.inr (by omega)), hsrc q hq, if_neg hq1, if_neg hq2]

end BigInteger

end MainCpp

/-! ## The transform computed by `fft` -/

namespace MainCpp

namespace BigInteger

/-- The loop over the lengths `2 ^ (t + 1), ..., 2 ^ n` completes the
transform of size `2 ^ n`. -/
theorem stageLoop_spec {K R : Type} [Field K] [CommRing R] (φ : Complex K → R)
    (hadd : ∀ a b, φ (Complex.add a b) = φ a + φ b)
    (hsub : ∀ a b, φ (Complex.sub a b) = φ a - φ b)
    (hmul : ∀ a b, φ (Complex.mul a b) = φ a * φ b)
    (hone : φ (Complex.ofInt 1) = 1)
    (cos sin : K → K) (pi_ : K) (inverse : Int) (ω : R) (X : Nat → R) (n : Nat)
    (hω : ∀ t u, t + 1 + u = n → ω ^ (2 ^ (t + u)) = -1)
    (hroot : ∀ t u, t + 1 + u = n →
      φ ⟨cos (pi_ * 2 / ((2 ^ (t + 1) : Nat) : K)),
        (inverse : K) * sin (pi_ * 2 / ((2 ^ (t + 1) : Nat) : K))⟩ = ω ^ (2 ^ u))
    (d : Complex K) (u t fuel : Nat) (htu : t + u = n) (hf : u < fuel)
    (src : List (Complex K)) (hlen : src.length = 2 ^ n)
    (hsrc : ∀ q, q < 2 ^ n → φ (src.getD q d) = dftStage ω X t u q) :
    ∃ out, stageLoop cos sin pi_ (2 ^ n) inverse fuel (2 ^ (t + 1)) src = some out ∧
      out.length = 2 ^ n ∧ ∀ q, q < 2 ^ n → φ (out.getD q d) = dftStage ω X n 0 q := by
  induction u generalizing t fuel src with
  | zero =>
    obtain ⟨f, rfl⟩ : ∃ f, fuel = f + 1 := ⟨fuel - 1, by omega⟩
    have htn : t = n := by omega
    subst htn
    have hgt : ¬ 2 ^ (t + 1) ≤ 2 ^ t := by
      rw [pow_succ]
      have := Nat.two_pow_pos t
      omega
    rw [stageLoop, if_neg hgt]
    exact ⟨src, rfl, hlen, hsrc⟩
  | succ u ih =>
    obtain ⟨f, rfl⟩ : ∃ f, fuel = f + 1 := ⟨fuel - 1, by omega⟩
    have hn : n = t + 1 + u := by omega
    have hle : 2 ^ (t + 1) ≤ 2 ^ n := Nat.pow_le_pow_right (by decide) (by omega)
    have hblocks : 2 ^ u < 2 ^ n := Nat.pow_lt_pow_right (by decide) (by omega)
    rw [stageLoop, if_pos hle]
    have hb := blockLoop_spec φ hadd hsub hmul hone ω X t u (hω t u (by omega))
      ⟨cos (pi_ * 2 / ((2 ^ (t + 1) : Nat) : K)),
        (inverse : K) * sin (pi_ * 2 / ((2 ^ (t + 1) : Nat) : K))⟩ (hroot t u (by omega)) d
      (2 ^ u) 0 (2 ^ n) (by omega) hblocks src (by rw [← hn]; exact hlen)
      (by
        intro q hq
        rw [← hn] at hq
        rw [hsrc q hq, Nat.zero_mul, if_neg (by omega)])
    rw [Nat.zero_mul, ← hn] at hb
    obtain ⟨mid, hmid, hmlen, hmval⟩ := hb
    rw [hmid]
    simp only
    have hnext : 2 ^ (t + 1) * 2 = 2 ^ (t + 1 + 1) := by rw [pow_succ 2 (t + 1)]
    rw [hnext]
    exact ih (t + 1) f (by omega) (by omega) mid hmlen hmval

/-- The method `fft` on a sequence of `2 ^ n` entries returns the transform
with the root `ω`, for any reading `φ` of `Complex` in a commutative ring
under which the root of each stage is the matching power of `ω`. -/
theorem fft_spec {K R : Type} [Field K] [CommRing R] (φ : Complex K → R)
    (hadd : ∀ a b, φ (Complex.add a b) = φ a + φ b)
    (hsub : ∀ a b, φ (Complex.sub a b) = φ a - φ b)
    (hmul : ∀ a b, φ (Complex.mul a b) = φ a * φ b)
    (hone : φ (Complex.ofInt 1) = 1)
    (cos sin acos : K → K) (inverse : Int) (ω : R) (n : Nat)
    (hω : ∀ t u, t + 1 + u = n → ω ^ (2 ^ (t + u)) = -1)
    (hroot : ∀ t u, t + 1 + u = n →
      φ ⟨cos (acos 0 * 2 * 2 / ((2 ^ (t + 1) : Nat) : K)),
        (inverse : K) * sin (acos 0 * 2 * 2 / ((2 ^ (t + 1) : Nat) : K))⟩ = ω ^ (2 ^ u))
    (d : Complex K) (x : List (Complex K)) (hx : x.length = 2 ^ n) :
    ∃ out, fft cos sin acos x (2 ^ n) inverse = some out ∧ out.length = 2 ^ n ∧
      ∀ k, k < 2 ^ n →
        φ (out.getD k d) = ∑ j in Finset.range (2 ^ n), φ (x.getD j d) * ω ^ (j * k) := by
  obtain ⟨p, hp, hplen, hpval⟩ := permuteLoop_spec n x d hx
  obtain ⟨out, hout, holen, hoval⟩ := stageLoop_spec φ hadd hsub hmul hone cos sin (acos 0 * 2)
    inverse ω (fun j => φ (x.getD j d)) n hω hroot d n 0 (2 ^ n) (by omega) (Nat.lt_two_pow n)
    p hplen
    (by
      intro q hq
      rw [hpval q hq, dftStage_zero])
  refine ⟨out, ?_, holen, fun k hk => ?_⟩
  · unfold fft
    rw [builtin_ctz_pow, hp]
    exact hout
  · rw [hoval k hk, dftStage_final _ _ _ _ hk]

end BigInteger

end MainCpp

/-! ## Claim on the transform -/

namespace MainCpp

namespace BigInteger

end BigInteger

end MainCpp

/-! ## The transform size, division by zero and `sub_abs` bounds -/

namespace Limbs

theorem sizeLoop_pow (max_size fuel k : Nat) (hinv : k = 0 ∨ 2 ^ (k - 1) < max_size)
    (hf : max_size - 2 ^ k < fuel) :
    ∃ j, sizeLoop max_size fuel (2 ^ k) = some (2 ^ j) ∧ max_size ≤ 2 ^ j ∧
      (j = 0 ∨ 2 ^ (j - 1) < max_size) := by
  induction fuel generalizing k with
  | zero => omega
  | succ n ih =>
    have hpos : 0 < 2 ^ k := Nat.two_pow_pos k
    unfold sizeLoop
    split
    · next hlt =>
      rw [← pow_succ]
      exact ih (k + 1) (Or.inr (by simpa using hlt)) (by rw [pow_succ]; omega)
    · next hge => exact ⟨k, rfl, by omega, hinv⟩

end Limbs

namespace MainCpp

namespace BigInteger

open Limbs

/-- C31: in `operator*=`, for all limb counts `la ≥ 1` and `lb ≥ 1`, the
transform size computed (`size = 1; while (size < max_size) size *= 2;
size *= 2;`) is a power of two, is at least `2 * max(la, lb)`, and is at most
every power of two that is at least `2 * max(la, lb)`. -/
theorem transformSize_smallest (la lb : Nat) (hla : 1 ≤ la) (hlb : 1 ≤ lb) :
    ∃ size k, transformSize la lb = some size ∧ size = 2 ^ k ∧ 2 * max la lb ≤ size ∧
      ∀ i, 2 * max la lb ≤ 2 ^ i → size ≤ 2 ^ i := by
  obtain ⟨j, hj, hle, hmin⟩ := sizeLoop_pow (max la lb) (max la lb + 1) 0 (Or.inl rfl)
    (by simp only [pow_zero]; omega)
  rw [pow_zero] at hj
  refine ⟨2 ^ (j + 1), j + 1, ?_, rfl, by rw [pow_succ]; omega, fun i hi => ?_⟩
  · simp [transformSize, hj, pow_succ]
  · apply Nat.pow_le_pow_right (by decide)
    have hmax : 1 ≤ max la lb := le_max_of_le_left hla
    by_cases h0 : j = 0
    · subst h0
      by_contra hc
      have hi0 : i = 0 := by omega
      rw [hi0] at hi
      simp only [pow_zero] at hi
      omega
    · have hlt : 2 ^ (j - 1) < max la lb := by
        rcases hmin with h | h
        · exact absurd h h0
        · exact h
      by_contra hc
      have hij : i ≤ j := by omega
      have h1 : 2 ^ i ≤ 2 ^ j := Nat.pow_le_pow_right (by decide) hij
      have h2 : 2 ^ j = 2 * 2 ^ (j - 1) := by
        have : j = (j - 1) + 1 := by omega
        conv_lhs => rw [this, pow_succ]
        ring
      omega

/-- Witness for C31 at limb counts `3` and `2`. -/
theorem transformSize_smallest_witness :
    1 ≤ 3 ∧ 1 ≤ 2 ∧
    ∃ size k, transformSize 3 2 = some size ∧ size = 2 ^ k ∧ 2 * max 3 2 ≤ size ∧
      ∀ i, 2 * max 3 2 ≤ 2 ^ i → size ≤ 2 ^ i :=
  ⟨by decide, by decide, transformSize_smallest 3 2 (by decide) (by decide)⟩

end BigInteger

end MainCpp

namespace BigintegerH

namespace BigInteger

open Limbs

/-- C34: in `src/matrix/biginteger.h`, for all well-formed `a` and `b`,
`a.sub_abs(b)` makes no access at or beyond the size of `buffer_` (the
embedding returns a value, not `none`): when `less_abs(b)` fails the borrow
loop ends inside the `len(a)` limbs and leaves `len(a)` limbs; when it holds,
`len(a) ≤ len(b)` and the loop, which extends the buffer before each write
past its end, leaves `len(b)` limbs. -/
theorem sub_abs_in_bounds (a b : BigInteger) (ha : WellFormed a) (hb : WellFormed b) :
    (∃ r, sub_abs a b = some r) ∧
      (less_abs a b = false →
        ∃ limbs, subLoopGe a.buffer_ b.buffer_ 0 = some limbs ∧
          limbs.length = a.buffer_.length) ∧
      (less_abs a b = true →
        a.buffer_.length ≤ b.buffer_.length ∧
          (subLoopLess a.buffer_ b.buffer_ 0).length = b.buffer_.length) := by
  obtain ⟨hsa, hla, hca, -⟩ := ha
  obtain ⟨hsb, hlb, hcb, -⟩ := hb
  have hless := less_abs_iff a b hla hca hlb hcb
  obtain ⟨r, hr, -⟩ := sub_abs_spec a b hsa hla hca hlb hcb
  refine ⟨⟨r, hr⟩, fun hge => ?_, fun hlt => ?_⟩
  · have hm : mag b.buffer_ ≤ mag a.buffer_ := by
      by_contra hc
      have := hless.2 (by omega)
      rw [hge] at this
      exact Bool.noConfusion this
    have hlen : b.buffer_.length ≤ a.buffer_.length := by
      by_contra hc
      have := mag_lt_of_length_lt hla hlb hca.1 hcb (by omega)
      omega
    obtain ⟨limbs, h1, -, -, h3⟩ := subLoopGe_spec a.buffer_ b.buffer_ 0 hla hlb (le_refl _)
      (by decide) hlen (by omega)
    exact ⟨limbs, h1, h3⟩
  · have hm := hless.1 hlt
    have hlen : a.buffer_.length ≤ b.buffer_.length := by
      by_contra hc
      have := mag_lt_of_length_lt hlb hla hcb.1 hca (by omega)
      omega
    obtain ⟨-, -, h3⟩ := subLoopLess_spec a.buffer_ b.buffer_ 0 hla hlb (le_refl _)
      (by decide) hlen (by omega)
    exact ⟨hlen, h3⟩

/-- Witness for C34 at `a = 10000` and `b = -3`. -/
theorem sub_abs_in_bounds_witness :
    WellFormed ⟨[0, 0, 1], 1⟩ ∧ WellFormed ⟨[3], -1⟩ ∧
    ((∃ r, sub_abs ⟨[0, 0, 1], 1⟩ ⟨[3], -1⟩ = some r) ∧
      (less_abs ⟨[0, 0, 1], 1⟩ ⟨[3], -1⟩ = false →
        ∃ limbs, subLoopGe [0, 0, 1] [3] 0 = some limbs ∧ limbs.length = [0, 0, 1].length) ∧
      (less_abs ⟨[0, 0, 1], 1⟩ ⟨[3], -1⟩ = true →
        [0, 0, 1].length ≤ [3].length ∧ (subLoopLess [0, 0, 1] [3] 0).length = [3].length)) :=
  ⟨by decide, by decide, sub_abs_in_bounds ⟨[0, 0, 1], 1⟩ ⟨[3], -1⟩ (by decide) (by decide)⟩

end BigInteger

end BigintegerH

namespace StackStorage

/-- The sizes involved fit `size_t`, so `get_memory` computes with the exact
natural numbers. -/
theorem get_memory_exact (p c a : Nat) (ha : 1 ≤ a) (h1 : p + a - 1 < sizeMod)
    (h2 : (p + a - 1) / a * a + c < sizeMod) :
    get_memory p c a = some ((p + a - 1) / a * a + c, (p + a - 1) / a * a) := by
  have hpa : p + a < sizeMod ∨ p + a = sizeMod := by omega
  have hpad : ((p + a) % sizeMod + (sizeMod - 1)) % sizeMod = p + a - 1 := by
    rcases hpa with h | h
    · rw [Nat.mod_eq_of_lt h]
      have : p + a + (sizeMod - 1) = (p + a - 1) + sizeMod := by omega
      rw [this, Nat.add_mod_right, Nat.mod_eq_of_lt h1]
    · rw [h, Nat.mod_self, Nat.zero_add, Nat.mod_eq_of_lt (by decide)]
  have hc : c < sizeMod := by omega
  have hb : (p + a - 1) / a * a < sizeMod := by omega
  unfold get_memory
  rw [if_neg (by omega)]
  simp only [hpad, Nat.mod_eq_of_lt hb, Nat.mod_eq_of_lt h2, Nat.mod_eq_of_lt hc]
  have : (p + a - 1) / a * a + c + (sizeMod - c) = (p + a - 1) / a * a + sizeMod := by omega
  rw [this, Nat.add_mod_right, Nat.mod_eq_of_lt hb]

theorem ceil_block (p a : Nat) (ha : 1 ≤ a) :
    p ≤ (p + a - 1) / a * a ∧ (p + a - 1) / a * a < p + a ∧
      (∀ j, p ≤ a * j → (p + a - 1) / a ≤ j) := by
  have hd := Nat.div_add_mod (p + a - 1) a
  have hm := Nat.mod_lt (p + a - 1) (show 0 < a by omega)
  have hcomm : a * ((p + a - 1) / a) = (p + a - 1) / a * a := Nat.mul_comm _ _
  refine ⟨by omega, by omega, fun j hj => ?_⟩
  by_contra hc
  have h1 : j + 1 ≤ (p + a - 1) / a := by omega
  have h2 : a * (j + 1) ≤ a * ((p + a - 1) / a) := Nat.mul_le_mul_left a h1
  rw [Nat.mul_add, Nat.mul_one] at h2
  omega

/-- C40: in `StackStorage::get_memory`, for every position `p`, byte count `c`
and alignment `a ≥ 1` whose sums fit `size_t`, the returned block starts at
offset `a * ceil(p / a)` (the least multiple of `a` that is `≥ p`), and the
position becomes that offset plus `c`; the block of a following call starts
at or after the end of this block. -/
theorem get_memory_aligned (p c a : Nat) (ha : 1 ≤ a) (h1 : p + a - 1 < sizeMod)
    (h2 : (p + a - 1) / a * a + c < sizeMod) :
    ∃ position offset, get_memory p c a = some (position, offset) ∧
      offset = a * ⌈(p : ℚ) / (a : ℚ)⌉₊ ∧ a ∣ offset ∧ p ≤ offset ∧ offset < p + a ∧
      (∀ m, a ∣ m → p ≤ m → offset ≤ m) ∧ position = offset + c ∧
      ∀ c2 a2 position2 offset2, get_memory position c2 a2 = some (position2, offset2) →
        position + a2 - 1 < sizeMod → (position + a2 - 1) / a2 * a2 + c2 < sizeMod →
        offset + c ≤ offset2 := by
  obtain ⟨hle, hlt, hmin⟩ := ceil_block p a ha
  have hceil : ⌈(p : ℚ) / (a : ℚ)⌉₊ = (p + a - 1) / a := by
    have hapos : (0 : ℚ) < a := by exact_mod_cast ha
    apply le_antisymm
    · rw [Nat.ceil_le, div_le_iff₀ hapos]
      exact_mod_cast hle
    · apply hmin
      have := Nat.le_ceil ((p : ℚ) / (a : ℚ))
      rw [div_le_iff₀ hapos] at this
      have h3 : (p : ℚ) ≤ ((a * ⌈(p : ℚ) / (a : ℚ)⌉₊ : Nat) : ℚ) := by
        push_cast
        linarith
      exact_mod_cast h3
  refine ⟨_, _, get_memory_exact p c a ha h1 h2, ?_, ⟨(p + a - 1) / a, Nat.mul_comm _ _⟩, hle,
    hlt, ?_, rfl, ?_⟩
  · rw [hceil, Nat.mul_comm]
  · rintro m ⟨j, rfl⟩ hp
    rw [Nat.mul_comm]
    exact Nat.mul_le_mul_left a (hmin j hp)
  · intro c2 a2 position2 offset2 hcall g1 g2
    have ha2 : 1 ≤ a2 := by
      by_contra hc
      have : a2 = 0 := by omega
      subst this
      simp [get_memory] at hcall
    rw [get_memory_exact _ c2 a2 ha2 g1 g2] at hcall
    simp only [Option.some.injEq, Prod.mk.injEq] at hcall
    obtain ⟨hle2, -, -⟩ := ceil_block ((p + a - 1) / a * a + c) a2 ha2
    omega

/-- Witness for C40 at position `13`, count `24` and alignment `8`. -/
theorem get_memory_aligned_witness :
    1 ≤ 8 ∧ 13 + 8 - 1 < sizeMod ∧ (13 + 8 - 1) / 8 * 8 + 24 < sizeMod ∧
    ∃ position offset, get_memory 13 24 8 = some (position, offset) ∧
      offset = 8 * ⌈((13 : Nat) : ℚ) / ((8 : Nat) : ℚ)⌉₊ ∧ 8 ∣ offset ∧ 13 ≤ offset ∧
      offset < 13 + 8 ∧
      (∀ m, 8 ∣ m → 13 ≤ m → offset ≤ m) ∧ position = offset + 24 ∧
      ∀ c2 a2 position2 offset2, get_memory position c2 a2 = some (position2, offset2) →
        position + a2 - 1 < sizeMod → (position + a2 - 1) / a2 * a2 + c2 < sizeMod →
        offset + 24 ≤ offset2 :=
  ⟨by decide, by decide, by decide, get_memory_aligned 13 24 8 (by decide) (by decide) (by decide)⟩

end StackStorage

/-! ## The size of `List` and the control block of the smart pointers -/

namespace ListH

namespace List

/-- C39 fails on the code: the constructor
`List(size_t count, const T& item, Allocator allocator)` initialises
`size_(0)` and then calls `emplace(item)` `count` times, and `emplace` does
not touch `size_`: with `count = 2` the list holds two elements and `size()`
returns `0`.  The constructor `List(size_t count, const T& item)` initialises
`size_(count)` and is right; after a `push_back` on the wrong list `size()`
is `1` for three elements. -/
theorem ctor_allocator_size_wrong :
    (ctorCountItemAllocator 2 (7 : Nat)).map size = some 0 ∧
      (ctorCountItemAllocator 2 (7 : Nat)).bind traversed = some 2 ∧
      (ctorCountItem 2 (7 : Nat)).map size = some 2 ∧
      (ctorCountItem 2 (7 : Nat)).bind traversed = some 2 ∧
      ((ctorCountItemAllocator 2 (7 : Nat)).bind (fun l => push_back l 9)).map size = some 1 ∧
      ((ctorCountItemAllocator 2 (7 : Nat)).bind (fun l => push_back l 9)).bind traversed =
        some 3 := by
  decide

end List

end ListH

namespace SmartPointers

theorem consistent_copyShared (sc wc dc bc : Nat) (hp : 0 < sc)
    (hs : Consistent ⟨⟨sc, wc, dc, bc⟩, sc, wc⟩) :
    Consistent ⟨sharedFromBlock ⟨sc, wc, dc, bc⟩, sc + 1, wc⟩ := by
  obtain ⟨-, -, h3, h4⟩ := hs
  simp only at h3 h4
  rw [if_neg (by omega)] at h3 h4
  refine ⟨rfl, rfl, ?_, ?_⟩
  · show dc = if sc + 1 = 0 then 1 else 0
    rw [if_neg (by omega)]
    exact h3
  · show bc = if sc + 1 = 0 ∧ wc = 0 then 1 else 0
    rw [if_neg (by omega)]
    exact h4

theorem consistent_increment (sc wc dc bc : Nat) (hp : 0 < sc ∨ 0 < wc)
    (hs : Consistent ⟨⟨sc, wc, dc, bc⟩, sc, wc⟩) :
    Consistent ⟨increment ⟨sc, wc, dc, bc⟩, sc, wc + 1⟩ := by
  obtain ⟨-, -, h3, h4⟩ := hs
  simp only at h3 h4
  rw [if_neg (by omega)] at h4
  refine ⟨rfl, rfl, h3, ?_⟩
  show bc = if sc = 0 ∧ wc + 1 = 0 then 1 else 0
  rw [if_neg (by omega)]
  exact h4

theorem consistent_destroyShared (sc wc dc bc : Nat) (hp : 0 < sc)
    (hs : Consistent ⟨⟨sc, wc, dc, bc⟩, sc, wc⟩) :
    Consistent ⟨destroyShared ⟨sc, wc, dc, bc⟩, sc - 1, wc⟩ := by
  obtain ⟨-, -, h3, h4⟩ := hs
  simp only at h3 h4
  rw [if_neg (by omega)] at h3 h4
  subst h3
  subst h4
  unfold Consistent
  simp only [destroyShared]
  split_ifs <;> simp only [true_and, and_true, and_self] <;> omega

theorem consistent_destroyWeak (sc wc dc bc : Nat) (hp : 0 < wc)
    (hs : Consistent ⟨⟨sc, wc, dc, bc⟩, sc, wc⟩) :
    Consistent ⟨destroyWeak ⟨sc, wc, dc, bc⟩, sc, wc - 1⟩ := by
  obtain ⟨-, -, h3, h4⟩ := hs
  simp only at h3 h4
  rw [if_neg (by omega)] at h4
  subst h4
  unfold Consistent
  simp only [destroyWeak]
  split_ifs at h3 ⊢ <;> simp only [true_and, and_true, and_self] <;> omega

theorem step_consistent (s t : State) (op : Operation) (hs : Consistent s)
    (h : step s op = some t) : Consistent t := by
  obtain ⟨⟨sc, wc, dc, bc⟩, ls, lw⟩ := s
  have h1 : sc = ls := hs.1
  have h2 : wc = lw := hs.2.1
  subst h1
  subst h2
  cases op <;> simp only [step] at h <;> split at h <;>
    first
    | exact Option.noConfusion h
    | skip
  · next hp =>
    cases h
    exact consistent_copyShared sc wc dc bc hp hs
  · next hp =>
    cases h
    exact consistent_increment sc wc dc bc (Or.inl hp) hs
  · next hp =>
    cases h
    exact consistent_increment sc wc dc bc (Or.inr hp) hs
  · next hp =>
    split at h
    · cases h
      exact hs
    · next hexp =>
      cases h
      have hsc : 0 < sc := by
        have : sc ≠ 0 := by simpa [expired] using hexp
        omega
      exact consistent_copyShared sc wc dc bc hsc hs
  · next hp =>
    cases h
    exact consistent_destroyShared sc wc dc bc hp hs
  · next hp =>
    cases h
    exact consistent_destroyWeak sc wc dc bc hp hs

theorem run_consistent (ops : List Operation) (s t : State) (hs : Consistent s)
    (h : run s ops = some t) : Consistent t := by
  induction ops generalizing s with
  | nil =>
    simp only [run, Option.some.injEq] at h
    rw [← h]
    exact hs
  | cons op ops ih =>
    rw [run] at h
    cases hstep : step s op with
    | none =>
      rw [hstep] at h
      exact Option.noConfusion h
    | some u =>
      rw [hstep, Option.some_bind] at h
      exact ih u (step_consistent s u op hs hstep) h

/-- C38: in `src/shared_ptr/smart_pointers.h`, after any sequence of copies of
`SharedPtr` and `WeakPtr`, constructions of a `WeakPtr` from a `SharedPtr`,
`lock()` calls and destructions on the control block made by `SharedPtr(p)`:
`sharedCount` and `weakCount` equal the numbers of live pointers;
`deleteObject()` has not run while a `SharedPtr` is live and has run exactly
once when none is; `deallocateBlock()` has run only if `sharedCount` and
`weakCount` are both zero. -/
theorem control_block_safe (ops : List Operation) (s : State)
    (h : run initial ops = some s) :
    s.block.sharedCount = s.liveShared ∧ s.block.weakCount = s.liveWeak ∧
      (0 < s.liveShared → s.block.deleteObjectCalls = 0) ∧
      (s.liveShared = 0 → s.block.deleteObjectCalls = 1) ∧
      (0 < s.block.deallocateBlockCalls →
        s.block.sharedCount = 0 ∧ s.block.weakCount = 0 ∧ s.block.deallocateBlockCalls = 1) := by
  obtain ⟨h1, h2, h3, h4⟩ := run_consistent ops initial s (by decide) h
  refine ⟨h1, h2, fun hp => ?_, fun hz => ?_, fun hd => ?_⟩
  · rw [h3, if_neg (by omega)]
  · rw [h3, if_pos hz]
  · by_cases hc : s.liveShared = 0 ∧ s.liveWeak = 0
    · rw [if_pos hc] at h4
      exact ⟨by rw [h1]; exact hc.1, by rw [h2]; exact hc.2, h4⟩
    · rw [if_neg hc] at h4
      omega

/-- Witness for C38 on a sequence that ends with the block deallocated. -/
theorem control_block_safe_witness :
    run initial [.weakFromShared, .copyShared, .destroyShared, .lock, .destroyShared,
        .destroyShared, .lock, .destroyWeak] = some ⟨⟨0, 0, 1, 1⟩, 0, 0⟩ ∧
    ((⟨⟨0, 0, 1, 1⟩, 0, 0⟩ : State).block.sharedCount = (⟨⟨0, 0, 1, 1⟩, 0, 0⟩ : State).liveShared ∧
      (⟨⟨0, 0, 1, 1⟩, 0, 0⟩ : State).block.weakCount = (⟨⟨0, 0, 1, 1⟩, 0, 0⟩ : State).liveWeak ∧
      (0 < (⟨⟨0, 0, 1, 1⟩, 0, 0⟩ : State).liveShared →
        (⟨⟨0, 0, 1, 1⟩, 0, 0⟩ : State).block.deleteObjectCalls = 0) ∧
      ((⟨⟨0, 0, 1, 1⟩, 0, 0⟩ : State).liveShared = 0 →
        (⟨⟨0, 0, 1, 1⟩, 0, 0⟩ : State).block.deleteObjectCalls = 1) ∧
      (0 < (⟨⟨0, 0, 1, 1⟩, 0, 0⟩ : State).block.deallocateBlockCalls →
        (⟨⟨0, 0, 1, 1⟩, 0, 0⟩ : State).block.sharedCount = 0 ∧
          (⟨⟨0, 0, 1, 1⟩, 0, 0⟩ : State).block.weakCount = 0 ∧
          (⟨⟨0, 0, 1, 1⟩, 0, 0⟩ : State).block.deallocateBlockCalls = 1)) :=
  ⟨by decide,
    control_block_safe [.weakFromShared, .copyShared, .destroyShared, .lock, .destroyShared,
      .destroyShared, .lock, .destroyWeak] ⟨⟨0, 0, 1, 1⟩, 0, 0⟩ (by decide)⟩

end SmartPointers

/-! ## Independence of `operator*=` from the scratch buffers -/

namespace MainCpp

namespace BigInteger

open Limbs

/-- After `resize(size)` and `std::fill(..., 0)` a scratch buffer holds `size`
zeros, whatever it held before. -/
theorem fill_resize {K : Type} [Field K] (polynomial : List (Complex K)) (size : Nat) :
    fill (resize polynomial size) = List.replicate size (Complex.ofInt 0) := by
  unfold fill resize
  rw [List.map_const']
  congr 1
  simp only [List.length_append, List.length_take, List.length_replicate]
  omega

theorem loadLimbs_some {K : Type} [Field K] (limbs : List Int) (polynomial : List (Complex K))
    (h : limbs.length ≤ polynomial.length) :
    ∃ r, loadLimbs limbs polynomial = some r ∧ r.length = polynomial.length := by
  induction limbs generalizing polynomial with
  | nil => exact ⟨polynomial, by simp [loadLimbs], rfl⟩
  | cons limb limbs ih =>
    cases polynomial with
    | nil => simp at h
    | cons z polynomial =>
      obtain ⟨r, hr, hlen⟩ := ih polynomial (by simpa using h)
      exact ⟨Complex.ofInt limb :: r, by simp [loadLimbs, hr], by simp [hlen]⟩

theorem multiplyLoop_some {K : Type} [Field K] (size : Nat) (p1 p2 : List (Complex K))
    (h1 : p1.length = size) (h2 : p2.length = size) :
    ∃ r, multiplyLoop size p1 p2 = some r ∧ r.length = size := by
  induction size generalizing p1 p2 with
  | zero => exact ⟨p1, by simp [multiplyLoop], h1⟩
  | succ size ih =>
    cases p1 with
    | nil => simp at h1
    | cons x p1 =>
      cases p2 with
      | nil => simp at h2
      | cons y p2 =>
        obtain ⟨r, hr, hlen⟩ := ih p1 p2 (by simpa using h1) (by simpa using h2)
        exact ⟨Complex.mul x y :: r, by simp [multiplyLoop, hr], by simp [hlen]⟩

theorem roundedLoop_some {K : Type} [Field K] (llround : K → Int) (size count : Nat)
    (polynomial : List (Complex K)) (h : count ≤ polynomial.length) :
    ∃ r, roundedLoop llround size count polynomial = some r := by
  induction count generalizing polynomial with
  | zero => exact ⟨[], by simp [roundedLoop]⟩
  | succ count ih =>
    cases polynomial with
    | nil => simp at h
    | cons z polynomial =>
      obtain ⟨r, hr⟩ := ih polynomial (by simpa using h)
      exact ⟨llround (z.real_ / (size : K)) :: r, by simp [roundedLoop, hr]⟩

/-- The method `fft` returns on every sequence of `2 ^ n` entries, over any
field and with any `cos`, `sin` and `acos`. -/
theorem fft_returns {K : Type} [Field K] (cos sin acos : K → K) (inverse : Int) (n : Nat)
    (x : List (Complex K)) (hx : x.length = 2 ^ n) :
    ∃ out, fft cos sin acos x (2 ^ n) inverse = some out ∧ out.length = 2 ^ n := by
  obtain ⟨out, hout, hlen, -⟩ := fft_spec (fun _ : Complex K => PUnit.unit)
    (fun _ _ => rfl) (fun _ _ => rfl) (fun _ _ => rfl) rfl cos sin acos inverse PUnit.unit n
    (fun _ _ _ => rfl) (fun _ _ _ => rfl) ⟨0, 0⟩ x hx
  exact ⟨out, hout, hlen⟩

theorem transformSize_pow (la lb : Nat) :
    ∃ k, transformSize la lb = some (2 ^ k) ∧ la ≤ 2 ^ k ∧ lb ≤ 2 ^ k := by
  obtain ⟨j, hj, hle, -⟩ := sizeLoop_pow (max la lb) (max la lb + 1) 0 (Or.inl rfl)
    (by simp only [pow_zero]; omega)
  rw [pow_zero] at hj
  have h1 : la ≤ max la lb := le_max_left _ _
  have h2 : lb ≤ max la lb := le_max_right _ _
  refine ⟨j + 1, by simp [transformSize, hj, pow_succ], ?_, ?_⟩ <;> rw [pow_succ] <;> omega

/-- C35: the result of `a *= b` does not depend on the prior size or contents
of the scratch buffers `polynomial1_` and `polynomial2_`: for any two initial
scratch states and the same operands the call returns, and the resulting
limbs and sign of `a` (and the scratch buffers left behind) are the same. -/
theorem imul_scratch_independent {K : Type} [Field K] (cos sin acos : K → K)
    (llround : K → Int) (p1 p2 q1 q2 : List (Complex K)) (a b : BigInteger) :
    imulScratch cos sin acos llround p1 p2 a b = imulScratch cos sin acos llround q1 q2 a b ∧
      ∃ r, imulScratch cos sin acos llround p1 p2 a b = some r := by
  constructor
  · unfold imulScratch
    simp only [fill_resize]
  · obtain ⟨k, hk, hla, hlb⟩ := transformSize_pow a.buffer_.length b.buffer_.length
    obtain ⟨l1, hl1, len1⟩ := loadLimbs_some (K := K) a.buffer_
      (List.replicate (2 ^ k) (Complex.ofInt 0)) (by simpa using hla)
    obtain ⟨l2, hl2, len2⟩ := loadLimbs_some (K := K) b.buffer_
      (List.replicate (2 ^ k) (Complex.ofInt 0)) (by simpa using hlb)
    rw [List.length_replicate] at len1 len2
    obtain ⟨f1, hf1, flen1⟩ := fft_returns cos sin acos 1 k l1 len1
    obtain ⟨f2, hf2, flen2⟩ := fft_returns cos sin acos 1 k l2 len2
    obtain ⟨m, hm, mlen⟩ := multiplyLoop_some (2 ^ k) f1 f2 flen1 flen2
    obtain ⟨g, hg, glen⟩ := fft_returns cos sin acos (-1) k m mlen
    obtain ⟨c, hc⟩ := roundedLoop_some llround (2 ^ k) (2 ^ k) g (by omega)
    refine ⟨(normalize ⟨mulCarryLoop c a.buffer_ 0, xor a.negative_ b.negative_⟩, g, f2), ?_⟩
    unfold imulScratch
    simp only [hk, fill_resize, hl1, hl2, hf1, hf2, hm, hg, hc, Option.bind_eq_bind,
      Option.some_bind, Option.pure_def]

end BigInteger

end MainCpp

/-! ## Subtraction with a dropped borrow, and halving -/

namespace Limbs

/-- The loop of `sub_abs` in `src/bigint/main.cpp`, on a receiver at least as
long as the argument: the limbs left denote the difference, plus
`100 ^ len(number)` when the borrow out of the last limb visited is dropped. -/
theorem subLoopAliased_value (xs ys : List Int) (c : Int) (hx : LimbsOk xs) (hy : LimbsOk ys)
    (h0 : 0 ≤ c) (h1 : c ≤ 1) (hlen : ys.length ≤ xs.length) :
    (subLoopAliased false xs ys c).length = xs.length ∧
      ∃ δ : Int, (δ = 0 ∨ δ = 1) ∧
        mag (subLoopAliased false xs ys c) + mag ys + c = mag xs + δ * 100 ^ ys.length := by
  induction ys generalizing xs c with
  | nil =>
    refine ⟨rfl, c, by omega, ?_⟩
    simp [subLoopAliased, mag]
  | cons y ys ih =>
    cases xs with
    | nil => simp at hlen
    | cons x xs =>
      rw [limbsOk_cons] at hx hy
      simp only [List.length_cons, add_le_add_iff_right] at hlen
      simp only [subLoopAliased, List.headD_cons, List.tail_cons, Bool.false_eq_true, if_false]
      by_cases hv : x - y - c < 0
      · obtain ⟨hl, δ, hδ, hm⟩ := ih xs 1 hx.2 hy.2 (by omega) (by omega) hlen
        simp only [hv, if_true, base_]
        refine ⟨by simp [hl], δ, hδ, ?_⟩
        simp only [show (1 : Int) > 0 from by decide, if_true, mag_cons, List.length_cons,
          pow_succ]
        linarith
      · obtain ⟨hl, δ, hδ, hm⟩ := ih xs 0 hx.2 hy.2 (by omega) (by omega) hlen
        simp only [hv, if_false, base_]
        refine ⟨by simp [hl], δ, hδ, ?_⟩
        simp only [show ¬ (0 : Int) > 0 from by decide, if_false, mag_cons, List.length_cons,
          pow_succ]
        linarith

end Limbs

namespace MainCpp

namespace BigInteger

open Limbs

theorem bisectFromTop_length (ts : List Int) (c : Int) :
    (bisectFromTop ts c).length = ts.length := by
  induction ts generalizing c with
  | nil => rfl
  | cons x ts ih => simp [bisectFromTop, ih]

/-- The loop of `bisect()` halves the value: from the top limb down, with the
carry `c` of the limb above. -/
theorem bisectFromTop_spec (ts : List Int) (c : Int) (ht : LimbsOk ts) (h0 : 0 ≤ c)
    (h1 : c ≤ 1) :
    LimbsOk (bisectFromTop ts c) ∧
      mag (bisectFromTop ts c).reverse = (c * 100 ^ ts.length + mag ts.reverse) / 2 := by
  induction ts generalizing c with
  | nil =>
    refine ⟨limbsOk_nil, ?_⟩
    simp only [bisectFromTop, List.reverse_nil, mag, List.length_nil, pow_zero, mul_one, add_zero]
    omega
  | cons x ts ih =>
    rw [limbsOk_cons] at ht
    have hnn : 0 ≤ x + c * 100 := by omega
    have hd : Int.tdiv (x + c * base_) 2 = (x + c * 100) / 2 :=
      Int.tdiv_eq_ediv hnn (by decide)
    have hm : Int.tmod (x + c * base_) 2 = (x + c * 100) % 2 :=
      Int.tmod_eq_emod hnn (by decide)
    obtain ⟨l, v⟩ := ih ((x + c * 100) % 2) ht.2 (by omega) (by omega)
    simp only [bisectFromTop, hd, hm]
    refine ⟨limbsOk_cons.2 ⟨by omega, l⟩, ?_⟩
    rw [mag_reverse_cons, mag_reverse_cons, bisectFromTop_length, v, List.length_cons, pow_succ]
    have hM := mag_nonneg (limbsOk_reverse.2 ht.2)
    have hP : (0 : Int) < 100 ^ ts.length := pow_pos (by decide) _
    have hsplit : x + c * 100 = 2 * ((x + c * 100) / 2) + (x + c * 100) % 2 :=
      (Int.ediv_add_emod _ _).symm
    have hr : (x + c * 100) % 2 = 0 ∨ (x + c * 100) % 2 = 1 := by omega
    have key : c * (100 ^ ts.length * 100) + (mag ts.reverse + 100 ^ ts.length * x) =
        2 * (100 ^ ts.length * ((x + c * 100) / 2)) +
          ((x + c * 100) % 2 * 100 ^ ts.length + mag ts.reverse) := by
      have : 100 ^ ts.length * (x + c * 100) =
          100 ^ ts.length * (2 * ((x + c * 100) / 2) + (x + c * 100) % 2) := by
        rw [← hsplit]
      linarith
    rw [key]
    omega

end BigInteger

end MainCpp

/-! ## Termination of `Rational::normalize` of `src/bigint/main.cpp` -/

namespace MainCpp

namespace BigInteger

open Limbs

theorem normalize_keeps_nonneg (a : BigInteger) (hn : a.negative_ = false) :
    (normalize a).negative_ = false := by
  rw [normalize_negative]
  split
  · rfl
  · exact hn

theorem main_normalize_mag (a : BigInteger) :
    mag (normalize a).buffer_ = mag a.buffer_ := by
  rw [main_normalize_buffer, normalizeBuf_mag]

/-- The method `bisect()` halves a non-negative well-formed value. -/
theorem bisect_spec (a : BigInteger) (ha : WellFormed a) (hn : a.negative_ = false) :
    WellFormed (bisect a) ∧ (bisect a).negative_ = false ∧
      mag (bisect a).buffer_ = mag a.buffer_ / 2 := by
  obtain ⟨l, v⟩ := bisectFromTop_spec a.buffer_.reverse 0 (limbsOk_reverse.2 ha.1) (le_refl _)
    (by decide)
  rw [List.reverse_reverse, zero_mul, zero_add] at v
  unfold bisect
  refine ⟨normalize_wf _ (limbsOk_reverse.2 l) ?_, normalize_keeps_nonneg _ hn, ?_⟩
  · intro h0
    have hlen := congrArg List.length h0
    simp only [List.length_reverse, bisectFromTop_length, List.length_nil,
      List.length_eq_zero] at hlen
    exact ha.2.1.1 hlen
  · rw [main_normalize_mag]
    exact v

/-- The method `even()` tests the parity of the value. -/
theorem even_spec (a : BigInteger) (ha : WellFormed a) :
    even a = some (decide (mag a.buffer_ % 2 = 0)) := by
  unfold even
  cases hb : a.buffer_ with
  | nil => exact absurd hb ha.2.1.1
  | cons x xs =>
    have hx : 0 ≤ x ∧ x < 100 := by
      have := ha.1
      rw [hb] at this
      exact (limbsOk_cons.1 this).1
    simp only [List.head?_cons, Option.map_some', Option.some.injEq, mag_cons]
    rw [Int.tmod_eq_emod hx.1 (by decide)]
    apply decide_eq_decide.2
    omega

/-- Subtracting the smaller of two non-negative values from the larger with
`operator-=` of `src/bigint/main.cpp` leaves a non-negative well-formed value
`r` with `r + b ≤ 2 * a`, also when the borrow is dropped. -/
theorem isub_ge_spec (a b : BigInteger) (ha : WellFormed a) (hb : WellFormed b)
    (hna : a.negative_ = false) (hnb : b.negative_ = false)
    (hle : mag b.buffer_ ≤ mag a.buffer_) :
    WellFormed (isub a b) ∧ (isub a b).negative_ = false ∧
      mag (isub a b).buffer_ + mag b.buffer_ ≤ 2 * mag a.buffer_ := by
  have hless : less_abs a b = false := by
    rw [← Bool.not_eq_true, main_less_abs_iff a b ha.1 ha.2.1 hb.1 hb.2.1]
    omega
  have hlen : b.buffer_.length ≤ a.buffer_.length := by
    by_contra hc
    have := mag_lt_of_length_lt ha.1 hb.1 ha.2.1.1 hb.2.1 (by omega)
    omega
  have hform : isub a b =
      normalize (normalize ⟨subLoopAliased false a.buffer_ b.buffer_ 0, a.negative_⟩) := by
    unfold isub
    rw [if_neg (by rw [hna, hnb]; simp), hless]
    simp only [Bool.false_eq_true, if_false]
    unfold sub_abs
    rw [hless]
  obtain ⟨hrl, δ, hδ, hm⟩ := subLoopAliased_value a.buffer_ b.buffer_ 0 ha.1 hb.1 (le_refl _)
    (by decide) hlen
  obtain ⟨hrok, -, -⟩ := subLoopAliased_spec false a.buffer_ b.buffer_ 0 ha.1 hb.1 (le_refl _)
    (by decide)
  have hma := mag_nonneg ha.1
  refine ⟨isub_wf a b ha hb, ?_, ?_⟩
  · rw [hform]
    exact normalize_keeps_nonneg _ (normalize_keeps_nonneg _ hna)
  · rw [hform, main_normalize_mag, main_normalize_mag]
    simp only
    rcases hδ with h0 | h1
    · rw [h0] at hm
      omega
    · rw [h1, one_mul, add_zero] at hm
      have hpow : (100 : Int) ^ b.buffer_.length ≤ mag a.buffer_ := by
        by_cases heq : b.buffer_.length = a.buffer_.length
        · have hlt := mag_lt_pow hrok
          rw [hrl, ← heq] at hlt
          omega
        · have hne : a.buffer_ ≠ [0] := by
            intro h
            have hbne : b.buffer_ ≠ [] := hb.2.1.1
            have : 0 < b.buffer_.length := List.length_pos.2 hbne
            rw [h] at hlen heq
            simp only [List.length_singleton] at hlen heq
            omega
          have h1 := pow_le_mag ha.1 ha.2.1 hne
          have h2 : (100 : Int) ^ b.buffer_.length ≤ 100 ^ (a.buffer_.length - 1) :=
            pow_le_pow_right₀ (by decide) (by omega)
          omega
      omega

theorem main_ne_zero_iff {a : BigInteger} (ha : WellFormed a) :
    ne a (ofInt 0) = true ↔ mag a.buffer_ ≠ 0 := by
  have hz : ofInt 0 = zero := by decide
  unfold ne
  rw [hz, Bool.not_eq_true', ← Bool.not_eq_true, main_eq_iff, ← main_val_eq_zero_iff ha]
  unfold val
  split <;> omega

/-- The function `abs` returns a non-negative well-formed value. -/
theorem main_abs_spec (a : BigInteger) (ha : WellFormed a) :
    WellFormed (abs a) ∧ (abs a).negative_ = false := by
  have hz : WellFormed (ofInt 0) ∧ val (ofInt 0) = 0 := by decide
  have hm := main_val_mag ha
  unfold abs
  by_cases hlt : lt a (ofInt 0) = true
  · rw [if_pos hlt]
    rw [main_lt_iff a _ ha hz.1, hz.2] at hlt
    have hneg : a.negative_ = true := by
      cases h : a.negative_
      · unfold val at hlt
        rw [h] at hlt
        simp only [Bool.false_eq_true, if_false] at hlt
        omega
      · rfl
    exact ⟨(main_neg_spec a ha).1, main_neg_negative hneg⟩
  · rw [if_neg hlt]
    rw [main_lt_iff a _ ha hz.1, hz.2] at hlt
    refine ⟨ha, ?_⟩
    cases h : a.negative_
    · rfl
    · have := hm.1 h
      unfold val at hlt
      rw [h] at hlt
      simp only [if_true] at hlt
      omega

end BigInteger

namespace Rational

open Limbs BigInteger

/-- The loops `while (x.even()) x.bisect();` end on a positive value. -/
theorem stripTwos_spec (fuel : Nat) (x : BigInteger) (hx : WellFormed x)
    (hn : x.negative_ = false) (hpos : 0 < mag x.buffer_)
    (hf : (mag x.buffer_).toNat < fuel) :
    ∃ y, stripTwos fuel x = some y ∧ WellFormed y ∧ y.negative_ = false ∧
      0 < mag y.buffer_ ∧ mag y.buffer_ ≤ mag x.buffer_ := by
  induction fuel generalizing x with
  | zero => omega
  | succ n ih =>
    rw [stripTwos, even_spec x hx]
    simp only
    by_cases he : mag x.buffer_ % 2 = 0
    · rw [if_pos (by simpa using he)]
      obtain ⟨w, s, m⟩ := bisect_spec x hx hn
      obtain ⟨y, hy, wy, sy, py, ly⟩ := ih (bisect x) w s (by omega) (by omega)
      exact ⟨y, hy, wy, sy, py, by omega⟩
    · rw [if_neg (by simpa using he)]
      exact ⟨x, rfl, hx, hn, hpos, le_refl _⟩

/-- The loop stripping common factors of two ends when the denominator is
positive. -/
theorem stripCommonTwos_spec (fuel : Nat) (n d : BigInteger) (hn : WellFormed n)
    (hd : WellFormed d) (hnn : n.negative_ = false) (hdn : d.negative_ = false)
    (hpos : 0 < mag d.buffer_) (hf : (mag d.buffer_).toNat < fuel) :
    ∃ n2 d2, stripCommonTwos fuel n d = some (n2, d2) ∧ WellFormed n2 ∧ WellFormed d2 ∧
      n2.negative_ = false ∧ d2.negative_ = false ∧ 0 < mag d2.buffer_ ∧
      mag n2.buffer_ ≤ mag n.buffer_ ∧ mag d2.buffer_ ≤ mag d.buffer_ := by
  induction fuel generalizing n d with
  | zero => omega
  | succ k ih =>
    have hmn := mag_nonneg hn.1
    rw [stripCommonTwos, even_spec n hn, even_spec d hd]
    simp only
    by_cases he : mag n.buffer_ % 2 = 0 ∧ mag d.buffer_ % 2 = 0
    · rw [if_pos (by simpa using he)]
      obtain ⟨wn, sn, mn⟩ := bisect_spec n hn hnn
      obtain ⟨wd, sd, md⟩ := bisect_spec d hd hdn
      obtain ⟨n2, d2, h, a1, a2, a3, a4, a5, a6, a7⟩ :=
        ih (bisect n) (bisect d) wn wd sn sd (by omega) (by omega)
      exact ⟨n2, d2, h, a1, a2, a3, a4, a5, by omega, by omega⟩
    · rw [if_neg (by simpa using he)]
      exact ⟨n, d, rfl, hn, hd, hnn, hdn, hpos, le_refl _, le_refl _⟩

/-- The subtract-and-halve loop ends: the sum of the two values decreases in
every iteration, also when `sub_abs` drops a borrow, and the value left
unchanged by an iteration is positive. -/
theorem gcdLoop_spec (fuel : Nat) (high low : BigInteger) (hh : WellFormed high)
    (hl : WellFormed low) (hhn : high.negative_ = false) (hln : low.negative_ = false)
    (hne : 0 < mag high.buffer_ ∨ 0 < mag low.buffer_)
    (hf : (mag high.buffer_ + mag low.buffer_).toNat < fuel) :
    ∃ h2 l2, gcdLoop fuel high low = some (h2, l2) ∧ WellFormed h2 ∧ WellFormed l2 ∧
      (mag h2.buffer_ = 0 ∨ mag l2.buffer_ = 0) ∧ (0 < mag h2.buffer_ ∨ 0 < mag l2.buffer_) := by
  induction fuel generalizing high low with
  | zero => omega
  | succ k ih =>
    have hmh := mag_nonneg hh.1
    have hml := mag_nonneg hl.1
    rw [gcdLoop]
    by_cases hboth : mag high.buffer_ ≠ 0 ∧ mag low.buffer_ ≠ 0
    · have hc : (ne high (BigInteger.ofInt 0) && ne low (BigInteger.ofInt 0)) = true := by
        rw [Bool.and_eq_true, main_ne_zero_iff hh, main_ne_zero_iff hl]
        exact hboth
      rw [if_pos hc]
      obtain ⟨hs, e1, w1, s1, p1, le1⟩ := stripTwos_spec (k + 1) high hh hhn (by omega) (by omega)
      obtain ⟨ls, e2, w2, s2, p2, le2⟩ := stripTwos_spec (k + 1) low hl hln (by omega) (by omega)
      rw [e1, e2]
      simp only
      have hv1 : val hs = mag hs.buffer_ := by unfold val; rw [s1]; simp
      have hv2 : val ls = mag ls.buffer_ := by unfold val; rw [s2]; simp
      by_cases hgt : gt ls hs = true
      · rw [if_pos hgt]
        unfold gt at hgt
        rw [main_lt_iff hs ls w1 w2, hv1, hv2] at hgt
        obtain ⟨w3, s3, m3⟩ := isub_ge_spec ls hs w2 w1 s2 s1 (by omega)
        obtain ⟨w4, s4, m4⟩ := bisect_spec _ w3 s3
        exact ih hs (bisect (BigInteger.isub ls hs)) w1 w4 s1 s4 (Or.inl p1) (by omega)
      · rw [if_neg hgt]
        unfold gt at hgt
        rw [main_lt_iff hs ls w1 w2, hv1, hv2] at hgt
        obtain ⟨w3, s3, m3⟩ := isub_ge_spec hs ls w1 w2 s1 s2 (by omega)
        obtain ⟨w4, s4, m4⟩ := bisect_spec _ w3 s3
        exact ih (bisect (BigInteger.isub hs ls)) ls w4 w2 s4 s2 (Or.inr p2) (by omega)
    · have hc : ¬ (ne high (BigInteger.ofInt 0) && ne low (BigInteger.ofInt 0)) = true := by
        rw [Bool.and_eq_true, main_ne_zero_iff hh, main_ne_zero_iff hl]
        exact hboth
      rw [if_neg hc]
      refine ⟨high, low, rfl, hh, hl, ?_, hne⟩
      by_contra hcon
      exact hboth ⟨fun h => hcon (Or.inl h), fun h => hcon (Or.inr h)⟩

/-- C33: in `src/bigint/main.cpp`, `Rational::normalize` terminates for every
well-formed numerator and every well-formed denominator `d > 0`: the loop
stripping common factors of two and the subtract-and-halve loop both reach
their exit condition, the divisor finally used is non-zero, and the two
divisions return. -/
theorem normalize_terminates (r : Rational) (hn : WellFormed r.numerator_)
    (hd : WellFormed r.denominator_) (hpos : 0 < val r.denominator_) :
    ∃ bound, ∀ fuel, bound ≤ fuel →
      ∃ n d high low,
        stripCommonTwos fuel (BigInteger.abs r.numerator_) r.denominator_ = some (n, d) ∧
        gcdLoop fuel n d = some (high, low) ∧
        (val high = 0 ∨ val low = 0) ∧
        val (if eq high (BigInteger.ofInt 0) then low else high) ≠ 0 ∧
        ∃ t, normalize fuel r = some t := by
  obtain ⟨wa, sa⟩ := main_abs_spec r.numerator_ hn
  have hdn : r.denominator_.negative_ = false := by
    cases h : r.denominator_.negative_
    · rfl
    · have := mag_nonneg hd.1
      unfold val at hpos
      rw [h] at hpos
      simp only [if_true] at hpos
      omega
  have hdm : val r.denominator_ = mag r.denominator_.buffer_ := by
    unfold val; rw [hdn]; simp
  rw [hdm] at hpos
  refine ⟨(mag (BigInteger.abs r.numerator_).buffer_ + mag r.denominator_.buffer_).toNat + 1,
    fun fuel hf => ?_⟩
  have hma := mag_nonneg wa.1
  obtain ⟨n, d, h1, wn, wd, sn, sd, pd, len, led⟩ :=
    stripCommonTwos_spec fuel (BigInteger.abs r.numerator_) r.denominator_ wa hd sa hdn hpos
      (by omega)
  have hmn := mag_nonneg wn.1
  obtain ⟨high, low, h2, wh, wl, hz, hnz⟩ :=
    gcdLoop_spec fuel n d wn wd sn sd (Or.inr pd) (by omega)
  have hzero : BigInteger.ofInt 0 = zero := by decide
  have hmagval : ∀ x : BigInteger, WellFormed x → (val x = 0 ↔ mag x.buffer_ = 0) := by
    intro x _
    unfold val
    split <;> omega
  have hdiv : WellFormed (if eq high (BigInteger.ofInt 0) then low else high) ∧
      val (if eq high (BigInteger.ofInt 0) then low else high) ≠ 0 := by
    by_cases he : eq high (BigInteger.ofInt 0) = true
    · rw [if_pos he]
      rw [hzero, main_eq_iff, ← main_val_eq_zero_iff wh, hmagval high wh] at he
      refine ⟨wl, ?_⟩
      rw [Ne, hmagval low wl]
      omega
    · rw [if_neg he]
      rw [hzero, main_eq_iff, ← main_val_eq_zero_iff wh] at he
      exact ⟨wh, he⟩
  obtain ⟨q1, hq1, -⟩ := idiv_wf n _ wn hdiv.1
  obtain ⟨q2, hq2, -⟩ := idiv_wf d _ wd hdiv.1
  refine ⟨n, d, high, low, h1, h2, ?_, hdiv.2, ?_⟩
  · rw [hmagval high wh, hmagval low wl]
    exact hz
  · refine ⟨⟨if gt r.numerator_ (BigInteger.ofInt 0) then q1 else BigInteger.neg q1, q2⟩, ?_⟩
    simp only [normalize, h1, h2, hq1, hq2]

/-- Witness for C33 at the fraction `3/101`, on which `sub_abs` drops a
borrow. -/
theorem normalize_terminates_witness :
    WellFormed ⟨[3], false⟩ ∧ WellFormed ⟨[1, 1], false⟩ ∧ 0 < val ⟨[1, 1], false⟩ ∧
    ∃ bound, ∀ fuel, bound ≤ fuel →
      ∃ n d high low,
        stripCommonTwos fuel (BigInteger.abs ⟨[3], false⟩) ⟨[1, 1], false⟩ = some (n, d) ∧
        gcdLoop fuel n d = some (high, low) ∧
        (val high = 0 ∨ val low = 0) ∧
        val (if eq high (BigInteger.ofInt 0) then low else high) ≠ 0 ∧
        ∃ t, normalize fuel ⟨⟨[3], false⟩, ⟨[1, 1], false⟩⟩ = some t :=
  ⟨by decide, by decide, by decide,
    normalize_terminates ⟨⟨[3], false⟩, ⟨[1, 1], false⟩⟩ (by decide) (by decide) (by decide)⟩

end Rational

end MainCpp

/-! ## The prefix function of `src/string/main.cpp` -/

namespace StringMain

theorem border_zero {β : Type} (f : Nat → β) (i : Nat) (hi : 0 < i) : IsBorder f i 0 :=
  ⟨hi, fun x hx => absurd hx (Nat.not_lt_zero x)⟩

theorem border_succ {β : Type} (f : Nat → β) (i k : Nat) (hk : k < i) :
    IsBorder f (i + 1) (k + 1) ↔ IsBorder f i k ∧ f k = f i := by
  constructor
  · rintro ⟨-, h⟩
    refine ⟨⟨hk, fun x hx => ?_⟩, ?_⟩
    · have := h x (by omega)
      have e : i + 1 - (k + 1) + x = i - k + x := by omega
      rw [e] at this
      exact this
    · have := h k (by omega)
      have e : i + 1 - (k + 1) + k = i := by omega
      rw [e] at this
      exact this
  · rintro ⟨⟨-, h⟩, hki⟩
    refine ⟨by omega, fun x hx => ?_⟩
    have e : i + 1 - (k + 1) + x = i - k + x := by omega
    rw [e]
    by_cases hxk : x = k
    · have e2 : i - k + x = i := by omega
      rw [e2, hxk]
      exact hki
    · exact h x (by omega)

theorem border_of_border {β : Type} (f : Nat → β) (i j k : Nat) (hj : IsBorder f i j)
    (hk : k < j) : IsBorder f i k ↔ IsBorder f j k := by
  obtain ⟨hji, hjf⟩ := hj
  have key : ∀ x, x < k → f (j - k + x) = f (i - k + x) := by
    intro x hx
    have := hjf (j - k + x) (by omega)
    have e : i - j + (j - k + x) = i - k + x := by omega
    rw [e] at this
    exact this
  constructor
  · rintro ⟨-, h⟩
    exact ⟨hk, fun x hx => by rw [key x hx]; exact h x hx⟩
  · rintro ⟨-, h⟩
    exact ⟨by omega, fun x hx => by rw [← key x hx]; exact h x hx⟩

/-- The method `are_equal` compares the marked characters. -/
theorem are_equal_spec (buffer_ : List Char) (m i j : Nat) (hi : i < buffer_.length)
    (hj : j < buffer_.length) :
    are_equal buffer_ i j m = some (decide (marked buffer_ m i = marked buffer_ m j)) := by
  unfold are_equal marked
  rw [List.getElem?_eq_getElem hi, List.getElem?_eq_getElem hj]
  simp only [Option.some.injEq]
  by_cases h1 : i = m
  · by_cases h2 : j = m
    · subst h1
      subst h2
      simp
    · have e2 : (j == m) = false := beq_false_of_ne h2
      subst h1
      simp [e2, h2, bne]
  · have e1 : (i == m) = false := beq_false_of_ne h1
    by_cases h2 : j = m
    · subst h2
      simp [e1, h1, bne]
    · have e2 : (j == m) = false := beq_false_of_ne h2
      simp only [e1, e2, h1, h2, bne, Bool.false_and, Bool.not_false, Bool.and_true, if_false,
        Option.some.injEq]
      by_cases hc : buffer_[i] = buffer_[j]
      · simp [hc]
      · simp [hc]


/-- The inner loop of `pi_function` stops at a border `j1` of the prefix of
length `i` such that no longer border can be extended by the character at
`i`, and `j1` itself can be extended unless it is `0`. -/
theorem fallbackLoop_spec (buffer_ : List Char) (m : Nat) (pi : List Nat) (i : Nat)
    (hi : i < buffer_.length)
    (hpi : ∀ x, x < i → ∃ v, pi[x]? = some v ∧ IsLongestBorder (marked buffer_ m) (x + 1) v) :
    ∀ (fuel j : Nat), j < fuel → IsBorder (marked buffer_ m) i j →
      (∀ k, IsBorder (marked buffer_ m) i k → j < k →
        marked buffer_ m k ≠ marked buffer_ m i) →
      ∃ j1, fallbackLoop buffer_ m pi i fuel j = some j1 ∧
        IsBorder (marked buffer_ m) i j1 ∧
        (∀ k, IsBorder (marked buffer_ m) i k → j1 < k →
          marked buffer_ m k ≠ marked buffer_ m i) ∧
        (marked buffer_ m j1 ≠ marked buffer_ m i → j1 = 0) := by
  intro fuel
  induction fuel with
  | zero => intro j hj; omega
  | succ fuel ih =>
    intro j hj hb hrej
    unfold fallbackLoop
    by_cases hj0 : j > 0
    · rw [if_pos hj0, are_equal_spec buffer_ m i j hi (by have := hb.1; omega)]
      by_cases he : marked buffer_ m i = marked buffer_ m j
      · rw [decide_eq_true he]
        exact ⟨j, rfl, hb, hrej, fun h => absurd he.symm h⟩
      · rw [decide_eq_false he]
        obtain ⟨v, hv, hlong⟩ := hpi (j - 1) (by have := hb.1; omega)
        have e : j - 1 + 1 = j := by omega
        rw [e] at hlong
        simp only [hv]
        have hvj : v < j := hlong.1.1
        apply ih v (by omega) ((border_of_border _ i j v hb hvj).2 hlong.1)
        intro k hk hvk
        rcases Nat.lt_trichotomy k j with h | h | h
        · have := hlong.2 k ((border_of_border _ i j k hb h).1 hk)
          omega
        · rw [h]
          exact fun h2 => he h2.symm
        · exact hrej k hk h
    · rw [if_neg hj0]
      exact ⟨j, rfl, hb, hrej, fun _ => by omega⟩

/-- The outer loop of `pi_function` fills `pi` with the lengths of the longest
borders of all prefixes. -/
theorem piLoop_spec (buffer_ : List Char) (m : Nat) :
    ∀ (steps i j : Nat) (pi : List Nat), i + steps = buffer_.length → 0 < i →
      pi.length = i →
      (∀ x, x < i → ∃ v, pi[x]? = some v ∧ IsLongestBorder (marked buffer_ m) (x + 1) v) →
      IsLongestBorder (marked buffer_ m) i j →
      ∃ out, piLoop buffer_ m steps i j pi = some out ∧
        ∀ x, x < buffer_.length →
          ∃ v, out[x]? = some v ∧ IsLongestBorder (marked buffer_ m) (x + 1) v := by
  intro steps
  induction steps with
  | zero =>
    intro i j pi hlen _ _ hpi _
    refine ⟨pi, rfl, fun x hx => hpi x (by omega)⟩
  | succ steps ih =>
    intro i j pi hlen hi0 hpl hpi hj
    have hi : i < buffer_.length := by omega
    obtain ⟨j1, hf, hb1, hrej1, hzero⟩ :=
      fallbackLoop_spec buffer_ m pi i hi hpi (i + 1) j (by have := hj.1.1; omega) hj.1
        (fun k hk hjk => by have := hj.2 k hk; omega)
    have hj1 : j1 < i := hb1.1
    unfold piLoop
    simp only [hf]
    rw [are_equal_spec buffer_ m i j1 hi (by omega)]
    simp only []
    have hnew : IsLongestBorder (marked buffer_ m) (i + 1)
        (if decide (marked buffer_ m i = marked buffer_ m j1) = true then j1 + 1 else j1) := by
      by_cases he : marked buffer_ m i = marked buffer_ m j1
      · rw [decide_eq_true he, if_pos rfl]
        refine ⟨(border_succ _ i j1 hj1).2 ⟨hb1, he.symm⟩, fun k hk => ?_⟩
        cases k with
        | zero => omega
        | succ k =>
          have hki : k < i := by have := hk.1; omega
          have h2 := (border_succ _ i k hki).1 hk
          by_contra hcon
          exact hrej1 k h2.1 (by omega) h2.2
      · rw [decide_eq_false he, if_neg (by simp)]
        have hz : j1 = 0 := hzero (fun h => he h.symm)
        rw [hz]
        refine ⟨border_zero _ _ (by omega), fun k hk => ?_⟩
        cases k with
        | zero => omega
        | succ k =>
          have hki : k < i := by have := hk.1; omega
          have h2 := (border_succ _ i k hki).1 hk
          exfalso
          by_cases hk0 : k = 0
          · rw [hk0, ← hz] at h2
            exact he h2.2.symm
          · exact hrej1 k h2.1 (by omega) h2.2
    apply ih (i + 1) _ _ (by omega) (by omega) (by simp [hpl])
    · intro x hx
      by_cases hxi : x < i
      · obtain ⟨v, hv, hl⟩ := hpi x hxi
        exact ⟨v, by rw [List.getElem?_append_left (by omega)]; exact hv, hl⟩
      · have hxe : x = i := by omega
        rw [hxe]
        refine ⟨_, ?_, hnew⟩
        rw [List.getElem?_append_right (by omega), hpl]
        simp
    · exact hnew

/-- The method `pi_function` returns the prefix function of the marked
characters. -/
theorem pi_function_spec (buffer_ : List Char) (m : Nat) (hlen : 0 < buffer_.length) :
    ∃ out, pi_function buffer_ m = some out ∧
      ∀ x, x < buffer_.length →
        ∃ v, out[x]? = some v ∧ IsLongestBorder (marked buffer_ m) (x + 1) v := by
  unfold pi_function
  apply piLoop_spec buffer_ m (buffer_.length - 1) 1 0 [0] (by omega) (by omega) rfl
  · intro x hx
    have hx0 : x = 0 := by omega
    rw [hx0]
    refine ⟨0, rfl, border_zero _ _ (by omega), fun k hk => ?_⟩
    have := hk.1
    omega
  · refine ⟨border_zero _ _ (by omega), fun k hk => ?_⟩
    have := hk.1
    omega

/-- The loop of `knuth_morris_pratt` without `reverse` returns at the first
index whose prefix-function value is the substring size. -/
theorem kmpLoop_spec (pi : List Nat) (m : Nat) :
    ∀ (steps i : Nat) (result : Int), (∀ x, x < i + steps → ∃ v, pi[x]? = some v) →
      ∃ r, kmpLoop pi m false steps i result = some r ∧
        (((∀ x, i ≤ x → x < i + steps → pi[x]? ≠ some m) ∧ r = result) ∨
          ∃ x0, i ≤ x0 ∧ x0 < i + steps ∧ pi[x0]? = some m ∧
            (∀ x, i ≤ x → x < x0 → pi[x]? ≠ some m) ∧ r = (x0 : Int) - (m : Int) * 2) := by
  intro steps
  induction steps with
  | zero =>
    intro i result _
    exact ⟨result, rfl, Or.inl ⟨fun x h1 h2 => by omega, rfl⟩⟩
  | succ steps ih =>
    intro i result hpi
    obtain ⟨v, hv⟩ := hpi i (by omega)
    unfold kmpLoop
    simp only [hv]
    by_cases hvm : v = m
    · rw [if_pos hvm]
      refine ⟨_, by simp, Or.inr ⟨i, le_refl i, by omega, by rw [hv, hvm], ?_, rfl⟩⟩
      intro x h1 h2
      omega
    · rw [if_neg hvm]
      obtain ⟨r, hr, hcase⟩ := ih (i + 1) result (fun x hx => hpi x (by omega))
      refine ⟨r, hr, ?_⟩
      have hnot : pi[i]? ≠ some m := by
        rw [hv]
        intro h
        exact hvm (Option.some.inj h)
      rcases hcase with ⟨hall, hres⟩ | ⟨x0, h1, h2, h3, h4, h5⟩
      · left
        refine ⟨fun x hx1 hx2 => ?_, hres⟩
        by_cases hxi : x = i
        · rw [hxi]; exact hnot
        · exact hall x (by omega) (by omega)
      · right
        refine ⟨x0, by omega, by omega, h3, fun x hx1 hx2 => ?_, h5⟩
        by_cases hxi : x = i
        · rw [hxi]; exact hnot
        · exact h4 x (by omega) hx2

end StringMain

/-! ## `String::find` of `src/string/main.cpp` -/

namespace StringMain

theorem marked_pattern (p t : List Char) (x : Nat) (hx : x < p.length) :
    marked (plus (plus p ['#']) t) p.length x = some (p.get ⟨x, hx⟩) := by
  unfold marked plus
  rw [if_neg (by omega), List.getElem?_append_left (by simp; omega),
    List.getElem?_append_left hx, List.getElem?_eq_getElem hx]
  rfl

theorem marked_separator (p t : List Char) :
    marked (plus (plus p ['#']) t) p.length p.length = none := by
  unfold marked
  rw [if_pos rfl]

theorem marked_text (p t : List Char) (y : Nat) :
    marked (plus (plus p ['#']) t) p.length (p.length + 1 + y) = t[y]? := by
  unfold marked plus
  rw [if_neg (by omega), List.getElem?_append_right (by simp)]
  congr 1
  simp

theorem plus_length (p t : List Char) :
    (plus (plus p ['#']) t).length = p.length + 1 + t.length := by
  simp [plus]
  omega

/-- No border of a prefix of `p + '#' + t` is longer than `p`: the separator
mark occurs only once. -/
theorem border_le_pattern (p t : List Char) (x k : Nat) (hx : x < p.length + 1 + t.length)
    (hk : IsBorder (marked (plus (plus p ['#']) t) p.length) (x + 1) k) : k ≤ p.length := by
  by_contra hcon
  have h := hk.2 p.length (by omega)
  rw [marked_separator] at h
  have e : x + 1 - k + p.length = p.length + 1 + (x - k) := by have := hk.1; omega
  rw [e, marked_text] at h
  have hlt : x - k < t.length := by have := hk.1; omega
  rw [List.getElem?_eq_getElem hlt] at h
  exact Option.noConfusion h

/-- A border of length `|p|` ending at index `x` of `p + '#' + t` is an
occurrence of `p` in `t` at index `x - 2 |p|`. -/
theorem border_pattern_iff (p t : List Char) (x : Nat) (hx1 : p.length + 1 ≤ x) :
    IsBorder (marked (plus (plus p ['#']) t) p.length) (x + 1) p.length ↔
      2 * p.length ≤ x ∧ p <+: t.drop (x - 2 * p.length) := by
  constructor
  · rintro ⟨-, h⟩
    have h2 : 2 * p.length ≤ x := by
      by_contra hcon
      have hy : 2 * p.length - x - 1 < p.length := by omega
      have := h _ hy
      rw [marked_pattern p t _ hy] at this
      have e : x + 1 - p.length + (2 * p.length - x - 1) = p.length := by omega
      rw [e, marked_separator] at this
      exact Option.noConfusion this
    refine ⟨h2, List.isPrefix_iff.2 fun y hy => ?_⟩
    have := h y hy
    rw [marked_pattern p t y hy] at this
    have e : x + 1 - p.length + y = p.length + 1 + (x - 2 * p.length + y) := by omega
    rw [e, marked_text] at this
    rw [List.getElem?_drop, ← this]
    rfl
  · rintro ⟨h2, hpre⟩
    refine ⟨by omega, fun y hy => ?_⟩
    have := List.isPrefix_iff.1 hpre y hy
    rw [List.getElem?_drop] at this
    have e : x + 1 - p.length + y = p.length + 1 + (x - 2 * p.length + y) := by omega
    rw [marked_pattern p t y hy, e, marked_text, this]
    rfl

/-- An occurrence of a non-empty `p` at index `i` of `t` lies inside `t`. -/
theorem occurrence_bound (p t : List Char) (i : Nat) (hp : p ≠ []) (h : p <+: t.drop i) :
    i + p.length ≤ t.length := by
  have h1 := h.length_le
  rw [List.length_drop] at h1
  have h2 : 0 < p.length := List.length_pos.2 hp
  omega

/-- Claim C37: for every string `t` and every non-empty string `p`, the
method `find` returns a result; when `p` occurs in `t` the result is the
smallest index of an occurrence, and otherwise it is the length of `t`.  The
value returned by `knuth_morris_pratt` is that same non-negative number. -/
theorem find_first_occurrence (t p : List Char) (hp : p ≠ []) :
    ∃ r : Nat, knuth_morris_pratt t p false = some (r : Int) ∧ find t p = some r ∧
      ((∃ i, p <+: t.drop i) → p <+: t.drop r ∧ ∀ i, p <+: t.drop i → r ≤ i) ∧
      ((¬ ∃ i, p <+: t.drop i) → r = t.length) := by
  have hm : 0 < p.length := List.length_pos.2 hp
  obtain ⟨out, hout, hspec⟩ :=
    pi_function_spec (plus (plus p ['#']) t) p.length (by rw [plus_length]; omega)
  rw [plus_length] at hspec
  have hhit : ∀ x, p.length + 1 ≤ x → x < p.length + 1 + t.length →
      (out[x]? = some p.length ↔ 2 * p.length ≤ x ∧ p <+: t.drop (x - 2 * p.length)) := by
    intro x hx1 hx2
    obtain ⟨v, hv, hlong⟩ := hspec x hx2
    rw [← border_pattern_iff p t x hx1, hv]
    constructor
    · intro h
      have e : v = p.length := Option.some.inj h
      have h1 := hlong.1
      rw [e] at h1
      exact h1
    · intro h
      have h1 := hlong.2 _ h
      have h2 := border_le_pattern p t x v hx2 hlong.1
      rw [le_antisymm h2 h1]
  have hocc : ∀ i, p <+: t.drop i →
      p.length + 1 ≤ i + 2 * p.length ∧ i + 2 * p.length < p.length + 1 + t.length ∧
        out[i + 2 * p.length]? = some p.length := by
    intro i hi
    have hb := occurrence_bound p t i hp hi
    refine ⟨by omega, by omega, (hhit _ (by omega) (by omega)).2 ⟨by omega, ?_⟩⟩
    have e : i + 2 * p.length - 2 * p.length = i := by omega
    rw [e]
    exact hi
  obtain ⟨r, hr, hcase⟩ := kmpLoop_spec out p.length t.length (p.length + 1) t.length
    (fun x hx => by obtain ⟨v, hv, -⟩ := hspec x hx; exact ⟨v, hv⟩)
  have hk : knuth_morris_pratt t p false = some r := by
    unfold knuth_morris_pratt
    simp only [hout]
    exact hr
  rcases hcase with ⟨hall, hres⟩ | ⟨x0, h1, h2, h3, h4, h5⟩
  · have hno : ¬ ∃ i, p <+: t.drop i := by
      rintro ⟨i, hi⟩
      obtain ⟨a, b, c⟩ := hocc i hi
      exact hall _ a b c
    refine ⟨t.length, ?_, ?_, fun h => absurd h hno, fun _ => rfl⟩
    · rw [hk, hres]
    · unfold find
      rw [hk, hres]
      rfl
  · obtain ⟨h6, h7⟩ := (hhit x0 h1 h2).1 h3
    have hrn : r = ((x0 - 2 * p.length : Nat) : Int) := by
      rw [h5]
      omega
    refine ⟨x0 - 2 * p.length, ?_, ?_, fun _ => ⟨h7, fun i hi => ?_⟩,
      fun h => absurd ⟨_, h7⟩ h⟩
    · rw [hk, hrn]
    · unfold find
      rw [hk, hrn]
      rfl
    · obtain ⟨a, b, c⟩ := hocc i hi
      by_contra hcon
      exact h4 _ a (by omega) c

/-- Witness for C37: the text `a#b#c#b` and the pattern `#b`. -/
theorem find_first_occurrence_witness :
    ['#', 'b'] ≠ [] ∧
    ∃ r : Nat, knuth_morris_pratt ['a', '#', 'b', '#', 'c', '#', 'b'] ['#', 'b'] false
        = some (r : Int) ∧
      find ['a', '#', 'b', '#', 'c', '#', 'b'] ['#', 'b'] = some r ∧
      ((∃ i, ['#', 'b'] <+: (['a', '#', 'b', '#', 'c', '#', 'b'] : List Char).drop i) →
        ['#', 'b'] <+: (['a', '#', 'b', '#', 'c', '#', 'b'] : List Char).drop r ∧
        ∀ i, ['#', 'b'] <+: (['a', '#', 'b', '#', 'c', '#', 'b'] : List Char).drop i → r ≤ i) ∧
      ((¬ ∃ i, ['#', 'b'] <+: (['a', '#', 'b', '#', 'c', '#', 'b'] : List Char).drop i) →
        r = (['a', '#', 'b', '#', 'c', '#', 'b'] : List Char).length) :=
  ⟨by simp, find_first_occurrence _ _ (by simp)⟩

end StringMain

/-! ## The buckets of `UnorderedMap` in `src/hashmap/hashmap.h` -/

namespace HashMap

variable {Key Value : Type}

theorem dropWhile_address (A : List (ListNode Key Value)) (x : ListNode Key Value)
    (B : List (ListNode Key Value)) (a : Nat) (hx : x.address = a)
    (hA : ∀ z, z ∈ A → z.address ≠ a) :
    (A ++ x :: B).dropWhile (fun y => y.address != a) = x :: B := by
  induction A with
  | nil => simp [List.dropWhile_cons, hx]
  | cons c A ih =>
    have hc : c.address ≠ a := hA c (List.mem_cons_self _ _)
    simp only [List.cons_append, List.dropWhile_cons]
    rw [if_pos (by simp [hc])]
    exact ih (fun z hz => hA z (List.mem_cons_of_mem _ hz))

theorem dropWhile_address_some (A : List (ListNode Key Value)) (x : ListNode Key Value)
    (B : List (ListNode Key Value)) (a : Nat) (hx : x.address = a)
    (hA : ∀ z, z ∈ A → z.address ≠ a) :
    (A ++ x :: B).dropWhile (fun y => some y.address != some a) = x :: B := by
  induction A with
  | nil => simp [List.dropWhile_cons, hx]
  | cons c A ih =>
    have hc : c.address ≠ a := hA c (List.mem_cons_self _ _)
    simp only [List.cons_append, List.dropWhile_cons]
    rw [if_pos (by simp [hc])]
    exact ih (fun z hz => hA z (List.mem_cons_of_mem _ hz))

theorem takeWhile_address_some (A : List (ListNode Key Value)) (x : ListNode Key Value)
    (B : List (ListNode Key Value)) (a : Nat) (hx : x.address = a)
    (hA : ∀ z, z ∈ A → z.address ≠ a) :
    (A ++ x :: B).takeWhile (fun y => some y.address != some a) = A := by
  induction A with
  | nil => simp [List.takeWhile_cons, hx]
  | cons c A ih =>
    have hc : c.address ≠ a := hA c (List.mem_cons_self _ _)
    simp only [List.cons_append, List.takeWhile_cons]
    rw [if_pos (by simp [hc])]
    rw [ih (fun z hz => hA z (List.mem_cons_of_mem _ hz))]

theorem eraseP_address (A : List (ListNode Key Value)) (x : ListNode Key Value)
    (B : List (ListNode Key Value)) (a : Nat) (hx : x.address = a)
    (hA : ∀ z, z ∈ A → z.address ≠ a) :
    (A ++ x :: B).eraseP (fun y => y.address == a) = A ++ B := by
  rw [List.eraseP_append_right _ (fun b hb => by simp [hA b hb])]
  simp [List.eraseP_cons, hx]

theorem find?_address (A : List (ListNode Key Value)) (x : ListNode Key Value)
    (B : List (ListNode Key Value)) (a : Nat) (hx : x.address = a)
    (hA : ∀ z, z ∈ A → z.address ≠ a) :
    (A ++ x :: B).find? (fun y => y.address == a) = some x := by
  rw [List.find?_eq_some]
  exact ⟨by simp [hx], A, B, rfl, fun z hz => by simp [hA z hz]⟩

/-- In a list of nodes with distinct addresses, no other node has the address
of a given node. -/
theorem nodup_split (A : List (ListNode Key Value)) (x : ListNode Key Value)
    (B : List (ListNode Key Value))
    (h : ((A ++ x :: B).map (fun y => y.address)).Nodup) :
    (∀ z, z ∈ A → z.address ≠ x.address) ∧ (∀ z, z ∈ B → z.address ≠ x.address) := by
  rw [List.map_append, List.map_cons, List.nodup_middle, List.nodup_cons] at h
  have h1 := h.1
  rw [List.mem_append, not_or] at h1
  constructor
  · intro z hz he
    exact h1.1 (List.mem_map.2 ⟨z, hz, he⟩)
  · intro z hz he
    exact h1.2 (List.mem_map.2 ⟨z, hz, he⟩)

theorem firstOf_eq_some (l : List (ListNode Key Value)) (n b a : Nat)
    (h : firstOf l n b = some a) :
    ∃ A y B, l = A ++ y :: B ∧ y.address = a ∧ y.hash % n = b ∧
      ∀ z, z ∈ A → z.hash % n ≠ b := by
  unfold firstOf at h
  rw [Option.map_eq_some'] at h
  obtain ⟨y, hy, hya⟩ := h
  rw [List.find?_eq_some] at hy
  obtain ⟨hp, A, B, hl, hA⟩ := hy
  refine ⟨A, y, B, hl, hya, by simpa using hp, fun z hz => ?_⟩
  have := hA z hz
  simpa using this

theorem firstOf_eq_none (l : List (ListNode Key Value)) (n b : Nat)
    (h : firstOf l n b = none) : ∀ z, z ∈ l → z.hash % n ≠ b := by
  unfold firstOf at h
  rw [Option.map_eq_none', List.find?_eq_none] at h
  intro z hz
  have := h z hz
  simpa using this

theorem firstOf_none_of (l : List (ListNode Key Value)) (n b : Nat)
    (h : ∀ z, z ∈ l → z.hash % n ≠ b) : firstOf l n b = none := by
  unfold firstOf
  rw [Option.map_eq_none', List.find?_eq_none]
  intro z hz
  simpa using h z hz

theorem firstOf_insert_ne (A : List (ListNode Key Value)) (x : ListNode Key Value)
    (C : List (ListNode Key Value)) (n b : Nat) (h : x.hash % n ≠ b) :
    firstOf (A ++ x :: C) n b = firstOf (A ++ C) n b := by
  unfold firstOf
  rw [List.find?_append, List.find?_append, List.find?_cons]
  have : (x.hash % n == b) = false := by simpa using h
  rw [this]

theorem firstOf_insert_eq (A : List (ListNode Key Value)) (x : ListNode Key Value)
    (C : List (ListNode Key Value)) (n : Nat) (h : ∀ z, z ∈ A → z.hash % n ≠ x.hash % n) :
    firstOf (A ++ x :: C) n (x.hash % n) = some x.address := by
  unfold firstOf
  rw [List.find?_append, List.find?_cons]
  have h1 : A.find? (fun y => y.hash % n == x.hash % n) = none := by
    rw [List.find?_eq_none]
    intro z hz
    simpa using h z hz
  rw [h1]
  simp

end HashMap

namespace HashMap

variable {Key Value : Type}

theorem grouped_suffix (n : Nat) (A C : List (ListNode Key Value))
    (h : Grouped n (A ++ C)) : Grouped n C := by
  induction A with
  | nil => exact h
  | cons c A ih => exact ih h.2

/-- Removing a node keeps the buckets grouped. -/
theorem grouped_remove (n : Nat) (A : List (ListNode Key Value)) (x : ListNode Key Value)
    (B : List (ListNode Key Value)) (h : Grouped n (A ++ x :: B)) : Grouped n (A ++ B) := by
  induction A with
  | nil => exact h.2
  | cons c A ih =>
    refine ⟨fun y hy hyc => ?_, ih h.2⟩
    have hy2 : y ∈ A ++ x :: B := by
      rcases List.mem_append.1 hy with h1 | h1
      · exact List.mem_append.2 (Or.inl h1)
      · exact List.mem_append.2 (Or.inr (List.mem_cons_of_mem _ h1))
    obtain ⟨z, hz, hzc⟩ := h.1 y hy2 hyc
    cases A with
    | nil =>
      have hz2 : some x = some z := hz
      have hzx : x = z := Option.some.inj hz2
      have hxB : Grouped n (x :: B) := h.2
      have hyB : y ∈ B := hy
      obtain ⟨w, hw, hwx⟩ := hxB.1 y hyB (by rw [hyc, ← hzc, hzx])
      exact ⟨w, hw, by rw [hwx, hzx, hzc]⟩
    | cons d A => exact ⟨z, hz, hzc⟩

/-- Putting a node in front of the first node of its bucket keeps the buckets
grouped. -/
theorem grouped_insert (n : Nat) (A : List (ListNode Key Value)) (x y : ListNode Key Value)
    (B : List (ListNode Key Value)) (h : Grouped n (A ++ y :: B))
    (hxy : x.hash % n = y.hash % n) (hA : ∀ z, z ∈ A → z.hash % n ≠ y.hash % n) :
    Grouped n (A ++ x :: y :: B) := by
  induction A with
  | nil => exact ⟨fun w _ _ => ⟨y, rfl, hxy.symm⟩, h⟩
  | cons c A ih =>
    refine ⟨fun w hw hwc => ?_, ih h.2 (fun z hz => hA z (List.mem_cons_of_mem _ hz))⟩
    have hc : c.hash % n ≠ y.hash % n := hA c (List.mem_cons_self _ _)
    have hw2 : w ∈ A ++ y :: B := by
      rcases List.mem_append.1 hw with h1 | h1
      · exact List.mem_append.2 (Or.inl h1)
      · rcases List.mem_cons.1 h1 with h2 | h2
        · exfalso
          rw [h2, hxy] at hwc
          exact hc hwc.symm
        · exact List.mem_append.2 (Or.inr h2)
    obtain ⟨z, hz, hzc⟩ := h.1 w hw2 hwc
    cases A with
    | nil =>
      have hz2 : some y = some z := hz
      exfalso
      rw [← Option.some.inj hz2] at hzc
      exact hc hzc.symm
    | cons d A => exact ⟨z, hz, hzc⟩

/-- From a node on, the nodes of its bucket form a run. -/
theorem grouped_run (n : Nat) (x : ListNode Key Value) :
    ∀ (k : Nat) (l : List (ListNode Key Value)) (z : ListNode Key Value),
      Grouped n (x :: l) → l[k]? = some z → z.hash % n = x.hash % n →
      ∀ j y, j ≤ k → l[j]? = some y → y.hash % n = x.hash % n := by
  intro k
  induction k generalizing x with
  | zero =>
    intro l z _ hz hzx j y hj hy
    have hj0 : j = 0 := by omega
    rw [hj0, hz] at hy
    rw [← Option.some.inj hy]
    exact hzx
  | succ k ih =>
    intro l z hg hz hzx j y hj hy
    cases l with
    | nil => simp at hz
    | cons c l =>
      have hzmem : z ∈ c :: l := List.mem_iff_getElem?.2 ⟨_, hz⟩
      obtain ⟨w, hw, hwx⟩ := hg.1 z hzmem hzx
      simp only [List.head?_cons, Option.some.injEq] at hw
      rw [← hw] at hwx
      cases j with
      | zero =>
        simp only [List.getElem?_cons_zero, Option.some.injEq] at hy
        rw [← hy]
        exact hwx
      | succ j =>
        rw [List.getElem?_cons_succ] at hy hz
        rw [← hwx]
        exact ih c l z hg.2 hz (by rw [hzx, hwx]) j y (by omega) hy

/-- Grouped buckets are contiguous. -/
theorem grouped_contiguous (n : Nat) :
    ∀ (l : List (ListNode Key Value)) (i j k : Nat) (x y z : ListNode Key Value),
      Grouped n l → i < j → j < k → l[i]? = some x → l[j]? = some y → l[k]? = some z →
      x.hash % n = z.hash % n → y.hash % n = x.hash % n := by
  intro l
  induction l with
  | nil =>
    intro i j k x y z _ _ _ hx
    simp at hx
  | cons c l ih =>
    intro i j k x y z hg hij hjk hx hy hz hxz
    cases i with
    | zero =>
      simp only [List.getElem?_cons_zero, Option.some.injEq] at hx
      rw [← hx]
      obtain ⟨j1, hj1⟩ : ∃ j1, j = j1 + 1 := ⟨j - 1, by omega⟩
      obtain ⟨k1, hk1⟩ : ∃ k1, k = k1 + 1 := ⟨k - 1, by omega⟩
      rw [hj1, List.getElem?_cons_succ] at hy
      rw [hk1, List.getElem?_cons_succ] at hz
      exact grouped_run n c k1 l z hg hz (by rw [← hxz, hx]) j1 y (by omega) hy
    | succ i =>
      obtain ⟨j1, hj1⟩ : ∃ j1, j = j1 + 1 := ⟨j - 1, by omega⟩
      obtain ⟨k1, hk1⟩ : ∃ k1, k = k1 + 1 := ⟨k - 1, by omega⟩
      rw [List.getElem?_cons_succ] at hx
      rw [hj1, List.getElem?_cons_succ] at hy
      rw [hk1, List.getElem?_cons_succ] at hz
      exact ih i j1 k1 x y z hg.2 (by omega) (by omega) hx hy hz hxz

/-- The call `splice(pos, elements_, it)` with `pos` at another node `y` puts
the node in front of `y`. -/
theorem splice_before (L1 : List (ListNode Key Value)) (x : ListNode Key Value)
    (L2 A : List (ListNode Key Value)) (y : ListNode Key Value)
    (B : List (ListNode Key Value))
    (hnd : ((L1 ++ x :: L2).map (fun w => w.address)).Nodup)
    (hR : L1 ++ L2 = A ++ y :: B) :
    splice (L1 ++ x :: L2) (some y.address) x.address = A ++ x :: y :: B := by
  obtain ⟨h1, h2⟩ := nodup_split L1 x L2 hnd
  have hy : y ∈ L1 ++ L2 := by rw [hR]; simp
  have hne : y.address ≠ x.address := by
    rcases List.mem_append.1 hy with h | h
    · exact h1 y h
    · exact h2 y h
  have hndR : ((A ++ y :: B).map (fun w => w.address)).Nodup := by
    rw [← hR]
    have := (@List.perm_middle _ x L1 L2).map (fun w => w.address)
    have h3 := (this.nodup_iff).1 hnd
    rw [List.map_cons] at h3
    exact (List.nodup_cons.1 h3).2
  obtain ⟨hA, -⟩ := nodup_split A y B hndR
  unfold splice
  rw [if_neg (by intro h; exact hne (Option.some.inj h)),
    find?_address L1 x L2 x.address rfl h1]
  simp only []
  rw [eraseP_address L1 x L2 x.address rfl h1, hR,
    takeWhile_address_some A y B y.address rfl hA, dropWhile_address_some A y B y.address rfl hA]

end HashMap

namespace HashMap

variable {Key Value : Type}

/-- After a node is put in front of the nodes `C`, behind nodes `A` of other
buckets, the updated entry of `iterators_` is the first node of its bucket
and the other entries still are. -/
theorem iterators_place (n : Nat) (A : List (ListNode Key Value)) (x : ListNode Key Value)
    (C : List (ListNode Key Value)) (its : List (Option Nat)) (hn : 0 < n)
    (hlen : its.length = n) (hA : ∀ z, z ∈ A → z.hash % n ≠ x.hash % n)
    (hits : ∀ b, b < n → its[b]? = some (firstOf (A ++ C) n b)) :
    ∀ b, b < n →
      (its.set (x.hash % n) (some x.address))[b]? = some (firstOf (A ++ x :: C) n b) := by
  intro b hb
  by_cases hbx : x.hash % n = b
  · rw [← hbx, List.getElem?_set_self (by rw [hlen]; exact Nat.mod_lt _ hn),
      firstOf_insert_eq A x C n hA]
  · rw [List.getElem?_set_ne hbx, hits b hb, firstOf_insert_ne A x C n b hbx]

/-- The place of a node in grouped buckets: in front of the first node of its
bucket, or in front of all nodes when its bucket is empty. -/
theorem place_spec (n : Nat) (P : List (ListNode Key Value)) (x : ListNode Key Value)
    (its : List (Option Nat)) (hn : 0 < n) (hlen : its.length = n) (hg : Grouped n P)
    (hits : ∀ b, b < n → its[b]? = some (firstOf P n b)) :
    ∃ A C, P = A ++ C ∧
      ((firstOf P n (x.hash % n) = none ∧ A = []) ∨
        (∃ y B, C = y :: B ∧ firstOf P n (x.hash % n) = some y.address)) ∧
      Grouped n (A ++ x :: C) ∧
      ∀ b, b < n →
        (its.set (x.hash % n) (some x.address))[b]? = some (firstOf (A ++ x :: C) n b) := by
  cases h : firstOf P n (x.hash % n) with
  | none =>
    have hno := firstOf_eq_none P n _ h
    refine ⟨[], P, rfl, Or.inl ⟨rfl, rfl⟩, ⟨fun y hy hyx => absurd hyx (hno y hy), hg⟩, ?_⟩
    exact iterators_place n [] x P its hn hlen (fun z hz => by simp at hz) hits
  | some a =>
    obtain ⟨A, y, B, hP, hya, hyb, hA⟩ := firstOf_eq_some P n _ a h
    refine ⟨A, y :: B, hP, Or.inr ⟨y, B, rfl, by rw [hya]⟩, ?_, ?_⟩
    · rw [hP] at hg
      exact grouped_insert n A x y B hg hyb.symm (fun z hz => by rw [hyb]; exact hA z hz)
    · rw [hP] at hits
      exact iterators_place n A x (y :: B) its hn hlen hA hits

/-- The loop of `find` over grouped nodes finds a node with the key, when one
of the bucket has it. -/
theorem findLoop_spec [DecidableEq Key] (n idx : Nat) (k : Key) :
    ∀ C : List (ListNode Key Value), Grouped n C →
      (∀ w, w ∈ C → w.hash % n = idx → ∃ z, C.head? = some z ∧ z.hash % n = idx) →
      (findLoop n idx k C = none → ∀ w, w ∈ C → w.hash % n = idx → w.key ≠ k) ∧
      (∀ a, findLoop n idx k C = some a → ∃ w, w ∈ C ∧ w.address = a ∧ w.key = k) := by
  intro C
  induction C with
  | nil =>
    intro _ _
    exact ⟨fun _ w hw => by simp at hw, fun a ha => by simp [findLoop] at ha⟩
  | cons c C ih =>
    intro hg hhead
    unfold findLoop
    by_cases hc : c.hash % n = idx
    · rw [if_pos hc]
      by_cases hk : c.key = k
      · rw [if_pos hk]
        refine ⟨fun h => by simp at h, fun a ha => ⟨c, List.mem_cons_self _ _, ?_, hk⟩⟩
        exact Option.some.inj ha
      · rw [if_neg hk]
        obtain ⟨i1, i2⟩ := ih hg.2 (fun w hw hwi => hg.1 w hw (by rw [hwi, hc]) |>.imp
          (fun z hz => ⟨hz.1, by rw [hz.2, hc]⟩))
        refine ⟨fun h w hw hwi => ?_, fun a ha => ?_⟩
        · rcases List.mem_cons.1 hw with h1 | h1
          · rw [h1]; exact hk
          · exact i1 h w h1 hwi
        · obtain ⟨w, hw, hwa, hwk⟩ := i2 a ha
          exact ⟨w, List.mem_cons_of_mem _ hw, hwa, hwk⟩
    · rw [if_neg hc]
      refine ⟨fun _ w hw hwi => ?_, fun a ha => by simp at ha⟩
      obtain ⟨z, hz, hzi⟩ := hhead w hw hwi
      simp only [List.head?_cons, Option.some.injEq] at hz
      rw [← hz] at hzi
      exact absurd hzi hc

/-- The method `find` on a map with the invariant returns `end()` when no
node has the key and otherwise a node with the key. -/
theorem find_spec [DecidableEq Key] (hashFn : Key → Nat) (m : UnorderedMap Key Value)
    (hinv : Invariant hashFn m) (k : Key) :
    ∃ it, find hashFn m k = some it ∧
      (it = none → ∀ x, x ∈ m.elements_ → x.key ≠ k) ∧
      (∀ a, it = some a → ∃ x, x ∈ m.elements_ ∧ x.address = a ∧ x.key = k) := by
  obtain ⟨hn, hnd, hhash, hg, hits⟩ := hinv
  have hidx : hashFn k % m.iterators_.length < m.iterators_.length := Nat.mod_lt _ hn
  unfold find
  rw [if_neg (by omega), hits _ hidx]
  simp only []
  refine ⟨_, rfl, ?_, ?_⟩
  · intro hnone x hx hxk
    cases hf : firstOf m.elements_ m.iterators_.length (hashFn k % m.iterators_.length) with
    | none =>
      exact firstOf_eq_none _ _ _ hf x hx (by rw [hhash x hx, hxk])
    | some a =>
      obtain ⟨A, y, B, hl, hya, hyb, hA⟩ := firstOf_eq_some _ _ _ a hf
      rw [hf] at hnone
      have hnd2 := hnd
      rw [hl] at hnd2
      have hfrom : nodesFrom m.elements_ (some a) = y :: B := by
        unfold nodesFrom
        rw [hl]
        exact dropWhile_address A y B a hya (by rw [← hya]; exact (nodup_split A y B hnd2).1)
      rw [hfrom] at hnone
      have hgs : Grouped m.iterators_.length (y :: B) := by
        rw [hl] at hg
        exact grouped_suffix _ A _ hg
      have hxb : x.hash % m.iterators_.length = hashFn k % m.iterators_.length := by
        rw [hhash x hx, hxk]
      have hxin : x ∈ y :: B := by
        rw [hl] at hx
        rcases List.mem_append.1 hx with h1 | h1
        · exact absurd hxb (hA x h1)
        · exact h1
      exact (findLoop_spec _ _ k (y :: B) hgs (fun _ _ _ => ⟨y, rfl, hyb⟩)).1 hnone x hxin hxb
        hxk
  · intro a ha
    cases hf : firstOf m.elements_ m.iterators_.length (hashFn k % m.iterators_.length) with
    | none =>
      rw [hf] at ha
      simp [nodesFrom, findLoop] at ha
    | some a0 =>
      obtain ⟨A, y, B, hl, hya, hyb, hA⟩ := firstOf_eq_some _ _ _ a0 hf
      rw [hf] at ha
      have hnd2 := hnd
      rw [hl] at hnd2
      have hfrom : nodesFrom m.elements_ (some a0) = y :: B := by
        unfold nodesFrom
        rw [hl]
        exact dropWhile_address A y B a0 hya (by rw [← hya]; exact (nodup_split A y B hnd2).1)
      rw [hfrom] at ha
      have hgs : Grouped m.iterators_.length (y :: B) := by
        rw [hl] at hg
        exact grouped_suffix _ A _ hg
      obtain ⟨w, hw, hwa, hwk⟩ :=
        (findLoop_spec _ _ k (y :: B) hgs (fun _ _ _ => ⟨y, rfl, hyb⟩)).2 a ha
      refine ⟨w, ?_, hwa, hwk⟩
      rw [hl]
      exact List.mem_append.2 (Or.inr hw)

/-- The node that `emplace_front` has just put in front is not visited by
`find`. -/
theorem find_front [DecidableEq Key] (hashFn : Key → Nat) (m : UnorderedMap Key Value)
    (hinv : Invariant hashFn m) (node : ListNode Key Value)
    (hfresh : node.address ∉ m.elements_.map (fun x => x.address)) (k : Key) :
    find hashFn ⟨node :: m.elements_, m.iterators_⟩ k = find hashFn m k := by
  obtain ⟨hn, hnd, hhash, hg, hits⟩ := hinv
  have hidx : hashFn k % m.iterators_.length < m.iterators_.length := Nat.mod_lt _ hn
  unfold find
  simp only []
  rw [if_neg (by omega), if_neg (by omega), hits _ hidx]
  simp only []
  cases hf : firstOf m.elements_ m.iterators_.length (hashFn k % m.iterators_.length) with
  | none => rfl
  | some a =>
    obtain ⟨A, y, B, hl, hya, -, -⟩ := firstOf_eq_some _ _ _ a hf
    have hne : node.address ≠ a := by
      intro h
      apply hfresh
      rw [List.mem_map]
      exact ⟨y, by rw [hl]; simp, by rw [hya, h]⟩
    unfold nodesFrom
    simp only [List.dropWhile_cons]
    rw [if_pos (by simp [hne])]

end HashMap

namespace HashMap

variable {Key Value : Type}

theorem firstOf_append (A C : List (ListNode Key Value)) (n b : Nat) :
    firstOf (A ++ C) n b = (firstOf A n b).or (firstOf C n b) := by
  unfold firstOf
  rw [List.find?_append]
  cases List.find? (fun x => x.hash % n == b) A <;> rfl

theorem firstOf_cons_self (x : ListNode Key Value) (C : List (ListNode Key Value)) (n : Nat) :
    firstOf (x :: C) n (x.hash % n) = some x.address :=
  firstOf_insert_eq [] x C n (fun z hz => by simp at hz)

/-- The invariant after a node is removed, for iterators that are the first
nodes of the remaining buckets. -/
theorem invariant_remove (hashFn : Key → Nat) (A : List (ListNode Key Value))
    (x : ListNode Key Value) (B : List (ListNode Key Value)) (its its2 : List (Option Nat))
    (hinv : Invariant hashFn ⟨A ++ x :: B, its⟩) (hlen : its2.length = its.length)
    (hits : ∀ b, b < its.length → its2[b]? = some (firstOf (A ++ B) its.length b)) :
    Invariant hashFn ⟨A ++ B, its2⟩ := by
  obtain ⟨hn, hnd, hhash, hg, -⟩ := hinv
  simp only [] at hn hnd hhash hg
  refine ⟨by simp only []; omega, ?_, ?_, ?_, ?_⟩
  · simp only []
    have hsub : (A ++ B).Sublist (A ++ x :: B) :=
      List.Sublist.append_left (List.sublist_cons_self x B) A
    exact hnd.sublist (hsub.map _)
  · intro z hz
    apply hhash z
    rcases List.mem_append.1 hz with h | h
    · exact List.mem_append.2 (Or.inl h)
    · exact List.mem_append.2 (Or.inr (List.mem_cons_of_mem _ h))
  · simp only [hlen]
    exact grouped_remove _ A x B hg
  · simp only [hlen]
    exact hits

/-- The method `erase` at a node of the map returns and keeps the
invariant. -/
theorem erase_spec (hashFn : Key → Nat) (m : UnorderedMap Key Value)
    (hinv : Invariant hashFn m) (a : Nat)
    (ha : a ∈ m.elements_.map (fun x => x.address)) :
    ∃ r, erase m a = some r ∧ Invariant hashFn r.1 := by
  obtain ⟨els, its⟩ := m
  obtain ⟨x, hx, hxa⟩ := List.mem_map.1 ha
  simp only [] at hx
  obtain ⟨A, B, hl⟩ := List.append_of_mem hx
  subst hl
  have hinv2 := hinv
  obtain ⟨hn, hnd, hhash, hg, hits⟩ := hinv
  simp only [] at hn hnd hhash hg hits
  obtain ⟨hA, hB⟩ := nodup_split A x B hnd
  rw [hxa] at hA hB
  have hb0 : x.hash % its.length < its.length := Nat.mod_lt _ hn
  have hother : ∀ b, b < its.length → x.hash % its.length ≠ b →
      its[b]? = some (firstOf (A ++ B) its.length b) := by
    intro b hb hne
    rw [hits b hb, firstOf_insert_ne A x B _ b hne]
  unfold erase
  simp only []
  rw [if_neg (by omega)]
  have hfrom : nodesFrom (A ++ x :: B) (some a) = x :: B := by
    unfold nodesFrom
    exact dropWhile_address A x B a hxa hA
  rw [hfrom]
  simp only []
  rw [hits _ hb0]
  simp only []
  rw [eraseP_address A x B a hxa hA]
  by_cases hfirst : firstOf (A ++ x :: B) its.length (x.hash % its.length) = some a
  · rw [if_pos hfirst]
    have hAno : ∀ z, z ∈ A → z.hash % its.length ≠ x.hash % its.length := by
      apply firstOf_eq_none
      cases hfa : firstOf A its.length (x.hash % its.length) with
      | none => rfl
      | some v =>
        exfalso
        rw [firstOf_append, hfa] at hfirst
        obtain ⟨A1, y, B1, h1, h2, -, -⟩ := firstOf_eq_some A _ _ v hfa
        have hv : v = a := Option.some.inj hfirst
        exact hA y (by rw [h1]; simp) (by rw [h2, hv])
    cases B with
    | nil =>
      refine ⟨_, rfl, invariant_remove hashFn A x [] its _ hinv2 (by simp) fun b hb => ?_⟩
      by_cases hbx : x.hash % its.length = b
      · rw [← hbx, List.getElem?_set_self hb0]
        rw [firstOf_none_of (A ++ []) _ _ (fun z hz => hAno z (by simpa using hz))]
      · rw [List.getElem?_set_ne hbx]
        exact hother b hb hbx
    | cons z B =>
      simp only []
      by_cases hz : z.hash % its.length ≠ x.hash % its.length
      · rw [if_pos hz]
        refine ⟨_, rfl, invariant_remove hashFn A x (z :: B) its _ hinv2 (by simp)
          fun b hb => ?_⟩
        by_cases hbx : x.hash % its.length = b
        · rw [← hbx, List.getElem?_set_self (by simp; exact hb0)]
          have hgx : Grouped its.length (x :: z :: B) := grouped_suffix _ A _ hg
          rw [firstOf_none_of (A ++ z :: B) _ _ ?_]
          intro w hw hwx
          rcases List.mem_append.1 hw with h | h
          · exact hAno w h hwx
          · obtain ⟨z1, hz1, hz2⟩ := hgx.1 w h hwx
            simp only [List.head?_cons, Option.some.injEq] at hz1
            rw [← hz1] at hz2
            exact hz hz2
        · rw [List.getElem?_set_ne hbx, List.getElem?_set_ne hbx]
          exact hother b hb hbx
      · rw [if_neg hz]
        have hz2 : z.hash % its.length = x.hash % its.length := not_not.1 hz
        refine ⟨_, rfl, invariant_remove hashFn A x (z :: B) its _ hinv2 (by simp)
          fun b hb => ?_⟩
        by_cases hbx : x.hash % its.length = b
        · rw [← hbx, List.getElem?_set_self hb0, ← hz2,
            firstOf_insert_eq A z B _ (fun w hw => by rw [hz2]; exact hAno w hw)]
        · rw [List.getElem?_set_ne hbx]
          exact hother b hb hbx
  · rw [if_neg hfirst]
    refine ⟨_, rfl, invariant_remove hashFn A x B its _ hinv2 rfl fun b hb => ?_⟩
    by_cases hbx : x.hash % its.length = b
    · rw [hits b hb, ← hbx, firstOf_append, firstOf_append]
      cases hfa : firstOf A its.length (x.hash % its.length) with
      | none =>
        exfalso
        apply hfirst
        rw [firstOf_append, hfa, firstOf_cons_self, hxa]
        rfl
      | some v => rfl
    · exact hother b hb hbx

end HashMap

namespace HashMap

variable {Key Value : Type}

theorem perm_place (A C U : List (ListNode Key Value)) (x : ListNode Key Value) :
    ((A ++ x :: C) ++ U).Perm ((A ++ C) ++ x :: U) := by
  have h1 : ((A ++ x :: C) ++ U).Perm (x :: ((A ++ C) ++ U)) := by
    rw [List.append_assoc, List.cons_append, List.append_assoc]
    exact List.perm_middle
  exact h1.trans List.perm_middle.symm

/-- The call of `splice` in `rehash` and `emplace` puts the node at its place
in the grouped nodes `P` in front of it. -/
theorem splice_place (n : Nat) (P : List (ListNode Key Value)) (x : ListNode Key Value)
    (U A C : List (ListNode Key Value))
    (hnd : ((P ++ x :: U).map (fun w => w.address)).Nodup) (hP : P = A ++ C)
    (hcase : (firstOf P n (x.hash % n) = none ∧ A = []) ∨
      (∃ y B, C = y :: B ∧ firstOf P n (x.hash % n) = some y.address)) :
    splice (P ++ x :: U)
      (if firstOf P n (x.hash % n) = none then list_begin (P ++ x :: U)
        else firstOf P n (x.hash % n)) x.address = (A ++ x :: C) ++ U := by
  rcases hcase with ⟨hnone, hA⟩ | ⟨y, B, hC, hsome⟩
  · rw [if_pos hnone]
    subst hA
    rw [List.nil_append] at hP
    subst hP
    cases P with
    | nil =>
      have hb : list_begin ([] ++ x :: U) = some x.address := rfl
      rw [hb]
      unfold splice
      rw [if_pos rfl]
      rfl
    | cons c P =>
      have : list_begin (c :: P ++ x :: U) = some c.address := rfl
      rw [this]
      exact splice_before (c :: P) x U [] c (P ++ U) hnd rfl
  · rw [if_neg (by rw [hsome]; exact fun h => Option.noConfusion h), hsome]
    rw [splice_before P x U A y (B ++ U) hnd (by rw [hP, hC]; simp)]
    rw [hC]
    simp

/-- The loop of `rehash` returns; it keeps the nodes and leaves them grouped,
with every entry of `iterators_` at the first node of its bucket. -/
theorem rehashLoop_spec (n : Nat) (hn : 0 < n) :
    ∀ (U P : List (ListNode Key Value)) (its : List (Option Nat)) (fuel : Nat),
      its.length = n → U.length ≤ fuel →
      ((P ++ U).map (fun w => w.address)).Nodup → Grouped n P →
      (∀ b, b < n → its[b]? = some (firstOf P n b)) →
      ∃ r, rehashLoop n fuel (P ++ U) its (list_begin U) = some r ∧
        r.iterators_.length = n ∧ r.elements_.Perm (P ++ U) ∧ Grouped n r.elements_ ∧
        ∀ b, b < n → r.iterators_[b]? = some (firstOf r.elements_ n b) := by
  intro U
  induction U with
  | nil =>
    intro P its fuel hlen _ _ hg hits
    refine ⟨⟨P ++ [], its⟩, ?_, hlen, List.Perm.refl _, by simpa using hg, by simpa using hits⟩
    cases fuel <;> rfl
  | cons x U ih =>
    intro P its fuel hlen hfuel hnd hg hits
    obtain ⟨f, hf⟩ : ∃ f, fuel = f + 1 := ⟨fuel - 1, by simp at hfuel; omega⟩
    subst hf
    have hbegin : list_begin (x :: U) = some x.address := rfl
    rw [hbegin]
    unfold rehashLoop
    have hfrom : nodesFrom (P ++ x :: U) (some x.address) = x :: U := by
      unfold nodesFrom
      exact dropWhile_address P x U x.address rfl (nodup_split P x U hnd).1
    rw [hfrom]
    simp only []
    rw [hits _ (Nat.mod_lt _ hn)]
    simp only []
    obtain ⟨A, C, hP, hcase, hg2, hits2⟩ := place_spec n P x its hn hlen hg hits
    rw [splice_place n P x U A C hnd hP hcase]
    have hperm := perm_place A C U x
    rw [← hP] at hperm
    have hnd2 : (((A ++ x :: C) ++ U).map (fun w => w.address)).Nodup :=
      ((hperm.map (fun w => w.address)).nodup_iff).2 hnd
    obtain ⟨r, hr, h1, h2, h3, h4⟩ := ih (A ++ x :: C) (its.set (x.hash % n) (some x.address)) f
      (by simp [hlen]) (by simp at hfuel; omega) hnd2 hg2 hits2
    exact ⟨r, hr, h1, h2.trans hperm, h3, h4⟩

/-- The method `rehash` returns and keeps the invariant. -/
theorem rehash_spec (hashFn : Key → Nat) (m : UnorderedMap Key Value)
    (hinv : Invariant hashFn m) (count : Nat) :
    ∃ r, rehash m count = some r ∧ Invariant hashFn r := by
  obtain ⟨hn, hnd, hhash, -, -⟩ := hinv
  have hpos : 0 < max count m.iterators_.length := lt_of_lt_of_le hn (le_max_right _ _)
  obtain ⟨r, hr, h1, h2, h3, h4⟩ := rehashLoop_spec (max count m.iterators_.length) hpos
    m.elements_ [] (List.replicate (max count m.iterators_.length) none) m.elements_.length
    (by simp) (le_refl _) (by simpa using hnd) trivial
    (fun b hb => by
      rw [List.getElem?_replicate, if_pos hb]
      rfl)
  refine ⟨r, ?_, ?_⟩
  · unfold rehash
    exact hr
  · rw [List.nil_append] at h2
    refine ⟨by rw [h1]; exact hpos, ?_, ?_, by rw [h1]; exact h3, by rw [h1]; exact h4⟩
    · exact ((h2.map (fun w => w.address)).nodup_iff).2 hnd
    · intro x hx
      exact hhash x (h2.mem_iff.1 hx)

/-- The method `emplace` with the address of a new node returns and keeps the
invariant. -/
theorem emplace_spec [DecidableEq Key] (hashFn : Key → Nat) (m : UnorderedMap Key Value)
    (hinv : Invariant hashFn m) (address : Nat) (key : Key) (value : Value)
    (hfresh : address ∉ m.elements_.map (fun x => x.address)) :
    ∃ r, emplace hashFn m address key value = some r ∧ Invariant hashFn r.1 := by
  have hinv2 := hinv
  obtain ⟨hn, hnd, hhash, hg, hits⟩ := hinv
  unfold emplace
  rw [if_neg hfresh, find_front hashFn m hinv2 ⟨address, key, value, hashFn key⟩ hfresh key]
  obtain ⟨it, hit, hnone, -⟩ := find_spec hashFn m hinv2 key
  rw [hit]
  cases it with
  | some a => exact ⟨_, rfl, hinv2⟩
  | none =>
    simp only []
    rw [hits _ (Nat.mod_lt _ hn)]
    simp only []
    have hndL : ((([] : List (ListNode Key Value)) ++
        (⟨address, key, value, hashFn key⟩ : ListNode Key Value) :: m.elements_).map
        (fun w => w.address)).Nodup := by
      rw [List.nil_append, List.map_cons]
      exact List.nodup_cons.2 ⟨hfresh, hnd⟩
    obtain ⟨A, C, hP, hcase, hg2, hits2⟩ :=
      place_spec m.iterators_.length m.elements_ ⟨address, key, value, hashFn key⟩
        m.iterators_ hn rfl hg hits
    simp only [] at hcase hits2
    have hsp : splice ((⟨address, key, value, hashFn key⟩ : ListNode Key Value) :: m.elements_)
        (if firstOf m.elements_ m.iterators_.length (hashFn key % m.iterators_.length) = none
          then some address
          else firstOf m.elements_ m.iterators_.length (hashFn key % m.iterators_.length))
        address = A ++ (⟨address, key, value, hashFn key⟩ : ListNode Key Value) :: C := by
      rcases hcase with ⟨h1, h2⟩ | ⟨y, B, hC, hsome⟩
      · rw [if_pos h1, h2, ← h2, h2, List.nil_append]
        rw [h2, List.nil_append] at hP
        rw [← hP]
        unfold splice
        rw [if_pos rfl]
      · rw [if_neg (by rw [hsome]; exact fun h => Option.noConfusion h), hsome, hC]
        exact splice_before [] ⟨address, key, value, hashFn key⟩ m.elements_ A y B hndL
          (by rw [List.nil_append, hP, hC])
    rw [hsp]
    have hinv3 : Invariant hashFn
        ⟨A ++ (⟨address, key, value, hashFn key⟩ : ListNode Key Value) :: C,
          m.iterators_.set (hashFn key % m.iterators_.length) (some address)⟩ := by
      have hperm : (A ++ (⟨address, key, value, hashFn key⟩ : ListNode Key Value) :: C).Perm
          ((⟨address, key, value, hashFn key⟩ : ListNode Key Value) :: m.elements_) := by
        rw [hP]
        exact List.perm_middle
      refine ⟨by simp only [List.length_set]; exact hn, ?_, ?_, ?_, ?_⟩
      · simp only []
        rw [List.nil_append] at hndL
        exact ((hperm.map (fun w => w.address)).nodup_iff).2 hndL
      · intro x hx
        rcases List.mem_cons.1 (hperm.mem_iff.1 hx) with h | h
        · rw [h]
        · exact hhash x h
      · simp only [List.length_set]
        exact hg2
      · simp only [List.length_set]
        exact hits2
    by_cases hload : m.elements_.length + 1 > m.iterators_.length
    · rw [if_pos hload]
      obtain ⟨r, hr, hri⟩ := rehash_spec hashFn _ hinv3 (m.iterators_.length * 2 % 2 ^ 64)
      rw [hr]
      exact ⟨_, rfl, hri⟩
    · rw [if_neg hload]
      exact ⟨_, rfl, hinv3⟩

end HashMap

namespace HashMap

variable {Key Value : Type}

theorem invariant_empty (hashFn : Key → Nat) :
    Invariant hashFn (empty : UnorderedMap Key Value) := by
  refine ⟨by simp [empty], by simp [empty], fun x hx => by simp [empty] at hx, trivial, ?_⟩
  intro b hb
  have hb0 : b = 0 := by simp [empty] at hb; omega
  rw [hb0]
  rfl

/-- The method `erase` at an address of no node is not defined. -/
theorem erase_absent (m : UnorderedMap Key Value) (a : Nat)
    (ha : a ∉ m.elements_.map (fun x => x.address)) : erase m a = none := by
  have hfrom : nodesFrom m.elements_ (some a) = [] := by
    unfold nodesFrom
    rw [List.dropWhile_eq_nil_iff]
    intro x hx
    have : x.address ≠ a := fun h => ha (List.mem_map.2 ⟨x, hx, h⟩)
    simpa using this
  unfold erase
  rw [hfrom]
  simp

/-- Every operation that is defined keeps the invariant; `rehash` is always
defined, `emplace` is for the address of a new node and `erase` is at the
nodes of the map. -/
theorem step_spec [DecidableEq Key] (hashFn : Key → Nat) (m : UnorderedMap Key Value)
    (hinv : Invariant hashFn m) :
    (∀ op r, step hashFn m op = some r → Invariant hashFn r) ∧
    (∀ count, ∃ r, step hashFn m (Operation.rehash count) = some r) ∧
    (∀ address key value, address ∉ m.elements_.map (fun x => x.address) →
      ∃ r, step hashFn m (Operation.emplace address key value) = some r) ∧
    (∀ a, a ∈ m.elements_.map (fun x => x.address) →
      ∃ r, step hashFn m (Operation.erase a) = some r) := by
  refine ⟨?_, ?_, ?_, ?_⟩
  · intro op r hr
    cases op with
    | emplace address key value =>
      by_cases hfresh : address ∈ m.elements_.map (fun x => x.address)
      · simp [step, emplace, hfresh] at hr
      · obtain ⟨r1, h1, h2⟩ := emplace_spec hashFn m hinv address key value hfresh
        simp only [step, h1, Option.map_some', Option.some.injEq] at hr
        rw [← hr]
        exact h2
    | erase a =>
      by_cases hlive : a ∈ m.elements_.map (fun x => x.address)
      · obtain ⟨r1, h1, h2⟩ := erase_spec hashFn m hinv a hlive
        simp only [step, h1, Option.map_some', Option.some.injEq] at hr
        rw [← hr]
        exact h2
      · simp [step, erase_absent m a hlive] at hr
    | rehash count =>
      obtain ⟨r1, h1, h2⟩ := rehash_spec hashFn m hinv count
      simp only [step, h1, Option.some.injEq] at hr
      rw [← hr]
      exact h2
  · intro count
    obtain ⟨r1, h1, -⟩ := rehash_spec hashFn m hinv count
    exact ⟨r1, by simp only [step, h1]⟩
  · intro address key value hfresh
    obtain ⟨r1, h1, -⟩ := emplace_spec hashFn m hinv address key value hfresh
    exact ⟨r1.1, by simp only [step, h1, Option.map_some']⟩
  · intro a hlive
    obtain ⟨r1, h1, -⟩ := erase_spec hashFn m hinv a hlive
    exact ⟨r1.1, by simp only [step, h1, Option.map_some']⟩

theorem run_invariant [DecidableEq Key] (hashFn : Key → Nat) :
    ∀ (ops : List (Operation Key Value)) (m r : UnorderedMap Key Value),
      Invariant hashFn m → run hashFn ops m = some r → Invariant hashFn r := by
  intro ops
  induction ops with
  | nil =>
    intro m r hinv hr
    simp only [run, Option.some.injEq] at hr
    rw [← hr]
    exact hinv
  | cons op ops ih =>
    intro m r hinv hr
    unfold run at hr
    cases hs : step hashFn m op with
    | none => simp [hs] at hr
    | some m1 =>
      simp only [hs] at hr
      exact ih m1 r ((step_spec hashFn m hinv).1 op m1 hs) hr

/-- Claim C36: after any sequence of `emplace`, `erase` and `rehash` from the
empty map, the map has a bucket, the nodes of one bucket are contiguous in
the element list, every entry of `iterators_` is the first node of its bucket
(`end()` for an empty bucket), and `find(key)` returns a node with that key
exactly when the map has one, and `end()` otherwise. -/
theorem buckets_contiguous [DecidableEq Key] (hashFn : Key → Nat)
    (ops : List (Operation Key Value)) (m : UnorderedMap Key Value)
    (h : run hashFn ops empty = some m) :
    0 < m.iterators_.length ∧ Contiguous m ∧
    (∀ b, b < m.iterators_.length →
      m.iterators_[b]? = some (firstOf m.elements_ m.iterators_.length b)) ∧
    ∀ key, ∃ it, find hashFn m key = some it ∧
      ((∃ x, x ∈ m.elements_ ∧ x.key = key) ↔ it ≠ none) ∧
      ∀ a, it = some a → ∃ x, x ∈ m.elements_ ∧ x.address = a ∧ x.key = key := by
  have hinv := run_invariant hashFn ops empty m (invariant_empty hashFn) h
  refine ⟨hinv.1, ?_, hinv.2.2.2.2, fun key => ?_⟩
  · intro i j k x y z hij hjk hx hy hz hxz
    exact grouped_contiguous _ m.elements_ i j k x y z hinv.2.2.2.1 hij hjk hx hy hz hxz
  · obtain ⟨it, hit, h1, h2⟩ := find_spec hashFn m hinv key
    refine ⟨it, hit, ⟨?_, ?_⟩, h2⟩
    · rintro ⟨x, hx, hxk⟩ hnone
      exact h1 hnone x hx hxk
    · intro hne
      cases it with
      | none => exact absurd rfl hne
      | some a =>
        obtain ⟨x, hx, -, hxk⟩ := h2 a rfl
        exact ⟨x, hx, hxk⟩

/-- Witness for C36: three insertions, an erasure, a `rehash` and one more
insertion. -/
theorem buckets_contiguous_witness :
    run (fun k : Nat => k)
        [Operation.emplace 10 1 0, Operation.emplace 11 2 0, Operation.emplace 12 5 0,
          Operation.erase 11, Operation.rehash 3, Operation.emplace 13 9 0] empty =
      some (⟨[⟨13, 9, 0, 9⟩, ⟨12, 5, 0, 5⟩, ⟨10, 1, 0, 1⟩],
        [none, some 13, none, none]⟩ : UnorderedMap Nat Nat) ∧
    (0 < 4 ∧
      Contiguous (⟨[⟨13, 9, 0, 9⟩, ⟨12, 5, 0, 5⟩, ⟨10, 1, 0, 1⟩],
        [none, some 13, none, none]⟩ : UnorderedMap Nat Nat) ∧
      (∀ b, b < 4 →
        ([none, some 13, none, none] : List (Option Nat))[b]? =
          some (firstOf ([⟨13, 9, 0, 9⟩, ⟨12, 5, 0, 5⟩, ⟨10, 1, 0, 1⟩] :
            List (ListNode Nat Nat)) 4 b)) ∧
      ∀ key, ∃ it,
        find (fun k : Nat => k)
          (⟨[⟨13, 9, 0, 9⟩, ⟨12, 5, 0, 5⟩, ⟨10, 1, 0, 1⟩],
            [none, some 13, none, none]⟩ : UnorderedMap Nat Nat) key = some it ∧
        ((∃ x, x ∈ ([⟨13, 9, 0, 9⟩, ⟨12, 5, 0, 5⟩, ⟨10, 1, 0, 1⟩] :
            List (ListNode Nat Nat)) ∧ x.key = key) ↔ it ≠ none) ∧
        ∀ a, it = some a →
          ∃ x, x ∈ ([⟨13, 9, 0, 9⟩, ⟨12, 5, 0, 5⟩, ⟨10, 1, 0, 1⟩] :
            List (ListNode Nat Nat)) ∧ x.address = a ∧ x.key = key) :=
  ⟨by rfl, buckets_contiguous (fun k : Nat => k)
    [Operation.emplace 10 1 0, Operation.emplace 11 2 0, Operation.emplace 12 5 0,
      Operation.erase 11, Operation.rehash 3, Operation.emplace 13 9 0]
    ⟨[⟨13, 9, 0, 9⟩, ⟨12, 5, 0, 5⟩, ⟨10, 1, 0, 1⟩], [none, some 13, none, none]⟩ (by rfl)⟩

end HashMap

/-! ## The denominator after `Rational::operator/=` of `src/bigint/main.cpp` -/

namespace MainCpp

namespace BigInteger

open Limbs

/-- The compound assignment `operator*=` of `src/bigint/main.cpp`, with exact
rounded coefficients, returns the well-formed product. -/
theorem main_imul_spec (a b : BigInteger) (ha : WellFormed a) (hb : WellFormed b) :
    ∃ r, imul a b = some r ∧ WellFormed r ∧ val r = val a * val b := by
  obtain ⟨size, hsize, hle⟩ := transformSize_spec a.buffer_.length b.buffer_.length
  obtain ⟨h1, h2, h3⟩ := roundedCoeffs_spec a.buffer_ b.buffer_ size
    (allNonneg_of_limbsOk ha.1) (allNonneg_of_limbsOk hb.1) (by omega)
  obtain ⟨k1, k2, k3⟩ := mulCarryLoop_spec (roundedCoeffs a.buffer_ b.buffer_ size) a.buffer_ 0
    h2 (le_refl _) (by omega)
  have hal : 0 < a.buffer_.length := List.length_pos.2 ha.2.1.1
  refine ⟨normalize ⟨mulCarryLoop (roundedCoeffs a.buffer_ b.buffer_ size) a.buffer_ 0,
      xor a.negative_ b.negative_⟩, by simp only [imul, hsize, Option.map_some'],
    normalize_wf ⟨_, _⟩ k1 ?_, ?_⟩
  · intro h0
    simp only at h0
    rw [h0] at k3
    simp only [List.length_nil, Nat.le_zero_eq] at k3
    omega
  · rw [main_normalize_val]
    unfold val
    simp only [k2, h1, add_zero]
    cases a.negative_ <;> cases b.negative_ <;> simp

theorem main_shift_setLimb0_spec (cur : BigInteger) (hl : LimbsOk cur.buffer_)
    (hc : Canonical cur.buffer_) (x : Int) (hx : 0 ≤ x ∧ x < 100) :
    ∃ c1, setLimb0 (shift cur) x = some c1 ∧ c1.negative_ = cur.negative_ ∧
      LimbsOk c1.buffer_ ∧ Canonical c1.buffer_ ∧ mag c1.buffer_ = x + 100 * mag cur.buffer_ := by
  by_cases h0 : cur.buffer_ = [0]
  · refine ⟨⟨[x], cur.negative_⟩, ?_, rfl, ?_, ?_, ?_⟩
    · simp [setLimb0, shift, shiftBuf, h0]
    · exact limbsOk_cons.2 ⟨hx, limbsOk_nil⟩
    · refine ⟨by simp, fun h => ?_⟩
      simp only [List.getLast?_singleton, Option.some.injEq] at h
      rw [h]
    · simp [h0, mag]
  · refine ⟨⟨x :: cur.buffer_, cur.negative_⟩, ?_, rfl, ?_, ?_, ?_⟩
    · have : ¬ (cur.buffer_.length = 1 ∧ cur.buffer_.head? = some 0) := by
        rw [BigintegerH.BigInteger.single_zero_iff]
        exact h0
      simp [setLimb0, shift, shiftBuf, this]
    · exact limbsOk_cons.2 ⟨hx, hl⟩
    · refine ⟨by simp, fun h => ?_⟩
      obtain ⟨y, ys, hy⟩ := List.exists_cons_of_ne_nil hc.1
      simp only [hy, List.getLast?_cons_cons] at h
      rw [← hy] at h
      exact absurd (hc.2 h) h0
    · rfl

theorem sub_abs_keeps_nonneg (a b : BigInteger) (hn : a.negative_ = false) :
    (sub_abs a b).negative_ = false := by
  unfold sub_abs
  exact normalize_keeps_nonneg _ hn

/-- The loop of `operator/=` of `src/bigint/main.cpp`: as long as every
quotient digit is `0`, `current` is the exact value of the limbs read and is
below the divisor; a non-zero digit stays in the quotient, whatever `sub_abs`
does afterwards. -/
theorem divLoop_pos (b : BigInteger) (hb : WellFormed b) (hpos : 0 < mag b.buffer_)
    (xs : List Int) (hx : LimbsOk xs) :
    ∃ cur q, divLoop b xs = some (cur, q) ∧ WellFormed cur ∧ cur.negative_ = false ∧
      LimbsOk q ∧ q.length = xs.length ∧
      ((mag q = 0 ∧ mag cur.buffer_ = mag xs ∧ mag xs < mag b.buffer_) ∨ 0 < mag q) := by
  induction xs with
  | nil =>
    refine ⟨zero, [], rfl, by decide, rfl, limbsOk_nil, rfl, Or.inl ⟨rfl, rfl, ?_⟩⟩
    exact hpos
  | cons x xs ih =>
    rw [limbsOk_cons] at hx
    obtain ⟨cur, q, hdiv, wcur, ncur, hq, hql, hphase⟩ := ih hx.2
    obtain ⟨c1, hset, hneg1, hl1, hc1, hm1⟩ :=
      main_shift_setLimb0_spec cur wcur.1 wcur.2.1 x hx.1
    obtain ⟨d, hd, hd0, hd99, hlow, hup⟩ :=
      main_quotientDigit_spec b c1 hb.1 hb.2.1 hpos hl1 hc1
    obtain ⟨wm, hmm⟩ := multiply_short_wf b hb.1 hb.2.1.1 d hd0 hd99
    have w2 := sub_abs_wf c1 (multiply_short b d) hl1 hc1.1 wm.1
    have n2 := sub_abs_keeps_nonneg c1 (multiply_short b d) (by rw [hneg1]; exact ncur)
    have hmq := mag_nonneg hq
    refine ⟨_, d :: q, by simp only [divLoop, hdiv, hset, hd], w2, n2,
      limbsOk_cons.2 ⟨⟨hd0, by omega⟩, hq⟩, by simp [hql], ?_⟩
    rcases hphase with ⟨hq0, hcur, hlt⟩ | hqpos
    · by_cases hdz : d = 0
      · left
        have wc1 : WellFormed c1 := ⟨hl1, hc1, fun _ => by rw [hneg1]; exact ncur⟩
        have hz : multiply_short b d = zero := by
          rw [← main_val_eq_zero_iff wm]
          unfold val
          rw [hmm, hdz]
          simp
        rw [hz, sub_abs_zero c1 wc1, mag_cons, mag_cons, hq0, hm1, hcur, hdz]
        refine ⟨by omega, rfl, ?_⟩
        have := hup (by omega)
        rw [hdz] at this
        rw [hm1, hcur] at this
        omega
      · right
        rw [mag_cons]
        omega
    · right
      rw [mag_cons]
      omega

/-- The quotient of `a /= b` in `src/bigint/main.cpp` is positive for
`0 < b ≤ a`. -/
theorem main_idiv_pos (a b : BigInteger) (ha : WellFormed a) (hb : WellFormed b)
    (hna : a.negative_ = false) (hnb : b.negative_ = false) (hpos : 0 < mag b.buffer_)
    (hle : mag b.buffer_ ≤ mag a.buffer_) :
    ∃ q, idiv a b = some q ∧ WellFormed q ∧ 0 < val q := by
  obtain ⟨cur, q, hdiv, -, -, hq, hql, hphase⟩ := divLoop_pos b hb hpos a.buffer_ ha.1
  have hqpos : 0 < mag q := by
    rcases hphase with ⟨-, -, hlt⟩ | h
    · omega
    · exact h
  refine ⟨normalize ⟨q, xor a.negative_ b.negative_⟩,
    by simp only [idiv, hdiv, Option.map_some'], normalize_wf ⟨q, _⟩ hq ?_, ?_⟩
  · intro h0
    simp only at h0
    rw [h0] at hql
    exact ha.2.1.1 (List.length_eq_zero.1 hql.symm)
  · rw [main_normalize_val]
    unfold val
    rw [hna, hnb]
    simpa using hqpos

end BigInteger

end MainCpp

namespace MainCpp

namespace BigInteger

open Limbs

/-- Subtracting the smaller of two non-negative values from the larger with
`operator-=` of `src/bigint/main.cpp` leaves the difference, plus
`100 ^ len(b)` when the borrow is dropped. -/
theorem isub_ge_value (a b : BigInteger) (ha : WellFormed a) (hb : WellFormed b)
    (hna : a.negative_ = false) (hnb : b.negative_ = false)
    (hle : mag b.buffer_ ≤ mag a.buffer_) :
    ∃ δ : Int, (δ = 0 ∨ δ = 1) ∧
      mag (isub a b).buffer_ + mag b.buffer_ = mag a.buffer_ + δ * 100 ^ b.buffer_.length := by
  have hless : less_abs a b = false := by
    rw [← Bool.not_eq_true, main_less_abs_iff a b ha.1 ha.2.1 hb.1 hb.2.1]
    omega
  have hlen : b.buffer_.length ≤ a.buffer_.length := by
    by_contra hc
    have := mag_lt_of_length_lt ha.1 hb.1 ha.2.1.1 hb.2.1 (by omega)
    omega
  have hform : isub a b =
      normalize (normalize ⟨subLoopAliased false a.buffer_ b.buffer_ 0, a.negative_⟩) := by
    unfold isub
    rw [if_neg (by rw [hna, hnb]; simp), hless]
    simp only [Bool.false_eq_true, if_false]
    unfold sub_abs
    rw [hless]
  obtain ⟨-, δ, hδ, hm⟩ := subLoopAliased_value a.buffer_ b.buffer_ 0 ha.1 hb.1 (le_refl _)
    (by decide) hlen
  refine ⟨δ, hδ, ?_⟩
  rw [hform, main_normalize_mag, main_normalize_mag]
  simp only
  omega

end BigInteger

namespace Rational

open Limbs BigInteger

/-- The loops `while (x.even()) x.bisect();` end on an odd value. -/
theorem stripTwos_odd (fuel : Nat) (x : BigInteger) (hx : WellFormed x)
    (hn : x.negative_ = false) (hpos : 0 < mag x.buffer_)
    (hf : (mag x.buffer_).toNat < fuel) :
    ∃ y, stripTwos fuel x = some y ∧ WellFormed y ∧ y.negative_ = false ∧
      0 < mag y.buffer_ ∧ mag y.buffer_ ≤ mag x.buffer_ ∧ mag y.buffer_ % 2 = 1 := by
  induction fuel generalizing x with
  | zero => omega
  | succ n ih =>
    rw [stripTwos, even_spec x hx]
    simp only
    by_cases he : mag x.buffer_ % 2 = 0
    · rw [if_pos (by simpa using he)]
      obtain ⟨w, s, m⟩ := bisect_spec x hx hn
      obtain ⟨y, hy, wy, sy, py, ly, oy⟩ := ih (bisect x) w s (by omega) (by omega)
      exact ⟨y, hy, wy, sy, py, by omega, oy⟩
    · rw [if_neg (by simpa using he)]
      exact ⟨x, rfl, hx, hn, hpos, le_refl _, by omega⟩

/-- The subtract-and-halve loop with a positive `low_divisor` ends with
`high_divisor` zero: `low_divisor` stays positive, since it is only replaced
by half the difference of two distinct odd values, and it never grows. -/
theorem gcdLoop_low_spec (fuel : Nat) (high low : BigInteger) (hh : WellFormed high)
    (hl : WellFormed low) (hhn : high.negative_ = false) (hln : low.negative_ = false)
    (hpos : 0 < mag low.buffer_)
    (hf : (mag high.buffer_ + mag low.buffer_).toNat < fuel) :
    ∃ h2 l2, gcdLoop fuel high low = some (h2, l2) ∧ WellFormed h2 ∧ WellFormed l2 ∧
      l2.negative_ = false ∧ mag h2.buffer_ = 0 ∧ 0 < mag l2.buffer_ ∧
      mag l2.buffer_ ≤ mag low.buffer_ := by
  induction fuel generalizing high low with
  | zero => omega
  | succ k ih =>
    have hmh := mag_nonneg hh.1
    rw [gcdLoop]
    by_cases hboth : mag high.buffer_ ≠ 0 ∧ mag low.buffer_ ≠ 0
    · have hc : (ne high (BigInteger.ofInt 0) && ne low (BigInteger.ofInt 0)) = true := by
        rw [Bool.and_eq_true, main_ne_zero_iff hh, main_ne_zero_iff hl]
        exact hboth
      rw [if_pos hc]
      obtain ⟨hs, e1, w1, s1, p1, le1, o1⟩ :=
        stripTwos_odd (k + 1) high hh hhn (by omega) (by omega)
      obtain ⟨ls, e2, w2, s2, p2, le2, o2⟩ :=
        stripTwos_odd (k + 1) low hl hln (by omega) (by omega)
      rw [e1, e2]
      simp only
      have hv1 : val hs = mag hs.buffer_ := by unfold val; rw [s1]; simp
      have hv2 : val ls = mag ls.buffer_ := by unfold val; rw [s2]; simp
      by_cases hgt : gt ls hs = true
      · rw [if_pos hgt]
        unfold gt at hgt
        rw [main_lt_iff hs ls w1 w2, hv1, hv2] at hgt
        obtain ⟨w3, s3, m3⟩ := isub_ge_spec ls hs w2 w1 s2 s1 (by omega)
        obtain ⟨δ, hδ, hval⟩ := isub_ge_value ls hs w2 w1 s2 s1 (by omega)
        obtain ⟨w4, s4, m4⟩ := bisect_spec _ w3 s3
        have hp : (0 : Int) ≤ 100 ^ hs.buffer_.length := by positivity
        have hge : mag ls.buffer_ - mag hs.buffer_ ≤ mag (BigInteger.isub ls hs).buffer_ := by
          rcases hδ with h | h
          · rw [h] at hval
            omega
          · rw [h, one_mul] at hval
            omega
        obtain ⟨h2, l2, hr, a1, a2, a3, a4, a5, a6⟩ :=
          ih hs (bisect (BigInteger.isub ls hs)) w1 w4 s1 s4 (by omega) (by omega)
        exact ⟨h2, l2, hr, a1, a2, a3, a4, a5, by omega⟩
      · rw [if_neg hgt]
        unfold gt at hgt
        rw [main_lt_iff hs ls w1 w2, hv1, hv2] at hgt
        obtain ⟨w3, s3, m3⟩ := isub_ge_spec hs ls w1 w2 s1 s2 (by omega)
        obtain ⟨w4, s4, m4⟩ := bisect_spec _ w3 s3
        obtain ⟨h2, l2, hr, a1, a2, a3, a4, a5, a6⟩ :=
          ih (bisect (BigInteger.isub hs ls)) ls w4 w2 s4 s2 p2 (by omega)
        exact ⟨h2, l2, hr, a1, a2, a3, a4, a5, by omega⟩
    · have hc : ¬ (ne high (BigInteger.ofInt 0) && ne low (BigInteger.ofInt 0)) = true := by
        rw [Bool.and_eq_true, main_ne_zero_iff hh, main_ne_zero_iff hl]
        exact hboth
      rw [if_neg hc]
      refine ⟨high, low, rfl, hh, hl, hln, ?_, hpos, le_refl _⟩
      by_contra hcon
      exact hboth ⟨hcon, by omega⟩

/-- The method `Rational::normalize` of `src/bigint/main.cpp` returns a
fraction with a positive denominator, for every well-formed numerator and
every well-formed positive denominator: the divisor used is positive and not
above the denominator, so the quotient of the denominator is positive. -/
theorem main_normalize_pos (r : Rational) (hn : WellFormed r.numerator_)
    (hd : WellFormed r.denominator_) (hpos : 0 < val r.denominator_) (fuel : Nat)
    (hf : (|val r.numerator_| + val r.denominator_).toNat < fuel) :
    ∃ t, normalize fuel r = some t ∧ WellFormed t.numerator_ ∧ WellFormed t.denominator_ ∧
      0 < val t.denominator_ := by
  obtain ⟨wa, sa⟩ := main_abs_spec r.numerator_ hn
  have hdn : r.denominator_.negative_ = false := by
    cases h : r.denominator_.negative_
    · rfl
    · have := mag_nonneg hd.1
      unfold val at hpos
      rw [h] at hpos
      simp only [if_true] at hpos
      omega
  have hdm : val r.denominator_ = mag r.denominator_.buffer_ := by
    unfold val; rw [hdn]; simp
  rw [hdm] at hpos hf
  have hmabs : mag (BigInteger.abs r.numerator_).buffer_ = |val r.numerator_| := by
    rw [main_abs_val hn]
    unfold BigInteger.abs
    split
    · unfold neg
      rw [main_normalize_mag]
    · rfl
  rw [← hmabs] at hf
  have hma := mag_nonneg wa.1
  obtain ⟨n, d, h1, wn, wd, sn, sd, pd, len, led⟩ :=
    stripCommonTwos_spec fuel (BigInteger.abs r.numerator_) r.denominator_ wa hd sa hdn hpos
      (by omega)
  have hmn := mag_nonneg wn.1
  obtain ⟨high, low, h2, wh, wl, sl, hz, pl, lel⟩ :=
    gcdLoop_low_spec fuel n d wn wd sn sd pd (by omega)
  have hzero : BigInteger.ofInt 0 = zero := by decide
  have hhz : eq high (BigInteger.ofInt 0) = true := by
    rw [hzero, main_eq_iff, ← main_val_eq_zero_iff wh]
    unfold val
    split <;> omega
  obtain ⟨q1, hq1, wq1⟩ := idiv_wf n low wn wl
  obtain ⟨q2, hq2, wq2, pq2⟩ := main_idiv_pos d low wd wl sd sl pl lel
  refine ⟨⟨if gt r.numerator_ (BigInteger.ofInt 0) then q1 else BigInteger.neg q1, q2⟩, ?_, ?_,
    wq2, pq2⟩
  · simp only [normalize, h1, h2, hhz, if_true, hq1, hq2]
  · simp only
    split
    · exact wq1
    · exact neg_wf q1 wq1

/-- The compound assignment `Rational::operator/=` of `src/bigint/main.cpp`
by a non-zero fraction returns a fraction with a positive denominator, with
exact products. -/
theorem main_rational_idiv_pos (r s : Rational) (hrn : WellFormed r.numerator_)
    (hrd : WellFormed r.denominator_) (hsn : WellFormed s.numerator_)
    (hsd : WellFormed s.denominator_) (hrp : 0 < val r.denominator_)
    (hs0 : val s.numerator_ ≠ 0) (fuel : Nat)
    (hf : (|val r.numerator_ * val s.denominator_| +
      |val r.denominator_ * val s.numerator_|).toNat < fuel) :
    ∃ t, idiv fuel r s = some t ∧ WellFormed t.numerator_ ∧ WellFormed t.denominator_ ∧
      0 < val t.denominator_ := by
  obtain ⟨n1, hn1, wn1, vn1⟩ := main_imul_spec r.numerator_ s.denominator_ hrn hsd
  obtain ⟨d1, hd1, wd1, vd1⟩ := main_imul_spec r.denominator_ s.numerator_ hrd hsn
  have hz : WellFormed (BigInteger.ofInt 0) ∧ val (BigInteger.ofInt 0) = 0 := by decide
  have hd0 : val d1 ≠ 0 := by
    rw [vd1]
    exact mul_ne_zero (ne_of_gt hrp) hs0
  rw [← vn1, ← vd1] at hf
  unfold idiv
  rw [hn1, hd1]
  simp only
  by_cases hlt : lt d1 (BigInteger.ofInt 0) = true
  · rw [if_pos hlt]
    rw [main_lt_iff d1 _ wd1 hz.1, hz.2] at hlt
    obtain ⟨w2, v2⟩ := main_neg_spec d1 wd1
    obtain ⟨w3, v3⟩ := main_neg_spec n1 wn1
    apply main_normalize_pos ⟨BigInteger.neg n1, BigInteger.neg d1⟩ w3 w2
    · simp only
      rw [v2]
      omega
    · simp only
      rw [v2, v3, abs_neg]
      rw [abs_of_neg hlt] at hf
      exact hf
  · rw [if_neg hlt]
    rw [main_lt_iff d1 _ wd1 hz.1, hz.2] at hlt
    apply main_normalize_pos ⟨n1, d1⟩ wn1 wd1
    · simp only
      omega
    · simp only
      rw [abs_of_nonneg (by omega : (0 : Int) ≤ val d1)] at hf
      exact hf

end Rational

end MainCpp

/-! ## The denominator after `Rational::operator/=` in both variants -/

namespace BigintegerH

namespace Rational

open Limbs BigInteger

/-- C21 as amended: in both variants, for all Rationals `r` and `s` satisfying
the invariant with `s` not zero, `r / s` (`operator/=`) terminates with a
strictly positive denominator, taking the multiplication of `BigInteger` as
exact (for `src/bigint/main.cpp`, `p / q`, it is enough that the parts are
well-formed, the denominator of `p` is positive and the numerator of `q` is
not zero).  There is no check for `s` equal to zero: in
`src/matrix/biginteger.h` the division then terminates with a denominator of
value zero, and in `src/bigint/main.cpp` the division `0 / 0` does not
terminate. -/
theorem idiv_denominator (r s : Rational) (p q : MainCpp.Rational) (hr : Invariant r)
    (hs : Invariant s) (hpn : MainCpp.BigInteger.WellFormed p.numerator_)
    (hpd : MainCpp.BigInteger.WellFormed p.denominator_)
    (hqn : MainCpp.BigInteger.WellFormed q.numerator_)
    (hqd : MainCpp.BigInteger.WellFormed q.denominator_)
    (hpp : 0 < MainCpp.BigInteger.val p.denominator_)
    (hq0 : MainCpp.BigInteger.val q.numerator_ ≠ 0) :
    (∃ bound, ∀ fuel, bound ≤ fuel → ∃ t, idiv fuel r s = some t ∧
      (val s.numerator_ ≠ 0 → Invariant t ∧ 0 < val t.denominator_) ∧
      (val s.numerator_ = 0 → val t.denominator_ = 0)) ∧
    (∃ bound, ∀ fuel, bound ≤ fuel → ∃ t, MainCpp.Rational.idiv fuel p q = some t ∧
      MainCpp.BigInteger.WellFormed t.numerator_ ∧
      MainCpp.BigInteger.WellFormed t.denominator_ ∧
      0 < MainCpp.BigInteger.val t.denominator_) ∧
    (∀ fuel, MainCpp.Rational.idiv fuel
      ⟨MainCpp.BigInteger.zero, MainCpp.BigInteger.ofInt 1⟩
      ⟨MainCpp.BigInteger.zero, MainCpp.BigInteger.ofInt 1⟩ = none) := by
  refine ⟨?_, ?_, MainCpp.Rational.main_idiv_zero_zero⟩
  · by_cases hs0 : val s.numerator_ = 0
    · refine ⟨1, fun fuel hf => ?_⟩
      have hsz := rational_zero_of_invariant s hs hs0
      obtain ⟨t, ht, hv⟩ := rational_idiv_zero fuel r hr hf
      rw [hsz]
      exact ⟨t, ht, fun h => absurd (by decide) h, fun _ => hv⟩
    · refine ⟨(|val r.denominator_ * val s.numerator_|).toNat + 1, fun fuel hf => ?_⟩
      obtain ⟨t, ht, inv, -⟩ := rational_idiv_value fuel r s hr.1 hr.2.1 hs.1 hs.2.1
        (ne_of_gt hr.2.2.1) hs0 (by omega)
      exact ⟨t, ht, fun _ => ⟨inv, inv.2.2.1⟩, fun h => absurd h hs0⟩
  · exact ⟨(|MainCpp.BigInteger.val p.numerator_ * MainCpp.BigInteger.val q.denominator_| +
        |MainCpp.BigInteger.val p.denominator_ * MainCpp.BigInteger.val q.numerator_|).toNat + 1,
      fun fuel hf =>
        MainCpp.Rational.main_rational_idiv_pos p q hpn hpd hqn hqd hpp hq0 fuel (by omega)⟩

/-- Witness for C21 as amended at `r = 1/6` and `s = -1/3` in
`src/matrix/biginteger.h` and at `p = 3/1` and `q = 101/1` in
`src/bigint/main.cpp`, where `sub_abs` drops a borrow. -/
theorem idiv_denominator_witness :
    Invariant ⟨⟨[1], 1⟩, ⟨[6], 1⟩⟩ ∧ Invariant ⟨⟨[1], -1⟩, ⟨[3], 1⟩⟩ ∧
    MainCpp.BigInteger.WellFormed ⟨[3], false⟩ ∧ MainCpp.BigInteger.WellFormed ⟨[1], false⟩ ∧
    MainCpp.BigInteger.WellFormed ⟨[1, 1], false⟩ ∧
    0 < MainCpp.BigInteger.val ⟨[1], false⟩ ∧ MainCpp.BigInteger.val ⟨[1, 1], false⟩ ≠ 0 ∧
    ((∃ bound, ∀ fuel, bound ≤ fuel →
      ∃ t, idiv fuel ⟨⟨[1], 1⟩, ⟨[6], 1⟩⟩ ⟨⟨[1], -1⟩, ⟨[3], 1⟩⟩ = some t ∧
        (val (⟨[1], -1⟩ : BigInteger) ≠ 0 → Invariant t ∧ 0 < val t.denominator_) ∧
        (val (⟨[1], -1⟩ : BigInteger) = 0 → val t.denominator_ = 0)) ∧
    (∃ bound, ∀ fuel, bound ≤ fuel →
      ∃ t, MainCpp.Rational.idiv fuel ⟨⟨[3], false⟩, ⟨[1], false⟩⟩
          ⟨⟨[1, 1], false⟩, ⟨[1], false⟩⟩ = some t ∧
        MainCpp.BigInteger.WellFormed t.numerator_ ∧
        MainCpp.BigInteger.WellFormed t.denominator_ ∧
        0 < MainCpp.BigInteger.val t.denominator_) ∧
    (∀ fuel, MainCpp.Rational.idiv fuel
      ⟨MainCpp.BigInteger.zero, MainCpp.BigInteger.ofInt 1⟩
      ⟨MainCpp.BigInteger.zero, MainCpp.BigInteger.ofInt 1⟩ = none)) :=
  ⟨by decide, by decide, by decide, by decide, by decide, by decide, by decide,
    idiv_denominator ⟨⟨[1], 1⟩, ⟨[6], 1⟩⟩ ⟨⟨[1], -1⟩, ⟨[3], 1⟩⟩
      ⟨⟨[3], false⟩, ⟨[1], false⟩⟩ ⟨⟨[1, 1], false⟩, ⟨[1], false⟩⟩ (by decide) (by decide)
      (by decide) (by decide) (by decide) (by decide) (by decide) (by decide)⟩

end Rational

end BigintegerH
